import Mathlib

/-!
# Orderbook: a price-time priority matching engine

Shallow embedding of `OrderBook.cpp`, `Order.hpp`, `ModifyOrder.hpp`, `Trade.hpp`,
`LevelInfo.hpp` of the repository, followed by the theorems about it.

Conventions of the embedding.

* The ordered maps `bids_` and `asks_` are association lists kept in the iteration
  order of the C++ map (`std::greater` for bids, `std::less` for asks); `begin()` is
  the head of the list and `rbegin()` its last element.
* The unordered maps `orders_` and `data_` are association lists; a new key is placed
  at the end, `erase` removes the key.
* An order object is shared between its price queue and its `orders_` entry through a
  `shared_ptr`.  The embedding stores a copy at both places and every mutation of the
  object (`Order::Fill`) is written to both; objects are identified by their order id.
  The list iterator kept in `orders_` designates the node of that object in its queue.
* C++ exceptions and undefined operations are values of `EngineError`.
* The mutex is not part of the state: each operation is one sequential step.
-/

namespace OrderbookProj

/-- Modelled from the spec: `Using.hpp` is not among the sources. `Price` is the signed
32-bit tick count; only comparisons are performed on prices, so it is an integer. -/
abbrev Price := Int

/-- Modelled from the spec: `Using.hpp` is not among the sources. `Quantity` is an
unsigned 32-bit integer; arithmetic that may wrap is reduced modulo `2 ^ 32`. -/
abbrev Quantity := Nat

/-- Modelled from the spec: `Using.hpp` is not among the sources. `OrderId` is an
unsigned 64-bit integer; only equality is used on it. -/
abbrev OrderId := Nat

/-- The number of values of the unsigned 32-bit type `Quantity`. -/
def quantityModulus : Nat := 2 ^ 32

/-- Unsigned 32-bit addition `a += b`. -/
def wrapAdd (a b : Quantity) : Quantity := (a + b) % quantityModulus

/-- Unsigned 32-bit subtraction `a -= b`. -/
def wrapSub (a b : Quantity) : Quantity :=
  (a + (quantityModulus - b % quantityModulus)) % quantityModulus

/-- Models `Side.hpp`. -/
inductive Side where
  | Buy
  | Sell
deriving DecidableEq

/-- Models `OrderTypes.hpp`. -/
inductive OrderType where
  | GoodTillCancel
  | FillAndKill
  | FillOrKill
  | GoodForDay
  | Market
deriving DecidableEq

/-- Failures of the C++ code: `std::logic_error` thrown by `Order`, `std::out_of_range`
thrown by `map::at`, an operation whose behaviour is undefined (`front()` of an empty
list, `erase` of an iterator of another list), and a loop of the embedding that was
given too little fuel. -/
inductive EngineError where
  | logicError
  | outOfRange
  | undefinedBehaviour
  | fuelExhausted
deriving DecidableEq

deriving instance DecidableEq for Except

/-- Models `Order.hpp`: the fields of `class Order`. -/
structure Order where
  orderType_ : OrderType
  orderId_ : OrderId
  side_ : Side
  price_ : Price
  initialQuantity_ : Quantity
  remainingQuantity_ : Quantity
deriving DecidableEq

namespace Order

/-- The five-argument constructor: remaining quantity starts at the initial quantity. -/
def new (orderType : OrderType) (orderId : OrderId) (side : Side) (price : Price)
    (quantity : Quantity) : Order :=
  { orderType_ := orderType, orderId_ := orderId, side_ := side, price_ := price,
    initialQuantity_ := quantity, remainingQuantity_ := quantity }

/-- Models `Order::GetFilledQuantity`. -/
def GetFilledQuantity (o : Order) : Quantity :=
  wrapSub o.initialQuantity_ o.remainingQuantity_

/-- Models `Order::IsFilled`. -/
def IsFilled (o : Order) : Bool := o.remainingQuantity_ == 0

/-- Models `Order::Fill`: throws when asked for more than the remaining quantity. -/
def Fill (o : Order) (quantity : Quantity) : Except EngineError Order :=
  if quantity > o.remainingQuantity_ then .error .logicError
  else .ok { o with remainingQuantity_ := o.remainingQuantity_ - quantity }

/-- Models `Order::ToGoodTillCancel`: throws unless the order is a market order. -/
def ToGoodTillCancel (o : Order) (price : Price) : Except EngineError Order :=
  if o.orderType_ ≠ OrderType.Market then .error .logicError
  else .ok { o with price_ := price, orderType_ := OrderType.GoodTillCancel }

end Order

/-- Models `OrderPointers`: a `std::list` of shared order objects, front first. -/
abbrev OrderPointers := List Order

/-- Models `ModifyOrder.hpp`: the fields of `class OrderModify`. -/
structure OrderModify where
  orderId_ : OrderId
  price_ : Price
  side_ : Side
  quantity_ : Quantity
deriving DecidableEq

/-- Models `OrderModify::ToOrderPointer`: a new order object with the given type. -/
def OrderModify.ToOrderPointer (m : OrderModify) (type : OrderType) : Order :=
  Order.new type m.orderId_ m.side_ m.price_ m.quantity_

/-- Models `Trade.hpp`: `struct TradeInfo`. -/
structure TradeInfo where
  orderId_ : OrderId
  price_ : Price
  quantity_ : Quantity
deriving DecidableEq

/-- Models `Trade.hpp`: `class Trade`. -/
structure Trade where
  bidTrade_ : TradeInfo
  askTrade_ : TradeInfo
deriving DecidableEq

/-- Models `Trades`: a vector of trades in emission order. -/
abbrev Trades := List Trade

/-- Models `Orderbook::LevelData`: both fields have type `Quantity`. -/
structure LevelData where
  quantity_ : Quantity
  count_ : Quantity
deriving DecidableEq

/-- Models `Orderbook::LevelData::Action`. -/
inductive Action where
  | Add
  | Remove
  | Match
deriving DecidableEq

/-- One side of the book: price levels in map iteration order. -/
abbrev Levels := List (Price × OrderPointers)

/-- The data members of `class Orderbook` that hold book state. -/
structure Orderbook where
  data_ : List (Price × LevelData)
  bids_ : Levels
  asks_ : Levels
  orders_ : List (OrderId × Order)
deriving DecidableEq

/-! ## Container operations -/

/-- Key comparison of `bids_` (`std::greater<Price>`): does `a` come before `b`? -/
def bidBefore (a b : Price) : Bool := decide (a > b)

/-- Key comparison of `asks_` (`std::less<Price>`): does `a` come before `b`? -/
def askBefore (a b : Price) : Bool := decide (a < b)

/-- The statements `auto& orders = side[price]; orders.push_back(order);` on an ordered
map: the queue of `price` is created at its sorted place when absent. -/
def pushBackAt (before : Price → Price → Bool) (price : Price) (order : Order) :
    Levels → Levels
  | [] => [(price, [order])]
  | (k, q) :: rest =>
    if k = price then (k, q ++ [order]) :: rest
    else if before price k then (price, [order]) :: (k, q) :: rest
    else (k, q) :: pushBackAt before price order rest

/-- The call `side.at(price)`: the queue stored under `price`, if any. -/
def levelAt (price : Price) : Levels → Option OrderPointers
  | [] => none
  | (k, q) :: rest => if k = price then some q else levelAt price rest

/-- The call `side.erase(price)`. -/
def eraseLevel (price : Price) (levels : Levels) : Levels :=
  levels.filter (fun l => decide (l.1 ≠ price))

/-- Writing through the reference returned by `side.at(price)`. -/
def setLevel (price : Price) (queue : OrderPointers) : Levels → Levels
  | [] => []
  | (k, q) :: rest =>
    if k = price then (k, queue) :: rest else (k, q) :: setLevel price queue rest

/-- Lines 88-90 and 94-96 of `CancelOrderInternal`: `queue` is what the erase left of
the queue of `price`; the level is erased from the side when it is empty. -/
def storeOrErase (price : Price) (queue : OrderPointers) (levels : Levels) : Levels :=
  if queue.isEmpty then eraseLevel price levels else setLevel price queue levels

/-- The call `orders.erase(iterator)` on a price queue, where the iterator designates
the node of the order with identifier `orderId`; undefined when that node is not in
this queue. -/
def eraseNode (orderId : OrderId) : OrderPointers → Option OrderPointers
  | [] => none
  | o :: rest =>
    if o.orderId_ = orderId then some rest
    else (eraseNode orderId rest).map (fun r => o :: r)

/-- The calls `orders_.contains(id)` and `orders_.at(id)`. -/
def findOrder (orderId : OrderId) : List (OrderId × Order) → Option Order
  | [] => none
  | (k, o) :: rest => if k = orderId then some o else findOrder orderId rest

/-- The call `orders_.erase(id)`. -/
def eraseOrder (orderId : OrderId) (orders : List (OrderId × Order)) :
    List (OrderId × Order) :=
  orders.filter (fun e => decide (e.1 ≠ orderId))

/-- A mutation of a shared order object seen through its `orders_` entry. -/
def syncOrder (order : Order) (orders : List (OrderId × Order)) :
    List (OrderId × Order) :=
  orders.map (fun e => if e.1 = order.orderId_ then (e.1, order) else e)

/-- The value of `data_[price]`: the stored row, or a value-initialised one. -/
def dataAt (price : Price) : List (Price × LevelData) → LevelData
  | [] => { quantity_ := 0, count_ := 0 }
  | (k, d) :: rest => if k = price then d else dataAt price rest

/-- Writing a row through the reference `data_[price]`. -/
def dataSet (price : Price) (d : LevelData) :
    List (Price × LevelData) → List (Price × LevelData)
  | [] => [(price, d)]
  | (k, e) :: rest =>
    if k = price then (k, d) :: rest else (k, e) :: dataSet price d rest

/-- The call `data_.erase(price)`. -/
def dataErase (price : Price) (data : List (Price × LevelData)) :
    List (Price × LevelData) :=
  data.filter (fun r => decide (r.1 ≠ price))

namespace Orderbook

/-- A newly constructed book. -/
def empty : Orderbook := { data_ := [], bids_ := [], asks_ := [], orders_ := [] }

/-- Models `Orderbook::UpdateLevelData` (lines 117-129), on the `data_` member. -/
def UpdateLevelData (data : List (Price × LevelData)) (price : Price)
    (quantity : Quantity) (action : Action) : List (Price × LevelData) :=
  let row := dataAt price data
  let count :=
    if action = Action.Remove then wrapSub row.count_ 1
    else if action = Action.Add then wrapAdd row.count_ 1
    else wrapAdd row.count_ 0
  let total :=
    if action = Action.Remove ∨ action = Action.Match then wrapSub row.quantity_ quantity
    else wrapAdd row.quantity_ quantity
  if count = 0 then dataErase price data
  else dataSet price { quantity_ := total, count_ := count } data

/-- Models `Orderbook::OnOrderCancelled`. -/
def OnOrderCancelled (data : List (Price × LevelData)) (order : Order) :
    List (Price × LevelData) :=
  UpdateLevelData data order.price_ order.remainingQuantity_ Action.Remove

/-- Models `Orderbook::OnOrderAdded`. -/
def OnOrderAdded (data : List (Price × LevelData)) (order : Order) :
    List (Price × LevelData) :=
  UpdateLevelData data order.price_ order.initialQuantity_ Action.Add

/-- Models `Orderbook::OnOrderMatched`. -/
def OnOrderMatched (data : List (Price × LevelData)) (price : Price)
    (quantity : Quantity) (isFullyFilled : Bool) : List (Price × LevelData) :=
  UpdateLevelData data price quantity
    (if isFullyFilled then Action.Remove else Action.Match)

/-- Models `Orderbook::CancelOrderInternal` (lines 77-100). -/
def CancelOrderInternal (ob : Orderbook) (orderId : OrderId) :
    Except EngineError Orderbook :=
  match findOrder orderId ob.orders_ with
  | none => .ok ob
  | some order =>
    let orders := eraseOrder orderId ob.orders_
    if order.side_ = Side.Sell then
      match levelAt order.price_ ob.asks_ with
      | none => .error .outOfRange
      | some queue =>
        match eraseNode orderId queue with
        | none => .error .undefinedBehaviour
        | some queue1 =>
          .ok { data_ := OnOrderCancelled ob.data_ order
                bids_ := ob.bids_
                asks_ := storeOrErase order.price_ queue1 ob.asks_
                orders_ := orders }
    else
      match levelAt order.price_ ob.bids_ with
      | none => .error .outOfRange
      | some queue =>
        match eraseNode orderId queue with
        | none => .error .undefinedBehaviour
        | some queue1 =>
          .ok { data_ := OnOrderCancelled ob.data_ order
                bids_ := storeOrErase order.price_ queue1 ob.bids_
                asks_ := ob.asks_
                orders_ := orders }

/-- Models `Orderbook::CancelOrder`: takes the lock and calls `CancelOrderInternal`. -/
def CancelOrder (ob : Orderbook) (orderId : OrderId) : Except EngineError Orderbook :=
  CancelOrderInternal ob orderId

/-- Models `Orderbook::CancelOrders`: `CancelOrderInternal` for each identifier in turn. -/
def CancelOrders (ob : Orderbook) : List OrderId → Except EngineError Orderbook
  | [] => .ok ob
  | orderId :: rest =>
    match CancelOrderInternal ob orderId with
    | .error e => .error e
    | .ok ob1 => CancelOrders ob1 rest

/-- Models `Orderbook::CanMatch` (lines 167-181). -/
def CanMatch (ob : Orderbook) (side : Side) (price : Price) : Bool :=
  match side with
  | Side.Buy =>
    match ob.asks_ with
    | [] => false
    | (bestAsk, _) :: _ => decide (price ≥ bestAsk)
  | Side.Sell =>
    match ob.bids_ with
    | [] => false
    | (bestBid, _) :: _ => decide (price ≤ bestBid)

/-- The `for` loop of `Orderbook::CanFullyFill` (lines 146-161) over the rows of
`data_`. `threshold` is assigned on both branches before the loop, so
`threshold.has_value()` is `true`. The first condition is grouped as C++ parses it:
`(has_value && (Buy && threshold > level)) || (Sell && threshold < level)`. -/
def canFullyFillWalk (side : Side) (threshold : Price) (price : Price) :
    List (Price × LevelData) → Quantity → Bool
  | [], _ => false
  | (levelPrice, levelData) :: rest, quantity =>
    if (true && (decide (side = Side.Buy) && decide (threshold > levelPrice))) ||
        (decide (side = Side.Sell) && decide (threshold < levelPrice)) then
      canFullyFillWalk side threshold price rest quantity
    else if (decide (side = Side.Buy) && decide (levelPrice > price)) ||
        (decide (side = Side.Sell) && decide (levelPrice < price)) then
      canFullyFillWalk side threshold price rest quantity
    else if quantity ≤ levelData.quantity_ then true
    else canFullyFillWalk side threshold price rest (quantity - levelData.quantity_)

/-- Models `Orderbook::CanFullyFill` (lines 132-164). After `CanMatch` the opposite side is
not empty, so `begin()` can be dereferenced. -/
def CanFullyFill (ob : Orderbook) (side : Side) (price : Price) (quantity : Quantity) :
    Bool :=
  if !CanMatch ob side price then false
  else
    match side with
    | Side.Buy =>
      match ob.asks_ with
      | [] => false
      | (askPrice, _) :: _ => canFullyFillWalk side askPrice price ob.data_ quantity
    | Side.Sell =>
      match ob.bids_ with
      | [] => false
      | (bidPrice, _) :: _ => canFullyFillWalk side bidPrice price ob.data_ quantity

/-- Lines 207-226 of `Orderbook::MatchOrders`: `bid1` and `ask1` are the front orders
after `Fill(quantity)`; the filled ones leave their queue and `orders_`, the trade is
recorded and `data_` is updated for the bid and then for the ask. -/
def settleFronts (ob : Orderbook) (trades : Trades) (quantity : Quantity)
    (bidPrice : Price) (bid1 : Order) (bids : OrderPointers) (bidLevels : Levels)
    (askPrice : Price) (ask1 : Order) (asks : OrderPointers) (askLevels : Levels) :
    Orderbook × Trades :=
  let orders0 := syncOrder ask1 (syncOrder bid1 ob.orders_)
  let bids1 := if bid1.IsFilled then bids else bid1 :: bids
  let orders1 := if bid1.IsFilled then eraseOrder bid1.orderId_ orders0 else orders0
  let asks1 := if ask1.IsFilled then asks else ask1 :: asks
  let orders2 := if ask1.IsFilled then eraseOrder ask1.orderId_ orders1 else orders1
  let trade : Trade :=
    { bidTrade_ := { orderId_ := bid1.orderId_, price_ := bid1.price_,
                     quantity_ := quantity }
      askTrade_ := { orderId_ := ask1.orderId_, price_ := ask1.price_,
                     quantity_ := quantity } }
  let data1 := OnOrderMatched ob.data_ bid1.price_ quantity bid1.IsFilled
  let data2 := OnOrderMatched data1 ask1.price_ quantity ask1.IsFilled
  ({ data_ := data2
     bids_ := (bidPrice, bids1) :: bidLevels
     asks_ := (askPrice, asks1) :: askLevels
     orders_ := orders2 }, trades ++ [trade])

/-- The body of the inner `while` of `Orderbook::MatchOrders` (lines 199-226) for the
front orders `bid` and `ask` of the best levels: both are filled by the smaller of the
two remaining quantities (lines 199-205), then the fills are settled. -/
def matchFronts (ob : Orderbook) (trades : Trades)
    (bidPrice : Price) (bid : Order) (bids : OrderPointers) (bidLevels : Levels)
    (askPrice : Price) (ask : Order) (asks : OrderPointers) (askLevels : Levels) :
    Except EngineError (Orderbook × Trades) :=
  let quantity := min bid.remainingQuantity_ ask.remainingQuantity_
  match bid.Fill quantity with
  | .error e => .error e
  | .ok bid1 =>
    match ask.Fill quantity with
    | .error e => .error e
    | .ok ask1 =>
      .ok (settleFronts ob trades quantity bidPrice bid1 bids bidLevels
        askPrice ask1 asks askLevels)

/-- The inner `while (!bids.empty() && !asks.empty())` of `Orderbook::MatchOrders`
(line 198); `bids` and `asks` are the queues of `bids_.begin()` and `asks_.begin()`.
Every pass needs one unit of fuel. -/
def matchLevel : Nat → Orderbook → Trades → Except EngineError (Orderbook × Trades)
  | fuel, ob, trades =>
    match ob.bids_, ob.asks_ with
    | (bidPrice, bid :: bids) :: bidLevels, (askPrice, ask :: asks) :: askLevels =>
      match fuel with
      | 0 => .error .fuelExhausted
      | n + 1 =>
        match matchFronts ob trades bidPrice bid bids bidLevels
            askPrice ask asks askLevels with
        | .error e => .error e
        | .ok r => matchLevel n r.1 r.2
    | _, _ => .ok (ob, trades)

/-- Lines 228-235 of `Orderbook::MatchOrders`: the best levels whose queues ran empty
are erased from their side and from `data_`. The source passes `bidPrice` and
`askPrice` to `data_.erase` after the map node they refer to has been erased; the
embedding takes the price the reference had. -/
def eraseEmptyBest (ob : Orderbook) (bidPrice askPrice : Price)
    (bidsEmpty asksEmpty : Bool) : Orderbook :=
  let ob1 : Orderbook :=
    if bidsEmpty then
      { ob with bids_ := eraseLevel bidPrice ob.bids_
                data_ := dataErase bidPrice ob.data_ }
    else ob
  if asksEmpty then
    { ob1 with asks_ := eraseLevel askPrice ob1.asks_
               data_ := dataErase askPrice ob1.data_ }
  else ob1

/-- The queue of `side.begin()`, used after the inner loop through the references
`bids` and `asks` taken before it. -/
def bestQueue (levels : Levels) : OrderPointers :=
  match levels with
  | [] => []
  | (_, q) :: _ => q

/-- The outer `while (true)` of `Orderbook::MatchOrders` (lines 188-236). Every pass
that does not leave the loop needs one unit of fuel. -/
def matchLoop : Nat → Orderbook → Trades → Except EngineError (Orderbook × Trades)
  | fuel, ob, trades =>
    match ob.bids_, ob.asks_ with
    | [], _ => .ok (ob, trades)
    | _ :: _, [] => .ok (ob, trades)
    | (bidPrice, bids) :: _, (askPrice, asks) :: _ =>
      if bidPrice < askPrice then .ok (ob, trades)
      else
        match fuel with
        | 0 => .error .fuelExhausted
        | n + 1 =>
          match matchLevel (bids.length + asks.length) ob trades with
          | .error e => .error e
          | .ok r =>
            matchLoop n
              (eraseEmptyBest r.1 bidPrice askPrice
                (bestQueue r.1.bids_).isEmpty (bestQueue r.1.asks_).isEmpty)
              r.2

/-- Lines 237-243 and 245-251 of `Orderbook::MatchOrders` for one side: the front order
of the best level is cancelled when it is a fill-and-kill order. The source calls the
locking `CancelOrder` here. This sequential embedding takes the book that the call
leaves when it can take the mutex, which is that of `CancelOrderInternal`. In the
source `MatchOrders` runs under the lock of `AddOrder`, where the call cannot take the
mutex and does not return: `lockedKillFront` follows the lock, and every call that
returns there returns the same result here. -/
def killFront (ob : Orderbook) (levels : Levels) : Except EngineError Orderbook :=
  match levels with
  | [] => .ok ob
  | (_, []) :: _ => .error .undefinedBehaviour
  | (_, order :: _) :: _ =>
    if order.orderType_ = OrderType.FillAndKill then CancelOrderInternal ob order.orderId_
    else .ok ob

/-- Models `Orderbook::MatchOrders` (lines 184-254). The fuel of the outer loop is the number
of price levels plus one. -/
def MatchOrders (ob : Orderbook) : Except EngineError (Orderbook × Trades) :=
  match matchLoop (ob.bids_.length + ob.asks_.length + 1) ob [] with
  | .error e => .error e
  | .ok r =>
    match killFront r.1 r.1.bids_ with
    | .error e => .error e
    | .ok ob1 =>
      match killFront ob1 ob1.asks_ with
      | .error e => .error e
      | .ok ob2 => .ok (ob2, r.2)

/-- Lines 273-283 of `Orderbook::AddOrder`: a market order takes the worst opposite
price and becomes good-till-cancel; `none` stands for `return { }`. -/
def convertMarket (ob : Orderbook) (order : Order) : Except EngineError (Option Order) :=
  if order.orderType_ = OrderType.Market then
    match order.side_, ob.asks_.getLast?, ob.bids_.getLast? with
    | Side.Buy, some (worstAsk, _), _ =>
      (order.ToGoodTillCancel worstAsk).map some
    | Side.Sell, _, some (worstBid, _) =>
      (order.ToGoodTillCancel worstBid).map some
    | _, _, _ => .ok none
  else .ok (some order)

/-- Lines 293-308 of `Orderbook::AddOrder`: the order is appended to the queue of its
price on its side, entered in `orders_` (under a key that `AddOrder` has just found
absent) and counted in `data_`. -/
def insertOrder (ob : Orderbook) (order : Order) : Orderbook :=
  { data_ := OnOrderAdded ob.data_ order
    bids_ := if order.side_ = Side.Buy then pushBackAt bidBefore order.price_ order ob.bids_
             else ob.bids_
    asks_ := if order.side_ = Side.Buy then ob.asks_
             else pushBackAt askBefore order.price_ order ob.asks_
    orders_ := ob.orders_ ++ [(order.orderId_, order)] }

/-- Models `Orderbook::AddOrder` (lines 267-312). -/
def AddOrder (ob : Orderbook) (order : Order) : Except EngineError (Orderbook × Trades) :=
  if (findOrder order.orderId_ ob.orders_).isSome then .ok (ob, [])
  else
    match convertMarket ob order with
    | .error e => .error e
    | .ok none => .ok (ob, [])
    | .ok (some order1) =>
      if order1.orderType_ = OrderType.FillAndKill ∧
          CanMatch ob order1.side_ order1.price_ = false then .ok (ob, [])
      else if order1.orderType_ = OrderType.FillOrKill ∧
          CanFullyFill ob order1.side_ order1.price_ order1.initialQuantity_ = false then
        .ok (ob, [])
      else MatchOrders (insertOrder ob order1)

/-- Models `Orderbook::ModifyOrder` (lines 322-336). -/
def ModifyOrder (ob : Orderbook) (order : OrderModify) :
    Except EngineError (Orderbook × Trades) :=
  match findOrder order.orderId_ ob.orders_ with
  | none => .ok (ob, [])
  | some existingOrder =>
    match CancelOrder ob order.orderId_ with
    | .error e => .error e
    | .ok ob1 => AddOrder ob1 (order.ToOrderPointer existingOrder.orderType_)

/-- Models `Orderbook::Size`. -/
def Size (ob : Orderbook) : Nat := ob.orders_.length

end Orderbook

/-! ## Call sequences and the vocabulary of the properties -/

/-- One call of the public interface, as the drivers `main.cpp` and `test_include.cpp`
issue them: an order built by the five-argument constructor, a cancel, a modify. -/
inductive Request where
  | add (orderType : OrderType) (orderId : OrderId) (side : Side) (price : Price)
      (quantity : Quantity)
  | cancel (orderId : OrderId)
  | modify (order : OrderModify)
deriving DecidableEq

namespace Orderbook

/-- The effect of one call on the book, with the trades it returns. -/
def step (ob : Orderbook) : Request → Except EngineError (Orderbook × Trades)
  | Request.add orderType orderId side price quantity =>
    AddOrder ob (Order.new orderType orderId side price quantity)
  | Request.cancel orderId =>
    match CancelOrder ob orderId with
    | .error e => .error e
    | .ok ob1 => .ok (ob1, [])
  | Request.modify order => ModifyOrder ob order

/-- A sequence of calls, first call first; the result is the final book. -/
def run (ob : Orderbook) : List Request → Except EngineError Orderbook
  | [] => .ok ob
  | r :: rest =>
    match step ob r with
    | .error e => .error e
    | .ok res => run res.1 rest

end Orderbook

/-- The orders held in the queues of one side, best level first, front first. -/
def queued : Levels → List Order
  | [] => []
  | (_, q) :: rest => q ++ queued rest

/-- All orders held in the price queues of `bids_` and `asks_`. -/
def resting (ob : Orderbook) : List Order := queued ob.bids_ ++ queued ob.asks_

/-- The orders of a list other than the one with identifier `orderId`. -/
def dropId (orderId : OrderId) (l : List Order) : List Order :=
  l.filter (fun o => decide (o.orderId_ ≠ orderId))

/-- The list with the object of identifier `o.orderId_` replaced by its new state `o`. -/
def putOrder (o : Order) (l : List Order) : List Order :=
  l.map (fun x => if x.orderId_ = o.orderId_ then o else x)

/-- The state of an order object after a successful `Fill(quantity)`. -/
def filled (o : Order) (quantity : Quantity) : Order :=
  { o with remainingQuantity_ := o.remainingQuantity_ - quantity }

/-- The `orders_` entry of a resting order: keyed by its id, holding the same object. -/
def entryOf (o : Order) : OrderId × Order := (o.orderId_, o)

/-- A book state is reachable when some sequence of calls produces it from the empty
book. -/
def Reachable (ob : Orderbook) : Prop :=
  ∃ requests : List Request, Orderbook.run Orderbook.empty requests = .ok ob

/-- The order relation that the iteration of an ordered map follows is a strict total
order on prices. -/
structure KeyOrder (before : Price → Price → Bool) : Prop where
  irrefl : ∀ a, before a a = false
  trans : ∀ a b c, before a b = true → before b c = true → before a c = true
  total : ∀ a b, a ≠ b → before a b = false → before b a = true

/-- One side of the book is well formed: keys strictly in map order, and every queued
order has the side of the map and the price of its key. -/
structure SideOk (before : Price → Price → Bool) (side : Side) (levels : Levels) :
    Prop where
  sorted : levels.Pairwise (fun x y => before x.1 y.1 = true)
  keyed : ∀ l ∈ levels, ∀ o ∈ l.2, o.side_ = side ∧ o.price_ = l.1

/-- The coupling of the three containers that holds at every point of an operation:
both sides well formed, order ids unique among the queued orders, and `orders_`
holding exactly one entry per queued order. -/
structure Coupled (ob : Orderbook) : Prop where
  bids : SideOk bidBefore Side.Buy ob.bids_
  asks : SideOk askBefore Side.Sell ob.asks_
  ids : ((resting ob).map (fun o => o.orderId_)).Nodup
  index : ob.orders_.Perm ((resting ob).map entryOf)

/-- No price level of the side has an empty queue. -/
def NoEmptyLevel (levels : Levels) : Prop := ∀ l ∈ levels, l.2 ≠ []

/-- Every bid price is below every ask price. -/
def Uncrossed (ob : Orderbook) : Prop :=
  ∀ b ∈ ob.bids_, ∀ a ∈ ob.asks_, b.1 < a.1

/-- The exit condition of the outer loop of `MatchOrders`: a side is empty or the best
bid is below the best ask. -/
def Settled (ob : Orderbook) : Prop :=
  match ob.bids_, ob.asks_ with
  | (bidPrice, _) :: _, (askPrice, _) :: _ => bidPrice < askPrice
  | _, _ => True

/-- The state invariant between two calls. -/
structure BookInv (ob : Orderbook) : Prop where
  coupled : Coupled ob
  bidsFull : NoEmptyLevel ob.bids_
  asksFull : NoEmptyLevel ob.asks_
  uncrossed : Uncrossed ob
  noKill : ∀ o ∈ resting ob, o.orderType_ ≠ OrderType.FillAndKill

/-- The second book holds a part of the first: on each side its queued orders are a
sublist and its price keys are among the keys of the first. -/
def Shrunk (ob1 ob : Orderbook) : Prop :=
  (queued ob1.bids_).Sublist (queued ob.bids_) ∧
  (queued ob1.asks_).Sublist (queued ob.asks_) ∧
  (∀ l ∈ ob1.bids_, l.1 ∈ ob.bids_.map Prod.fst) ∧
  (∀ l ∈ ob1.asks_, l.1 ∈ ob.asks_.map Prod.fst)

/-- What holds of the containers inside the inner loop: only the best queues may be
empty. -/
def CoupledInLoop (ob : Orderbook) : Prop :=
  Coupled ob ∧ NoEmptyLevel ob.bids_.tail ∧ NoEmptyLevel ob.asks_.tail

/-- What holds of the containers between passes of the outer loop. -/
def CoupledFull (ob : Orderbook) : Prop :=
  Coupled ob ∧ NoEmptyLevel ob.bids_ ∧ NoEmptyLevel ob.asks_

/-- The book after `A B GoodTillCancel 100 5 1` on the empty book. -/
def bookOneBid : Orderbook :=
  { data_ := [(100, { quantity_ := 5, count_ := 1 })]
    bids_ := [(100, [Order.new OrderType.GoodTillCancel 1 Side.Buy 100 5])]
    asks_ := []
    orders_ := [(1, Order.new OrderType.GoodTillCancel 1 Side.Buy 100 5)] }

/-- The book after `A B GoodTillCancel 100 10 1`, `A S GoodTillCancel 100 6 2`, `C 1`,
`A S GoodTillCancel 99 1 3` on the empty book. -/
def bookStaleRow : Orderbook :=
  { data_ := [(100, { quantity_ := 4294967292, count_ := 4294967295 }),
              (99, { quantity_ := 1, count_ := 1 })]
    bids_ := []
    asks_ := [(99, [Order.new OrderType.GoodTillCancel 3 Side.Sell 99 1])]
    orders_ := [(3, Order.new OrderType.GoodTillCancel 3 Side.Sell 99 1)] }

/-! ## Level snapshot -/

/-- Models `struct LevelInfo` of `LevelInfo.hpp`. -/
structure LevelInfo where
  price_ : Price
  quantity_ : Quantity
deriving DecidableEq

/-- Models `LevelInfos`: a vector of level records. -/
abbrev LevelInfos := List LevelInfo

/-- Models `class OrderbookLevelInfos` of `ObookLevelInfos.hpp`. -/
structure OrderbookLevelInfos where
  bids_ : LevelInfos
  asks_ : LevelInfos
deriving DecidableEq

namespace Orderbook

/-- Models the lambda `CreateLevelInfos` of `Orderbook::GetOrderInfos` (lines 349-353):
`std::accumulate` over the queue from `(Quantity)0`, adding the remaining quantity of
each order in unsigned 32-bit arithmetic. -/
def CreateLevelInfos (price : Price) (orders : OrderPointers) : LevelInfo :=
  { price_ := price
    quantity_ := orders.foldl
      (fun runningSum order => wrapAdd runningSum order.remainingQuantity_) 0 }

/-- Models `Orderbook::GetOrderInfos` (lines 343-365). -/
def GetOrderInfos (ob : Orderbook) : OrderbookLevelInfos :=
  { bids_ := ob.bids_.map (fun l => CreateLevelInfos l.1 l.2)
    asks_ := ob.asks_.map (fun l => CreateLevelInfos l.1 l.2) }

end Orderbook

/-! ## Vocabulary of the properties of matching, market orders and modification -/

open Orderbook

/-- The book after `A B GoodTillCancel 100 10 1` and `A S GoodTillCancel 101 5 2` on the
empty book. -/
def bookBidAndAsk : Orderbook :=
  { data_ := [(100, { quantity_ := 10, count_ := 1 }), (101, { quantity_ := 5, count_ := 1 })]
    bids_ := [(100, [Order.new OrderType.GoodTillCancel 1 Side.Buy 100 10])]
    asks_ := [(101, [Order.new OrderType.GoodTillCancel 2 Side.Sell 101 5])]
    orders_ := [(1, Order.new OrderType.GoodTillCancel 1 Side.Buy 100 10),
                (2, Order.new OrderType.GoodTillCancel 2 Side.Sell 101 5)] }

/-- The book after `A B GoodTillCancel 100 10 1` and `A S GoodTillCancel 100 6 2` on the
empty book: bid 1 rests with 4 remaining and `data_` has lost the row of price 100. -/
def bookLostRow : Orderbook :=
  { data_ := []
    bids_ := [(100, [{ orderType_ := OrderType.GoodTillCancel, orderId_ := 1,
                       side_ := Side.Buy, price_ := 100, initialQuantity_ := 10,
                       remainingQuantity_ := 4 }])]
    asks_ := []
    orders_ := [(1, { orderType_ := OrderType.GoodTillCancel, orderId_ := 1,
                      side_ := Side.Buy, price_ := 100, initialQuantity_ := 10,
                      remainingQuantity_ := 4 })] }

/-- The remaining quantity that a fill-or-kill order with limit `price` can take from
the other side, as a natural number: the asks priced at or below the limit for a buy,
the bids priced at or above it for a sell. -/
def coverFor (ob : Orderbook) (side : Side) (price : Price) : Nat :=
  match side with
  | Side.Buy =>
    (((queued ob.asks_).filter (fun o => decide (o.price_ ≤ price))).map
      (fun o => o.remainingQuantity_)).sum
  | Side.Sell =>
    (((queued ob.bids_).filter (fun o => decide (o.price_ ≥ price))).map
      (fun o => o.remainingQuantity_)).sum

/-- The attributes of an order that no operation of the book changes once the order is
queued: type, id, side, price and initial quantity. -/
def tagOf (o : Order) : OrderType × OrderId × Side × Price × Quantity :=
  (o.orderType_, o.orderId_, o.side_, o.price_, o.initialQuantity_)

/-- The best bid is not below the best ask: the outer loop of `MatchOrders` goes on. -/
def Crossing (ob : Orderbook) : Prop :=
  ∀ bp B bs ap A as, ob.bids_ = (bp, B) :: bs → ob.asks_ = (ap, A) :: as → ¬ bp < ap

/-- The trade that the body of the inner loop records for the front bid `b` and the
front ask `a` (lines 202 and 220-223): both sides carry the id and price of their own
order and the smaller of the two remaining quantities. -/
def tradeOf (b a : Order) : Trade :=
  { bidTrade_ := { orderId_ := b.orderId_, price_ := b.price_,
                   quantity_ := min b.remainingQuantity_ a.remainingQuantity_ }
    askTrade_ := { orderId_ := a.orderId_, price_ := a.price_,
                   quantity_ := min b.remainingQuantity_ a.remainingQuantity_ } }

/-- The book `s` holds what is left of the book `ob` after orders were taken from the
front of each side: on each side the queued orders of `s` are, by their unchanging
attributes, a final segment of those of `ob`. -/
def Consumed (s ob : Orderbook) : Prop :=
  ((queued s.bids_).map tagOf) <:+ ((queued ob.bids_).map tagOf) ∧
  ((queued s.asks_).map tagOf) <:+ ((queued ob.asks_).map tagOf)

/-- Follows the specification of the modify operation for an id that rests with type
`type`: the existing order is cancelled, a new order with the same id and the recorded
type is built from the requested side, price and quantity, and `AddOrder` is called
with it. -/
def cancelThenAdd (ob : Orderbook) (type : OrderType) (orderId : OrderId) (side : Side)
    (price : Price) (quantity : Quantity) : Except EngineError (Orderbook × Trades) :=
  match CancelOrder ob orderId with
  | .error e => .error e
  | .ok ob1 => AddOrder ob1 (Order.new type orderId side price quantity)

/-- The order that `AddOrder` enters in the book, or `none` when the call returns
before line 293: the id is already indexed (line 270), a market order finds the other
side empty (lines 273-283), a fill-and-kill order cannot match (line 285) or a
fill-or-kill order cannot be filled in full (line 288). -/
def admission (ob : Orderbook) (order : Order) : Option Order :=
  if (findOrder order.orderId_ ob.orders_).isSome then none
  else
    match convertMarket ob order with
    | .ok (some order1) =>
      if order1.orderType_ = OrderType.FillAndKill ∧
          CanMatch ob order1.side_ order1.price_ = false then none
      else if order1.orderType_ = OrderType.FillOrKill ∧
          CanFullyFill ob order1.side_ order1.price_ order1.initialQuantity_ = false then
        none
      else some order1
    | _ => none

/-- No order that follows the order `orderId` in the list has its price: in the queued
orders of a well-formed side, the order is the last of the queue of its price. -/
def LastOfPrice (orderId : OrderId) (l : List Order) : Prop :=
  l.Pairwise (fun a b => a.orderId_ = orderId → b.price_ ≠ a.price_)

/-- The side of the book that an order of side `side` trades against. -/
def oppositeSide (ob : Orderbook) (side : Side) : Levels :=
  match side with
  | Side.Buy => ob.asks_
  | Side.Sell => ob.bids_

/-- The book after `A S GoodTillCancel 101 4 1` on the empty book. -/
def bookOneAsk : Orderbook :=
  { data_ := [(101, { quantity_ := 4, count_ := 1 })]
    bids_ := []
    asks_ := [(101, [Order.new OrderType.GoodTillCancel 1 Side.Sell 101 4])]
    orders_ := [(1, Order.new OrderType.GoodTillCancel 1 Side.Sell 101 4)] }

/-- The book after `A S GoodTillCancel 101 4 1` and `A B Market 0 7 3` on the empty
book: the market order traded 4 and its remainder of 3 is queued at 101 as a
good-till-cancel bid. -/
def bookMarketRemainder : Orderbook :=
  { data_ := []
    bids_ := [(101, [{ orderType_ := OrderType.GoodTillCancel, orderId_ := 3,
                       side_ := Side.Buy, price_ := 101, initialQuantity_ := 7,
                       remainingQuantity_ := 3 }])]
    asks_ := []
    orders_ := [(3, { orderType_ := OrderType.GoodTillCancel, orderId_ := 3,
                      side_ := Side.Buy, price_ := 101, initialQuantity_ := 7,
                      remainingQuantity_ := 3 })] }

/-- The book after `A S GoodTillCancel 101 4 1` and `A S GoodTillCancel 102 6 2` on the
empty book. -/
def bookTwoAsks : Orderbook :=
  { data_ := [(101, { quantity_ := 4, count_ := 1 }), (102, { quantity_ := 6, count_ := 1 })]
    bids_ := []
    asks_ := [(101, [Order.new OrderType.GoodTillCancel 1 Side.Sell 101 4]),
              (102, [Order.new OrderType.GoodTillCancel 2 Side.Sell 102 6])]
    orders_ := [(1, Order.new OrderType.GoodTillCancel 1 Side.Sell 101 4),
                (2, Order.new OrderType.GoodTillCancel 2 Side.Sell 102 6)] }

/-! ## The account of quantities -/

/-- The sum of the remaining quantities of a list of orders, as a natural number. -/
def remainingOf (l : List Order) : Nat := (l.map (fun o => o.remainingQuantity_)).sum

/-- The sum of the remaining quantities of all queued orders of the book. -/
def remTotal (ob : Orderbook) : Nat :=
  remainingOf (queued ob.bids_) + remainingOf (queued ob.asks_)

/-- The sum over a list of trades of the bid-side quantity plus the ask-side quantity. -/
def volume (ts : Trades) : Nat :=
  (ts.map (fun t => t.bidTrade_.quantity_ + t.askTrade_.quantity_)).sum

/-- The remaining quantity with which the order `orderId` leaves the book when
`CancelOrderInternal` is called for it: that of its `orders_` entry, nothing when the
id is not indexed. -/
def cancelledQuantity (ob : Orderbook) (orderId : OrderId) : Nat :=
  match findOrder orderId ob.orders_ with
  | none => 0
  | some order => order.remainingQuantity_

/-- The remaining quantity with which the front order of the best level leaves the
book in the clean-up of `MatchOrders` (lines 237-251): that of the front order when
it is a fill-and-kill order, nothing otherwise. -/
def killedFront (levels : Levels) : Nat :=
  match levels with
  | (_, order :: _) :: _ =>
    if order.orderType_ = OrderType.FillAndKill then order.remainingQuantity_ else 0
  | _ => 0

/-- The remaining quantity that the two clean-up steps of `MatchOrders` remove from
the book: the loop is run as `MatchOrders` runs it, then the front of the best bid
level is looked at, then, after its clean-up, the front of the best ask level. -/
def killedQuantity (ob : Orderbook) : Nat :=
  match matchLoop (ob.bids_.length + ob.asks_.length + 1) ob [] with
  | .error _ => 0
  | .ok r =>
    killedFront r.1.bids_ +
      (match killFront r.1 r.1.bids_ with
        | .error _ => 0
        | .ok ob1 => killedFront ob1.asks_)

/-- The account of a call sequence: `admitted` is the sum of the initial quantities of
the orders entered in the book, `traded` the sum over all returned trades of bid-side
plus ask-side quantity, `withdrawn` the sum of the remaining quantities with which
orders left the book unfilled (cancel, modify, fill-and-kill clean-up). -/
structure Ledger where
  admitted : Nat
  traded : Nat
  withdrawn : Nat
deriving DecidableEq

/-- The initial quantity that the call `AddOrder(order)` enters in the book. -/
def admittedByAdd (ob : Orderbook) (order : Order) : Nat :=
  match admission ob order with
  | none => 0
  | some order1 => order1.initialQuantity_

/-- The remaining quantity that the call `AddOrder(order)` removes in its clean-up. -/
def withdrawnByAdd (ob : Orderbook) (order : Order) : Nat :=
  match admission ob order with
  | none => 0
  | some order1 => killedQuantity (insertOrder ob order1)

/-- The initial quantity that one call enters in the book. -/
def admittedBy (ob : Orderbook) : Request → Nat
  | Request.add orderType orderId side price quantity =>
    admittedByAdd ob (Order.new orderType orderId side price quantity)
  | Request.cancel _ => 0
  | Request.modify order =>
    match findOrder order.orderId_ ob.orders_ with
    | none => 0
    | some existingOrder =>
      match CancelOrder ob order.orderId_ with
      | .error _ => 0
      | .ok ob1 => admittedByAdd ob1 (order.ToOrderPointer existingOrder.orderType_)

/-- The remaining quantity with which orders leave the book unfilled in one call. -/
def withdrawnBy (ob : Orderbook) : Request → Nat
  | Request.add orderType orderId side price quantity =>
    withdrawnByAdd ob (Order.new orderType orderId side price quantity)
  | Request.cancel orderId => cancelledQuantity ob orderId
  | Request.modify order =>
    match findOrder order.orderId_ ob.orders_ with
    | none => 0
    | some existingOrder =>
      cancelledQuantity ob order.orderId_ +
        (match CancelOrder ob order.orderId_ with
          | .error _ => 0
          | .ok ob1 => withdrawnByAdd ob1 (order.ToOrderPointer existingOrder.orderType_))

namespace Orderbook

/-- A sequence of calls with its account: the calls are those of `run`, and every call
adds what it entered, what its returned trades carry and what it withdrew. -/
def runLedger (ob : Orderbook) (acc : Ledger) :
    List Request → Except EngineError (Orderbook × Ledger)
  | [] => .ok (ob, acc)
  | r :: rest =>
    match step ob r with
    | .error e => .error e
    | .ok res =>
      runLedger res.1
        { admitted := acc.admitted + admittedBy ob r
          traded := acc.traded + volume res.2
          withdrawn := acc.withdrawn + withdrawnBy ob r } rest

end Orderbook

/-! ## Vocabulary of time priority -/

/-- The order id that a call names. -/
def requestId : Request → OrderId
  | Request.add _ orderId _ _ _ => orderId
  | Request.cancel orderId => orderId
  | Request.modify order => order.orderId_

/-- In the list, the order `kx` does not come behind the order `ky` at the same
price. -/
def KeepsAhead (kx ky : OrderId) (l : List Order) : Prop :=
  l.Pairwise (fun a b => a.orderId_ = ky → b.orderId_ = kx → b.price_ ≠ a.price_)

/-- The quantity that the trades of a list fill on the order `orderId`, read on one
side of the trades (`info` is `Trade.bidTrade_` or `Trade.askTrade_`). -/
def fillsOf (info : Trade → TradeInfo) (orderId : OrderId) (ts : Trades) : Nat :=
  (ts.map (fun t => if (info t).orderId_ = orderId then (info t).quantity_ else 0)).sum

/-- The state of the matching loop with respect to two orders `kx` and `ky` of one
side, where `kx` was ahead of `ky` and had `X` remaining when the loop began; `l` are
the queued orders of the side and `ts` the trades so far. Before every trade of `ky`
the trades have filled `X` on `kx`; and either `kx` is still queued ahead of `ky`,
`ky` has not traded and what `kx` has left plus its fills is `X`, or `kx` is queued no
more and its fills are `X`. -/
def FilledFirst (info : Trade → TradeInfo) (kx ky : OrderId) (X : Nat) (l : List Order)
    (ts : Trades) : Prop :=
  (∀ ts1 t ts2, ts = ts1 ++ t :: ts2 → (info t).orderId_ = ky → fillsOf info kx ts1 = X) ∧
  (([kx, ky].Sublist (l.map (fun o => o.orderId_)) ∧
      (∀ t ∈ ts, (info t).orderId_ ≠ ky) ∧
      ∃ xs ∈ l, xs.orderId_ = kx ∧ xs.remainingQuantity_ + fillsOf info kx ts = X) ∨
    (kx ∉ l.map (fun o => o.orderId_) ∧ fillsOf info kx ts = X))

/-! ## Sequences of fills, the intended range test, the prune pass -/

/-- A sequence of `Fill` calls on one order object, first call first. A call that
throws has not yet written to the object (the test of line 104 comes before the
assignment of line 109), so the next call finds the order as it was. -/
def Order.fillAll (o : Order) : List Quantity → Order
  | [] => o
  | q :: rest =>
    match o.Fill q with
    | .error _ => Order.fillAll o rest
    | .ok o1 => Order.fillAll o1 rest

/-- Follows the specification of the range test in `CanFullyFill`: the loop of lines
146-161 with the first condition grouped as intended,
`has_value && ((Buy && threshold > level) || (Sell && threshold < level))`. -/
def canFullyFillWalkIntended (side : Side) (threshold : Price) (price : Price) :
    List (Price × LevelData) → Quantity → Bool
  | [], _ => false
  | (levelPrice, levelData) :: rest, quantity =>
    if true && ((decide (side = Side.Buy) && decide (threshold > levelPrice)) ||
        (decide (side = Side.Sell) && decide (threshold < levelPrice))) then
      canFullyFillWalkIntended side threshold price rest quantity
    else if (decide (side = Side.Buy) && decide (levelPrice > price)) ||
        (decide (side = Side.Sell) && decide (levelPrice < price)) then
      canFullyFillWalkIntended side threshold price rest quantity
    else if quantity ≤ levelData.quantity_ then true
    else canFullyFillWalkIntended side threshold price rest (quantity - levelData.quantity_)

/-- Follows the specification: `CanFullyFill` with the intended grouping of the range
test. -/
def CanFullyFillIntended (ob : Orderbook) (side : Side) (price : Price)
    (quantity : Quantity) : Bool :=
  if !CanMatch ob side price then false
  else
    match side with
    | Side.Buy =>
      match ob.asks_ with
      | [] => false
      | (askPrice, _) :: _ => canFullyFillWalkIntended side askPrice price ob.data_ quantity
    | Side.Sell =>
      match ob.bids_ with
      | [] => false
      | (bidPrice, _) :: _ => canFullyFillWalkIntended side bidPrice price ob.data_ quantity

/-- A level of `data_` is out of the range that a fill-or-kill order of side `side`
and limit `price` can take when the best price of the other side is `threshold`: it
is better than the best opposite price, or it is beyond the limit. -/
def outsideRange (side : Side) (threshold price levelPrice : Price) : Bool :=
  match side with
  | Side.Buy => decide (levelPrice < threshold) || decide (price < levelPrice)
  | Side.Sell => decide (threshold < levelPrice) || decide (levelPrice < price)

namespace Orderbook

/-- Lines 49-62 of `Orderbook::PruneGoodForDayOrders`: the ids of the entries of
`orders_` whose order has type GoodForDay, in iteration order. -/
def goodForDayIds (ob : Orderbook) : List OrderId :=
  (ob.orders_.filter (fun e => decide (e.2.orderType_ = OrderType.GoodForDay))).map
    (fun e => e.2.orderId_)

/-- One pass of the loop of `Orderbook::PruneGoodForDayOrders` after the wait
(lines 49-64): the ids are collected and `CancelOrders` is called with them. -/
def prunePass (ob : Orderbook) : Except EngineError Orderbook :=
  CancelOrders ob (goodForDayIds ob)

end Orderbook

/-! ## Vocabulary of the frame properties and of the prune pass -/

/-- The side of the book on which an order of side `side` is queued. -/
def sameSide (ob : Orderbook) (side : Side) : Levels :=
  match side with
  | Side.Buy => ob.bids_
  | Side.Sell => ob.asks_

/-- The book after `A B GoodForDay 100 5 1` and `A B GoodTillCancel 100 3 2` on the
empty book. -/
def bookDayAndTill : Orderbook :=
  { data_ := [(100, { quantity_ := 8, count_ := 2 })]
    bids_ := [(100, [Order.new OrderType.GoodForDay 1 Side.Buy 100 5,
                     Order.new OrderType.GoodTillCancel 2 Side.Buy 100 3])]
    asks_ := []
    orders_ := [(1, Order.new OrderType.GoodForDay 1 Side.Buy 100 5),
                (2, Order.new OrderType.GoodTillCancel 2 Side.Buy 100 3)] }

/-- The book after `A B GoodForDay 100 5 1`, `A B GoodTillCancel 100 3 2` and one prune
pass: bid 2 is left. -/
def bookAfterPrune : Orderbook :=
  { data_ := [(100, { quantity_ := 3, count_ := 1 })]
    bids_ := [(100, [Order.new OrderType.GoodTillCancel 2 Side.Buy 100 3])]
    asks_ := []
    orders_ := [(2, Order.new OrderType.GoodTillCancel 2 Side.Buy 100 3)] }

/-- The call supplies a non-zero quantity when it builds an order: an add and a modify
carry a quantity, a cancel builds no order. -/
def suppliesNonZero : Request → Prop
  | Request.add _ _ _ _ quantity => quantity ≠ 0
  | Request.cancel _ => True
  | Request.modify order => order.quantity_ ≠ 0

namespace Orderbook

/-- A sequence of calls, first call first; the result is the final book and all the
trades the calls returned, in the order of their return. -/
def runTrades (ob : Orderbook) : List Request → Except EngineError (Orderbook × Trades)
  | [] => .ok (ob, [])
  | r :: rest =>
    match step ob r with
    | .error e => .error e
    | .ok res =>
      match runTrades res.1 rest with
      | .error e => .error e
      | .ok out => .ok (out.1, res.2 ++ out.2)

end Orderbook

/-! ## The mutex, as one thread sees it -/

/-- What a call can run into when the ownership of `ordersMutex_` is followed: the
constructor of a `std::scoped_lock` on a `std::mutex` that the calling thread already
owns (undefined behaviour, in practice the thread waits for itself), or a failure of
the sequential code. -/
inductive LockFault where
  | relock
  | engine (e : EngineError)
deriving DecidableEq

/-- The constructor of `std::scoped_lock ordersLock{ ordersMutex_ }` in a thread for
which `held` tells whether it owns the mutex; the result is the ownership inside the
scope. -/
def acquire (held : Bool) : Except LockFault Bool :=
  if held then .error .relock else .ok true

namespace Orderbook

/-- Models `Orderbook::CancelOrder` (lines 315-319) with its lock: the scoped lock is
taken, `CancelOrderInternal` runs, and the lock is released on return. -/
def lockedCancelOrder (held : Bool) (ob : Orderbook) (orderId : OrderId) :
    Except LockFault Orderbook :=
  match acquire held with
  | .error f => .error f
  | .ok _ =>
    match CancelOrderInternal ob orderId with
    | .error e => .error (.engine e)
    | .ok ob1 => .ok ob1

/-- Lines 237-243 and 245-251 of `Orderbook::MatchOrders` for one side, with the call
of the locking `CancelOrder` that the source makes. -/
def lockedKillFront (held : Bool) (ob : Orderbook) (levels : Levels) :
    Except LockFault Orderbook :=
  match levels with
  | [] => .ok ob
  | (_, []) :: _ => .error (.engine .undefinedBehaviour)
  | (_, order :: _) :: _ =>
    if order.orderType_ = OrderType.FillAndKill then
      lockedCancelOrder held ob order.orderId_
    else .ok ob

/-- Models `Orderbook::MatchOrders` (lines 184-254) called by a thread whose ownership
of the mutex is `held`; the function itself takes no lock. -/
def lockedMatchOrders (held : Bool) (ob : Orderbook) :
    Except LockFault (Orderbook × Trades) :=
  match matchLoop (ob.bids_.length + ob.asks_.length + 1) ob [] with
  | .error e => .error (.engine e)
  | .ok r =>
    match lockedKillFront held r.1 r.1.bids_ with
    | .error f => .error f
    | .ok ob1 =>
      match lockedKillFront held ob1 ob1.asks_ with
      | .error f => .error f
      | .ok ob2 => .ok (ob2, r.2)

/-- Models `Orderbook::AddOrder` (lines 267-312) with its lock: the scoped lock of
line 268 is held until the function returns, so `MatchOrders` runs in a thread that
owns the mutex. -/
def lockedAddOrder (held : Bool) (ob : Orderbook) (order : Order) :
    Except LockFault (Orderbook × Trades) :=
  match acquire held with
  | .error f => .error f
  | .ok held1 =>
    if (findOrder order.orderId_ ob.orders_).isSome then .ok (ob, [])
    else
      match convertMarket ob order with
      | .error e => .error (.engine e)
      | .ok none => .ok (ob, [])
      | .ok (some order1) =>
        if order1.orderType_ = OrderType.FillAndKill ∧
            CanMatch ob order1.side_ order1.price_ = false then .ok (ob, [])
        else if order1.orderType_ = OrderType.FillOrKill ∧
            CanFullyFill ob order1.side_ order1.price_ order1.initialQuantity_ = false then
          .ok (ob, [])
        else lockedMatchOrders held1 (insertOrder ob order1)

end Orderbook

/-! ## The trade list that the specification of the matching loop describes -/

/-- Follows the specification of `match_orders`, on the two sides read as lists of
orders, best price first and within a price front first: while both lists hold an order
and the price of the first bid is not below the price of the first ask, the trade with
bid side `(b.id, b.price, q)` and ask side `(a.id, a.price, q)`, `q = min(b.remaining,
a.remaining)`, is emitted for the two first orders `b` and `a`, both are filled by `q`,
and each of them that is filled leaves its list. The first argument bounds the number
of trades. -/
def pairOffFuel : Nat → List Order → List Order → Trades
  | 0, _, _ => []
  | _ + 1, [], _ => []
  | _ + 1, _ :: _, [] => []
  | n + 1, b :: bids, a :: asks =>
    if b.price_ < a.price_ then []
    else
      { bidTrade_ := { orderId_ := b.orderId_, price_ := b.price_,
                       quantity_ := min b.remainingQuantity_ a.remainingQuantity_ }
        askTrade_ := { orderId_ := a.orderId_, price_ := a.price_,
                       quantity_ := min b.remainingQuantity_ a.remainingQuantity_ } } ::
      pairOffFuel n
        (if b.remainingQuantity_ - min b.remainingQuantity_ a.remainingQuantity_ = 0 then bids
         else { b with remainingQuantity_ :=
                  b.remainingQuantity_ - min b.remainingQuantity_ a.remainingQuantity_ } :: bids)
        (if a.remainingQuantity_ - min b.remainingQuantity_ a.remainingQuantity_ = 0 then asks
         else { a with remainingQuantity_ :=
                  a.remainingQuantity_ - min b.remainingQuantity_ a.remainingQuantity_ } :: asks)

/-- The trade list of the specification for two sides given as lists: every trade takes
at least one order out of the lists, so their lengths bound the number of trades. -/
def pairOff (bids asks : List Order) : Trades :=
  pairOffFuel (bids.length + asks.length) bids asks

/-- The side of a trade that belongs to an order of side `side`. -/
def ownInfo (side : Side) (t : Trade) : TradeInfo :=
  match side with
  | Side.Buy => t.bidTrade_
  | Side.Sell => t.askTrade_

/-- The book on which `AddOrder` calls `MatchOrders` for the fill-and-kill buy
`A B FillAndKill 101 10 3` submitted to the book holding ask 1 of 4 at 101 and ask 2 of
6 at 102. -/
def bookKillEntered : Orderbook :=
  insertOrder bookTwoAsks (Order.new OrderType.FillAndKill 3 Side.Buy 101 10)

/-! # Theorems -/

open Orderbook

/-! ## Ordered maps as sorted association lists -/

theorem keyOrder_bid : KeyOrder bidBefore where
  irrefl := by intro a; simp [bidBefore]
  trans := by
    intro a b c; simp only [bidBefore, decide_eq_true_eq]; intro h1 h2; unfold Price at *; omega
  total := by
    intro a b; simp only [bidBefore, decide_eq_true_eq, decide_eq_false_iff_not]
    intro h1 h2; unfold Price at *; omega

theorem keyOrder_ask : KeyOrder askBefore where
  irrefl := by intro a; simp [askBefore]
  trans := by
    intro a b c; simp only [askBefore, decide_eq_true_eq]; intro h1 h2; unfold Price at *; omega
  total := by
    intro a b; simp only [askBefore, decide_eq_true_eq, decide_eq_false_iff_not]
    intro h1 h2; unfold Price at *; omega

@[simp]
theorem queued_nil : queued [] = [] := rfl

@[simp]
theorem queued_cons (k : Price) (q : OrderPointers) (rest : Levels) :
    queued ((k, q) :: rest) = q ++ queued rest := rfl

theorem mem_queued {o : Order} {levels : Levels} :
    o ∈ queued levels ↔ ∃ l ∈ levels, o ∈ l.2 := by
  induction levels with
  | nil => simp
  | cons l rest ih =>
    obtain ⟨k, q⟩ := l
    simp [ih]

theorem sorted_head_ne {before : Price → Price → Bool} (hb : KeyOrder before)
    {k : Price} {q : OrderPointers} {rest : Levels}
    (hs : ((k, q) :: rest).Pairwise (fun x y => before x.1 y.1 = true)) :
    ∀ l ∈ rest, l.1 ≠ k := by
  intro l hl heq
  have h := (List.pairwise_cons.1 hs).1 l hl
  simp only [heq] at h
  rw [hb.irrefl] at h
  exact Bool.false_ne_true h

theorem levelAt_of_mem {before : Price → Price → Bool} (hb : KeyOrder before)
    {p : Price} {q : OrderPointers} {levels : Levels}
    (hs : levels.Pairwise (fun x y => before x.1 y.1 = true))
    (hm : (p, q) ∈ levels) : levelAt p levels = some q := by
  induction levels with
  | nil => simp at hm
  | cons l rest ih =>
    obtain ⟨k, q0⟩ := l
    rcases List.mem_cons.1 hm with h | h
    · cases h
      simp [levelAt]
    · have hne : k ≠ p := fun e => sorted_head_ne hb hs (p, q) h e.symm
      simp only [levelAt, hne, if_false]
      exact ih (List.pairwise_cons.1 hs).2 h

theorem mem_of_levelAt {p : Price} {q : OrderPointers} {levels : Levels}
    (h : levelAt p levels = some q) : (p, q) ∈ levels := by
  induction levels with
  | nil => simp [levelAt] at h
  | cons l rest ih =>
    obtain ⟨k, q0⟩ := l
    by_cases hk : k = p
    · simp only [levelAt, hk, if_true, Option.some.injEq] at h
      subst hk; subst h
      exact List.mem_cons_self _ _
    · simp only [levelAt, hk, if_false] at h
      exact List.mem_cons_of_mem _ (ih h)

theorem eraseLevel_head {before : Price → Price → Bool} (hb : KeyOrder before)
    {k : Price} {q : OrderPointers} {rest : Levels}
    (hs : ((k, q) :: rest).Pairwise (fun x y => before x.1 y.1 = true)) :
    eraseLevel k ((k, q) :: rest) = rest := by
  have hne := sorted_head_ne hb hs
  simp only [eraseLevel, List.filter_cons, ne_eq, not_true_eq_false, decide_False,
    Bool.false_eq_true, if_false]
  exact List.filter_eq_self.2 (fun l hl => by simpa using hne l hl)

theorem eraseLevel_sorted {before : Price → Price → Bool} {p : Price} {levels : Levels}
    (hs : levels.Pairwise (fun x y => before x.1 y.1 = true)) :
    (eraseLevel p levels).Pairwise (fun x y => before x.1 y.1 = true) :=
  hs.sublist (List.filter_sublist _)

theorem mem_setLevel {p : Price} {queue : OrderPointers} {levels : Levels}
    {l : Price × OrderPointers} (h : l ∈ setLevel p queue levels) :
    l.1 ∈ levels.map Prod.fst ∧ (l ∈ levels ∨ l = (p, queue)) := by
  induction levels with
  | nil => simp [setLevel] at h
  | cons l0 rest ih =>
    obtain ⟨k, q0⟩ := l0
    by_cases hk : k = p
    · simp only [setLevel, hk, if_true, List.mem_cons] at h
      rcases h with h | h
      · subst h; simp [hk]
      · exact ⟨List.mem_cons_of_mem _ (List.mem_map_of_mem _ h),
          Or.inl (List.mem_cons_of_mem _ h)⟩
    · simp only [setLevel, hk, if_false, List.mem_cons] at h
      rcases h with h | h
      · subst h; simp
      · have := ih h
        simp only [List.map_cons, List.mem_cons]
        exact ⟨Or.inr this.1, this.2.elim (fun x => Or.inl (Or.inr x)) Or.inr⟩

theorem setLevel_keys (p : Price) (queue : OrderPointers) (levels : Levels) :
    (setLevel p queue levels).map Prod.fst = levels.map Prod.fst := by
  induction levels with
  | nil => rfl
  | cons l0 rest ih =>
    obtain ⟨k, q0⟩ := l0
    by_cases hk : k = p <;> simp [setLevel, hk, ih]

theorem sorted_iff_keys {before : Price → Price → Bool} (levels : Levels) :
    levels.Pairwise (fun x y => before x.1 y.1 = true) ↔
      (levels.map Prod.fst).Pairwise (fun a b => before a b = true) := by
  rw [List.pairwise_map]

theorem setLevel_sorted {before : Price → Price → Bool} {p : Price}
    {queue : OrderPointers} {levels : Levels}
    (hs : levels.Pairwise (fun x y => before x.1 y.1 = true)) :
    (setLevel p queue levels).Pairwise (fun x y => before x.1 y.1 = true) := by
  rw [sorted_iff_keys] at hs ⊢
  rw [setLevel_keys]; exact hs

theorem mem_pushBackAt {before : Price → Price → Bool} {p : Price} {o : Order}
    {levels : Levels} {l : Price × OrderPointers}
    (h : l ∈ pushBackAt before p o levels) :
    l ∈ levels ∨ (l.1 = p ∧ ((l.2 = [o]) ∨ ∃ q, (p, q) ∈ levels ∧ l.2 = q ++ [o])) := by
  induction levels with
  | nil =>
    simp only [pushBackAt, List.mem_singleton] at h
    subst h; simp
  | cons l0 rest ih =>
    obtain ⟨k, q0⟩ := l0
    by_cases hk : k = p
    · simp only [pushBackAt, hk, if_true, List.mem_cons] at h
      rcases h with h | h
      · subst h; subst hk
        exact Or.inr ⟨rfl, Or.inr ⟨q0, List.mem_cons_self _ _, rfl⟩⟩
      · exact Or.inl (List.mem_cons_of_mem _ h)
    · by_cases hbf : before p k = true
      · simp only [pushBackAt, hk, if_false, hbf, if_true, List.mem_cons] at h
        rcases h with h | h | h
        · subst h; exact Or.inr ⟨rfl, Or.inl rfl⟩
        · subst h; exact Or.inl (List.mem_cons_self _ _)
        · exact Or.inl (List.mem_cons_of_mem _ h)
      · simp only [pushBackAt, hk, if_false, hbf, Bool.false_eq_true, List.mem_cons] at h
        rcases h with h | h
        · subst h; exact Or.inl (List.mem_cons_self _ _)
        · rcases ih h with h1 | ⟨h1, h2⟩
          · exact Or.inl (List.mem_cons_of_mem _ h1)
          · refine Or.inr ⟨h1, h2.elim Or.inl ?_⟩
            rintro ⟨q, hq, e⟩
            exact Or.inr ⟨q, List.mem_cons_of_mem _ hq, e⟩

theorem pushBackAt_sorted {before : Price → Price → Bool} (hb : KeyOrder before)
    {p : Price} {o : Order} {levels : Levels}
    (hs : levels.Pairwise (fun x y => before x.1 y.1 = true)) :
    (pushBackAt before p o levels).Pairwise (fun x y => before x.1 y.1 = true) := by
  induction levels with
  | nil => simp [pushBackAt]
  | cons l0 rest ih =>
    obtain ⟨k, q0⟩ := l0
    have hs1 := List.pairwise_cons.1 hs
    by_cases hk : k = p
    · simp only [pushBackAt, hk, if_true]
      subst hk
      exact List.pairwise_cons.2 ⟨hs1.1, hs1.2⟩
    · by_cases hbf : before p k = true
      · simp only [pushBackAt, hk, if_false, hbf, if_true]
        refine List.pairwise_cons.2 ⟨?_, hs⟩
        intro l hl
        rcases List.mem_cons.1 hl with h | h
        · subst h; exact hbf
        · exact hb.trans _ _ _ hbf (hs1.1 l h)
      · simp only [pushBackAt, hk, if_false, hbf]
        refine List.pairwise_cons.2 ⟨?_, ih hs1.2⟩
        intro l hl
        rcases mem_pushBackAt hl with h | ⟨h, _⟩
        · exact hs1.1 l h
        · simp only [h]
          exact hb.total p k (Ne.symm hk) (by simpa using hbf)

theorem queued_pushBackAt_perm (before : Price → Price → Bool) (p : Price) (o : Order)
    (levels : Levels) :
    (queued (pushBackAt before p o levels)).Perm (o :: queued levels) := by
  induction levels with
  | nil => simp [pushBackAt]
  | cons l0 rest ih =>
    obtain ⟨k, q0⟩ := l0
    by_cases hk : k = p
    · simp only [pushBackAt, hk, if_true, queued_cons]
      have : (q0 ++ [o] ++ queued rest).Perm (o :: (q0 ++ queued rest)) := by
        rw [List.append_assoc]
        exact (List.perm_middle).trans (by simp)
      exact this
    · by_cases hbf : before p k = true
      · simp [pushBackAt, hk, hbf]
      · simp only [pushBackAt, hk, if_false, hbf, queued_cons]
        exact (List.Perm.append_left q0 ih).trans List.perm_middle

/-! ## The id index -/

theorem findOrder_mem {k : OrderId} {o : Order} {orders : List (OrderId × Order)}
    (h : findOrder k orders = some o) : (k, o) ∈ orders := by
  induction orders with
  | nil => simp [findOrder] at h
  | cons e rest ih =>
    obtain ⟨k0, o0⟩ := e
    by_cases hk : k0 = k
    · simp only [findOrder, hk, if_true, Option.some.injEq] at h
      subst hk; subst h; exact List.mem_cons_self _ _
    · simp only [findOrder, hk, if_false] at h
      exact List.mem_cons_of_mem _ (ih h)

theorem findOrder_eq_none {k : OrderId} {orders : List (OrderId × Order)} :
    findOrder k orders = none ↔ k ∉ orders.map Prod.fst := by
  induction orders with
  | nil => simp [findOrder]
  | cons e rest ih =>
    obtain ⟨k0, o0⟩ := e
    by_cases hk : k0 = k
    · simp [findOrder, hk]
    · simp [findOrder, hk, ih, Ne.symm hk]

theorem dropId_nil (k : OrderId) : dropId k [] = [] := rfl

theorem dropId_cons_same {k : OrderId} {o : Order} (h : o.orderId_ = k)
    (l : List Order) : dropId k (o :: l) = dropId k l := by
  simp [dropId, List.filter_cons, h]

theorem dropId_cons_other {k : OrderId} {o : Order} (h : o.orderId_ ≠ k)
    (l : List Order) : dropId k (o :: l) = o :: dropId k l := by
  simp [dropId, List.filter_cons, h]

theorem eraseOrder_entries (k : OrderId) (l : List Order) :
    eraseOrder k (l.map entryOf) = (dropId k l).map entryOf := by
  unfold eraseOrder dropId
  rw [List.filter_map]
  rfl

theorem dropId_of_absent {k : OrderId} {l : List Order}
    (h : k ∉ l.map (fun o => o.orderId_)) : dropId k l = l := by
  apply List.filter_eq_self.2
  intro o ho
  simp only [decide_eq_true_eq]
  intro e
  exact h (List.mem_map.2 ⟨o, ho, e⟩)

theorem dropId_append (k : OrderId) (l1 l2 : List Order) :
    dropId k (l1 ++ l2) = dropId k l1 ++ dropId k l2 := by
  simp [dropId, List.filter_append]

theorem dropId_sublist (k : OrderId) (l : List Order) : (dropId k l).Sublist l :=
  List.filter_sublist _

theorem not_mem_ids_dropId (k : OrderId) (l : List Order) :
    k ∉ (dropId k l).map (fun o => o.orderId_) := by
  simp [dropId, List.mem_map, List.mem_filter]

theorem eraseNode_eq_dropId {k : OrderId} {q : OrderPointers}
    (hn : (q.map (fun o => o.orderId_)).Nodup) (hm : k ∈ q.map (fun o => o.orderId_)) :
    eraseNode k q = some (dropId k q) := by
  induction q with
  | nil => simp at hm
  | cons o rest ih =>
    rw [List.map_cons] at hn
    have hn1 := List.nodup_cons.1 hn
    by_cases hk : o.orderId_ = k
    · have : k ∉ rest.map (fun o => o.orderId_) := by rw [← hk]; exact hn1.1
      rw [dropId_cons_same hk, dropId_of_absent this]
      simp [eraseNode, hk]
    · have hm1 : k ∈ rest.map (fun o => o.orderId_) := by
        simp only [List.map_cons, List.mem_cons] at hm
        rcases hm with h | h
        · exact absurd h.symm hk
        · exact h
      rw [dropId_cons_other hk]
      simp [eraseNode, hk, ih hn1.2 hm1]

theorem same_of_same_id {l : List Order} (hn : (l.map (fun o => o.orderId_)).Nodup)
    {o1 o2 : Order} (h1 : o1 ∈ l) (h2 : o2 ∈ l) (e : o1.orderId_ = o2.orderId_) :
    o1 = o2 :=
  List.inj_on_of_nodup_map hn h1 h2 e

theorem sublist_queued {l : Price × OrderPointers} {levels : Levels} (h : l ∈ levels) :
    l.2.Sublist (queued levels) := by
  induction levels with
  | nil => simp at h
  | cons l0 rest ih =>
    obtain ⟨k, q⟩ := l0
    rcases List.mem_cons.1 h with h | h
    · subst h; exact List.sublist_append_left _ _
    · exact (ih h).trans (List.sublist_append_right _ _)

/-- Removing the order `orderId` from the queue of its price on one side. -/
theorem queued_remove {before : Price → Price → Bool} (hb : KeyOrder before)
    {levels : Levels} (hs : levels.Pairwise (fun x y => before x.1 y.1 = true))
    {p : Price} {q : OrderPointers} (k : OrderId) (hq : (p, q) ∈ levels)
    (hother : ∀ l ∈ levels, l.1 ≠ p → ∀ o ∈ l.2, o.orderId_ ≠ k) :
    queued (storeOrErase p (dropId k q) levels) = dropId k (queued levels) := by
  unfold storeOrErase
  induction levels with
  | nil => simp at hq
  | cons l0 rest ih =>
    obtain ⟨k0, q0⟩ := l0
    have hs1 := List.pairwise_cons.1 hs
    by_cases hk : k0 = p
    · subst hk
      have hq0 : q = q0 := by
        have := levelAt_of_mem hb hs hq
        simpa [levelAt] using this.symm
      subst hq0
      have hrest : dropId k (queued rest) = queued rest := by
        apply dropId_of_absent
        intro hm
        obtain ⟨o, ho, e⟩ := List.mem_map.1 hm
        obtain ⟨l, hl, hol⟩ := mem_queued.1 ho
        exact hother l (List.mem_cons_of_mem _ hl) (sorted_head_ne hb hs l hl) o hol e
      by_cases he : (dropId k q).isEmpty = true
      · simp only [he, if_true, eraseLevel_head hb hs, queued_cons, dropId_append, hrest]
        simp [List.isEmpty_iff.1 he]
      · simp only [he, Bool.false_eq_true, if_false, setLevel, if_true, queued_cons,
          dropId_append, hrest]
    · have hq1 : (p, q) ∈ rest := by
        rcases List.mem_cons.1 hq with h | h
        · cases h; exact absurd rfl hk
        · exact h
      have ih1 := ih hs1.2 hq1 (fun l hl => hother l (List.mem_cons_of_mem _ hl))
      have hq0 : dropId k q0 = q0 := by
        apply dropId_of_absent
        intro hm
        obtain ⟨o, ho, e⟩ := List.mem_map.1 hm
        exact hother (k0, q0) (List.mem_cons_self _ _) hk o ho e
      by_cases he : (dropId k q).isEmpty = true
      · simp only [he, if_true] at ih1 ⊢
        simp only [eraseLevel, List.filter_cons, ne_eq, hk, not_false_eq_true,
          decide_True, if_true, queued_cons, dropId_append, hq0]
        simp only [eraseLevel] at ih1
        rw [ih1]
      · simp only [he, Bool.false_eq_true, if_false] at ih1 ⊢
        simp only [setLevel, hk, if_false, queued_cons, dropId_append, hq0, ih1]

theorem mem_storeOrErase {p : Price} {queue : OrderPointers} {levels : Levels}
    {l : Price × OrderPointers} (h : l ∈ storeOrErase p queue levels) :
    l.1 ∈ levels.map Prod.fst ∧ (l ∈ levels ∨ (l = (p, queue) ∧ queue ≠ [])) := by
  unfold storeOrErase at h
  by_cases he : queue.isEmpty = true
  · simp only [he, if_true, eraseLevel] at h
    have hl := (List.mem_filter.1 h).1
    exact ⟨List.mem_map_of_mem _ hl, Or.inl hl⟩
  · simp only [he, Bool.false_eq_true, if_false] at h
    have := mem_setLevel h
    refine ⟨this.1, this.2.elim Or.inl (fun e => Or.inr ⟨e, ?_⟩)⟩
    intro hq; exact he (List.isEmpty_iff.2 hq)

theorem storeOrErase_sorted {before : Price → Price → Bool} {p : Price}
    {queue : OrderPointers} {levels : Levels}
    (hs : levels.Pairwise (fun x y => before x.1 y.1 = true)) :
    (storeOrErase p queue levels).Pairwise (fun x y => before x.1 y.1 = true) := by
  unfold storeOrErase
  split
  · exact eraseLevel_sorted hs
  · exact setLevel_sorted hs

/-- Cancelling a queued order on its side: the lookups succeed and the side keeps its
shape, losing exactly that order. -/
theorem side_remove {before : Price → Price → Bool} (hb : KeyOrder before) {side : Side}
    {levels : Levels} (hok : SideOk before side levels)
    (hn : ((queued levels).map (fun o => o.orderId_)).Nodup)
    {o : Order} (ho : o ∈ queued levels) :
    ∃ q, levelAt o.price_ levels = some q ∧
      eraseNode o.orderId_ q = some (dropId o.orderId_ q) ∧
      SideOk before side (storeOrErase o.price_ (dropId o.orderId_ q) levels) ∧
      queued (storeOrErase o.price_ (dropId o.orderId_ q) levels) =
        dropId o.orderId_ (queued levels) ∧
      (∀ l ∈ storeOrErase o.price_ (dropId o.orderId_ q) levels,
        l.1 ∈ levels.map Prod.fst) ∧
      (NoEmptyLevel levels →
        NoEmptyLevel (storeOrErase o.price_ (dropId o.orderId_ q) levels)) := by
  obtain ⟨l, hl, hol⟩ := mem_queued.1 ho
  obtain ⟨p, q⟩ := l
  have hp : o.price_ = p := (hok.keyed _ hl o hol).2
  subst hp
  have hqn : (q.map (fun o => o.orderId_)).Nodup :=
    hn.sublist ((sublist_queued hl).map _)
  refine ⟨q, levelAt_of_mem hb hok.sorted hl,
    eraseNode_eq_dropId hqn (List.mem_map_of_mem _ hol), ⟨storeOrErase_sorted hok.sorted, ?_⟩,
    ?_, fun l hl1 => (mem_storeOrErase hl1).1, ?_⟩
  · intro l1 hl1 o1 ho1
    rcases (mem_storeOrErase hl1).2 with h | ⟨h, _⟩
    · exact hok.keyed l1 h o1 ho1
    · subst h
      exact hok.keyed _ hl o1 ((dropId_sublist _ _).subset ho1)
  · apply queued_remove hb hok.sorted _ hl
    intro l1 hl1 hne o1 ho1 e
    have h1 : o1 ∈ queued levels := mem_queued.2 ⟨l1, hl1, ho1⟩
    have := same_of_same_id hn h1 ho e
    subst this
    exact hne (hok.keyed l1 hl1 o1 ho1).2.symm
  · intro hfull l1 hl1
    rcases (mem_storeOrErase hl1).2 with h | ⟨h, hne⟩
    · exact hfull l1 h
    · subst h; exact hne

theorem coupled_mem_orders {ob : Orderbook} (h : Coupled ob) {k : OrderId} {o : Order} :
    (k, o) ∈ ob.orders_ ↔ o.orderId_ = k ∧ o ∈ resting ob := by
  rw [h.index.mem_iff, List.mem_map]
  constructor
  · rintro ⟨o1, ho1, e⟩
    simp only [entryOf, Prod.mk.injEq] at e
    obtain ⟨e1, e2⟩ := e
    subst e2
    exact ⟨e1, ho1⟩
  · rintro ⟨e, ho⟩
    exact ⟨o, ho, by simp [entryOf, e]⟩

theorem coupled_keys {ob : Orderbook} (h : Coupled ob) :
    (ob.orders_.map Prod.fst).Perm ((resting ob).map (fun o => o.orderId_)) := by
  have := h.index.map Prod.fst
  simpa [List.map_map, entryOf, Function.comp_def] using this

theorem coupled_findOrder_none {ob : Orderbook} (h : Coupled ob) {k : OrderId} :
    findOrder k ob.orders_ = none ↔ k ∉ (resting ob).map (fun o => o.orderId_) := by
  rw [findOrder_eq_none, (coupled_keys h).mem_iff]

theorem findOrder_eraseOrder (k : OrderId) (orders : List (OrderId × Order)) :
    findOrder k (eraseOrder k orders) = none := by
  rw [findOrder_eq_none]
  simp [eraseOrder, List.mem_map, List.mem_filter]

/-- The result of cancelling an id that is in the index, in a coupled book. -/
theorem cancel_present {ob : Orderbook} (h : Coupled ob) {k : OrderId} {o : Order}
    (hf : findOrder k ob.orders_ = some o) :
    ∃ ob1, CancelOrderInternal ob k = .ok ob1 ∧ Coupled ob1 ∧
      queued ob1.bids_ = dropId k (queued ob.bids_) ∧
      queued ob1.asks_ = dropId k (queued ob.asks_) ∧
      (∀ l ∈ ob1.bids_, l.1 ∈ ob.bids_.map Prod.fst) ∧
      (∀ l ∈ ob1.asks_, l.1 ∈ ob.asks_.map Prod.fst) ∧
      (NoEmptyLevel ob.bids_ → NoEmptyLevel ob1.bids_) ∧
      (NoEmptyLevel ob.asks_ → NoEmptyLevel ob1.asks_) ∧
      ob1.orders_ = eraseOrder k ob.orders_ ∧
      ob1.data_ = OnOrderCancelled ob.data_ o := by
  obtain ⟨hid, hrest⟩ := (coupled_mem_orders h).1 (findOrder_mem hf)
  subst hid
  have hids := h.ids
  unfold resting at hids hrest
  rw [List.map_append] at hids
  have hnb := (List.nodup_append.1 hids).1
  have hna := (List.nodup_append.1 hids).2.1
  have hdisj := (List.nodup_append.1 hids).2.2
  have index_after : ∀ ob1 : Orderbook, ob1.orders_ = eraseOrder o.orderId_ ob.orders_ →
      resting ob1 = dropId o.orderId_ (resting ob) →
      ob1.orders_.Perm ((resting ob1).map entryOf) := by
    intro ob1 e1 e2
    rw [e1, e2, ← eraseOrder_entries]
    exact h.index.filter _
  have ids_after : ∀ ob1 : Orderbook, resting ob1 = dropId o.orderId_ (resting ob) →
      ((resting ob1).map (fun o => o.orderId_)).Nodup := by
    intro ob1 e2
    rw [e2]
    exact h.ids.sublist ((dropId_sublist _ _).map _)
  by_cases hside : o.side_ = Side.Sell
  · have hoa : o ∈ queued ob.asks_ := by
      rcases List.mem_append.1 hrest with hb1 | ha1
      · obtain ⟨l, hl, hol⟩ := mem_queued.1 hb1
        have := (h.bids.keyed l hl o hol).1
        rw [hside] at this; cases this
      · exact ha1
    have hbids : dropId o.orderId_ (queued ob.bids_) = queued ob.bids_ := by
      apply dropId_of_absent
      intro hm
      exact hdisj hm (List.mem_map_of_mem _ hoa)
    obtain ⟨q, h1, h2, h3, h4, h5, h6⟩ := side_remove keyOrder_ask h.asks hna hoa
    have hres : resting (Orderbook.mk (OnOrderCancelled ob.data_ o) ob.bids_
        (storeOrErase o.price_ (dropId o.orderId_ q) ob.asks_)
        (eraseOrder o.orderId_ ob.orders_)) = dropId o.orderId_ (resting ob) := by
      simp only [resting, dropId_append, h4, hbids]
    refine ⟨Orderbook.mk (OnOrderCancelled ob.data_ o) ob.bids_
        (storeOrErase o.price_ (dropId o.orderId_ q) ob.asks_)
        (eraseOrder o.orderId_ ob.orders_), ?_,
      ⟨h.bids, h3, ids_after _ hres, index_after _ rfl hres⟩,
      hbids.symm, h4, fun l hl => List.mem_map_of_mem _ hl, h5, id, h6, rfl, by simp only []⟩
    simp only [CancelOrderInternal, hf, hside, if_true, h1, h2]
  · have hob : o ∈ queued ob.bids_ := by
      rcases List.mem_append.1 hrest with hb1 | ha1
      · exact hb1
      · obtain ⟨l, hl, hol⟩ := mem_queued.1 ha1
        exact absurd (h.asks.keyed l hl o hol).1 hside
    have hasks : dropId o.orderId_ (queued ob.asks_) = queued ob.asks_ := by
      apply dropId_of_absent
      intro hm
      exact hdisj (List.mem_map_of_mem _ hob) hm
    obtain ⟨q, h1, h2, h3, h4, h5, h6⟩ := side_remove keyOrder_bid h.bids hnb hob
    have hres : resting (Orderbook.mk (OnOrderCancelled ob.data_ o)
        (storeOrErase o.price_ (dropId o.orderId_ q) ob.bids_) ob.asks_
        (eraseOrder o.orderId_ ob.orders_)) = dropId o.orderId_ (resting ob) := by
      simp only [resting, dropId_append, h4, hasks]
    refine ⟨Orderbook.mk (OnOrderCancelled ob.data_ o)
        (storeOrErase o.price_ (dropId o.orderId_ q) ob.bids_) ob.asks_
        (eraseOrder o.orderId_ ob.orders_), ?_,
      ⟨h3, h.asks, ids_after _ hres, index_after _ rfl hres⟩,
      h4, hasks.symm, h5, fun l hl => List.mem_map_of_mem _ hl, h6, id, rfl, by simp only []⟩
    simp only [CancelOrderInternal, hf, hside, if_false, h1, h2]

/-! ## One pass of the matching loop -/

theorem fill_ok {o : Order} {quantity : Quantity} (h : quantity ≤ o.remainingQuantity_) :
    o.Fill quantity = .ok (filled o quantity) := by
  simp [Order.Fill, filled, Nat.not_lt.2 h]

/-- The body of the inner loop never throws: both fills are within the remaining
quantities. -/
theorem matchFronts_eq (ob : Orderbook) (trades : Trades)
    (bidPrice : Price) (bid : Order) (bids : OrderPointers) (bidLevels : Levels)
    (askPrice : Price) (ask : Order) (asks : OrderPointers) (askLevels : Levels) :
    matchFronts ob trades bidPrice bid bids bidLevels askPrice ask asks askLevels =
      .ok (settleFronts ob trades (min bid.remainingQuantity_ ask.remainingQuantity_)
        bidPrice (filled bid (min bid.remainingQuantity_ ask.remainingQuantity_)) bids
        bidLevels
        askPrice (filled ask (min bid.remainingQuantity_ ask.remainingQuantity_)) asks
        askLevels) := by
  have hb := fill_ok (Nat.min_le_left bid.remainingQuantity_ ask.remainingQuantity_)
  have ha := fill_ok (Nat.min_le_right bid.remainingQuantity_ ask.remainingQuantity_)
  simp only [matchFronts, hb, ha]

theorem syncOrder_entries (o : Order) (l : List Order) :
    syncOrder o (l.map entryOf) = (putOrder o l).map entryOf := by
  unfold syncOrder putOrder
  rw [List.map_map, List.map_map]
  apply List.map_congr_left
  intro x _
  by_cases hx : x.orderId_ = o.orderId_
  · simp [entryOf, hx]
  · simp [entryOf, hx]

theorem putOrder_ids (o : Order) (l : List Order) :
    (putOrder o l).map (fun x => x.orderId_) = l.map (fun x => x.orderId_) := by
  unfold putOrder
  rw [List.map_map]
  apply List.map_congr_left
  intro x _
  by_cases hx : x.orderId_ = o.orderId_ <;> simp [hx]

theorem putOrder_of_absent {o : Order} {l : List Order}
    (h : o.orderId_ ∉ l.map (fun x => x.orderId_)) : putOrder o l = l := by
  unfold putOrder
  conv_rhs => rw [← List.map_id l]
  apply List.map_congr_left
  intro x hx
  have : x.orderId_ ≠ o.orderId_ := fun e => h (List.mem_map.2 ⟨x, hx, e⟩)
  simp [this]

theorem putOrder_append (o : Order) (l1 l2 : List Order) :
    putOrder o (l1 ++ l2) = putOrder o l1 ++ putOrder o l2 := by
  simp [putOrder]

theorem putOrder_cons_same {o x : Order} (h : x.orderId_ = o.orderId_) (l : List Order) :
    putOrder o (x :: l) = o :: putOrder o l := by
  simp [putOrder, h]

theorem filled_id (o : Order) (q : Quantity) : (filled o q).orderId_ = o.orderId_ := rfl

/-- Replacing the front order of a list with unique ids by its filled state. -/
theorem putOrder_front {x : Order} {l : List Order} (q : Quantity)
    (hn : ((x :: l).map (fun o => o.orderId_)).Nodup) :
    putOrder (filled x q) (x :: l) = filled x q :: l := by
  rw [List.map_cons] at hn
  rw [putOrder_cons_same (filled_id x q).symm, putOrder_of_absent]
  rw [filled_id]; exact (List.nodup_cons.1 hn).1

theorem dropId_front {x : Order} {l : List Order} (q : Quantity)
    (hn : ((x :: l).map (fun o => o.orderId_)).Nodup) :
    dropId x.orderId_ (filled x q :: l) = l := by
  rw [List.map_cons] at hn
  rw [dropId_cons_same (filled_id x q), dropId_of_absent (List.nodup_cons.1 hn).1]

theorem putOrder_mid {x : Order} {l1 l2 : List Order} (q : Quantity)
    (hn : ((l1 ++ x :: l2).map (fun o => o.orderId_)).Nodup) :
    putOrder (filled x q) (l1 ++ x :: l2) = l1 ++ filled x q :: l2 := by
  rw [List.map_append] at hn
  have h := List.nodup_append.1 hn
  rw [putOrder_append, putOrder_front q h.2.1, putOrder_of_absent]
  rw [filled_id]
  intro hm
  exact h.2.2 hm (by simp)

theorem dropId_mid {x : Order} {l1 l2 : List Order} (q : Quantity)
    (hn : ((l1 ++ x :: l2).map (fun o => o.orderId_)).Nodup) :
    dropId x.orderId_ (l1 ++ filled x q :: l2) = l1 ++ l2 := by
  rw [List.map_append] at hn
  have h := List.nodup_append.1 hn
  rw [dropId_append, dropId_front q h.2.1, dropId_of_absent]
  intro hm
  exact h.2.2 hm (by simp)

theorem index_sync {orders : List (OrderId × Order)} {l : List Order}
    (h : orders.Perm (l.map entryOf)) (o : Order) :
    (syncOrder o orders).Perm ((putOrder o l).map entryOf) := by
  rw [← syncOrder_entries]
  exact h.map _

theorem index_erase {orders : List (OrderId × Order)} {l : List Order}
    (h : orders.Perm (l.map entryOf)) (k : OrderId) :
    (eraseOrder k orders).Perm ((dropId k l).map entryOf) := by
  rw [← eraseOrder_entries]
  exact h.filter _

theorem sideOk_settle {before : Price → Price → Bool} {side : Side} {p : Price}
    {x : Order} {Q : OrderPointers} {rest : Levels}
    (h : SideOk before side ((p, x :: Q) :: rest)) (q : Quantity) (f : Bool) :
    SideOk before side ((p, if f = true then Q else filled x q :: Q) :: rest) := by
  have hs := List.pairwise_cons.1 h.sorted
  refine ⟨List.pairwise_cons.2 ⟨hs.1, hs.2⟩, ?_⟩
  intro l hl o ho
  rcases List.mem_cons.1 hl with e | hl1
  · subst e
    have hx := h.keyed _ (List.mem_cons_self _ _)
    cases f
    · simp only [Bool.false_eq_true, if_false, List.mem_cons] at ho
      rcases ho with e | ho1
      · subst e; exact hx x (List.mem_cons_self _ _)
      · exact hx o (List.mem_cons_of_mem _ ho1)
    · simp only [if_true] at ho
      exact hx o (List.mem_cons_of_mem _ ho)
  · exact h.keyed l (List.mem_cons_of_mem _ hl1) o ho

/-- The index after one pass of the inner loop, on the flattened queues: `b` is the
front bid, `a` the front ask, `bf` and `af` tell whether each was filled. -/
theorem index_settle {orders : List (OrderId × Order)} {b a : Order} {X Y : List Order}
    (q : Quantity) (bf af : Bool)
    (hn : (((b :: X) ++ (a :: Y)).map (fun o : Order => o.orderId_)).Nodup)
    (hidx : orders.Perm (((b :: X) ++ (a :: Y)).map entryOf)) :
    ((((if bf = true then X else filled b q :: X) ++
        (if af = true then Y else filled a q :: Y)).map
        (fun o : Order => o.orderId_)).Nodup) ∧
    (if af = true then eraseOrder (filled a q).orderId_
        (if bf = true then eraseOrder (filled b q).orderId_
          (syncOrder (filled a q) (syncOrder (filled b q) orders))
         else syncOrder (filled a q) (syncOrder (filled b q) orders))
     else
        (if bf = true then eraseOrder (filled b q).orderId_
          (syncOrder (filled a q) (syncOrder (filled b q) orders))
         else syncOrder (filled a q) (syncOrder (filled b q) orders))).Perm
      (((if bf = true then X else filled b q :: X) ++
        (if af = true then Y else filled a q :: Y)).map entryOf) := by
  have hn0 : ((b :: (X ++ a :: Y)).map (fun o : Order => o.orderId_)).Nodup := by
    simpa using hn
  have i1 := index_sync hidx (filled b q)
  rw [List.cons_append, putOrder_front q hn0] at i1
  have hn1 : (((filled b q :: X) ++ a :: Y).map (fun o : Order => o.orderId_)).Nodup := by
    simpa [filled_id] using hn
  have i2 := index_sync i1 (filled a q)
  rw [← List.cons_append, putOrder_mid q hn1] at i2
  have hn2 : (((filled b q :: X) ++ filled a q :: Y).map
      (fun o : Order => o.orderId_)).Nodup := by
    simpa [filled_id] using hn
  have hn2a : (((filled b q :: X) ++ a :: Y).map (fun o : Order => o.orderId_)).Nodup :=
    hn1
  cases bf
  · -- the bid stays
    cases af
    · simp only [Bool.false_eq_true, if_false]
      exact ⟨hn2, i2⟩
    · simp only [Bool.false_eq_true, if_false, if_true]
      have i3 := index_erase i2 (filled a q).orderId_
      rw [filled_id, dropId_mid q hn1] at i3
      rw [filled_id]
      exact ⟨hn2.sublist (List.Sublist.map _ (by simp)), i3⟩
  · -- the bid is filled
    have i3 := index_erase i2 (filled b q).orderId_
    have hn2b : (([] ++ b :: (X ++ filled a q :: Y)).map
        (fun o : Order => o.orderId_)).Nodup := by
      simpa [filled_id] using hn
    have e3 : filled b q :: X ++ filled a q :: Y = [] ++ filled b q :: (X ++ filled a q :: Y) := by
      simp
    rw [filled_id, e3, dropId_mid q hn2b, List.nil_append] at i3
    have hn3 : ((X ++ filled a q :: Y).map (fun o : Order => o.orderId_)).Nodup :=
      hn2.sublist (List.Sublist.map _ (by simp))
    have hn3a : ((X ++ a :: Y).map (fun o : Order => o.orderId_)).Nodup := by
      simpa [filled_id] using hn3
    cases af
    · simp only [Bool.false_eq_true, if_false, if_true]
      rw [filled_id]
      exact ⟨hn3, i3⟩
    · simp only [if_true]
      have i4 := index_erase i3 (filled a q).orderId_
      rw [filled_id, dropId_mid q hn3a] at i4
      rw [filled_id, filled_id]
      exact ⟨hn3.sublist (List.Sublist.map _ (by simp)), i4⟩

/-- The coupling of the containers survives one pass of the inner loop. -/
theorem settle_coupled {ob : Orderbook} (h : Coupled ob) (trades : Trades) (q : Quantity)
    {bp : Price} {b : Order} {B : OrderPointers} {bs : Levels}
    {ap : Price} {a : Order} {A : OrderPointers} {as : Levels}
    (hb : ob.bids_ = (bp, b :: B) :: bs) (ha : ob.asks_ = (ap, a :: A) :: as) :
    Coupled (settleFronts ob trades q bp (filled b q) B bs ap (filled a q) A as).1 := by
  have hbids := h.bids
  have hasks := h.asks
  have hids := h.ids
  have hidx := h.index
  rw [hb] at hbids
  rw [ha] at hasks
  have hres : resting ob = (b :: (B ++ queued bs)) ++ (a :: (A ++ queued as)) := by
    simp [resting, hb, ha]
  rw [hres] at hids hidx
  have key := index_settle q (filled b q).IsFilled (filled a q).IsFilled hids hidx
  refine ⟨sideOk_settle hbids q _, sideOk_settle hasks q _, ?_, ?_⟩
  · have := key.1
    cases hbf : (filled b q).IsFilled <;> cases haf : (filled a q).IsFilled <;>
      simp only [hbf, haf, Bool.false_eq_true, if_false, if_true] at this <;>
      simpa [resting, settleFronts, hbf, haf] using this
  · have := key.2
    cases hbf : (filled b q).IsFilled <;> cases haf : (filled a q).IsFilled <;>
      simp only [hbf, haf, Bool.false_eq_true, if_false, if_true] at this <;>
      simpa [resting, settleFronts, hbf, haf] using this

/-! ## The inner loop -/

theorem matchLevel_pass (n : Nat) {ob : Orderbook} (trades : Trades)
    {bp : Price} {b : Order} {B : OrderPointers} {bs : Levels}
    {ap : Price} {a : Order} {A : OrderPointers} {as : Levels}
    (hb : ob.bids_ = (bp, b :: B) :: bs) (ha : ob.asks_ = (ap, a :: A) :: as) :
    matchLevel (n + 1) ob trades =
      matchLevel n
        (settleFronts ob trades (min b.remainingQuantity_ a.remainingQuantity_)
          bp (filled b (min b.remainingQuantity_ a.remainingQuantity_)) B bs
          ap (filled a (min b.remainingQuantity_ a.remainingQuantity_)) A as).1
        (settleFronts ob trades (min b.remainingQuantity_ a.remainingQuantity_)
          bp (filled b (min b.remainingQuantity_ a.remainingQuantity_)) B bs
          ap (filled a (min b.remainingQuantity_ a.remainingQuantity_)) A as).2 := by
  rw [matchLevel]
  simp only [hb, ha, matchFronts_eq]

theorem matchLevel_done (fuel : Nat) {ob : Orderbook} (trades : Trades)
    (h : bestQueue ob.bids_ = [] ∨ bestQueue ob.asks_ = []) :
    matchLevel fuel ob trades = .ok (ob, trades) := by
  rw [matchLevel]
  rcases hbq : ob.bids_ with _ | ⟨⟨bp, _ | ⟨b, B⟩⟩, bs⟩ <;>
  rcases haq : ob.asks_ with _ | ⟨⟨ap, _ | ⟨a, A⟩⟩, as⟩ <;>
  simp [hbq, haq, bestQueue] at h ⊢

theorem fronts_of_bestQueue {ob : Orderbook}
    (h : ¬ (bestQueue ob.bids_ = [] ∨ bestQueue ob.asks_ = [])) :
    ∃ bp b B bs ap a A as, ob.bids_ = (bp, b :: B) :: bs ∧ ob.asks_ = (ap, a :: A) :: as := by
  rcases hbq : ob.bids_ with _ | ⟨⟨bp, _ | ⟨b, B⟩⟩, bs⟩ <;>
  rcases haq : ob.asks_ with _ | ⟨⟨ap, _ | ⟨a, A⟩⟩, as⟩ <;>
  simp [hbq, haq, bestQueue] at h ⊢

theorem one_filled (b a : Order) :
    (filled b (min b.remainingQuantity_ a.remainingQuantity_)).IsFilled = true ∨
    (filled a (min b.remainingQuantity_ a.remainingQuantity_)).IsFilled = true := by
  have key : ∀ x y : Nat, x - min x y = 0 ∨ y - min x y = 0 := by
    intro x y; omega
  simp only [Order.IsFilled, filled, beq_iff_eq]
  exact key _ _

theorem settle_bids (ob : Orderbook) (trades : Trades) (q : Quantity)
    (bp : Price) (b1 : Order) (B : OrderPointers) (bs : Levels)
    (ap : Price) (a1 : Order) (A : OrderPointers) (as : Levels) :
    (settleFronts ob trades q bp b1 B bs ap a1 A as).1.bids_ =
      (bp, if b1.IsFilled = true then B else b1 :: B) :: bs := rfl

theorem settle_asks (ob : Orderbook) (trades : Trades) (q : Quantity)
    (bp : Price) (b1 : Order) (B : OrderPointers) (bs : Levels)
    (ap : Price) (a1 : Order) (A : OrderPointers) (as : Levels) :
    (settleFronts ob trades q bp b1 B bs ap a1 A as).1.asks_ =
      (ap, if a1.IsFilled = true then A else a1 :: A) :: as := rfl

/-- The inner loop returns, keeps every property that each pass keeps, and leaves one
of the two best queues empty. -/
theorem matchLevel_spec {P : Orderbook → Trades → Prop}
    (hstep : ∀ ob trades bp b B bs ap a A as, P ob trades →
      ob.bids_ = (bp, b :: B) :: bs → ob.asks_ = (ap, a :: A) :: as →
      P (settleFronts ob trades (min b.remainingQuantity_ a.remainingQuantity_)
          bp (filled b (min b.remainingQuantity_ a.remainingQuantity_)) B bs
          ap (filled a (min b.remainingQuantity_ a.remainingQuantity_)) A as).1
        (settleFronts ob trades (min b.remainingQuantity_ a.remainingQuantity_)
          bp (filled b (min b.remainingQuantity_ a.remainingQuantity_)) B bs
          ap (filled a (min b.remainingQuantity_ a.remainingQuantity_)) A as).2) :
    ∀ (fuel : Nat) (ob : Orderbook) (trades : Trades), P ob trades →
      (bestQueue ob.bids_).length + (bestQueue ob.asks_).length ≤ fuel →
      ∃ r, matchLevel fuel ob trades = .ok r ∧ P r.1 r.2 ∧
        (bestQueue r.1.bids_ = [] ∨ bestQueue r.1.asks_ = []) := by
  intro fuel
  induction fuel with
  | zero =>
    intro ob trades hP hf
    have hd : bestQueue ob.bids_ = [] ∨ bestQueue ob.asks_ = [] := by
      left
      exact List.length_eq_zero.1 (by omega)
    exact ⟨_, matchLevel_done 0 trades hd, hP, hd⟩
  | succ n ih =>
    intro ob trades hP hf
    by_cases hd : bestQueue ob.bids_ = [] ∨ bestQueue ob.asks_ = []
    · exact ⟨_, matchLevel_done _ trades hd, hP, hd⟩
    · obtain ⟨bp, b, B, bs, ap, a, A, as, hb, ha⟩ := fronts_of_bestQueue hd
      rw [matchLevel_pass n trades hb ha]
      apply ih _ _ (hstep ob trades bp b B bs ap a A as hP hb ha)
      rw [settle_bids, settle_asks]
      simp only [hb, ha, bestQueue, List.length_cons] at hf
      simp only [bestQueue]
      rcases one_filled b a with h1 | h1
      · rw [if_pos h1]
        split
        · omega
        · simp only [List.length_cons]; omega
      · rw [if_pos h1]
        split
        · omega
        · simp only [List.length_cons]; omega

/-- The inner loop keeps the keys of both sides and all levels but the best. -/
theorem matchLevel_shape {ob : Orderbook} {trades : Trades} {fuel : Nat}
    {r : Orderbook × Trades} (h : matchLevel fuel ob trades = .ok r)
    (hf : (bestQueue ob.bids_).length + (bestQueue ob.asks_).length ≤ fuel) :
    r.1.bids_.map Prod.fst = ob.bids_.map Prod.fst ∧ r.1.bids_.tail = ob.bids_.tail ∧
    r.1.asks_.map Prod.fst = ob.asks_.map Prod.fst ∧ r.1.asks_.tail = ob.asks_.tail := by
  have key := matchLevel_spec
    (P := fun o _ => o.bids_.map Prod.fst = ob.bids_.map Prod.fst ∧
      o.bids_.tail = ob.bids_.tail ∧
      o.asks_.map Prod.fst = ob.asks_.map Prod.fst ∧ o.asks_.tail = ob.asks_.tail)
    (by
      intro o t bp b B bs ap a A as hP hb ha
      rw [settle_bids, settle_asks]
      rw [hb, ha] at hP
      simpa using hP)
    fuel ob trades ⟨rfl, rfl, rfl, rfl⟩ hf
  obtain ⟨r1, e, hP, _⟩ := key
  rw [h] at e
  cases e
  exact hP

/-! ## The outer loop -/

theorem eraseEmptyBest_orders (ob : Orderbook) (bp ap : Price) (be ae : Bool) :
    (eraseEmptyBest ob bp ap be ae).orders_ = ob.orders_ := by
  cases be <;> cases ae <;> rfl

theorem eraseEmptyBest_bids (ob : Orderbook) (bp ap : Price) (be ae : Bool) :
    (eraseEmptyBest ob bp ap be ae).bids_ =
      if be = true then eraseLevel bp ob.bids_ else ob.bids_ := by
  cases be <;> cases ae <;> rfl

theorem eraseEmptyBest_asks (ob : Orderbook) (bp ap : Price) (be ae : Bool) :
    (eraseEmptyBest ob bp ap be ae).asks_ =
      if ae = true then eraseLevel ap ob.asks_ else ob.asks_ := by
  cases be <;> cases ae <;> rfl

theorem matchLoop_exit (fuel : Nat) {ob : Orderbook} (trades : Trades) (h : Settled ob) :
    matchLoop fuel ob trades = .ok (ob, trades) := by
  rw [matchLoop]
  unfold Settled at h
  rcases hbq : ob.bids_ with _ | ⟨⟨bp, B⟩, bs⟩ <;>
  rcases haq : ob.asks_ with _ | ⟨⟨ap, A⟩, as⟩ <;>
  simp [hbq, haq] at h ⊢
  intro h1
  exact absurd h (not_lt.2 h1)

theorem heads_of_not_settled {ob : Orderbook} (h : ¬ Settled ob) :
    ∃ bp B bs ap A as, ob.bids_ = (bp, B) :: bs ∧ ob.asks_ = (ap, A) :: as ∧ ¬ bp < ap := by
  unfold Settled at h
  rcases hbq : ob.bids_ with _ | ⟨⟨bp, B⟩, bs⟩ <;>
  rcases haq : ob.asks_ with _ | ⟨⟨ap, A⟩, as⟩ <;>
  simp [hbq, haq] at h ⊢
  exact h

theorem matchLoop_pass (n : Nat) {ob : Orderbook} (trades : Trades)
    {bp : Price} {B : OrderPointers} {bs : Levels}
    {ap : Price} {A : OrderPointers} {as : Levels}
    (hb : ob.bids_ = (bp, B) :: bs) (ha : ob.asks_ = (ap, A) :: as) (hx : ¬ bp < ap)
    {r : Orderbook × Trades} (hr : matchLevel (B.length + A.length) ob trades = .ok r) :
    matchLoop (n + 1) ob trades =
      matchLoop n (eraseEmptyBest r.1 bp ap (bestQueue r.1.bids_).isEmpty
        (bestQueue r.1.asks_).isEmpty) r.2 := by
  rw [matchLoop]
  simp only [hb, ha, hx, if_false, hr]

theorem head_of_shape {levels levels1 : Levels} {p : Price} {Q : OrderPointers}
    {rest : Levels} (h : levels = (p, Q) :: rest)
    (hk : levels1.map Prod.fst = levels.map Prod.fst) (ht : levels1.tail = levels.tail) :
    levels1 = (p, bestQueue levels1) :: rest := by
  subst h
  rcases levels1 with _ | ⟨⟨p1, Q1⟩, rest1⟩
  · simp at hk
  · simp only [List.map_cons, List.cons.injEq, List.tail_cons] at hk ht
    simp [bestQueue, hk.1, ht]

theorem eraseLevel_length_le (p : Price) (levels : Levels) :
    (eraseLevel p levels).length ≤ levels.length :=
  List.length_filter_le _ _

theorem eraseLevel_head_length (p : Price) (Q : OrderPointers) (rest : Levels) :
    (eraseLevel p ((p, Q) :: rest)).length ≤ rest.length := by
  simp only [eraseLevel, List.filter_cons, ne_eq, not_true_eq_false, decide_False,
    Bool.false_eq_true, if_false]
  exact List.length_filter_le _ _

/-- The outer loop returns, keeps every property that each of its passes keeps, and
ends in a state where no cross remains at the top of the book. -/
theorem matchLoop_spec {P : Orderbook → Trades → Prop}
    (hpass : ∀ ob trades bp B bs ap A as r, P ob trades →
      ob.bids_ = (bp, B) :: bs → ob.asks_ = (ap, A) :: as → ¬ bp < ap →
      matchLevel (B.length + A.length) ob trades = .ok r →
      P (eraseEmptyBest r.1 bp ap (bestQueue r.1.bids_).isEmpty
        (bestQueue r.1.asks_).isEmpty) r.2) :
    ∀ (fuel : Nat) (ob : Orderbook) (trades : Trades), P ob trades →
      ob.bids_.length + ob.asks_.length ≤ fuel →
      ∃ r, matchLoop fuel ob trades = .ok r ∧ P r.1 r.2 ∧ Settled r.1 := by
  intro fuel
  induction fuel with
  | zero =>
    intro ob trades hP hf
    have hs : Settled ob := by
      have : ob.bids_ = [] := List.length_eq_zero.1 (by omega)
      simp [Settled, this]
    exact ⟨_, matchLoop_exit 0 trades hs, hP, hs⟩
  | succ n ih =>
    intro ob trades hP hf
    by_cases hs : Settled ob
    · exact ⟨_, matchLoop_exit _ trades hs, hP, hs⟩
    · obtain ⟨bp, B, bs, ap, A, as, hb, ha, hx⟩ := heads_of_not_settled hs
      have hfuel : (bestQueue ob.bids_).length + (bestQueue ob.asks_).length
          ≤ B.length + A.length := by simp [hb, ha, bestQueue]
      obtain ⟨r, hr, _, hend⟩ :=
        matchLevel_spec (P := fun _ _ => True) (fun _ _ _ _ _ _ _ _ _ _ _ _ _ => trivial)
          (B.length + A.length) ob trades trivial hfuel
      obtain ⟨k1, t1, k2, t2⟩ := matchLevel_shape hr hfuel
      have hb1 := head_of_shape hb k1 t1
      have ha1 := head_of_shape ha k2 t2
      rw [matchLoop_pass n trades hb ha hx hr]
      apply ih _ _ (hpass ob trades bp B bs ap A as r hP hb ha hx hr)
      rw [eraseEmptyBest_bids, eraseEmptyBest_asks]
      simp only [hb, ha, List.length_cons] at hf
      have lb : (eraseLevel bp r.1.bids_).length ≤ bs.length := by
        rw [hb1]; exact eraseLevel_head_length _ _ _
      have la : (eraseLevel ap r.1.asks_).length ≤ as.length := by
        rw [ha1]; exact eraseLevel_head_length _ _ _
      have lb0 : r.1.bids_.length = bs.length + 1 := by rw [hb1]; simp
      have la0 : r.1.asks_.length = as.length + 1 := by rw [ha1]; simp
      rcases hend with he | he
      · rw [he]
        simp only [List.isEmpty_nil, if_true]
        split <;> omega
      · rw [he]
        simp only [List.isEmpty_nil, if_true]
        split <;> omega

/-- A property of the book that every pass of the inner loop keeps is kept by the
inner loop. -/
theorem matchLevel_keeps {Q : Orderbook → Prop}
    (hsettle : ∀ ob trades q bp b B bs ap a A as, Q ob →
      ob.bids_ = (bp, b :: B) :: bs → ob.asks_ = (ap, a :: A) :: as →
      Q (settleFronts ob trades q bp (filled b q) B bs ap (filled a q) A as).1)
    {fuel : Nat} {ob : Orderbook} {trades : Trades} {r : Orderbook × Trades}
    (hQ : Q ob) (hf : (bestQueue ob.bids_).length + (bestQueue ob.asks_).length ≤ fuel)
    (h : matchLevel fuel ob trades = .ok r) : Q r.1 := by
  obtain ⟨r1, e, hQ1, _⟩ := matchLevel_spec (P := fun o _ => Q o)
    (fun o t bp b B bs ap a A as hq hb ha => hsettle o t _ bp b B bs ap a A as hq hb ha)
    fuel ob trades hQ hf
  rw [h] at e
  cases e
  exact hQ1

/-- A property `P` that holds between passes of the outer loop, by way of a property
`Q` kept inside the inner loop, holds when the outer loop returns. -/
theorem matchLoop_keeps {P Q : Orderbook → Prop} (hPQ : ∀ ob, P ob → Q ob)
    (hsettle : ∀ ob trades q bp b B bs ap a A as, Q ob →
      ob.bids_ = (bp, b :: B) :: bs → ob.asks_ = (ap, a :: A) :: as →
      Q (settleFronts ob trades q bp (filled b q) B bs ap (filled a q) A as).1)
    (herase : ∀ ob bp bs ap as, Q ob →
      ob.bids_ = (bp, bestQueue ob.bids_) :: bs →
      ob.asks_ = (ap, bestQueue ob.asks_) :: as →
      P (eraseEmptyBest ob bp ap (bestQueue ob.bids_).isEmpty
        (bestQueue ob.asks_).isEmpty))
    {fuel : Nat} {ob : Orderbook} {trades : Trades} {r : Orderbook × Trades}
    (hP : P ob) (hf : ob.bids_.length + ob.asks_.length ≤ fuel)
    (h : matchLoop fuel ob trades = .ok r) : P r.1 := by
  obtain ⟨r1, e, hP1, _⟩ := matchLoop_spec (P := fun o _ => P o)
    (by
      intro o t bp B bs ap A as r0 hp hb ha _ hr
      have hfuel : (bestQueue o.bids_).length + (bestQueue o.asks_).length
          ≤ B.length + A.length := by simp [hb, ha, bestQueue]
      obtain ⟨k1, t1, k2, t2⟩ := matchLevel_shape hr hfuel
      exact herase r0.1 bp bs ap as (matchLevel_keeps hsettle (hPQ o hp) hfuel hr)
        (head_of_shape hb k1 t1) (head_of_shape ha k2 t2))
    fuel ob trades hP hf
  rw [h] at e
  cases e
  exact hP1

theorem matchLoop_total (fuel : Nat) (ob : Orderbook) (trades : Trades)
    (hf : ob.bids_.length + ob.asks_.length ≤ fuel) :
    ∃ r, matchLoop fuel ob trades = .ok r ∧ Settled r.1 := by
  obtain ⟨r, e, _, hs⟩ := matchLoop_spec (P := fun _ _ => True)
    (fun _ _ _ _ _ _ _ _ _ _ _ _ _ _ => trivial) fuel ob trades trivial hf
  exact ⟨r, e, hs⟩

/-! ## The coupling through the matching loop -/

theorem noEmpty_tail {levels : Levels} (h : NoEmptyLevel levels) :
    NoEmptyLevel levels.tail :=
  fun l hl => h l (List.mem_of_mem_tail hl)

theorem sideOk_tail {before : Price → Price → Bool} {side : Side} {l : Price × OrderPointers}
    {rest : Levels} (h : SideOk before side (l :: rest)) : SideOk before side rest :=
  ⟨(List.pairwise_cons.1 h.sorted).2, fun l1 hl1 => h.keyed l1 (List.mem_cons_of_mem _ hl1)⟩

theorem coupledFull_erase (ob : Orderbook) (bp : Price) (bs : Levels) (ap : Price)
    (as : Levels) (h : CoupledInLoop ob)
    (hb : ob.bids_ = (bp, bestQueue ob.bids_) :: bs)
    (ha : ob.asks_ = (ap, bestQueue ob.asks_) :: as) :
    CoupledFull (eraseEmptyBest ob bp ap (bestQueue ob.bids_).isEmpty
      (bestQueue ob.asks_).isEmpty) := by
  obtain ⟨hc, hbt, hat⟩ := h
  have hbs := hc.bids
  have has := hc.asks
  rw [hb] at hbs hbt
  rw [ha] at has hat
  simp only [List.tail_cons] at hbt hat
  -- the two sides after the erasures
  have eb : (eraseEmptyBest ob bp ap (bestQueue ob.bids_).isEmpty
      (bestQueue ob.asks_).isEmpty).bids_ =
      if (bestQueue ob.bids_).isEmpty = true then bs else ob.bids_ := by
    rw [eraseEmptyBest_bids]
    split
    · rw [hb]; exact eraseLevel_head keyOrder_bid hbs.sorted
    · rfl
  have ea : (eraseEmptyBest ob bp ap (bestQueue ob.bids_).isEmpty
      (bestQueue ob.asks_).isEmpty).asks_ =
      if (bestQueue ob.asks_).isEmpty = true then as else ob.asks_ := by
    rw [eraseEmptyBest_asks]
    split
    · rw [ha]; exact eraseLevel_head keyOrder_ask has.sorted
    · rfl
  have qb : queued (eraseEmptyBest ob bp ap (bestQueue ob.bids_).isEmpty
      (bestQueue ob.asks_).isEmpty).bids_ = queued ob.bids_ := by
    rw [eb]
    split
    · next he => rw [hb, queued_cons, List.isEmpty_iff.1 he, List.nil_append]
    · rfl
  have qa : queued (eraseEmptyBest ob bp ap (bestQueue ob.bids_).isEmpty
      (bestQueue ob.asks_).isEmpty).asks_ = queued ob.asks_ := by
    rw [ea]
    split
    · next he => rw [ha, queued_cons, List.isEmpty_iff.1 he, List.nil_append]
    · rfl
  have hres : resting (eraseEmptyBest ob bp ap (bestQueue ob.bids_).isEmpty
      (bestQueue ob.asks_).isEmpty) = resting ob := by
    simp only [resting, qb, qa]
  refine ⟨⟨?_, ?_, ?_, ?_⟩, ?_, ?_⟩
  · rw [eb]; split
    · exact sideOk_tail hbs
    · exact hc.bids
  · rw [ea]; split
    · exact sideOk_tail has
    · exact hc.asks
  · rw [hres]; exact hc.ids
  · rw [hres, eraseEmptyBest_orders]; exact hc.index
  · rw [eb]; split
    · exact hbt
    · next he =>
      rw [hb]
      intro l hl
      rcases List.mem_cons.1 hl with e | hl1
      · subst e
        intro hq
        exact he (List.isEmpty_iff.2 hq)
      · exact hbt l hl1
  · rw [ea]; split
    · exact hat
    · next he =>
      rw [ha]
      intro l hl
      rcases List.mem_cons.1 hl with e | hl1
      · subst e
        intro hq
        exact he (List.isEmpty_iff.2 hq)
      · exact hat l hl1

theorem coupledInLoop_settle (ob : Orderbook) (trades : Trades) (q : Quantity)
    (bp : Price) (b : Order) (B : OrderPointers) (bs : Levels)
    (ap : Price) (a : Order) (A : OrderPointers) (as : Levels)
    (h : CoupledInLoop ob)
    (hb : ob.bids_ = (bp, b :: B) :: bs) (ha : ob.asks_ = (ap, a :: A) :: as) :
    CoupledInLoop (settleFronts ob trades q bp (filled b q) B bs ap (filled a q) A as).1 := by
  obtain ⟨hc, hbt, hat⟩ := h
  refine ⟨settle_coupled hc trades q hb ha, ?_, ?_⟩
  · rw [settle_bids]; rw [hb] at hbt; exact hbt
  · rw [settle_asks]; rw [ha] at hat; exact hat

theorem matchLoop_coupled {fuel : Nat} {ob : Orderbook} {trades : Trades}
    {r : Orderbook × Trades} (h : CoupledFull ob)
    (hf : ob.bids_.length + ob.asks_.length ≤ fuel)
    (hr : matchLoop fuel ob trades = .ok r) : CoupledFull r.1 :=
  matchLoop_keeps (P := CoupledFull) (Q := CoupledInLoop)
    (fun _ hp => ⟨hp.1, noEmpty_tail hp.2.1, noEmpty_tail hp.2.2⟩)
    coupledInLoop_settle coupledFull_erase h hf hr

theorem head_first {before : Price → Price → Bool} {p : Price} {Q : OrderPointers}
    {rest : Levels} (hs : ((p, Q) :: rest).Pairwise (fun x y => before x.1 y.1 = true))
    {l : Price × OrderPointers} (hl : l ∈ (p, Q) :: rest) :
    l.1 = p ∨ before p l.1 = true := by
  rcases List.mem_cons.1 hl with e | h
  · subst e; exact Or.inl rfl
  · exact Or.inr ((List.pairwise_cons.1 hs).1 l h)

/-- When the outer loop has ended, no bid price reaches an ask price. -/
theorem uncrossed_of_settled {ob : Orderbook} (hc : Coupled ob) (hs : Settled ob) :
    Uncrossed ob := by
  intro b hb a ha
  have hbs := hc.bids.sorted
  have has := hc.asks.sorted
  unfold Settled at hs
  rcases hbq : ob.bids_ with _ | ⟨⟨bp, B⟩, bs⟩
  · rw [hbq] at hb; simp at hb
  · rcases haq : ob.asks_ with _ | ⟨⟨ap, A⟩, as⟩
    · rw [haq] at ha; simp at ha
    · rw [hbq, haq] at hs
      simp only at hs
      rw [hbq] at hb hbs
      rw [haq] at ha has
      have h1 := head_first hbs hb
      have h2 := head_first has ha
      simp only [bidBefore, askBefore, decide_eq_true_eq] at h1 h2
      unfold Price at *
      omega

/-! ## Properties of the queued orders through the matching loop -/

theorem queued_eraseLevel_sublist (p : Price) (levels : Levels) :
    (queued (eraseLevel p levels)).Sublist (queued levels) := by
  induction levels with
  | nil => exact List.Sublist.refl _
  | cons l rest ih =>
    obtain ⟨k, q⟩ := l
    unfold eraseLevel at ih ⊢
    rw [List.filter_cons]
    split
    · exact List.Sublist.append (List.Sublist.refl q) ih
    · exact ih.trans (List.sublist_append_right _ _)

theorem eraseEmptyBest_sublist (ob : Orderbook) (bp ap : Price) (be ae : Bool) :
    (queued (eraseEmptyBest ob bp ap be ae).bids_).Sublist (queued ob.bids_) ∧
    (queued (eraseEmptyBest ob bp ap be ae).asks_).Sublist (queued ob.asks_) := by
  rw [eraseEmptyBest_bids, eraseEmptyBest_asks]
  constructor
  · split
    · exact queued_eraseLevel_sublist _ _
    · exact List.Sublist.refl _
  · split
    · exact queued_eraseLevel_sublist _ _
    · exact List.Sublist.refl _

theorem mem_queued_settle_bids {ob : Orderbook} {trades : Trades} {q : Quantity}
    {bp : Price} {b : Order} {B : OrderPointers} {bs : Levels}
    {ap : Price} {a1 : Order} {A : OrderPointers} {as : Levels}
    (hb : ob.bids_ = (bp, b :: B) :: bs) {o : Order}
    (ho : o ∈ queued (settleFronts ob trades q bp (filled b q) B bs ap a1 A as).1.bids_) :
    o = filled b q ∨ o ∈ (queued ob.bids_).tail := by
  rw [settle_bids] at ho
  rw [hb]
  simp only [queued_cons, List.cons_append, List.tail_cons]
  split at ho
  · exact Or.inr (by simpa using ho)
  · simpa using ho

theorem mem_queued_settle_asks {ob : Orderbook} {trades : Trades} {q : Quantity}
    {bp : Price} {b1 : Order} {B : OrderPointers} {bs : Levels}
    {ap : Price} {a : Order} {A : OrderPointers} {as : Levels}
    (ha : ob.asks_ = (ap, a :: A) :: as) {o : Order}
    (ho : o ∈ queued (settleFronts ob trades q bp b1 B bs ap (filled a q) A as).1.asks_) :
    o = filled a q ∨ o ∈ (queued ob.asks_).tail := by
  rw [settle_asks] at ho
  rw [ha]
  simp only [queued_cons, List.cons_append, List.tail_cons]
  split at ho
  · exact Or.inr (by simpa using ho)
  · simpa using ho

theorem tail_queued_settle_bids {ob : Orderbook} {trades : Trades} {q : Quantity}
    {bp : Price} {b : Order} {B : OrderPointers} {bs : Levels}
    {ap : Price} {a1 : Order} {A : OrderPointers} {as : Levels}
    (hb : ob.bids_ = (bp, b :: B) :: bs) {o : Order}
    (ho : o ∈ (queued (settleFronts ob trades q bp (filled b q) B bs ap a1 A as).1.bids_).tail) :
    o ∈ (queued ob.bids_).tail := by
  rw [settle_bids] at ho
  rw [hb]
  simp only [queued_cons, List.cons_append, List.tail_cons]
  split at ho
  · exact List.mem_of_mem_tail ho
  · simpa using ho

theorem tail_queued_settle_asks {ob : Orderbook} {trades : Trades} {q : Quantity}
    {bp : Price} {b1 : Order} {B : OrderPointers} {bs : Levels}
    {ap : Price} {a : Order} {A : OrderPointers} {as : Levels}
    (ha : ob.asks_ = (ap, a :: A) :: as) {o : Order}
    (ho : o ∈ (queued (settleFronts ob trades q bp b1 B bs ap (filled a q) A as).1.asks_).tail) :
    o ∈ (queued ob.asks_).tail := by
  rw [settle_asks] at ho
  rw [ha]
  simp only [queued_cons, List.cons_append, List.tail_cons]
  split at ho
  · exact List.mem_of_mem_tail ho
  · simpa using ho

/-- A property of orders that a fill does not change and that every queued order has,
is had by every queued order when the outer loop returns. -/
theorem matchLoop_all {Q : Order → Prop} (hfill : ∀ o q, Q o → Q (filled o q))
    {fuel : Nat} {ob : Orderbook} {trades : Trades} {r : Orderbook × Trades}
    (h : ∀ o ∈ resting ob, Q o) (hf : ob.bids_.length + ob.asks_.length ≤ fuel)
    (hr : matchLoop fuel ob trades = .ok r) : ∀ o ∈ resting r.1, Q o := by
  refine matchLoop_keeps (P := fun ob => ∀ o ∈ resting ob, Q o)
    (Q := fun ob => ∀ o ∈ resting ob, Q o) (fun _ hp => hp) ?_ ?_ h hf hr
  · intro ob trades q bp b B bs ap a A as hq hb ha o ho
    have hbm : b ∈ resting ob := by simp [resting, hb]
    have ham : a ∈ resting ob := by simp [resting, ha]
    rcases List.mem_append.1 ho with h1 | h1
    · rcases mem_queued_settle_bids hb h1 with e | h2
      · subst e; exact hfill _ _ (hq b hbm)
      · exact hq o (List.mem_append_left _ (List.mem_of_mem_tail h2))
    · rcases mem_queued_settle_asks ha h1 with e | h2
      · subst e; exact hfill _ _ (hq a ham)
      · exact hq o (List.mem_append_right _ (List.mem_of_mem_tail h2))
  · intro ob bp bs ap as hq _ _ o ho
    have hsub := eraseEmptyBest_sublist ob bp ap (bestQueue ob.bids_).isEmpty
      (bestQueue ob.asks_).isEmpty
    rcases List.mem_append.1 ho with h1 | h1
    · exact hq o (List.mem_append_left _ (hsub.1.subset h1))
    · exact hq o (List.mem_append_right _ (hsub.2.subset h1))

/-- A property that every queued order behind the first of its side has, is had by
every such order when the outer loop returns. -/
theorem matchLoop_tails {Q : Order → Prop}
    {fuel : Nat} {ob : Orderbook} {trades : Trades} {r : Orderbook × Trades}
    (h : (∀ o ∈ (queued ob.bids_).tail, Q o) ∧ (∀ o ∈ (queued ob.asks_).tail, Q o))
    (hf : ob.bids_.length + ob.asks_.length ≤ fuel)
    (hr : matchLoop fuel ob trades = .ok r) :
    (∀ o ∈ (queued r.1.bids_).tail, Q o) ∧ (∀ o ∈ (queued r.1.asks_).tail, Q o) := by
  refine matchLoop_keeps
    (P := fun ob => (∀ o ∈ (queued ob.bids_).tail, Q o) ∧ (∀ o ∈ (queued ob.asks_).tail, Q o))
    (Q := fun ob => (∀ o ∈ (queued ob.bids_).tail, Q o) ∧ (∀ o ∈ (queued ob.asks_).tail, Q o))
    (fun _ hp => hp) ?_ ?_ h hf hr
  · intro ob trades q bp b B bs ap a A as hq hb ha
    exact ⟨fun o ho => hq.1 o (tail_queued_settle_bids hb ho),
      fun o ho => hq.2 o (tail_queued_settle_asks ha ho)⟩
  · intro ob bp bs ap as hq _ _
    have hsub := eraseEmptyBest_sublist ob bp ap (bestQueue ob.bids_).isEmpty
      (bestQueue ob.asks_).isEmpty
    exact ⟨fun o ho => hq.1 o (hsub.1.tail.subset ho),
      fun o ho => hq.2 o (hsub.2.tail.subset ho)⟩

/-! ## Cancelling -/

theorem cancel_absent {ob : Orderbook} {k : OrderId} (h : findOrder k ob.orders_ = none) :
    CancelOrderInternal ob k = .ok ob := by
  simp only [CancelOrderInternal, h]

/-- Cancelling in a coupled book always succeeds and removes exactly the queued order
with that id. -/
theorem cancel_spec {ob : Orderbook} (h : Coupled ob) (k : OrderId) :
    ∃ ob1, CancelOrderInternal ob k = .ok ob1 ∧ Coupled ob1 ∧
      queued ob1.bids_ = dropId k (queued ob.bids_) ∧
      queued ob1.asks_ = dropId k (queued ob.asks_) ∧
      (∀ l ∈ ob1.bids_, l.1 ∈ ob.bids_.map Prod.fst) ∧
      (∀ l ∈ ob1.asks_, l.1 ∈ ob.asks_.map Prod.fst) ∧
      (NoEmptyLevel ob.bids_ → NoEmptyLevel ob1.bids_) ∧
      (NoEmptyLevel ob.asks_ → NoEmptyLevel ob1.asks_) ∧
      findOrder k ob1.orders_ = none := by
  rcases hf : findOrder k ob.orders_ with _ | o
  · have hk := (coupled_findOrder_none h).1 hf
    unfold resting at hk
    rw [List.map_append, List.mem_append, not_or] at hk
    exact ⟨ob, cancel_absent hf, h, (dropId_of_absent hk.1).symm,
      (dropId_of_absent hk.2).symm, fun l hl => List.mem_map_of_mem _ hl,
      fun l hl => List.mem_map_of_mem _ hl, id, id, hf⟩
  · obtain ⟨ob1, h1, h2, h3, h4, h5, h6, h7, h8, h9, _⟩ := cancel_present h hf
    exact ⟨ob1, h1, h2, h3, h4, h5, h6, h7, h8, by rw [h9]; exact findOrder_eraseOrder _ _⟩

theorem shrunk_refl (ob : Orderbook) : Shrunk ob ob :=
  ⟨List.Sublist.refl _, List.Sublist.refl _, fun _ hl => List.mem_map_of_mem _ hl,
    fun _ hl => List.mem_map_of_mem _ hl⟩

theorem shrunk_trans {ob2 ob1 ob : Orderbook} (h1 : Shrunk ob2 ob1) (h : Shrunk ob1 ob) :
    Shrunk ob2 ob := by
  refine ⟨h1.1.trans h.1, h1.2.1.trans h.2.1, ?_, ?_⟩
  · intro l hl
    obtain ⟨l1, hl1, e⟩ := List.mem_map.1 (h1.2.2.1 l hl)
    rw [← e]; exact h.2.2.1 l1 hl1
  · intro l hl
    obtain ⟨l1, hl1, e⟩ := List.mem_map.1 (h1.2.2.2 l hl)
    rw [← e]; exact h.2.2.2 l1 hl1

theorem shrunk_uncrossed {ob1 ob : Orderbook} (h : Shrunk ob1 ob) (hu : Uncrossed ob) :
    Uncrossed ob1 := by
  intro b hb a ha
  obtain ⟨b0, hb0, eb⟩ := List.mem_map.1 (h.2.2.1 b hb)
  obtain ⟨a0, ha0, ea⟩ := List.mem_map.1 (h.2.2.2 a ha)
  rw [← eb, ← ea]
  exact hu b0 hb0 a0 ha0

theorem shrunk_resting {ob1 ob : Orderbook} (h : Shrunk ob1 ob) {o : Order}
    (ho : o ∈ resting ob1) : o ∈ resting ob := by
  rcases List.mem_append.1 ho with h1 | h1
  · exact List.mem_append_left _ (h.1.subset h1)
  · exact List.mem_append_right _ (h.2.1.subset h1)

theorem cancel_shrunk {ob : Orderbook} (h : Coupled ob) (k : OrderId) :
    ∃ ob1, CancelOrderInternal ob k = .ok ob1 ∧ Coupled ob1 ∧ Shrunk ob1 ob ∧
      (NoEmptyLevel ob.bids_ → NoEmptyLevel ob1.bids_) ∧
      (NoEmptyLevel ob.asks_ → NoEmptyLevel ob1.asks_) ∧
      findOrder k ob1.orders_ = none := by
  obtain ⟨ob1, h1, h2, h3, h4, h5, h6, h7, h8, h9⟩ := cancel_spec h k
  refine ⟨ob1, h1, h2, ⟨?_, ?_, h5, h6⟩, h7, h8, h9⟩
  · rw [h3]; exact dropId_sublist _ _
  · rw [h4]; exact dropId_sublist _ _

/-! ## The clean-up of fill-and-kill orders after the loop -/

/-- The clean-up on one side returns in a coupled book without empty levels; when all
orders of that side behind the first are not fill-and-kill, none is afterwards. -/
theorem killFront_bids {ob : Orderbook} (h : CoupledFull ob) :
    ∃ ob1, killFront ob ob.bids_ = .ok ob1 ∧ CoupledFull ob1 ∧ Shrunk ob1 ob ∧
      ((∀ o ∈ (queued ob.bids_).tail, o.orderType_ ≠ OrderType.FillAndKill) →
        ∀ o ∈ queued ob1.bids_, o.orderType_ ≠ OrderType.FillAndKill) := by
  obtain ⟨hc, hbf, haf⟩ := h
  rcases hbq : ob.bids_ with _ | ⟨⟨p, Q⟩, rest⟩
  · refine ⟨ob, rfl, ⟨hc, hbf, haf⟩, shrunk_refl _, ?_⟩
    intro _ o ho
    rw [hbq] at ho
    simp at ho
  · rcases Q with _ | ⟨x, Q⟩
    · exact absurd rfl (hbf (p, []) (by rw [hbq]; exact List.mem_cons_self _ _))
    · by_cases hx : x.orderType_ = OrderType.FillAndKill
      · obtain ⟨ob1, h1, h2, h3, h4, h5, h6, h7, h8, _⟩ := cancel_spec hc x.orderId_
        refine ⟨ob1, ?_, ⟨h2, h7 hbf, h8 haf⟩, ⟨?_, ?_, h5, h6⟩, ?_⟩
        · simp only [killFront, hx, if_true, h1]
        · rw [h3]; exact dropId_sublist _ _
        · rw [h4]; exact dropId_sublist _ _
        · intro ht o ho
          rw [h3, hbq] at ho
          have hs : (dropId x.orderId_ (queued ((p, x :: Q) :: rest))).Sublist
              (queued ((p, x :: Q) :: rest)).tail := by
            simp only [queued_cons, List.cons_append, List.tail_cons]
            rw [dropId_cons_same rfl]
            exact dropId_sublist _ _
          exact ht o (hs.subset ho)
      · refine ⟨ob, ?_, ⟨hc, hbf, haf⟩, shrunk_refl _, ?_⟩
        · simp only [killFront, hx, if_false]
        · intro ht o ho
          rw [hbq] at ho
          simp only [queued_cons, List.cons_append, List.tail_cons, List.mem_cons] at ho ht
          rcases ho with e | ho1
          · subst e; exact hx
          · exact ht o ho1

theorem killFront_asks {ob : Orderbook} (h : CoupledFull ob) :
    ∃ ob1, killFront ob ob.asks_ = .ok ob1 ∧ CoupledFull ob1 ∧ Shrunk ob1 ob ∧
      ((∀ o ∈ (queued ob.asks_).tail, o.orderType_ ≠ OrderType.FillAndKill) →
        ∀ o ∈ queued ob1.asks_, o.orderType_ ≠ OrderType.FillAndKill) := by
  obtain ⟨hc, hbf, haf⟩ := h
  rcases haq : ob.asks_ with _ | ⟨⟨p, Q⟩, rest⟩
  · refine ⟨ob, rfl, ⟨hc, hbf, haf⟩, shrunk_refl _, ?_⟩
    intro _ o ho
    rw [haq] at ho
    simp at ho
  · rcases Q with _ | ⟨x, Q⟩
    · exact absurd rfl (haf (p, []) (by rw [haq]; exact List.mem_cons_self _ _))
    · by_cases hx : x.orderType_ = OrderType.FillAndKill
      · obtain ⟨ob1, h1, h2, h3, h4, h5, h6, h7, h8, _⟩ := cancel_spec hc x.orderId_
        refine ⟨ob1, ?_, ⟨h2, h7 hbf, h8 haf⟩, ⟨?_, ?_, h5, h6⟩, ?_⟩
        · simp only [killFront, hx, if_true, h1]
        · rw [h3]; exact dropId_sublist _ _
        · rw [h4]; exact dropId_sublist _ _
        · intro ht o ho
          rw [h4, haq] at ho
          have hs : (dropId x.orderId_ (queued ((p, x :: Q) :: rest))).Sublist
              (queued ((p, x :: Q) :: rest)).tail := by
            simp only [queued_cons, List.cons_append, List.tail_cons]
            rw [dropId_cons_same rfl]
            exact dropId_sublist _ _
          exact ht o (hs.subset ho)
      · refine ⟨ob, ?_, ⟨hc, hbf, haf⟩, shrunk_refl _, ?_⟩
        · simp only [killFront, hx, if_false]
        · intro ht o ho
          rw [haq] at ho
          simp only [queued_cons, List.cons_append, List.tail_cons, List.mem_cons] at ho ht
          rcases ho with e | ho1
          · subst e; exact hx
          · exact ht o ho1

/-- The call `MatchOrders` on a coupled book without empty levels: it returns, the result is
coupled, has no empty level and no cross; properties of orders that fills do not change
are kept; and no fill-and-kill order remains when before the call such orders stood
only at the front of the best level of a side. -/
theorem MatchOrders_spec {ob : Orderbook} (h : CoupledFull ob) :
    ∃ r, MatchOrders ob = .ok r ∧ CoupledFull r.1 ∧ Uncrossed r.1 ∧
      (∀ Q : Order → Prop, (∀ o q, Q o → Q (filled o q)) →
        (∀ o ∈ resting ob, Q o) → ∀ o ∈ resting r.1, Q o) ∧
      ((∀ o ∈ (queued ob.bids_).tail, o.orderType_ ≠ OrderType.FillAndKill) →
        (∀ o ∈ (queued ob.asks_).tail, o.orderType_ ≠ OrderType.FillAndKill) →
        ∀ o ∈ resting r.1, o.orderType_ ≠ OrderType.FillAndKill) := by
  have hf : ob.bids_.length + ob.asks_.length ≤ ob.bids_.length + ob.asks_.length + 1 :=
    Nat.le_succ _
  obtain ⟨r0, hr0, hs0⟩ := matchLoop_total _ ob [] hf
  have hc0 := matchLoop_coupled h hf hr0
  have hu0 := uncrossed_of_settled hc0.1 hs0
  obtain ⟨ob1, e1, hc1, hs1, hk1⟩ := killFront_bids hc0
  obtain ⟨ob2, e2, hc2, hs2, hk2⟩ := killFront_asks hc1
  refine ⟨(ob2, r0.2), ?_, hc2, ?_, ?_, ?_⟩
  · simp only [MatchOrders, hr0, e1, e2]
  · exact shrunk_uncrossed (shrunk_trans hs2 hs1) hu0
  · intro Q hQ hall o ho
    exact matchLoop_all hQ hall hf hr0 o (shrunk_resting (shrunk_trans hs2 hs1) ho)
  · intro hb ha o ho
    have ht := matchLoop_tails (Q := fun o => o.orderType_ ≠ OrderType.FillAndKill)
      ⟨hb, ha⟩ hf hr0
    have hb1 := hk1 ht.1
    have ha2 := hk2 (fun o ho => ht.2 o (hs1.2.1.tail.subset ho))
    rcases List.mem_append.1 ho with h1 | h1
    · exact hb1 o (hs2.1.subset h1)
    · exact ha2 o h1

/-! ## Inserting an order -/

theorem pushBackAt_front {before : Price → Price → Bool} (hb : KeyOrder before)
    {p : Price} (o : Order) {levels : Levels}
    (h : ∀ l ∈ levels, before p l.1 = true) :
    pushBackAt before p o levels = (p, [o]) :: levels := by
  rcases levels with _ | ⟨⟨k, q⟩, rest⟩
  · rfl
  · have hk := h (k, q) (List.mem_cons_self _ _)
    have hne : k ≠ p := by
      intro e
      rw [e, hb.irrefl] at hk
      exact Bool.false_ne_true hk
    simp only [pushBackAt, hne, if_false, hk, if_true]

theorem pushBackAt_sideOk {before : Price → Price → Bool} (hb : KeyOrder before)
    {side : Side} {o : Order} {levels : Levels} (h : SideOk before side levels)
    (hside : o.side_ = side) :
    SideOk before side (pushBackAt before o.price_ o levels) := by
  refine ⟨pushBackAt_sorted hb h.sorted, ?_⟩
  intro l hl x hx
  rcases mem_pushBackAt hl with h1 | ⟨h1, h2 | ⟨q, hq, h2⟩⟩
  · exact h.keyed l h1 x hx
  · rw [h2, List.mem_singleton] at hx
    subst hx
    exact ⟨hside, h1.symm⟩
  · rw [h2, List.mem_append, List.mem_singleton] at hx
    rcases hx with hx1 | hx1
    · rw [h1]; exact h.keyed _ hq x hx1
    · subst hx1
      exact ⟨hside, h1.symm⟩

theorem pushBackAt_noEmpty {before : Price → Price → Bool}
    {p : Price} {o : Order} {levels : Levels} (h : NoEmptyLevel levels) :
    NoEmptyLevel (pushBackAt before p o levels) := by
  intro l hl
  rcases mem_pushBackAt hl with h1 | ⟨_, h2 | ⟨q, _, h2⟩⟩
  · exact h l h1
  · rw [h2]; simp
  · rw [h2]; simp

theorem resting_insertOrder_perm (ob : Orderbook) (o : Order) :
    (resting (insertOrder ob o)).Perm (o :: resting ob) := by
  unfold resting insertOrder
  by_cases hs : o.side_ = Side.Buy
  · simp only [hs, if_true]
    exact (List.Perm.append_right _ (queued_pushBackAt_perm _ _ _ _)).trans (by simp)
  · simp only [hs, if_false]
    exact (List.Perm.append_left _ (queued_pushBackAt_perm _ _ _ _)).trans
      (List.perm_middle)

theorem side_of_not_buy {s : Side} (h : s ≠ Side.Buy) : s = Side.Sell := by
  cases s
  · exact absurd rfl h
  · rfl

/-- Inserting an order with a fresh id keeps the containers coupled and the levels
non-empty. -/
theorem insertOrder_coupled {ob : Orderbook} (h : CoupledFull ob) {o : Order}
    (hfresh : findOrder o.orderId_ ob.orders_ = none) :
    CoupledFull (insertOrder ob o) := by
  obtain ⟨hc, hbf, haf⟩ := h
  have hp := resting_insertOrder_perm ob o
  have hk := (coupled_findOrder_none hc).1 hfresh
  refine ⟨⟨?_, ?_, ?_, ?_⟩, ?_, ?_⟩
  · unfold insertOrder
    by_cases hs : o.side_ = Side.Buy
    · simp only [hs, if_true]
      exact pushBackAt_sideOk keyOrder_bid hc.bids hs
    · simp only [hs, if_false]
      exact hc.bids
  · unfold insertOrder
    by_cases hs : o.side_ = Side.Buy
    · simp only [hs, if_true]
      exact hc.asks
    · simp only [hs, if_false]
      exact pushBackAt_sideOk keyOrder_ask hc.asks (side_of_not_buy hs)
  · rw [(hp.map _).nodup_iff, List.map_cons, List.nodup_cons]
    exact ⟨hk, hc.ids⟩
  · have e : (insertOrder ob o).orders_ = ob.orders_ ++ [entryOf o] := rfl
    rw [e]
    refine List.Perm.trans ?_ (hp.map entryOf).symm
    rw [List.map_cons]
    exact (List.perm_append_comm).trans (List.Perm.cons _ hc.index)
  · unfold insertOrder
    by_cases hs : o.side_ = Side.Buy
    · simp only [hs, if_true]
      exact pushBackAt_noEmpty hbf
    · simp only [hs, if_false]
      exact hbf
  · unfold insertOrder
    by_cases hs : o.side_ = Side.Buy
    · simp only [hs, if_true]
      exact haf
    · simp only [hs, if_false]
      exact pushBackAt_noEmpty haf

theorem canMatch_buy {ob : Orderbook} {p : Price} (h : CanMatch ob Side.Buy p = true) :
    ∃ bestAsk Q rest, ob.asks_ = (bestAsk, Q) :: rest ∧ bestAsk ≤ p := by
  unfold CanMatch at h
  rcases haq : ob.asks_ with _ | ⟨⟨k, Q⟩, rest⟩
  · simp [haq] at h
  · simp only [haq, decide_eq_true_eq] at h
    exact ⟨k, Q, rest, rfl, h⟩

theorem canMatch_sell {ob : Orderbook} {p : Price} (h : CanMatch ob Side.Sell p = true) :
    ∃ bestBid Q rest, ob.bids_ = (bestBid, Q) :: rest ∧ p ≤ bestBid := by
  unfold CanMatch at h
  rcases hbq : ob.bids_ with _ | ⟨⟨k, Q⟩, rest⟩
  · simp [hbq] at h
  · simp only [hbq, decide_eq_true_eq] at h
    exact ⟨k, Q, rest, rfl, h⟩

/-- An order that can match is placed in front of every other order of its side. -/
theorem insertOrder_front {ob : Orderbook} (hu : Uncrossed ob) {o : Order}
    (hm : CanMatch ob o.side_ o.price_ = true) :
    (queued (insertOrder ob o).bids_).tail = queued ob.bids_ ∨
      (insertOrder ob o).bids_ = ob.bids_ := by
  by_cases hs : o.side_ = Side.Buy
  · left
    rw [hs] at hm
    obtain ⟨k, Q, rest, ha, hle⟩ := canMatch_buy hm
    have hfront : ∀ l ∈ ob.bids_, bidBefore o.price_ l.1 = true := by
      intro l hl
      have := hu l hl (k, Q) (by rw [ha]; exact List.mem_cons_self _ _)
      simp only [bidBefore, decide_eq_true_eq]
      simp only at this
      unfold Price at *
      omega
    simp only [insertOrder, hs, if_true, pushBackAt_front keyOrder_bid o hfront, queued_cons,
      List.singleton_append, List.tail_cons]
  · right
    simp only [insertOrder, hs, if_false]

theorem insertOrder_front_asks {ob : Orderbook} (hu : Uncrossed ob) {o : Order}
    (hm : CanMatch ob o.side_ o.price_ = true) :
    (queued (insertOrder ob o).asks_).tail = queued ob.asks_ ∨
      (insertOrder ob o).asks_ = ob.asks_ := by
  by_cases hs : o.side_ = Side.Buy
  · right
    simp only [insertOrder, hs, if_true]
  · left
    have hs1 := side_of_not_buy hs
    rw [hs1] at hm
    obtain ⟨k, Q, rest, hb, hle⟩ := canMatch_sell hm
    have hfront : ∀ l ∈ ob.asks_, askBefore o.price_ l.1 = true := by
      intro l hl
      have := hu (k, Q) (by rw [hb]; exact List.mem_cons_self _ _) l hl
      simp only [askBefore, decide_eq_true_eq]
      simp only at this
      unfold Price at *
      omega
    simp only [insertOrder, hs, if_false, pushBackAt_front keyOrder_ask o hfront, queued_cons,
      List.singleton_append, List.tail_cons]

/-! ## The operations keep the state invariant -/

theorem bookInv_full {ob : Orderbook} (h : BookInv ob) : CoupledFull ob :=
  ⟨h.coupled, h.bidsFull, h.asksFull⟩

/-- The market conversion never throws; the order it passes on has the id and side of
the submitted one and is not a market order. -/
theorem convertMarket_cases (ob : Orderbook) (o : Order) :
    convertMarket ob o = .ok none ∨
    ∃ o1, convertMarket ob o = .ok (some o1) ∧ o1.orderId_ = o.orderId_ ∧
      o1.side_ = o.side_ ∧ o1.orderType_ ≠ OrderType.Market ∧
      o1.initialQuantity_ = o.initialQuantity_ ∧
      o1.remainingQuantity_ = o.remainingQuantity_ ∧
      (o.orderType_ ≠ OrderType.Market → o1 = o) ∧
      (o.orderType_ = OrderType.Market → o1.orderType_ = OrderType.GoodTillCancel) := by
  by_cases hm : o.orderType_ = OrderType.Market
  · rcases hs : o.side_ with _ | _
    · rcases ha : ob.asks_.getLast? with _ | ⟨worstAsk, Q⟩
      · left
        simp only [convertMarket, hm, if_true, hs, ha]
      · right
        refine ⟨{ o with price_ := worstAsk, orderType_ := OrderType.GoodTillCancel }, ?_,
          rfl, hs, by simp, rfl, rfl, fun h => absurd hm h, fun _ => rfl⟩
        simp [convertMarket, hs, ha, Order.ToGoodTillCancel, hm, Except.map]
    · rcases hb : ob.bids_.getLast? with _ | ⟨worstBid, Q⟩
      · left
        rcases ha : ob.asks_.getLast? with _ | _ <;>
          simp only [convertMarket, hm, if_true, hs, ha, hb]
      · right
        refine ⟨{ o with price_ := worstBid, orderType_ := OrderType.GoodTillCancel }, ?_,
          rfl, hs, by simp, rfl, rfl, fun h => absurd hm h, fun _ => rfl⟩
        rcases ha : ob.asks_.getLast? with _ | _ <;>
          simp [convertMarket, hs, ha, hb, Order.ToGoodTillCancel, hm, Except.map]
  · right
    exact ⟨o, by simp only [convertMarket, hm, if_false], rfl, rfl, hm, rfl, rfl,
      fun _ => rfl, fun h => absurd h hm⟩

theorem mem_tail_of_perm_cons {o x : Order} {l l0 : List Order}
    (hp : l.Perm (o :: l0)) (hx : x ∈ l.tail) : x = o ∨ x ∈ l0 := by
  have := hp.subset (List.mem_of_mem_tail hx)
  simpa using this

/-- The call `AddOrder` in a state that satisfies the invariant: it returns, the invariant
holds again, and every property of orders that fills do not change, that the queued
orders have and that the admitted order has, is had by all queued orders afterwards. -/
theorem AddOrder_spec {ob : Orderbook} (h : BookInv ob) (o : Order) :
    ∃ r, AddOrder ob o = .ok r ∧ BookInv r.1 ∧
      (∀ Q : Order → Prop, (∀ x q, Q x → Q (filled x q)) →
        (∀ x ∈ resting ob, Q x) →
        (∀ o1, convertMarket ob o = .ok (some o1) → Q o1) →
        ∀ x ∈ resting r.1, Q x) := by
  have same : ∃ r, (Except.ok (ob, ([] : Trades)) :
      Except EngineError (Orderbook × Trades)) = Except.ok r ∧ BookInv r.1 ∧
      (∀ Q : Order → Prop, (∀ x q, Q x → Q (filled x q)) →
        (∀ x ∈ resting ob, Q x) →
        (∀ o1, convertMarket ob o = .ok (some o1) → Q o1) →
        ∀ x ∈ resting r.1, Q x) :=
    ⟨(ob, []), rfl, h, fun _ _ hall _ => hall⟩
  by_cases hdup : (findOrder o.orderId_ ob.orders_).isSome = true
  · have e : AddOrder ob o = .ok (ob, []) := by
      unfold AddOrder; simp only [hdup, if_true]
    rw [e]; exact same
  · have hfresh : findOrder o.orderId_ ob.orders_ = none := by
      simpa using hdup
    rcases convertMarket_cases ob o with hn | ⟨o1, hc, hid, hside, hnm, _, _, _, _⟩
    · have e : AddOrder ob o = .ok (ob, []) := by
        unfold AddOrder; simp only [hdup, Bool.false_eq_true, if_false, hn]
      rw [e]; exact same
    · by_cases hfak : o1.orderType_ = OrderType.FillAndKill ∧
          CanMatch ob o1.side_ o1.price_ = false
      · have e : AddOrder ob o = .ok (ob, []) := by
          unfold AddOrder; simp only [hdup, Bool.false_eq_true, if_false, hc]
          rw [if_pos hfak]
        rw [e]; exact same
      · by_cases hfok : o1.orderType_ = OrderType.FillOrKill ∧
            CanFullyFill ob o1.side_ o1.price_ o1.initialQuantity_ = false
        · have e : AddOrder ob o = .ok (ob, []) := by
            unfold AddOrder; simp only [hdup, Bool.false_eq_true, if_false, hc]
            rw [if_neg hfak, if_pos hfok]
          rw [e]; exact same
        · have e : AddOrder ob o = MatchOrders (insertOrder ob o1) := by
            unfold AddOrder; simp only [hdup, Bool.false_eq_true, if_false, hc]
            rw [if_neg hfak, if_neg hfok]
          rw [e]
          have hfresh1 : findOrder o1.orderId_ ob.orders_ = none := by rw [hid]; exact hfresh
          have hcf := insertOrder_coupled (bookInv_full h) hfresh1
          obtain ⟨r, hr, hcr, hur, hQ, hkill⟩ := MatchOrders_spec hcf
          have hperm := resting_insertOrder_perm ob o1
          refine ⟨r, hr, ⟨hcr.1, hcr.2.1, hcr.2.2, hur, ?_⟩, ?_⟩
          · by_cases ht : o1.orderType_ = OrderType.FillAndKill
            · have hm : CanMatch ob o1.side_ o1.price_ = true := by
                rcases hcm : CanMatch ob o1.side_ o1.price_ with _ | _
                · exact absurd ⟨ht, hcm⟩ hfak
                · rfl
              apply hkill
              · intro x hx
                rcases insertOrder_front h.uncrossed hm with e | e
                · rw [e] at hx
                  exact h.noKill x (List.mem_append_left _ hx)
                · rw [e] at hx
                  exact h.noKill x (List.mem_append_left _ (List.mem_of_mem_tail hx))
              · intro x hx
                rcases insertOrder_front_asks h.uncrossed hm with e | e
                · rw [e] at hx
                  exact h.noKill x (List.mem_append_right _ hx)
                · rw [e] at hx
                  exact h.noKill x (List.mem_append_right _ (List.mem_of_mem_tail hx))
            · have hall : ∀ x ∈ resting (insertOrder ob o1),
                  x.orderType_ ≠ OrderType.FillAndKill := by
                intro x hx
                have := hperm.subset hx
                rcases List.mem_cons.1 this with e | hx1
                · subst e; exact ht
                · exact h.noKill x hx1
              apply hkill
              · intro x hx
                exact hall x (List.mem_append_left _ (List.mem_of_mem_tail hx))
              · intro x hx
                exact hall x (List.mem_append_right _ (List.mem_of_mem_tail hx))
          · intro Q hstat hall hnew
            apply hQ Q hstat
            intro x hx
            rcases List.mem_cons.1 (hperm.subset hx) with e | hx1
            · subst e; exact hnew x hc
            · exact hall x hx1

/-- Cancelling in a state that satisfies the invariant: it returns, the invariant
holds again, the id is gone and only orders that were queued remain. -/
theorem CancelOrder_spec {ob : Orderbook} (h : BookInv ob) (k : OrderId) :
    ∃ ob1, CancelOrder ob k = .ok ob1 ∧ BookInv ob1 ∧ Shrunk ob1 ob ∧
      findOrder k ob1.orders_ = none := by
  obtain ⟨ob1, h1, h2, h3, h4, h5, h6⟩ := cancel_shrunk h.coupled k
  exact ⟨ob1, h1, ⟨h2, h4 h.bidsFull, h5 h.asksFull, shrunk_uncrossed h3 h.uncrossed,
    fun o ho => h.noKill o (shrunk_resting h3 ho)⟩, h3, h6⟩

theorem ModifyOrder_spec {ob : Orderbook} (h : BookInv ob) (m : OrderModify) :
    ∃ r, ModifyOrder ob m = .ok r ∧ BookInv r.1 := by
  unfold ModifyOrder
  rcases hf : findOrder m.orderId_ ob.orders_ with _ | existing
  · exact ⟨(ob, []), rfl, h⟩
  · obtain ⟨ob1, h1, h2, _, _⟩ := CancelOrder_spec h m.orderId_
    simp only [h1]
    obtain ⟨r, hr, hinv, _⟩ := AddOrder_spec h2 (m.ToOrderPointer existing.orderType_)
    exact ⟨r, hr, hinv⟩

theorem step_spec {ob : Orderbook} (h : BookInv ob) (req : Request) :
    ∃ r, step ob req = .ok r ∧ BookInv r.1 := by
  cases req with
  | add t k s p q =>
    obtain ⟨r, hr, hinv, _⟩ := AddOrder_spec h (Order.new t k s p q)
    exact ⟨r, hr, hinv⟩
  | cancel k =>
    obtain ⟨ob1, h1, h2, _, _⟩ := CancelOrder_spec h k
    exact ⟨(ob1, []), by simp only [step, h1], h2⟩
  | modify m => exact ModifyOrder_spec h m

theorem run_spec (requests : List Request) :
    ∀ {ob : Orderbook}, BookInv ob → ∃ ob1, run ob requests = .ok ob1 ∧ BookInv ob1 := by
  induction requests with
  | nil => intro ob h; exact ⟨ob, rfl, h⟩
  | cons req rest ih =>
    intro ob h
    obtain ⟨r, hr, hinv⟩ := step_spec h req
    obtain ⟨ob1, h1, h2⟩ := ih hinv
    exact ⟨ob1, by simp only [run, hr, h1], h2⟩

theorem empty_inv : BookInv Orderbook.empty := by
  refine ⟨⟨⟨List.Pairwise.nil, ?_⟩, ⟨List.Pairwise.nil, ?_⟩, ?_, ?_⟩, ?_, ?_, ?_, ?_⟩ <;>
    simp [Orderbook.empty, resting, NoEmptyLevel, Uncrossed]

/-- Every sequence of calls on the empty book runs to the end without a failure and
leaves a book that satisfies the state invariant. -/
theorem run_empty (requests : List Request) :
    ∃ ob, run Orderbook.empty requests = .ok ob ∧ BookInv ob :=
  run_spec requests empty_inv

theorem reachable_inv {ob : Orderbook} (h : Reachable ob) : BookInv ob := by
  obtain ⟨requests, hr⟩ := h
  obtain ⟨ob1, h1, h2⟩ := run_empty requests
  rw [hr] at h1
  cases h1
  exact h2

/-! ## The claims -/

theorem queued_length (levels : Levels) :
    (queued levels).length = (levels.map (fun l => l.2.length)).sum := by
  induction levels with
  | nil => rfl
  | cons l rest ih =>
    obtain ⟨k, q⟩ := l
    simp [ih]

theorem findOrder_of_mem {k : OrderId} {o : Order} {orders : List (OrderId × Order)}
    (hn : (orders.map Prod.fst).Nodup) (hm : (k, o) ∈ orders) :
    findOrder k orders = some o := by
  induction orders with
  | nil => simp at hm
  | cons e rest ih =>
    obtain ⟨k0, o0⟩ := e
    rw [List.map_cons, List.nodup_cons] at hn
    rcases List.mem_cons.1 hm with h | h
    · cases h
      simp [findOrder]
    · have hne : k0 ≠ k := by
        intro e1
        exact hn.1 (by rw [e1]; exact List.mem_map.2 ⟨(k, o), h, rfl⟩)
      simp only [findOrder, hne, if_false]
      exact ih hn.2 h

theorem coupled_orders_nodup {ob : Orderbook} (h : Coupled ob) :
    (ob.orders_.map Prod.fst).Nodup :=
  (coupled_keys h).nodup_iff.2 h.ids

theorem coupled_findOrder {ob : Orderbook} (h : Coupled ob) {k : OrderId} {o : Order} :
    findOrder k ob.orders_ = some o ↔ o.orderId_ = k ∧ o ∈ resting ob := by
  constructor
  · intro hf
    exact (coupled_mem_orders h).1 (findOrder_mem hf)
  · intro hm
    exact findOrder_of_mem (coupled_orders_nodup h) ((coupled_mem_orders h).2 hm)

theorem filter_id_eq_singleton {l : List Order}
    (hn : (l.map (fun o => o.orderId_)).Nodup) {o : Order} (ho : o ∈ l) :
    l.filter (fun x => decide (x.orderId_ = o.orderId_)) = [o] := by
  induction l with
  | nil => simp at ho
  | cons x rest ih =>
    rw [List.map_cons, List.nodup_cons] at hn
    rcases List.mem_cons.1 ho with e | h1
    · subst e
      have : rest.filter (fun x => decide (x.orderId_ = o.orderId_)) = [] := by
        apply List.filter_eq_nil_iff.2
        intro y hy
        simp only [decide_eq_true_eq]
        intro e
        exact hn.1 (by rw [← e]; exact List.mem_map_of_mem _ hy)
      simp [List.filter_cons, this]
    · have hne : x.orderId_ ≠ o.orderId_ := by
        intro e
        exact hn.1 (by rw [e]; exact List.mem_map_of_mem _ h1)
      simp [List.filter_cons, hne, ih hn.2 h1]

theorem queue_of_mem_queued {before : Price → Price → Bool} (hb : KeyOrder before)
    {side : Side} {levels : Levels} (h : SideOk before side levels) {o : Order}
    (ho : o ∈ queued levels) :
    o.side_ = side ∧ ∃ q, levelAt o.price_ levels = some q ∧ o ∈ q := by
  obtain ⟨l, hl, hol⟩ := mem_queued.1 ho
  obtain ⟨p, q⟩ := l
  have hk := h.keyed _ hl o hol
  refine ⟨hk.1, q, ?_, hol⟩
  rw [hk.2]
  exact levelAt_of_mem hb h.sorted hl

/-- C1: for every finite sequence of AddOrder / CancelOrder / ModifyOrder calls applied
to an empty book, the calls all return and afterwards the top of the book does not
cross: every price key of `bids_` is strictly below every price key of `asks_`, so when
both sides are non-empty the highest bid is below the lowest ask. -/
theorem top_of_book_never_crosses (requests : List Request) :
    ∃ ob, run Orderbook.empty requests = .ok ob ∧
      (∀ b ∈ ob.bids_, ∀ a ∈ ob.asks_, b.1 < a.1) ∧
      ob.bids_.Pairwise (fun x y => x.1 > y.1) ∧
      ob.asks_.Pairwise (fun x y => x.1 < y.1) := by
  obtain ⟨ob, hr, hinv⟩ := run_empty requests
  refine ⟨ob, hr, hinv.uncrossed, ?_, ?_⟩
  · exact hinv.coupled.bids.sorted.imp (fun h => by simpa [bidBefore] using h)
  · exact hinv.coupled.asks.sorted.imp (fun h => by simpa [askBefore] using h)

/-- C5: for every finite sequence of AddOrder / CancelOrder / ModifyOrder calls applied
to an empty book, afterwards `Size()`, the number of entries of `orders_`, equals the
total number of orders held in the price queues of `bids_` and `asks_`. -/
theorem size_counts_queued_orders (requests : List Request) :
    ∃ ob, run Orderbook.empty requests = .ok ob ∧
      Size ob = (ob.bids_.map (fun l => l.2.length)).sum +
        (ob.asks_.map (fun l => l.2.length)).sum := by
  obtain ⟨ob, hr, hinv⟩ := run_empty requests
  refine ⟨ob, hr, ?_⟩
  have := hinv.coupled.index.length_eq
  rw [List.length_map] at this
  rw [Size, this, resting, List.length_append, queued_length, queued_length]

/-- C6: in every book state reached from the empty book the id index and the price
queues agree: an id is a key of `orders_` iff an order with that id is in some queue;
the order stored under the id is then the only queued order with that id (it occurs
exactly once over all queues), it sits in `bids_` if its side is Buy and in `asks_` if
its side is Sell, in the queue under the key equal to its price. -/
theorem index_agrees_with_queues (requests : List Request) :
    ∃ ob, run Orderbook.empty requests = .ok ob ∧
      (∀ k, (findOrder k ob.orders_).isSome = true ↔
        ∃ o ∈ queued ob.bids_ ++ queued ob.asks_, o.orderId_ = k) ∧
      (∀ k o, findOrder k ob.orders_ = some o →
        o.orderId_ = k ∧
        (queued ob.bids_ ++ queued ob.asks_).filter
          (fun x => decide (x.orderId_ = k)) = [o] ∧
        (o.side_ = Side.Buy → ∃ q, levelAt o.price_ ob.bids_ = some q ∧ o ∈ q) ∧
        (o.side_ = Side.Sell → ∃ q, levelAt o.price_ ob.asks_ = some q ∧ o ∈ q)) := by
  obtain ⟨ob, hr, hinv⟩ := run_empty requests
  have hc := hinv.coupled
  refine ⟨ob, hr, ?_, ?_⟩
  · intro k
    constructor
    · intro hs
      obtain ⟨o, ho⟩ := Option.isSome_iff_exists.1 hs
      have := (coupled_findOrder hc).1 ho
      exact ⟨o, this.2, this.1⟩
    · rintro ⟨o, ho, e⟩
      rw [(coupled_findOrder hc).2 ⟨e, ho⟩]
      rfl
  · intro k o hf
    obtain ⟨hid, hm⟩ := (coupled_findOrder hc).1 hf
    subst hid
    refine ⟨rfl, filter_id_eq_singleton hc.ids hm, ?_, ?_⟩
    · intro hs
      rcases List.mem_append.1 hm with h1 | h1
      · exact (queue_of_mem_queued keyOrder_bid hc.bids h1).2
      · have := (queue_of_mem_queued keyOrder_ask hc.asks h1).1
        rw [hs] at this; cases this
    · intro hs
      rcases List.mem_append.1 hm with h1 | h1
      · have := (queue_of_mem_queued keyOrder_bid hc.bids h1).1
        rw [hs] at this; cases this
      · exact (queue_of_mem_queued keyOrder_ask hc.asks h1).2

/-- C7: for every finite sequence of AddOrder / CancelOrder / ModifyOrder calls applied
to an empty book, afterwards no key of `bids_` or `asks_` maps to an empty queue. -/
theorem no_empty_price_queue (requests : List Request) :
    ∃ ob, run Orderbook.empty requests = .ok ob ∧
      (∀ l ∈ ob.bids_, l.2 ≠ []) ∧ (∀ l ∈ ob.asks_, l.2 ≠ []) := by
  obtain ⟨ob, hr, hinv⟩ := run_empty requests
  exact ⟨ob, hr, hinv.bidsFull, hinv.asksFull⟩

/-- C2 (the code at the input named by the claim): after `A B GoodTillCancel 100 10 1`
and `A S GoodTillCancel 100 6 2` bid 1 rests at price 100 with 4 remaining, and `data_`
has no row for price 100: line 234 erased the row of the emptied ask level, which the
bid level at the same price shares. -/
theorem level_row_erased_under_resting_bid :
    run Orderbook.empty
      [Request.add OrderType.GoodTillCancel 1 Side.Buy 100 10,
       Request.add OrderType.GoodTillCancel 2 Side.Sell 100 6] =
    .ok { data_ := []
          bids_ := [(100, [{ orderType_ := OrderType.GoodTillCancel, orderId_ := 1,
                             side_ := Side.Buy, price_ := 100, initialQuantity_ := 10,
                             remainingQuantity_ := 4 }])]
          asks_ := []
          orders_ := [(1, { orderType_ := OrderType.GoodTillCancel, orderId_ := 1,
                            side_ := Side.Buy, price_ := 100, initialQuantity_ := 10,
                            remainingQuantity_ := 4 })] } := by
  decide

/-- C3 (the code at a failing input): the book `bookStaleRow` is reached from the empty
book; it holds one ask of quantity 1 at 99 and a stale `data_` row at 100. A
fill-or-kill buy of 50 at 100 with the fresh id 4 passes `CanFullyFill` in either
iteration order of `data_`, is admitted, trades 1 and rests with 49 remaining. -/
theorem fill_or_kill_accepted_on_stale_row :
    run Orderbook.empty
      [Request.add OrderType.GoodTillCancel 1 Side.Buy 100 10,
       Request.add OrderType.GoodTillCancel 2 Side.Sell 100 6,
       Request.cancel 1,
       Request.add OrderType.GoodTillCancel 3 Side.Sell 99 1] = .ok bookStaleRow ∧
    findOrder 4 bookStaleRow.orders_ = none ∧
    canFullyFillWalk Side.Buy 99 100 bookStaleRow.data_ 50 = true ∧
    canFullyFillWalk Side.Buy 99 100 bookStaleRow.data_.reverse 50 = true ∧
    AddOrder bookStaleRow (Order.new OrderType.FillOrKill 4 Side.Buy 100 50) =
      .ok ({ data_ := []
             bids_ := [(100, [{ orderType_ := OrderType.FillOrKill, orderId_ := 4,
                                side_ := Side.Buy, price_ := 100, initialQuantity_ := 50,
                                remainingQuantity_ := 49 }])]
             asks_ := []
             orders_ := [(4, { orderType_ := OrderType.FillOrKill, orderId_ := 4,
                               side_ := Side.Buy, price_ := 100, initialQuantity_ := 50,
                               remainingQuantity_ := 49 })] },
           [{ bidTrade_ := { orderId_ := 4, price_ := 100, quantity_ := 1 }
              askTrade_ := { orderId_ := 3, price_ := 99, quantity_ := 1 } }]) := by
  decide

/-- C8: whenever `AddOrder` rejects an order (its id is already in `orders_`, or it is
a market order and the opposite side is empty, or it is fill-and-kill and `CanMatch` is
false, or it is fill-or-kill and `CanFullyFill` is false) it returns an empty trade
list and the book, `bids_`, `asks_`, `orders_` and `data_`, is exactly as it was. -/
theorem rejected_add_leaves_book_unchanged (ob : Orderbook) (order : Order)
    (h : (findOrder order.orderId_ ob.orders_).isSome = true ∨
      (order.orderType_ = OrderType.Market ∧
        ((order.side_ = Side.Buy ∧ ob.asks_ = []) ∨
         (order.side_ = Side.Sell ∧ ob.bids_ = []))) ∨
      (order.orderType_ = OrderType.FillAndKill ∧
        CanMatch ob order.side_ order.price_ = false) ∨
      (order.orderType_ = OrderType.FillOrKill ∧
        CanFullyFill ob order.side_ order.price_ order.initialQuantity_ = false)) :
    AddOrder ob order = .ok (ob, []) := by
  unfold AddOrder
  by_cases hdup : (findOrder order.orderId_ ob.orders_).isSome = true
  · simp only [hdup, if_true]
  · simp only [hdup, Bool.false_eq_true, if_false]
    rcases h with h | ⟨hm, hside⟩ | ⟨ht, hc⟩ | ⟨ht, hc⟩
    · exact absurd h hdup
    · have hconv : convertMarket ob order = .ok none := by
        rcases hside with ⟨hs, he⟩ | ⟨hs, he⟩
        · simp [convertMarket, hm, hs, he]
        · rcases ha : ob.asks_.getLast? with _ | _ <;>
            simp [convertMarket, hm, hs, he, ha]
      simp only [hconv]
    · have hconv : convertMarket ob order = .ok (some order) := by
        simp [convertMarket, ht]
      simp only [hconv, ht, hc, and_self, if_true]
    · have hconv : convertMarket ob order = .ok (some order) := by
        simp [convertMarket, ht]
      have hne : ¬ (order.orderType_ = OrderType.FillAndKill ∧
          CanMatch ob order.side_ order.price_ = false) := by
        rw [ht]; intro hx; cases hx.1
      simp only [hconv]
      rw [if_neg hne, if_pos ⟨ht, hc⟩]

/-- C8 at the book holding bid 1 of 5 at 100 and the order `A S FillOrKill 99 20 2`,
which `CanFullyFill` refuses. -/
theorem rejected_add_leaves_book_unchanged_witness :
    CanFullyFill bookOneBid Side.Sell 99 20 = false ∧
    AddOrder bookOneBid (Order.new OrderType.FillOrKill 2 Side.Sell 99 20) =
      .ok (bookOneBid, []) :=
  ⟨by decide,
   rejected_add_leaves_book_unchanged bookOneBid
    (Order.new OrderType.FillOrKill 2 Side.Sell 99 20)
    (Or.inr (Or.inr (Or.inr ⟨rfl, by decide⟩)))⟩

/-- C9: for every book state and every id that is not a key of `orders_`,
`CancelOrder` returns the book unchanged; and for every book state and every id,
cancelling the id a second time gives what the first cancel gave. -/
theorem cancel_unknown_id_is_noop (ob : Orderbook) (orderId : OrderId) :
    (findOrder orderId ob.orders_ = none → CancelOrder ob orderId = .ok ob) ∧
    (match CancelOrder ob orderId with
      | .error e => .error e
      | .ok ob1 => CancelOrder ob1 orderId) = CancelOrder ob orderId := by
  constructor
  · intro h
    exact cancel_absent h
  · rcases hc : CancelOrder ob orderId with e | ob1
    · rfl
    · simp only
      have hgone : findOrder orderId ob1.orders_ = none := by
        unfold CancelOrder CancelOrderInternal at hc
        rcases hf : findOrder orderId ob.orders_ with _ | o
        · simp only [hf] at hc
          cases hc
          exact hf
        · simp only [hf] at hc
          split at hc
          · split at hc
            · cases hc
            · split at hc
              · cases hc
              · rw [← Except.ok.inj hc]
                exact findOrder_eraseOrder _ _
          · split at hc
            · cases hc
            · split at hc
              · cases hc
              · rw [← Except.ok.inj hc]
                exact findOrder_eraseOrder _ _
      exact cancel_absent hgone

/-- C9 at the book holding bid 1 of 5 at 100 and the unknown id 7. -/
theorem cancel_unknown_id_is_noop_witness :
    findOrder 7 bookOneBid.orders_ = none ∧ CancelOrder bookOneBid 7 = .ok bookOneBid :=
  ⟨by decide, (cancel_unknown_id_is_noop bookOneBid 7).1 (by decide)⟩

/-- C10: for every book state and every modification whose id is not a key of
`orders_`, `ModifyOrder` returns an empty trade list and the book, `bids_`, `asks_`,
`orders_` and `data_`, is exactly as it was. -/
theorem modify_unknown_id_is_noop (ob : Orderbook) (order : OrderModify)
    (h : findOrder order.orderId_ ob.orders_ = none) :
    ModifyOrder ob order = .ok (ob, []) := by
  simp only [ModifyOrder, h]

/-- C10 at the book holding bid 1 of 5 at 100 and the modification `M 7 S 101 3`. -/
theorem modify_unknown_id_is_noop_witness :
    findOrder 7 bookOneBid.orders_ = none ∧
    ModifyOrder bookOneBid (OrderModify.mk 7 101 Side.Sell 3) = .ok (bookOneBid, []) :=
  ⟨by decide, modify_unknown_id_is_noop bookOneBid _ (by decide)⟩

/-! ## Level snapshot -/

theorem foldl_wrapAdd (l : List Order) (a : Nat) :
    l.foldl (fun runningSum order => wrapAdd runningSum order.remainingQuantity_)
        (a % quantityModulus) =
      (a + (l.map (fun o => o.remainingQuantity_)).sum) % quantityModulus := by
  induction l generalizing a with
  | nil => simp
  | cons o rest ih =>
    simp only [List.foldl_cons, List.map_cons, List.sum_cons]
    have e : wrapAdd (a % quantityModulus) o.remainingQuantity_ =
        (a + o.remainingQuantity_) % quantityModulus := by
      unfold wrapAdd
      exact Nat.mod_add_mod _ _ _
    rw [e, ih, Nat.add_assoc]

theorem createLevelInfos_quantity (price : Price) (orders : OrderPointers) :
    (CreateLevelInfos price orders).quantity_ =
      (orders.map (fun o => o.remainingQuantity_)).sum % 2 ^ 32 := by
  have := foldl_wrapAdd orders 0
  simp only [Nat.zero_mod, Nat.zero_add] at this
  exact this

/-- C20: for every book whose maps are ordered as `std::map` keeps them (`bids_` by
`std::greater`, `asks_` by `std::less`), `GetOrderInfos` returns one record per key of
`bids_` in strictly descending price order and one per key of `asks_` in strictly
ascending price order, and the quantity of each record is the sum of the remaining
quantities of the orders queued at that price on that side, modulo `2 ^ 32`. -/
theorem level_infos_follow_the_maps (ob : Orderbook)
    (hb : ob.bids_.Pairwise (fun x y => x.1 > y.1))
    (ha : ob.asks_.Pairwise (fun x y => x.1 < y.1)) :
    (GetOrderInfos ob).bids_.map (fun i => i.price_) = ob.bids_.map Prod.fst ∧
    (GetOrderInfos ob).asks_.map (fun i => i.price_) = ob.asks_.map Prod.fst ∧
    (GetOrderInfos ob).bids_.Pairwise (fun i j => i.price_ > j.price_) ∧
    (GetOrderInfos ob).asks_.Pairwise (fun i j => i.price_ < j.price_) ∧
    (GetOrderInfos ob).bids_.map (fun i => i.quantity_) =
      ob.bids_.map (fun l => (l.2.map (fun o => o.remainingQuantity_)).sum % 2 ^ 32) ∧
    (GetOrderInfos ob).asks_.map (fun i => i.quantity_) =
      ob.asks_.map (fun l => (l.2.map (fun o => o.remainingQuantity_)).sum % 2 ^ 32) := by
  refine ⟨?_, ?_, ?_, ?_, ?_, ?_⟩
  · simp [GetOrderInfos, CreateLevelInfos, List.map_map, Function.comp_def]
  · simp [GetOrderInfos, CreateLevelInfos, List.map_map, Function.comp_def]
  · simp only [GetOrderInfos, List.pairwise_map]
    exact hb
  · simp only [GetOrderInfos, List.pairwise_map]
    exact ha
  · simp only [GetOrderInfos, List.map_map]
    apply List.map_congr_left
    intro l _
    exact createLevelInfos_quantity l.1 l.2
  · simp only [GetOrderInfos, List.map_map]
    apply List.map_congr_left
    intro l _
    exact createLevelInfos_quantity l.1 l.2

/-- C20 at the book holding bid 1 of 10 at 100 and ask 2 of 5 at 101. -/
theorem level_infos_follow_the_maps_witness :
    (GetOrderInfos bookBidAndAsk).bids_.map (fun i => i.price_) = [100] ∧
    (GetOrderInfos bookBidAndAsk).asks_.map (fun i => i.price_) = [101] ∧
    (GetOrderInfos bookBidAndAsk).bids_.map (fun i => i.quantity_) = [10] ∧
    (GetOrderInfos bookBidAndAsk).asks_.map (fun i => i.quantity_) = [5] := by
  have h := level_infos_follow_the_maps bookBidAndAsk (by simp [bookBidAndAsk])
    (by simp [bookBidAndAsk])
  refine ⟨h.1, h.2.1, ?_, ?_⟩
  · rw [h.2.2.2.2.1]; decide
  · rw [h.2.2.2.2.2]; decide

/-! ## Scenario: modify with a side flip -/

/-- C12 (as stated, refuted): after `A B GoodTillCancel 100 10 1` and
`A S GoodTillCancel 101 5 2` the call `ModifyOrder(1, Sell, 101, 10)` does not return a
trade of quantity 5 at price 101 together with `Size() = 1`, no bid level and one ask
level. -/
theorem modify_side_flip_not_as_stated :
    run Orderbook.empty
      [Request.add OrderType.GoodTillCancel 1 Side.Buy 100 10,
       Request.add OrderType.GoodTillCancel 2 Side.Sell 101 5] = .ok bookBidAndAsk ∧
    ¬ ∃ r, ModifyOrder bookBidAndAsk (OrderModify.mk 1 101 Side.Sell 10) = .ok r ∧
      (∃ t ∈ r.2, t.bidTrade_.quantity_ = 5 ∧ t.askTrade_.quantity_ = 5 ∧
        t.askTrade_.price_ = 101) ∧
      Size r.1 = 1 ∧ (GetOrderInfos r.1).bids_.length = 0 ∧
      (GetOrderInfos r.1).asks_.length = 1 := by
  refine ⟨by decide, ?_⟩
  rintro ⟨r, hr, ⟨t, ht, _⟩, _⟩
  have e : ModifyOrder bookBidAndAsk (OrderModify.mk 1 101 Side.Sell 10) =
      .ok ((Orderbook.mk
        [(101, { quantity_ := 15, count_ := 2 })] []
        [(101, [Order.new OrderType.GoodTillCancel 2 Side.Sell 101 5,
                Order.new OrderType.GoodTillCancel 1 Side.Sell 101 10])]
        [(2, Order.new OrderType.GoodTillCancel 2 Side.Sell 101 5),
         (1, Order.new OrderType.GoodTillCancel 1 Side.Sell 101 10)]), []) := by
    decide
  rw [e] at hr
  have h2 := congrArg Prod.snd (Except.ok.inj hr)
  simp only at h2
  rw [← h2] at ht
  simp at ht

/-- C12 (amended): after `A B GoodTillCancel 100 10 1` and `A S GoodTillCancel 101 5 2`
the call `ModifyOrder(1, Sell, 101, 10)` returns no trade; order 1 is queued behind
order 2 at the ask price 101 with 10 remaining, `Size()` is 2, and `GetOrderInfos`
shows no bid level and one ask level. -/
theorem modify_side_flip_rests_behind_ask :
    run Orderbook.empty
      [Request.add OrderType.GoodTillCancel 1 Side.Buy 100 10,
       Request.add OrderType.GoodTillCancel 2 Side.Sell 101 5] = .ok bookBidAndAsk ∧
    ∃ ob, ModifyOrder bookBidAndAsk (OrderModify.mk 1 101 Side.Sell 10) = .ok (ob, []) ∧
      ob.bids_ = [] ∧
      ob.asks_ = [(101, [Order.new OrderType.GoodTillCancel 2 Side.Sell 101 5,
                         Order.new OrderType.GoodTillCancel 1 Side.Sell 101 10])] ∧
      Size ob = 2 ∧ (GetOrderInfos ob).bids_.length = 0 ∧
      (GetOrderInfos ob).asks_.length = 1 := by
  refine ⟨by decide, Orderbook.mk
        [(101, { quantity_ := 15, count_ := 2 })] []
        [(101, [Order.new OrderType.GoodTillCancel 2 Side.Sell 101 5,
                Order.new OrderType.GoodTillCancel 1 Side.Sell 101 10])]
        [(2, Order.new OrderType.GoodTillCancel 2 Side.Sell 101 5),
         (1, Order.new OrderType.GoodTillCancel 1 Side.Sell 101 10)], ?_⟩
  decide

/-! ## Fill-or-kill admission against the level aggregate -/

/-- C13 (the code at two failing inputs, both reached from the empty book). In
`bookLostRow` the bids at or above 100 hold 4, yet `CanFullyFill` refuses a sell of 4
at 100 and `AddOrder` rejects the fill-or-kill order 3. In `bookStaleRow` the asks at
or below 100 hold 1, yet `CanFullyFill` accepts a buy of 50 at 100. -/
theorem fill_or_kill_admission_ignores_cover :
    run Orderbook.empty
      [Request.add OrderType.GoodTillCancel 1 Side.Buy 100 10,
       Request.add OrderType.GoodTillCancel 2 Side.Sell 100 6] = .ok bookLostRow ∧
    findOrder 3 bookLostRow.orders_ = none ∧
    coverFor bookLostRow Side.Sell 100 = 4 ∧
    CanFullyFill bookLostRow Side.Sell 100 4 = false ∧
    AddOrder bookLostRow (Order.new OrderType.FillOrKill 3 Side.Sell 100 4) =
      .ok (bookLostRow, []) ∧
    run bookLostRow
      [Request.cancel 1, Request.add OrderType.GoodTillCancel 3 Side.Sell 99 1] =
      .ok bookStaleRow ∧
    coverFor bookStaleRow Side.Buy 100 = 1 ∧
    CanFullyFill bookStaleRow Side.Buy 100 50 = true := by
  decide

/-! ## Properties of orders kept by every call -/

/-- A property of orders that fills do not change and that every order has which
`AddOrder` admits when it is called with a newly constructed order, is kept by every
call. -/
theorem step_keeps {Q : Order → Prop} (hfill : ∀ x q, Q x → Q (filled x q))
    (hconv : ∀ (ob : Orderbook) (t : OrderType) (k : OrderId) (s : Side) (p : Price)
      (q : Quantity) (o1 : Order),
      convertMarket ob (Order.new t k s p q) = .ok (some o1) → Q o1)
    {ob : Orderbook} (h : BookInv ob) (hall : ∀ x ∈ resting ob, Q x) (req : Request) :
    ∃ r, step ob req = .ok r ∧ BookInv r.1 ∧ ∀ x ∈ resting r.1, Q x := by
  cases req with
  | add t k s p q =>
    obtain ⟨r, hr, hinv, hQ⟩ := AddOrder_spec h (Order.new t k s p q)
    exact ⟨r, hr, hinv, hQ Q hfill hall (fun o1 hc => hconv _ _ _ _ _ _ _ hc)⟩
  | cancel k =>
    obtain ⟨ob1, h1, h2, h3, _⟩ := CancelOrder_spec h k
    exact ⟨(ob1, []), by simp only [step, h1], h2,
      fun x hx => hall x (shrunk_resting h3 hx)⟩
  | modify m =>
    rcases hf : findOrder m.orderId_ ob.orders_ with _ | existing
    · exact ⟨(ob, []), by simp only [step, ModifyOrder, hf], h, hall⟩
    · obtain ⟨ob1, h1, h2, h3, _⟩ := CancelOrder_spec h m.orderId_
      obtain ⟨r, hr, hinv, hQ⟩ := AddOrder_spec h2 (m.ToOrderPointer existing.orderType_)
      refine ⟨r, by simp only [step, ModifyOrder, hf, h1, hr], hinv, ?_⟩
      exact hQ Q hfill (fun x hx => hall x (shrunk_resting h3 hx))
        (fun o1 hc => hconv _ _ _ _ _ _ _ hc)

theorem run_keeps {Q : Order → Prop} (hfill : ∀ x q, Q x → Q (filled x q))
    (hconv : ∀ (ob : Orderbook) (t : OrderType) (k : OrderId) (s : Side) (p : Price)
      (q : Quantity) (o1 : Order),
      convertMarket ob (Order.new t k s p q) = .ok (some o1) → Q o1)
    (requests : List Request) :
    ∀ {ob : Orderbook}, BookInv ob → (∀ x ∈ resting ob, Q x) →
      ∃ ob1, run ob requests = .ok ob1 ∧ BookInv ob1 ∧ ∀ x ∈ resting ob1, Q x := by
  induction requests with
  | nil => intro ob h hall; exact ⟨ob, rfl, h, hall⟩
  | cons req rest ih =>
    intro ob h hall
    obtain ⟨r, hr, hinv, hall1⟩ := step_keeps hfill hconv h hall req
    obtain ⟨ob1, h1, h2, h3⟩ := ih hinv hall1
    exact ⟨ob1, by simp only [run, hr, h1], h2, h3⟩

theorem convertMarket_not_market {ob : Orderbook} {o o1 : Order}
    (h : convertMarket ob o = .ok (some o1)) : o1.orderType_ ≠ OrderType.Market := by
  rcases convertMarket_cases ob o with hn | ⟨o2, hc, _, _, hnm, _⟩
  · rw [hn] at h; cases h
  · rw [hc] at h; cases h; exact hnm

/-- C14: for every finite sequence of AddOrder / CancelOrder / ModifyOrder calls applied
to an empty book, the calls all return and afterwards no order held in `orders_`, in a
queue of `bids_` or in a queue of `asks_` has type Market. -/
theorem no_market_order_is_held (requests : List Request) :
    ∃ ob, run Orderbook.empty requests = .ok ob ∧
      (∀ e ∈ ob.orders_, e.2.orderType_ ≠ OrderType.Market) ∧
      (∀ l ∈ ob.bids_, ∀ o ∈ l.2, o.orderType_ ≠ OrderType.Market) ∧
      (∀ l ∈ ob.asks_, ∀ o ∈ l.2, o.orderType_ ≠ OrderType.Market) := by
  obtain ⟨ob, hr, hinv, hall⟩ := run_keeps
    (Q := fun o => o.orderType_ ≠ OrderType.Market) (fun _ _ hx => hx)
    (fun _ _ _ _ _ _ _ hc => convertMarket_not_market hc) requests empty_inv
    (by simp [Orderbook.empty, resting])
  refine ⟨ob, hr, ?_, ?_, ?_⟩
  · intro e he
    obtain ⟨k, o⟩ := e
    exact hall o ((coupled_mem_orders hinv.coupled).1 he).2
  · intro l hl o ho
    exact hall o (List.mem_append_left _ (mem_queued.2 ⟨l, hl, ho⟩))
  · intro l hl o ho
    exact hall o (List.mem_append_right _ (mem_queued.2 ⟨l, hl, ho⟩))

/-! ## Properties of book and trades through the matching loop -/

theorem tagOf_filled (o : Order) (q : Quantity) : tagOf (filled o q) = tagOf o := rfl

theorem settle_trades (ob : Orderbook) (trades : Trades)
    (bp : Price) (b : Order) (B : OrderPointers) (bs : Levels)
    (ap : Price) (a : Order) (A : OrderPointers) (as : Levels) :
    (settleFronts ob trades (min b.remainingQuantity_ a.remainingQuantity_)
      bp (filled b (min b.remainingQuantity_ a.remainingQuantity_)) B bs
      ap (filled a (min b.remainingQuantity_ a.remainingQuantity_)) A as).2 =
      trades ++ [tradeOf b a] := rfl

/-- Erasing the emptied best levels changes neither the queued orders nor the index. -/
theorem eraseEmptyBest_same {ob : Orderbook} {bp : Price} {bs : Levels} {ap : Price}
    {as : Levels} (h : CoupledInLoop ob)
    (hb : ob.bids_ = (bp, bestQueue ob.bids_) :: bs)
    (ha : ob.asks_ = (ap, bestQueue ob.asks_) :: as) :
    queued (eraseEmptyBest ob bp ap (bestQueue ob.bids_).isEmpty
      (bestQueue ob.asks_).isEmpty).bids_ = queued ob.bids_ ∧
    queued (eraseEmptyBest ob bp ap (bestQueue ob.bids_).isEmpty
      (bestQueue ob.asks_).isEmpty).asks_ = queued ob.asks_ ∧
    (eraseEmptyBest ob bp ap (bestQueue ob.bids_).isEmpty
      (bestQueue ob.asks_).isEmpty).orders_ = ob.orders_ ∧
    (eraseEmptyBest ob bp ap (bestQueue ob.bids_).isEmpty
      (bestQueue ob.asks_).isEmpty).bids_ =
      (if (bestQueue ob.bids_).isEmpty = true then bs else ob.bids_) ∧
    (eraseEmptyBest ob bp ap (bestQueue ob.bids_).isEmpty
      (bestQueue ob.asks_).isEmpty).asks_ =
      (if (bestQueue ob.asks_).isEmpty = true then as else ob.asks_) := by
  obtain ⟨hc, _, _⟩ := h
  have hbs := hc.bids
  have has := hc.asks
  rw [hb] at hbs
  rw [ha] at has
  have eb : (eraseEmptyBest ob bp ap (bestQueue ob.bids_).isEmpty
      (bestQueue ob.asks_).isEmpty).bids_ =
      if (bestQueue ob.bids_).isEmpty = true then bs else ob.bids_ := by
    rw [eraseEmptyBest_bids]
    split
    · rw [hb]; exact eraseLevel_head keyOrder_bid hbs.sorted
    · rfl
  have ea : (eraseEmptyBest ob bp ap (bestQueue ob.bids_).isEmpty
      (bestQueue ob.asks_).isEmpty).asks_ =
      if (bestQueue ob.asks_).isEmpty = true then as else ob.asks_ := by
    rw [eraseEmptyBest_asks]
    split
    · rw [ha]; exact eraseLevel_head keyOrder_ask has.sorted
    · rfl
  refine ⟨?_, ?_, eraseEmptyBest_orders _ _ _ _ _, eb, ea⟩
  · rw [eb]
    split
    · next he => rw [hb, queued_cons, List.isEmpty_iff.1 he, List.nil_append]
    · rfl
  · rw [ea]
    split
    · next he => rw [ha, queued_cons, List.isEmpty_iff.1 he, List.nil_append]
    · rfl

theorem crossing_settle {s : Orderbook} (trades : Trades) (q : Quantity)
    {bp : Price} {b1 : Order} {B : OrderPointers} {bs : Levels}
    {ap : Price} {a1 : Order} {A : OrderPointers} {as : Levels} (hx : ¬ bp < ap) :
    Crossing (settleFronts s trades q bp b1 B bs ap a1 A as).1 := by
  intro bp1 B1 bs1 ap1 A1 as1 hb ha
  rw [settle_bids] at hb
  rw [settle_asks] at ha
  cases hb
  cases ha
  exact hx

/-- A property of the book and the trade list that holds when `MatchOrders` enters its
loop, that every pass of the inner loop keeps in a coupled, crossing book, and that the
erasure of the emptied best levels keeps, holds when the loop returns. -/
theorem matchLoop_traces {P : Orderbook → Trades → Prop}
    (hsettle : ∀ s ts bp b B bs ap a A as, CoupledInLoop s → ¬ bp < ap → P s ts →
      s.bids_ = (bp, b :: B) :: bs → s.asks_ = (ap, a :: A) :: as →
      P (settleFronts s ts (min b.remainingQuantity_ a.remainingQuantity_)
          bp (filled b (min b.remainingQuantity_ a.remainingQuantity_)) B bs
          ap (filled a (min b.remainingQuantity_ a.remainingQuantity_)) A as).1
        (ts ++ [tradeOf b a]))
    (herase : ∀ s ts bp bs ap as, CoupledInLoop s → P s ts →
      s.bids_ = (bp, bestQueue s.bids_) :: bs →
      s.asks_ = (ap, bestQueue s.asks_) :: as →
      P (eraseEmptyBest s bp ap (bestQueue s.bids_).isEmpty
        (bestQueue s.asks_).isEmpty) ts)
    {fuel : Nat} {ob : Orderbook} {trades : Trades} {r : Orderbook × Trades}
    (hc : CoupledFull ob) (hP : P ob trades)
    (hf : ob.bids_.length + ob.asks_.length ≤ fuel)
    (h : matchLoop fuel ob trades = .ok r) : P r.1 r.2 := by
  obtain ⟨r1, e, hP1, _⟩ := matchLoop_spec (P := fun s ts => CoupledFull s ∧ P s ts)
    (by
      intro o t bp B bs ap A as r0 hp hb ha hx hr
      have hfuel : (bestQueue o.bids_).length + (bestQueue o.asks_).length
          ≤ B.length + A.length := by simp [hb, ha, bestQueue]
      obtain ⟨k1, t1, k2, t2⟩ := matchLevel_shape hr hfuel
      have hin : CoupledInLoop o := ⟨hp.1.1, noEmpty_tail hp.1.2.1, noEmpty_tail hp.1.2.2⟩
      have hcross : Crossing o := by
        intro bp1 B1 bs1 ap1 A1 as1 hb1 ha1
        rw [hb] at hb1
        rw [ha] at ha1
        cases hb1
        cases ha1
        exact hx
      obtain ⟨r2, e2, hQ2, _⟩ := matchLevel_spec
        (P := fun s ts => CoupledInLoop s ∧ Crossing s ∧ P s ts)
        (by
          intro s ts bp1 b1 B1 bs1 ap1 a1 A1 as1 hq hb1 ha1
          have hx1 := hq.2.1 bp1 (b1 :: B1) bs1 ap1 (a1 :: A1) as1 hb1 ha1
          refine ⟨coupledInLoop_settle s ts _ bp1 b1 B1 bs1 ap1 a1 A1 as1 hq.1 hb1 ha1,
            crossing_settle ts _ hx1, ?_⟩
          rw [settle_trades]
          exact hsettle s ts bp1 b1 B1 bs1 ap1 a1 A1 as1 hq.1 hx1 hq.2.2 hb1 ha1)
        (B.length + A.length) o t ⟨hin, hcross, hp.2⟩ hfuel
      rw [hr] at e2
      cases e2
      exact ⟨coupledFull_erase r0.1 bp bs ap as hQ2.1 (head_of_shape hb k1 t1)
          (head_of_shape ha k2 t2),
        herase r0.1 r0.2 bp bs ap as hQ2.1 hQ2.2.2 (head_of_shape hb k1 t1)
          (head_of_shape ha k2 t2)⟩)
    fuel ob trades ⟨hc, hP⟩ hf
  rw [h] at e
  cases e
  exact hP1.2

/-! ## The two sides as flat lists -/

theorem queued_of_head {levels : Levels} {p : Price} {Q : OrderPointers} {rest : Levels}
    (h : levels = (p, Q) :: rest) : queued levels = Q ++ queued rest := by
  rw [h, queued_cons]

/-- After a pass of the inner loop the front bid is replaced by its filled state, or
dropped when the fill completed it; the bids behind it are untouched. -/
theorem settle_queued_bids {s : Orderbook} (trades : Trades) (q : Quantity)
    {bp : Price} {b : Order} {B : OrderPointers} {bs : Levels}
    (ap : Price) (a1 : Order) (A : OrderPointers) (as : Levels)
    (hb : s.bids_ = (bp, b :: B) :: bs) :
    queued s.bids_ = b :: (queued s.bids_).tail ∧
    queued (settleFronts s trades q bp (filled b q) B bs ap a1 A as).1.bids_ =
      (if (filled b q).IsFilled = true then (queued s.bids_).tail
       else filled b q :: (queued s.bids_).tail) := by
  rw [settle_bids, hb]
  simp only [queued_cons, List.cons_append, List.tail_cons, true_and]
  split <;> rfl

theorem settle_queued_asks {s : Orderbook} (trades : Trades) (q : Quantity)
    (bp : Price) (b1 : Order) (B : OrderPointers) (bs : Levels)
    {ap : Price} {a : Order} {A : OrderPointers} {as : Levels}
    (ha : s.asks_ = (ap, a :: A) :: as) :
    queued s.asks_ = a :: (queued s.asks_).tail ∧
    queued (settleFronts s trades q bp b1 B bs ap (filled a q) A as).1.asks_ =
      (if (filled a q).IsFilled = true then (queued s.asks_).tail
       else filled a q :: (queued s.asks_).tail) := by
  rw [settle_asks, ha]
  simp only [queued_cons, List.cons_append, List.tail_cons, true_and]
  split <;> rfl

theorem suffix_step {l l0 : List Order} {b : Order} (q : Quantity) (f : Bool)
    (hl : l = b :: l.tail) (h : (l.map tagOf) <:+ (l0.map tagOf)) :
    ((if f = true then l.tail else filled b q :: l.tail).map tagOf) <:+ (l0.map tagOf) := by
  cases f
  · simp only [Bool.false_eq_true, if_false, List.map_cons, tagOf_filled]
    rw [hl, List.map_cons] at h
    exact h
  · simp only [if_true]
    rw [hl, List.map_cons] at h
    exact (List.suffix_cons _ _).trans h

theorem consumed_refl (ob : Orderbook) : Consumed ob ob :=
  ⟨List.suffix_refl _, List.suffix_refl _⟩

theorem consumed_trans {s2 s1 s : Orderbook} (h1 : Consumed s2 s1) (h : Consumed s1 s) :
    Consumed s2 s :=
  ⟨h1.1.trans h.1, h1.2.trans h.2⟩

/-- The matching loop takes orders from the front of each side only. -/
theorem matchLoop_consumed {fuel : Nat} {ob : Orderbook} {trades : Trades}
    {r : Orderbook × Trades} (hc : CoupledFull ob)
    (hf : ob.bids_.length + ob.asks_.length ≤ fuel)
    (h : matchLoop fuel ob trades = .ok r) : Consumed r.1 ob := by
  refine matchLoop_traces (P := fun s _ => Consumed s ob) ?_ ?_ hc (consumed_refl ob) hf h
  · intro s ts bp b B bs ap a A as _ _ hP hb ha
    obtain ⟨e1, e2⟩ := settle_queued_bids ts (min b.remainingQuantity_ a.remainingQuantity_)
      ap (filled a (min b.remainingQuantity_ a.remainingQuantity_)) A as hb
    obtain ⟨e3, e4⟩ := settle_queued_asks ts (min b.remainingQuantity_ a.remainingQuantity_)
      bp (filled b (min b.remainingQuantity_ a.remainingQuantity_)) B bs ha
    constructor
    · rw [e2]; exact suffix_step _ _ e1 hP.1
    · rw [e4]; exact suffix_step _ _ e3 hP.2
  · intro s ts bp bs ap as hin hP hb ha
    obtain ⟨e1, e2, _⟩ := eraseEmptyBest_same hin hb ha
    exact ⟨by rw [e1]; exact hP.1, by rw [e2]; exact hP.2⟩

/-! ## The stages of `MatchOrders` -/

/-- The clean-up on the bid side, exactly: either nothing changes, or the first queued
bid is a fill-and-kill order and is removed. -/
theorem killFront_bids_exact {ob : Orderbook} (h : CoupledFull ob) :
    ∃ ob1, killFront ob ob.bids_ = .ok ob1 ∧ CoupledFull ob1 ∧ Shrunk ob1 ob ∧
      queued ob1.asks_ = queued ob.asks_ ∧
      (queued ob1.bids_ = queued ob.bids_ ∨
        ∃ x rest, queued ob.bids_ = x :: rest ∧
          x.orderType_ = OrderType.FillAndKill ∧ queued ob1.bids_ = rest) := by
  obtain ⟨hc, hbf, haf⟩ := h
  rcases hbq : ob.bids_ with _ | ⟨⟨p, Q⟩, rest⟩
  · exact ⟨ob, rfl, ⟨hc, hbf, haf⟩, shrunk_refl _, rfl, Or.inl (by rw [hbq])⟩
  · rcases Q with _ | ⟨x, Q⟩
    · exact absurd rfl (hbf (p, []) (by rw [hbq]; exact List.mem_cons_self _ _))
    · by_cases hx : x.orderType_ = OrderType.FillAndKill
      · obtain ⟨ob1, h1, h2, h3, h4, h5, h6, h7, h8, _⟩ := cancel_spec hc x.orderId_
        have hids := hc.ids
        unfold resting at hids
        rw [hbq, List.map_append] at hids
        simp only [queued_cons, List.cons_append, List.map_cons] at hids
        have hn := (List.nodup_cons.1 hids).1
        rw [List.mem_append, not_or] at hn
        have hq : queued ob.bids_ = x :: (Q ++ queued rest) := by rw [hbq]; rfl
        have hb1 : queued ob1.bids_ = Q ++ queued rest := by
          rw [h3, hq, dropId_cons_same rfl]
          exact dropId_of_absent hn.1
        have ha1 : queued ob1.asks_ = queued ob.asks_ := by
          rw [h4]
          exact dropId_of_absent hn.2
        refine ⟨ob1, ?_, ⟨h2, h7 hbf, h8 haf⟩, ⟨?_, ?_, h5, h6⟩, ha1,
          Or.inr ⟨x, Q ++ queued rest, rfl, hx, hb1⟩⟩
        · simp only [killFront, hx, if_true, h1]
        · rw [h3]; exact dropId_sublist _ _
        · rw [h4]; exact dropId_sublist _ _
      · refine ⟨ob, ?_, ⟨hc, hbf, haf⟩, shrunk_refl _, rfl, Or.inl (by rw [hbq])⟩
        simp only [killFront, hx, if_false]

theorem killFront_asks_exact {ob : Orderbook} (h : CoupledFull ob) :
    ∃ ob1, killFront ob ob.asks_ = .ok ob1 ∧ CoupledFull ob1 ∧ Shrunk ob1 ob ∧
      queued ob1.bids_ = queued ob.bids_ ∧
      (queued ob1.asks_ = queued ob.asks_ ∨
        ∃ x rest, queued ob.asks_ = x :: rest ∧
          x.orderType_ = OrderType.FillAndKill ∧ queued ob1.asks_ = rest) := by
  obtain ⟨hc, hbf, haf⟩ := h
  rcases haq : ob.asks_ with _ | ⟨⟨p, Q⟩, rest⟩
  · exact ⟨ob, rfl, ⟨hc, hbf, haf⟩, shrunk_refl _, rfl, Or.inl (by rw [haq])⟩
  · rcases Q with _ | ⟨x, Q⟩
    · exact absurd rfl (haf (p, []) (by rw [haq]; exact List.mem_cons_self _ _))
    · by_cases hx : x.orderType_ = OrderType.FillAndKill
      · obtain ⟨ob1, h1, h2, h3, h4, h5, h6, h7, h8, _⟩ := cancel_spec hc x.orderId_
        have hids := hc.ids
        unfold resting at hids
        rw [haq, List.map_append] at hids
        simp only [queued_cons, List.cons_append, List.map_cons] at hids
        have hn := List.nodup_append.1 hids
        have hq : queued ob.asks_ = x :: (Q ++ queued rest) := by rw [haq]; rfl
        have ha1 : queued ob1.asks_ = Q ++ queued rest := by
          rw [h4, hq, dropId_cons_same rfl]
          exact dropId_of_absent (List.nodup_cons.1 hn.2.1).1
        have hb1 : queued ob1.bids_ = queued ob.bids_ := by
          rw [h3]
          apply dropId_of_absent
          intro hm
          exact hn.2.2 hm (List.mem_cons_self _ _)
        refine ⟨ob1, ?_, ⟨h2, h7 hbf, h8 haf⟩, ⟨?_, ?_, h5, h6⟩, hb1,
          Or.inr ⟨x, Q ++ queued rest, rfl, hx, ha1⟩⟩
        · simp only [killFront, hx, if_true, h1]
        · rw [h3]; exact dropId_sublist _ _
        · rw [h4]; exact dropId_sublist _ _
      · refine ⟨ob, ?_, ⟨hc, hbf, haf⟩, shrunk_refl _, rfl, Or.inl (by rw [haq])⟩
        simp only [killFront, hx, if_false]

/-- The three stages of `MatchOrders` on a coupled book without empty levels: the loop
returns a settled book `s` and the trades; the clean-up of the bid side gives `ob1`,
that of the ask side the final book. -/
theorem MatchOrders_stages {ob : Orderbook} (h : CoupledFull ob) :
    ∃ s ob1 ob2 ts,
      matchLoop (ob.bids_.length + ob.asks_.length + 1) ob [] = .ok (s, ts) ∧
      killFront s s.bids_ = .ok ob1 ∧ killFront ob1 ob1.asks_ = .ok ob2 ∧
      MatchOrders ob = .ok (ob2, ts) ∧
      CoupledFull s ∧ Settled s ∧ Consumed s ob ∧
      CoupledFull ob1 ∧ Shrunk ob1 s ∧ queued ob1.asks_ = queued s.asks_ ∧
      (queued ob1.bids_ = queued s.bids_ ∨
        ∃ x rest, queued s.bids_ = x :: rest ∧
          x.orderType_ = OrderType.FillAndKill ∧ queued ob1.bids_ = rest) ∧
      CoupledFull ob2 ∧ Shrunk ob2 ob1 ∧ queued ob2.bids_ = queued ob1.bids_ ∧
      (queued ob2.asks_ = queued ob1.asks_ ∨
        ∃ x rest, queued ob1.asks_ = x :: rest ∧
          x.orderType_ = OrderType.FillAndKill ∧ queued ob2.asks_ = rest) := by
  have hf : ob.bids_.length + ob.asks_.length ≤ ob.bids_.length + ob.asks_.length + 1 :=
    Nat.le_succ _
  obtain ⟨r0, hr0, hs0⟩ := matchLoop_total _ ob [] hf
  have hc0 := matchLoop_coupled h hf hr0
  obtain ⟨ob1, e1, hc1, hs1, ha1, hb1⟩ := killFront_bids_exact hc0
  obtain ⟨ob2, e2, hc2, hs2, hb2, ha2⟩ := killFront_asks_exact hc1
  refine ⟨r0.1, ob1, ob2, r0.2, hr0, e1, e2, ?_, hc0, hs0, matchLoop_consumed h hf hr0,
    hc1, hs1, ha1, hb1, hc2, hs2, hb2, ha2⟩
  simp only [MatchOrders, hr0, e1, e2]

/-- The call `MatchOrders` takes orders from the front of each side only. -/
theorem MatchOrders_consumed {ob : Orderbook} (h : CoupledFull ob)
    {r : Orderbook × Trades} (hr : MatchOrders ob = .ok r) : Consumed r.1 ob := by
  obtain ⟨s, ob1, ob2, ts, _, _, _, hm, _, _, hcons, _, _, ha1, hb1, _, _, hb2, ha2⟩ :=
    MatchOrders_stages h
  rw [hm] at hr
  cases hr
  have c1 : Consumed ob1 s := by
    refine ⟨?_, by rw [ha1]⟩
    rcases hb1 with e | ⟨x, rest, e1, _, e2⟩
    · rw [e]
    · rw [e1, e2, List.map_cons]; exact List.suffix_cons _ _
  have c2 : Consumed ob2 ob1 := by
    refine ⟨by rw [hb2], ?_⟩
    rcases ha2 with e | ⟨x, rest, e1, _, e2⟩
    · rw [e]
    · rw [e1, e2, List.map_cons]; exact List.suffix_cons _ _
  exact consumed_trans c2 (consumed_trans c1 hcons)

/-! ## Admission and insertion -/

/-- The call `AddOrder` either returns the book unchanged with no trade, or enters the
order that passed the admission tests and calls `MatchOrders`. -/
theorem AddOrder_admission (ob : Orderbook) (o : Order) :
    AddOrder ob o =
      match admission ob o with
      | none => .ok (ob, [])
      | some o1 => MatchOrders (insertOrder ob o1) := by
  unfold AddOrder admission
  by_cases hdup : (findOrder o.orderId_ ob.orders_).isSome = true
  · simp only [hdup, if_true]
  · simp only [hdup, Bool.false_eq_true, if_false]
    rcases convertMarket_cases ob o with hn | ⟨o1, hc, _⟩
    · simp only [hn]
    · simp only [hc]
      by_cases hfak : o1.orderType_ = OrderType.FillAndKill ∧
          CanMatch ob o1.side_ o1.price_ = false
      · rw [if_pos hfak, if_pos hfak]
      · rw [if_neg hfak, if_neg hfak]
        by_cases hfok : o1.orderType_ = OrderType.FillOrKill ∧
            CanFullyFill ob o1.side_ o1.price_ o1.initialQuantity_ = false
        · rw [if_pos hfok, if_pos hfok]
        · rw [if_neg hfok, if_neg hfok]

theorem admission_some {ob : Orderbook} {o o1 : Order} (h : admission ob o = some o1) :
    findOrder o.orderId_ ob.orders_ = none ∧ convertMarket ob o = .ok (some o1) ∧
      o1.orderId_ = o.orderId_ := by
  unfold admission at h
  by_cases hdup : (findOrder o.orderId_ ob.orders_).isSome = true
  · simp only [hdup, if_true] at h
    cases h
  · simp only [hdup, Bool.false_eq_true, if_false] at h
    have hfresh : findOrder o.orderId_ ob.orders_ = none := by simpa using hdup
    rcases convertMarket_cases ob o with hn | ⟨o2, hc, hid, _⟩
    · simp only [hn] at h
      cases h
    · simp only [hc] at h
      by_cases hfak : o2.orderType_ = OrderType.FillAndKill ∧
          CanMatch ob o2.side_ o2.price_ = false
      · rw [if_pos hfak] at h
        cases h
      · rw [if_neg hfak] at h
        by_cases hfok : o2.orderType_ = OrderType.FillOrKill ∧
            CanFullyFill ob o2.side_ o2.price_ o2.initialQuantity_ = false
        · rw [if_pos hfok] at h
          cases h
        · rw [if_neg hfok] at h
          cases h
          exact ⟨hfresh, hc, hid⟩

/-- The place of a new order among the queued orders of its side: behind the orders
of better prices and of its own price, in front of the orders of worse prices. -/
theorem queued_pushBackAt {before : Price → Price → Bool} (hb : KeyOrder before)
    {side : Side} {levels : Levels} (h : SideOk before side levels) (o : Order) :
    ∃ pre post, queued levels = pre ++ post ∧
      queued (pushBackAt before o.price_ o levels) = pre ++ o :: post ∧
      ∀ y ∈ post, y.price_ ≠ o.price_ := by
  induction levels with
  | nil => exact ⟨[], [], rfl, rfl, by simp⟩
  | cons l0 rest ih =>
    obtain ⟨k, q0⟩ := l0
    have hs1 := List.pairwise_cons.1 h.sorted
    have hrest : SideOk before side rest :=
      ⟨hs1.2, fun l hl => h.keyed l (List.mem_cons_of_mem _ hl)⟩
    by_cases hk : k = o.price_
    · refine ⟨q0, queued rest, rfl, ?_, ?_⟩
      · simp only [pushBackAt, hk, if_true, queued_cons, List.append_assoc,
          List.singleton_append]
      · intro y hy e
        obtain ⟨l, hl, hyl⟩ := mem_queued.1 hy
        have := (h.keyed l (List.mem_cons_of_mem _ hl) y hyl).2
        exact sorted_head_ne hb h.sorted l hl (by rw [← this, e, hk])
    · by_cases hbf : before o.price_ k = true
      · refine ⟨[], q0 ++ queued rest, rfl, ?_, ?_⟩
        · simp only [pushBackAt, hk, if_false, hbf, if_true, queued_cons, List.nil_append,
            List.singleton_append]
        · intro y hy e
          have hy1 : y ∈ queued ((k, q0) :: rest) := hy
          obtain ⟨l, hl, hyl⟩ := mem_queued.1 hy1
          have hp := (h.keyed l hl y hyl).2
          rcases List.mem_cons.1 hl with e1 | hl1
          · subst e1
            exact hk (hp.symm.trans e)
          · have h1 := hs1.1 l hl1
            have h2 := hb.trans _ _ _ hbf h1
            rw [← hp, e, hb.irrefl] at h2
            exact Bool.false_ne_true h2
      · obtain ⟨pre, post, e1, e2, e3⟩ := ih hrest
        refine ⟨q0 ++ pre, post, ?_, ?_, e3⟩
        · rw [queued_cons, e1, List.append_assoc]
        · simp only [pushBackAt, hk, if_false, hbf, Bool.false_eq_true, queued_cons, e2,
            List.append_assoc]

theorem lastOfPrice_of_absent {k : OrderId} {l : List Order}
    (h : k ∉ l.map (fun o => o.orderId_)) : LastOfPrice k l := by
  unfold LastOfPrice
  induction l with
  | nil => exact List.Pairwise.nil
  | cons x rest ih =>
    rw [List.map_cons, List.mem_cons, not_or] at h
    exact List.pairwise_cons.2 ⟨fun y _ e => absurd e.symm h.1, ih h.2⟩

/-- A new order with a fresh id is the last of its price among the queued orders of
its side. -/
theorem lastOfPrice_pushBackAt {before : Price → Price → Bool} (hb : KeyOrder before)
    {side : Side} {levels : Levels} (h : SideOk before side levels) (o : Order)
    (hfresh : o.orderId_ ∉ (queued levels).map (fun x => x.orderId_)) :
    LastOfPrice o.orderId_ (queued (pushBackAt before o.price_ o levels)) := by
  obtain ⟨pre, post, e1, e2, e3⟩ := queued_pushBackAt hb h o
  rw [e2]
  have hold := lastOfPrice_of_absent hfresh
  rw [e1] at hold hfresh
  unfold LastOfPrice at hold ⊢
  rw [List.pairwise_append] at hold ⊢
  rw [List.map_append, List.mem_append, not_or] at hfresh
  refine ⟨hold.1, List.pairwise_cons.2 ⟨fun y hy _ => e3 y hy, hold.2.1⟩, ?_⟩
  intro a ha b _ e
  have ha1 := List.mem_map_of_mem (fun x => x.orderId_) ha
  simp only [e] at ha1
  exact absurd ha1 hfresh.1

theorem lastOfPrice_of_tags {k : OrderId} {l1 l0 : List Order}
    (hs : (l1.map tagOf).Sublist (l0.map tagOf)) (h : LastOfPrice k l0) :
    LastOfPrice k l1 := by
  unfold LastOfPrice at h ⊢
  have h0 : (l0.map tagOf).Pairwise
      (fun t u => t.2.1 = k → u.2.2.2.1 ≠ t.2.2.2.1) := List.pairwise_map.2 h
  exact List.pairwise_map.1 (h0.sublist hs)

/-- On a well-formed side, an order that is the last of its price is the last element
of the queue that holds it. -/
theorem last_of_level {before : Price → Price → Bool} {side : Side} {levels : Levels}
    (h : SideOk before side levels) {k : OrderId} (hl : LastOfPrice k (queued levels))
    {l : Price × OrderPointers} (hmem : l ∈ levels) {x : Order} (hx : x ∈ l.2)
    (hk : x.orderId_ = k) : l.2.getLast? = some x := by
  have hq : LastOfPrice k l.2 := List.Pairwise.sublist (sublist_queued hmem) hl
  obtain ⟨p, s, e⟩ := List.append_of_mem hx
  unfold LastOfPrice at hq
  rw [e, List.pairwise_append] at hq
  have hxs := (List.pairwise_cons.1 hq.2.1).1
  rcases s with _ | ⟨y, s⟩
  · rw [e]; simp
  · have hy : y ∈ l.2 := by rw [e]; simp
    have := hxs y (List.mem_cons_self _ _) hk
    exact absurd ((h.keyed l hmem y hy).2.trans (h.keyed l hmem x hx).2.symm) this

/-- After `AddOrder` in a state that satisfies the invariant, the order with the id of
the submitted one is the last of its price on either side. -/
theorem AddOrder_last {ob : Orderbook} (h : BookInv ob) (o : Order)
    (hfresh : findOrder o.orderId_ ob.orders_ = none)
    {r : Orderbook × Trades} (hr : AddOrder ob o = .ok r) :
    LastOfPrice o.orderId_ (queued r.1.bids_) ∧
      LastOfPrice o.orderId_ (queued r.1.asks_) := by
  have hk := (coupled_findOrder_none h.coupled).1 hfresh
  unfold resting at hk
  rw [List.map_append, List.mem_append, not_or] at hk
  rw [AddOrder_admission] at hr
  rcases ha : admission ob o with _ | o1
  · rw [ha] at hr
    cases hr
    exact ⟨lastOfPrice_of_absent hk.1, lastOfPrice_of_absent hk.2⟩
  · rw [ha] at hr
    obtain ⟨_, _, hid⟩ := admission_some ha
    have hfresh1 : findOrder o1.orderId_ ob.orders_ = none := by rw [hid]; exact hfresh
    have hcf := insertOrder_coupled (bookInv_full h) hfresh1
    have hcons := MatchOrders_consumed hcf hr
    have hb : LastOfPrice o.orderId_ (queued (insertOrder ob o1).bids_) := by
      unfold insertOrder
      by_cases hs : o1.side_ = Side.Buy
      · simp only [hs, if_true]
        rw [← hid]
        exact lastOfPrice_pushBackAt keyOrder_bid h.coupled.bids o1 (by rw [hid]; exact hk.1)
      · simp only [hs, if_false]
        exact lastOfPrice_of_absent hk.1
    have ha1 : LastOfPrice o.orderId_ (queued (insertOrder ob o1).asks_) := by
      unfold insertOrder
      by_cases hs : o1.side_ = Side.Buy
      · simp only [hs, if_true]
        exact lastOfPrice_of_absent hk.2
      · simp only [hs, if_false]
        rw [← hid]
        exact lastOfPrice_pushBackAt keyOrder_ask h.coupled.asks o1 (by rw [hid]; exact hk.2)
    exact ⟨lastOfPrice_of_tags hcons.1.sublist hb, lastOfPrice_of_tags hcons.2.sublist ha1⟩

/-- No order of type Market is queued in a reachable book. -/
theorem reachable_not_market {ob : Orderbook} (h : Reachable ob) :
    ∀ x ∈ resting ob, x.orderType_ ≠ OrderType.Market := by
  obtain ⟨requests, hr⟩ := h
  obtain ⟨ob1, h1, _, h3⟩ := run_keeps
    (Q := fun o => o.orderType_ ≠ OrderType.Market) (fun _ _ hx => hx)
    (fun _ _ _ _ _ _ _ hc => convertMarket_not_market hc) requests empty_inv
    (by simp [Orderbook.empty, resting])
  rw [hr] at h1
  cases h1
  exact h3

/-- C11: in a reachable book, a modification whose id is indexed with an order of type
`t` does exactly what `CancelOrder(id)` followed by `AddOrder` of the new order
`(t, id, side, price, quantity)` does. The cancel returns a book without the id, so the
order is fresh for `AddOrder`; the new order starts with the requested quantity
remaining; an order with that id that is queued afterwards has type `t` and the
requested side, price and initial quantity, and is the last element of its queue. -/
theorem modify_is_cancel_then_add (ob : Orderbook) (hreach : Reachable ob)
    (m : OrderModify) (existing : Order)
    (hfound : findOrder m.orderId_ ob.orders_ = some existing) :
    ModifyOrder ob m =
      cancelThenAdd ob existing.orderType_ m.orderId_ m.side_ m.price_ m.quantity_ ∧
    ∃ ob1 r, CancelOrder ob m.orderId_ = .ok ob1 ∧
      findOrder m.orderId_ ob1.orders_ = none ∧
      AddOrder ob1 (Order.new existing.orderType_ m.orderId_ m.side_ m.price_
        m.quantity_) = .ok r ∧
      ModifyOrder ob m = .ok r ∧
      (Order.new existing.orderType_ m.orderId_ m.side_ m.price_
        m.quantity_).remainingQuantity_ = m.quantity_ ∧
      ∀ l ∈ r.1.bids_ ++ r.1.asks_, ∀ x ∈ l.2, x.orderId_ = m.orderId_ →
        x.orderType_ = existing.orderType_ ∧ x.side_ = m.side_ ∧ x.price_ = m.price_ ∧
        x.initialQuantity_ = m.quantity_ ∧ l.2.getLast? = some x := by
  have hinv := reachable_inv hreach
  have e0 : ModifyOrder ob m =
      cancelThenAdd ob existing.orderType_ m.orderId_ m.side_ m.price_ m.quantity_ := by
    rcases hc : CancelOrder ob m.orderId_ with e | ob1 <;>
      simp only [ModifyOrder, hfound, cancelThenAdd, OrderModify.ToOrderPointer, hc]
  refine ⟨e0, ?_⟩
  obtain ⟨ob1, h1, h2, _, h4⟩ := CancelOrder_spec hinv m.orderId_
  obtain ⟨r, hr, hinv1, hQ⟩ := AddOrder_spec h2
    (Order.new existing.orderType_ m.orderId_ m.side_ m.price_ m.quantity_)
  have hmem : existing ∈ resting ob :=
    ((coupled_mem_orders hinv.coupled).1 (findOrder_mem hfound)).2
  have hnm := reachable_not_market hreach existing hmem
  have habs := (coupled_findOrder_none h2.coupled).1 h4
  have hstat := hQ (fun x => x.orderId_ = m.orderId_ →
      x.orderType_ = existing.orderType_ ∧ x.side_ = m.side_ ∧ x.price_ = m.price_ ∧
      x.initialQuantity_ = m.quantity_)
    (fun x q hx => hx)
    (fun x hx e => absurd (e ▸ List.mem_map_of_mem (fun o => o.orderId_) hx) habs)
    (by
      intro o1 hc _
      rcases convertMarket_cases ob1
        (Order.new existing.orderType_ m.orderId_ m.side_ m.price_ m.quantity_) with
        hn | ⟨o2, hc2, _, _, _, _, _, hsame, _⟩
      · rw [hn] at hc; cases hc
      · rw [hc2] at hc
        cases hc
        rw [hsame hnm]
        exact ⟨rfl, rfl, rfl, rfl⟩)
  have hlast := AddOrder_last h2
    (Order.new existing.orderType_ m.orderId_ m.side_ m.price_ m.quantity_) h4 hr
  refine ⟨ob1, r, h1, h4, hr, ?_, rfl, ?_⟩
  · rw [e0]
    simp only [cancelThenAdd, h1, hr]
  · intro l hl x hx hk
    rcases List.mem_append.1 hl with hl1 | hl1
    · obtain ⟨a1, a2, a3, a4⟩ :=
        hstat x (List.mem_append_left _ (mem_queued.2 ⟨l, hl1, hx⟩)) hk
      exact ⟨a1, a2, a3, a4, last_of_level hinv1.coupled.bids hlast.1 hl1 hx hk⟩
    · obtain ⟨a1, a2, a3, a4⟩ :=
        hstat x (List.mem_append_right _ (mem_queued.2 ⟨l, hl1, hx⟩)) hk
      exact ⟨a1, a2, a3, a4, last_of_level hinv1.coupled.asks hlast.2 hl1 hx hk⟩

theorem modify_is_cancel_then_add_witness :
    Reachable bookBidAndAsk ∧
    findOrder 1 bookBidAndAsk.orders_ =
      some (Order.new OrderType.GoodTillCancel 1 Side.Buy 100 10) ∧
    ModifyOrder bookBidAndAsk (OrderModify.mk 1 101 Side.Sell 10) =
      cancelThenAdd bookBidAndAsk OrderType.GoodTillCancel 1 Side.Sell 101 10 :=
  ⟨⟨[Request.add OrderType.GoodTillCancel 1 Side.Buy 100 10,
      Request.add OrderType.GoodTillCancel 2 Side.Sell 101 5], by decide⟩,
    by decide,
    (modify_is_cancel_then_add bookBidAndAsk
      ⟨[Request.add OrderType.GoodTillCancel 1 Side.Buy 100 10,
        Request.add OrderType.GoodTillCancel 2 Side.Sell 101 5], by decide⟩
      (OrderModify.mk 1 101 Side.Sell 10)
      (Order.new OrderType.GoodTillCancel 1 Side.Buy 100 10) (by decide)).1⟩

/-! ## The trades of `MatchOrders` -/

theorem consumed_settle {s ob : Orderbook} (ts : Trades)
    {bp : Price} {b : Order} {B : OrderPointers} {bs : Levels}
    {ap : Price} {a : Order} {A : OrderPointers} {as : Levels}
    (hb : s.bids_ = (bp, b :: B) :: bs) (ha : s.asks_ = (ap, a :: A) :: as)
    (h : Consumed s ob) :
    Consumed (settleFronts s ts (min b.remainingQuantity_ a.remainingQuantity_)
      bp (filled b (min b.remainingQuantity_ a.remainingQuantity_)) B bs
      ap (filled a (min b.remainingQuantity_ a.remainingQuantity_)) A as).1 ob := by
  obtain ⟨e1, e2⟩ := settle_queued_bids ts (min b.remainingQuantity_ a.remainingQuantity_)
      ap (filled a (min b.remainingQuantity_ a.remainingQuantity_)) A as hb
  obtain ⟨e3, e4⟩ := settle_queued_asks ts (min b.remainingQuantity_ a.remainingQuantity_)
      bp (filled b (min b.remainingQuantity_ a.remainingQuantity_)) B bs ha
  constructor
  · rw [e2]; exact suffix_step _ _ e1 h.1
  · rw [e4]; exact suffix_step _ _ e3 h.2

theorem consumed_erase {s ob : Orderbook} {bp : Price} {bs : Levels} {ap : Price}
    {as : Levels} (hin : CoupledInLoop s)
    (hb : s.bids_ = (bp, bestQueue s.bids_) :: bs)
    (ha : s.asks_ = (ap, bestQueue s.asks_) :: as) (h : Consumed s ob) :
    Consumed (eraseEmptyBest s bp ap (bestQueue s.bids_).isEmpty
      (bestQueue s.asks_).isEmpty) ob := by
  obtain ⟨e1, e2, _⟩ := eraseEmptyBest_same hin hb ha
  exact ⟨by rw [e1]; exact h.1, by rw [e2]; exact h.2⟩

theorem tag_of_consumed_bid {s ob : Orderbook} (h : Consumed s ob) {b : Order}
    (hb : b ∈ queued s.bids_) : ∃ b0 ∈ queued ob.bids_, tagOf b0 = tagOf b := by
  have := h.1.subset (List.mem_map_of_mem tagOf hb)
  exact List.mem_map.1 this

theorem tag_of_consumed_ask {s ob : Orderbook} (h : Consumed s ob) {a : Order}
    (ha : a ∈ queued s.asks_) : ∃ a0 ∈ queued ob.asks_, tagOf a0 = tagOf a := by
  have := h.2.subset (List.mem_map_of_mem tagOf ha)
  exact List.mem_map.1 this

/-- Every trade that the loop of `MatchOrders` adds is the trade of the two front
orders of the best levels of a book that the loop went through. -/
theorem matchLoop_pairs {fuel : Nat} {ob : Orderbook} {r : Orderbook × Trades}
    (hc : CoupledFull ob) (hf : ob.bids_.length + ob.asks_.length ≤ fuel)
    (h : matchLoop fuel ob [] = .ok r) :
    ∀ t ∈ r.2, ∃ s bp b B bs ap a A as, Consumed s ob ∧ CoupledInLoop s ∧ ¬ bp < ap ∧
      s.bids_ = (bp, b :: B) :: bs ∧ s.asks_ = (ap, a :: A) :: as ∧ t = tradeOf b a := by
  have := matchLoop_traces
    (P := fun s ts => Consumed s ob ∧
      ∀ t ∈ ts, ∃ s bp b B bs ap a A as, Consumed s ob ∧ CoupledInLoop s ∧ ¬ bp < ap ∧
        s.bids_ = (bp, b :: B) :: bs ∧ s.asks_ = (ap, a :: A) :: as ∧ t = tradeOf b a)
    (by
      intro s ts bp b B bs ap a A as hin hx hP hb ha
      refine ⟨consumed_settle ts hb ha hP.1, ?_⟩
      intro t ht
      rcases List.mem_append.1 ht with h1 | h1
      · exact hP.2 t h1
      · rw [List.mem_singleton] at h1
        exact ⟨s, bp, b, B, bs, ap, a, A, as, hP.1, hin, hx, hb, ha, h1⟩)
    (by
      intro s ts bp bs ap as hin hP hb ha
      exact ⟨consumed_erase hin hb ha hP.1, hP.2⟩)
    hc ⟨consumed_refl ob, by simp⟩ hf h
  exact this.2

/-! ## Orders priced through the whole opposite side -/

theorem eraseEmptyBest_none (ob : Orderbook) (bp ap : Price) :
    eraseEmptyBest ob bp ap false false = ob := by
  simp [eraseEmptyBest]

/-- The loop of `MatchOrders` records a trade when it starts on a book that is not
settled. -/
theorem matchLoop_trades {fuel : Nat} {ob : Orderbook} {r : Orderbook × Trades}
    (hc : CoupledFull ob) (hx : ¬ Settled ob)
    (hf : ob.bids_.length + ob.asks_.length ≤ fuel)
    (h : matchLoop fuel ob [] = .ok r) : r.2 ≠ [] := by
  have hP := matchLoop_traces (P := fun s ts => ts ≠ [] ∨ s = ob)
    (by
      intro s ts bp b B bs ap a A as _ _ _ _ _
      exact Or.inl (by simp))
    (by
      intro s ts bp bs ap as _ hP hb ha
      rcases hP with h1 | h1
      · exact Or.inl h1
      · right
        subst h1
        have hbq : (bestQueue s.bids_).isEmpty = false := by
          have hm := List.mem_cons_self (bp, bestQueue s.bids_) bs
          rw [← hb] at hm
          have := hc.2.1 _ hm
          simp only at this
          rcases hq : bestQueue s.bids_ with _ | ⟨x, l⟩
          · exact absurd hq this
          · rfl
        have haq : (bestQueue s.asks_).isEmpty = false := by
          have hm := List.mem_cons_self (ap, bestQueue s.asks_) as
          rw [← ha] at hm
          have := hc.2.2 _ hm
          simp only at this
          rcases hq : bestQueue s.asks_ with _ | ⟨x, l⟩
          · exact absurd hq this
          · rfl
        rw [hbq, haq, eraseEmptyBest_none])
    hc (Or.inr rfl) hf h
  obtain ⟨r1, e, _, hs⟩ := matchLoop_spec (P := fun _ _ => True)
    (fun _ _ _ _ _ _ _ _ _ _ _ _ _ _ => trivial) fuel ob [] trivial hf
  rw [h] at e
  cases e
  rcases hP with h1 | h1
  · exact h1
  · rw [h1] at hs
    exact absurd hs hx

theorem levels_eq_nil_of_keys {l1 l0 : Levels}
    (h : ∀ l ∈ l1, l.1 ∈ l0.map Prod.fst) (h0 : l0 = []) : l1 = [] := by
  rcases l1 with _ | ⟨l, rest⟩
  · rfl
  · have := h l (List.mem_cons_self _ _)
    rw [h0] at this
    simp at this

theorem head_key_bids {levels : Levels} {bp : Price} {B : OrderPointers} {bs : Levels}
    (hs : levels.Pairwise (fun x y => bidBefore x.1 y.1 = true))
    (he : levels = (bp, B) :: bs) {l : Price × OrderPointers} (hl : l ∈ levels) :
    l.1 ≤ bp := by
  rw [he] at hs hl
  rcases List.mem_cons.1 hl with e | e
  · rw [e]
  · have := (List.pairwise_cons.1 hs).1 l e
    simp only [bidBefore, decide_eq_true_eq] at this
    exact le_of_lt this

theorem head_key_asks {levels : Levels} {ap : Price} {A : OrderPointers} {as : Levels}
    (hs : levels.Pairwise (fun x y => askBefore x.1 y.1 = true))
    (he : levels = (ap, A) :: as) {l : Price × OrderPointers} (hl : l ∈ levels) :
    ap ≤ l.1 := by
  rw [he] at hs hl
  rcases List.mem_cons.1 hl with e | e
  · rw [e]
  · have := (List.pairwise_cons.1 hs).1 l e
    simp only [askBefore, decide_eq_true_eq] at this
    exact le_of_lt this

/-- A buy order priced at or above every ask, entered in a book with asks: the match
records a trade, and the order is queued afterwards only when no ask is left. -/
theorem cross_all_buy {ob : Orderbook} (h : BookInv ob) (o1 : Order)
    (hs : o1.side_ = Side.Buy) (hfresh : findOrder o1.orderId_ ob.orders_ = none)
    (hne : ob.asks_ ≠ []) (hW : ∀ l ∈ ob.asks_, l.1 ≤ o1.price_) :
    ∃ r, MatchOrders (insertOrder ob o1) = .ok r ∧ r.2 ≠ [] ∧
      ∀ x ∈ resting r.1, x.orderId_ = o1.orderId_ →
        tagOf x = tagOf o1 ∧ r.1.asks_ = [] := by
  have hcf := insertOrder_coupled (bookInv_full h) hfresh
  have hk := (coupled_findOrder_none h.coupled).1 hfresh
  obtain ⟨⟨ap, A⟩, as, hask⟩ := List.exists_cons_of_ne_nil hne
  have hfront : ∀ l ∈ ob.bids_, bidBefore o1.price_ l.1 = true := by
    intro l hl
    have h1 := h.uncrossed l hl (ap, A) (by rw [hask]; exact List.mem_cons_self _ _)
    have h2 := hW (ap, A) (by rw [hask]; exact List.mem_cons_self _ _)
    simp only [bidBefore, decide_eq_true_eq]
    simp only at h1 h2
    exact lt_of_lt_of_le h1 h2
  have hXb : (insertOrder ob o1).bids_ = (o1.price_, [o1]) :: ob.bids_ := by
    simp only [insertOrder, hs, if_true, pushBackAt_front keyOrder_bid o1 hfront]
  have hXa : (insertOrder ob o1).asks_ = ob.asks_ := by
    simp only [insertOrder, hs, if_true]
  have hnot : ¬ Settled (insertOrder ob o1) := by
    unfold Settled
    rw [hXb, hXa, hask]
    simp only
    exact not_lt.2 (hW (ap, A) (by rw [hask]; exact List.mem_cons_self _ _))
  obtain ⟨s, ob1, ob2, ts, hloop, _, _, hm, hcs, hss, hcons, hc1, hs1, _, _, hc2, hs2, _, _⟩ :=
    MatchOrders_stages hcf
  refine ⟨(ob2, ts), hm, matchLoop_trades (r := (s, ts)) hcf hnot (Nat.le_succ _) hloop, ?_⟩
  intro x hx hid
  have hxs : x ∈ resting s := shrunk_resting hs1 (shrunk_resting hs2 hx)
  have hnoask : ∀ y ∈ queued s.asks_, y.orderId_ ≠ o1.orderId_ := by
    intro y hy e
    obtain ⟨a0, ha0, et⟩ := tag_of_consumed_ask hcons hy
    rw [hXa] at ha0
    have e1 : a0.orderId_ = y.orderId_ := congrArg (fun t => t.2.1) et
    exact hk (List.mem_map.2 ⟨a0, List.mem_append_right _ ha0, e1.trans e⟩)
  have hxb : x ∈ queued s.bids_ := by
    rcases List.mem_append.1 hxs with h1 | h1
    · exact h1
    · exact absurd hid (hnoask x h1)
  obtain ⟨b0, hb0, et⟩ := tag_of_consumed_bid hcons hxb
  have e1 : b0.orderId_ = x.orderId_ := congrArg (fun t => t.2.1) et
  have hb0o : b0 = o1 := by
    rw [hXb, queued_cons, List.singleton_append] at hb0
    rcases List.mem_cons.1 hb0 with e | e
    · exact e
    · exact absurd (List.mem_map.2 ⟨b0, List.mem_append_left _ e, e1.trans hid⟩) hk
  rw [hb0o] at et
  refine ⟨et.symm, ?_⟩
  have hsa : s.asks_ = [] := by
    rcases hsq : s.asks_ with _ | ⟨⟨ap1, A1⟩, as1⟩
    · rfl
    · exfalso
      obtain ⟨l, hl, hxl⟩ := mem_queued.1 hxb
      have hlp : l.1 = o1.price_ := by
        rw [← (hcs.1.bids.keyed l hl x hxl).2]
        exact (congrArg (fun t => t.2.2.2.1) et).symm
      rcases hbq : s.bids_ with _ | ⟨⟨bp1, B1⟩, bs1⟩
      · rw [hbq] at hl
        simp at hl
      · have hset := hss
        unfold Settled at hset
        rw [hbq, hsq] at hset
        simp only at hset
        have h1 := head_key_bids hcs.1.bids.sorted hbq hl
        have hA1 : A1 ≠ [] := hcs.2.2 (ap1, A1) (by rw [hsq]; exact List.mem_cons_self _ _)
        obtain ⟨a, A2, eA⟩ := List.exists_cons_of_ne_nil hA1
        have ham : a ∈ queued s.asks_ := by rw [hsq, eA]; simp
        have hap : a.price_ = ap1 :=
          (hcs.1.asks.keyed (ap1, A1) (by rw [hsq]; exact List.mem_cons_self _ _) a
            (by rw [eA]; exact List.mem_cons_self _ _)).2
        obtain ⟨a0, ha0, eta⟩ := tag_of_consumed_ask hcons ham
        rw [hXa] at ha0
        obtain ⟨l0, hl0, ha0l⟩ := mem_queued.1 ha0
        have h2 := hW l0 hl0
        rw [← (h.coupled.asks.keyed l0 hl0 a0 ha0l).2] at h2
        have e2 : a0.price_ = a.price_ := congrArg (fun t => t.2.2.2.1) eta
        rw [e2, hap] at h2
        rw [hlp] at h1
        exact absurd hset (not_lt.2 (le_trans h2 h1))
  exact levels_eq_nil_of_keys hs2.2.2.2 (levels_eq_nil_of_keys hs1.2.2.2 hsa)

/-- A sell order priced at or below every bid, entered in a book with bids: the match
records a trade, and the order is queued afterwards only when no bid is left. -/
theorem cross_all_sell {ob : Orderbook} (h : BookInv ob) (o1 : Order)
    (hs : o1.side_ = Side.Sell) (hfresh : findOrder o1.orderId_ ob.orders_ = none)
    (hne : ob.bids_ ≠ []) (hW : ∀ l ∈ ob.bids_, o1.price_ ≤ l.1) :
    ∃ r, MatchOrders (insertOrder ob o1) = .ok r ∧ r.2 ≠ [] ∧
      ∀ x ∈ resting r.1, x.orderId_ = o1.orderId_ →
        tagOf x = tagOf o1 ∧ r.1.bids_ = [] := by
  have hcf := insertOrder_coupled (bookInv_full h) hfresh
  have hk := (coupled_findOrder_none h.coupled).1 hfresh
  have hsb : ¬ o1.side_ = Side.Buy := by rw [hs]; decide
  obtain ⟨⟨bp, B⟩, bs, hbid⟩ := List.exists_cons_of_ne_nil hne
  have hfront : ∀ l ∈ ob.asks_, askBefore o1.price_ l.1 = true := by
    intro l hl
    have h1 := h.uncrossed (bp, B) (by rw [hbid]; exact List.mem_cons_self _ _) l hl
    have h2 := hW (bp, B) (by rw [hbid]; exact List.mem_cons_self _ _)
    simp only [askBefore, decide_eq_true_eq]
    simp only at h1 h2
    exact lt_of_le_of_lt h2 h1
  have hXa : (insertOrder ob o1).asks_ = (o1.price_, [o1]) :: ob.asks_ := by
    simp only [insertOrder, hsb, if_false, pushBackAt_front keyOrder_ask o1 hfront]
  have hXb : (insertOrder ob o1).bids_ = ob.bids_ := by
    simp only [insertOrder, hsb, if_false]
  have hnot : ¬ Settled (insertOrder ob o1) := by
    unfold Settled
    rw [hXb, hXa, hbid]
    simp only
    exact not_lt.2 (hW (bp, B) (by rw [hbid]; exact List.mem_cons_self _ _))
  obtain ⟨s, ob1, ob2, ts, hloop, _, _, hm, hcs, hss, hcons, hc1, hs1, _, _, hc2, hs2, _, _⟩ :=
    MatchOrders_stages hcf
  refine ⟨(ob2, ts), hm, matchLoop_trades (r := (s, ts)) hcf hnot (Nat.le_succ _) hloop, ?_⟩
  intro x hx hid
  have hxs : x ∈ resting s := shrunk_resting hs1 (shrunk_resting hs2 hx)
  have hnobid : ∀ y ∈ queued s.bids_, y.orderId_ ≠ o1.orderId_ := by
    intro y hy e
    obtain ⟨b0, hb0, et⟩ := tag_of_consumed_bid hcons hy
    rw [hXb] at hb0
    have e1 : b0.orderId_ = y.orderId_ := congrArg (fun t => t.2.1) et
    exact hk (List.mem_map.2 ⟨b0, List.mem_append_left _ hb0, e1.trans e⟩)
  have hxa : x ∈ queued s.asks_ := by
    rcases List.mem_append.1 hxs with h1 | h1
    · exact absurd hid (hnobid x h1)
    · exact h1
  obtain ⟨a0, ha0, et⟩ := tag_of_consumed_ask hcons hxa
  have e1 : a0.orderId_ = x.orderId_ := congrArg (fun t => t.2.1) et
  have ha0o : a0 = o1 := by
    rw [hXa, queued_cons, List.singleton_append] at ha0
    rcases List.mem_cons.1 ha0 with e | e
    · exact e
    · exact absurd (List.mem_map.2 ⟨a0, List.mem_append_right _ e, e1.trans hid⟩) hk
  rw [ha0o] at et
  refine ⟨et.symm, ?_⟩
  have hsb1 : s.bids_ = [] := by
    rcases hbq : s.bids_ with _ | ⟨⟨bp1, B1⟩, bs1⟩
    · rfl
    · exfalso
      obtain ⟨l, hl, hxl⟩ := mem_queued.1 hxa
      have hlp : l.1 = o1.price_ := by
        rw [← (hcs.1.asks.keyed l hl x hxl).2]
        exact (congrArg (fun t => t.2.2.2.1) et).symm
      rcases hsq : s.asks_ with _ | ⟨⟨ap1, A1⟩, as1⟩
      · rw [hsq] at hl
        simp at hl
      · have hset := hss
        unfold Settled at hset
        rw [hbq, hsq] at hset
        simp only at hset
        have h1 := head_key_asks hcs.1.asks.sorted hsq hl
        have hB1 : B1 ≠ [] := hcs.2.1 (bp1, B1) (by rw [hbq]; exact List.mem_cons_self _ _)
        obtain ⟨b, B2, eB⟩ := List.exists_cons_of_ne_nil hB1
        have hbm : b ∈ queued s.bids_ := by rw [hbq, eB]; simp
        have hbp : b.price_ = bp1 :=
          (hcs.1.bids.keyed (bp1, B1) (by rw [hbq]; exact List.mem_cons_self _ _) b
            (by rw [eB]; exact List.mem_cons_self _ _)).2
        obtain ⟨b0, hb0, etb⟩ := tag_of_consumed_bid hcons hbm
        rw [hXb] at hb0
        obtain ⟨l0, hl0, hb0l⟩ := mem_queued.1 hb0
        have h2 := hW l0 hl0
        rw [← (h.coupled.bids.keyed l0 hl0 b0 hb0l).2] at h2
        have e2 : b0.price_ = b.price_ := congrArg (fun t => t.2.2.2.1) etb
        rw [e2, hbp] at h2
        rw [hlp] at h1
        exact absurd hset (not_lt.2 (le_trans h1 h2))
  exact levels_eq_nil_of_keys hs2.2.2.1 (levels_eq_nil_of_keys hs1.2.2.1 hsb1)

/-! ## Market orders -/

/-- The last element of a sorted list comes after every other element. -/
theorem sorted_getLast {α : Type} {R : α → α → Prop} {l : List α} {x : α}
    (hs : l.Pairwise R) (h : l.getLast? = some x) : x ∈ l ∧ ∀ y ∈ l, y = x ∨ R y x := by
  have hmem := List.mem_of_getLast?_eq_some h
  obtain ⟨l1, e⟩ := List.getLast?_eq_some_iff.1 h
  refine ⟨hmem, ?_⟩
  intro y hy
  rw [e] at hs hy
  rcases List.mem_append.1 hy with h1 | h1
  · exact Or.inr ((List.pairwise_append.1 hs).2.2 y h1 x (List.mem_singleton_self _))
  · exact Or.inl (List.mem_singleton.1 h1)

/-- The market conversion of lines 273-283: the order is refused when the other side
is empty, and otherwise becomes a good-till-cancel order priced at the key of the last
level of the other side. -/
theorem convertMarket_market (ob : Orderbook) (orderId : OrderId) (side : Side)
    (price : Price) (quantity : Quantity) :
    (oppositeSide ob side = [] ∧
      convertMarket ob (Order.new OrderType.Market orderId side price quantity) =
        .ok none) ∨
    ∃ W Q, (oppositeSide ob side).getLast? = some (W, Q) ∧
      convertMarket ob (Order.new OrderType.Market orderId side price quantity) =
        .ok (some (Order.mk OrderType.GoodTillCancel orderId side W quantity quantity)) := by
  cases side with
  | Buy =>
    rcases ha : ob.asks_.getLast? with _ | ⟨W, Q⟩
    · left
      refine ⟨List.getLast?_eq_none_iff.1 ha, ?_⟩
      simp [convertMarket, Order.new, ha]
    · right
      refine ⟨W, Q, ha, ?_⟩
      simp [convertMarket, Order.new, ha, Order.ToGoodTillCancel, Except.map]
  | Sell =>
    rcases hb : ob.bids_.getLast? with _ | ⟨W, Q⟩
    · left
      refine ⟨List.getLast?_eq_none_iff.1 hb, ?_⟩
      rcases ha : ob.asks_.getLast? with _ | _ <;>
        simp [convertMarket, Order.new, ha, hb]
    · right
      refine ⟨W, Q, hb, ?_⟩
      rcases ha : ob.asks_.getLast? with _ | _ <;>
        simp [convertMarket, Order.new, ha, hb, Order.ToGoodTillCancel, Except.map]

/-- The key of the last level of the other side is its worst price: the highest ask
for a buy, the lowest bid for a sell. -/
theorem worst_opposite_key {ob : Orderbook} (h : Coupled ob) {side : Side} {W : Price}
    {Q : OrderPointers} (hl : (oppositeSide ob side).getLast? = some (W, Q)) :
    (W, Q) ∈ oppositeSide ob side ∧
    ∀ l ∈ oppositeSide ob side,
      (side = Side.Buy → l.1 ≤ W) ∧ (side = Side.Sell → W ≤ l.1) := by
  cases side with
  | Buy =>
    obtain ⟨h1, h2⟩ := sorted_getLast h.asks.sorted hl
    refine ⟨h1, fun l hm => ⟨fun _ => ?_, fun e => nomatch e⟩⟩
    rcases h2 l hm with e | e
    · rw [e]
    · simp only [askBefore, decide_eq_true_eq] at e
      exact le_of_lt e
  | Sell =>
    obtain ⟨h1, h2⟩ := sorted_getLast h.bids.sorted hl
    refine ⟨h1, fun l hm => ⟨fun e => (nomatch e), fun _ => ?_⟩⟩
    rcases h2 l hm with e | e
    · rw [e]
    · simp only [bidBefore, decide_eq_true_eq] at e
      exact le_of_lt e

/-- The call `AddOrder` for a market order with a fresh id in a state that satisfies
the invariant. -/
theorem market_add {ob : Orderbook} (h : BookInv ob) (orderId : OrderId) (side : Side)
    (price : Price) (quantity : Quantity) (hfresh : findOrder orderId ob.orders_ = none) :
    (oppositeSide ob side = [] ∧
      AddOrder ob (Order.new OrderType.Market orderId side price quantity) =
        .ok (ob, [])) ∨
    ∃ W Q r, (oppositeSide ob side).getLast? = some (W, Q) ∧
      convertMarket ob (Order.new OrderType.Market orderId side price quantity) =
        .ok (some (Order.mk OrderType.GoodTillCancel orderId side W quantity quantity)) ∧
      AddOrder ob (Order.new OrderType.Market orderId side price quantity) = .ok r ∧
      r.2 ≠ [] ∧
      ∀ x ∈ resting r.1, x.orderId_ = orderId →
        tagOf x = (OrderType.GoodTillCancel, orderId, side, W, quantity) ∧
        oppositeSide r.1 side = [] := by
  have hdup : ¬ (findOrder (Order.new OrderType.Market orderId side price
      quantity).orderId_ ob.orders_).isSome = true := by
    simp [Order.new, hfresh]
  rcases convertMarket_market ob orderId side price quantity with ⟨he, hc⟩ | ⟨W, Q, hl, hc⟩
  · left
    refine ⟨he, ?_⟩
    rw [AddOrder_admission]
    simp only [admission, hdup, Bool.false_eq_true, if_false, hc]
  · right
    have hadm : admission ob (Order.new OrderType.Market orderId side price quantity) =
        some (Order.mk OrderType.GoodTillCancel orderId side W quantity quantity) := by
      simp [admission, hdup, hc]
    obtain ⟨hmem, hworst⟩ := worst_opposite_key h.coupled hl
    have hne : oppositeSide ob side ≠ [] := List.ne_nil_of_mem hmem
    rw [AddOrder_admission, hadm]
    simp only
    cases side with
    | Buy =>
      obtain ⟨r, hr, ht, hx⟩ := cross_all_buy h
        (Order.mk OrderType.GoodTillCancel orderId Side.Buy W quantity quantity)
        rfl hfresh hne (fun l hm => (hworst l hm).1 rfl)
      exact ⟨W, Q, r, hl, hc, hr, ht, hx⟩
    | Sell =>
      obtain ⟨r, hr, ht, hx⟩ := cross_all_sell h
        (Order.mk OrderType.GoodTillCancel orderId Side.Sell W quantity quantity)
        rfl hfresh hne (fun l hm => (hworst l hm).2 rfl)
      exact ⟨W, Q, r, hl, hc, hr, ht, hx⟩

/-- C15, as stated, fails: on the book holding ask 1 of 4 at 101, the market buy
`A B Market 0 7 3` with the fresh id 3 trades 4 and then rests: `AddOrder` returns the
book in which id 3 is indexed and queued at 101 with 3 remaining. -/
theorem market_order_remainder_rests :
    run Orderbook.empty [Request.add OrderType.GoodTillCancel 1 Side.Sell 101 4] =
      .ok bookOneAsk ∧
    findOrder 3 bookOneAsk.orders_ = none ∧
    AddOrder bookOneAsk (Order.new OrderType.Market 3 Side.Buy 0 7) =
      .ok (bookMarketRemainder,
        [Trade.mk (TradeInfo.mk 3 101 4) (TradeInfo.mk 1 101 4)]) ∧
    findOrder 3 bookMarketRemainder.orders_ =
      some (Order.mk OrderType.GoodTillCancel 3 Side.Buy 101 7 3) ∧
    bookMarketRemainder.bids_ =
      [(101, [Order.mk OrderType.GoodTillCancel 3 Side.Buy 101 7 3])] := by
  decide

/-- C15, amended: in a reachable book `AddOrder` of a market order with a fresh id
returns, and no queued order has type Market afterwards. When the other side is empty
the call returns no trade and the book unchanged; otherwise it returns at least one
trade. An order with the id that is queued afterwards is the good-till-cancel order
that the conversion made, priced at a key of the other side as it was, and then the
other side of the book is empty. -/
theorem market_order_rests_only_converted (ob : Orderbook) (hreach : Reachable ob)
    (orderId : OrderId) (side : Side) (price : Price) (quantity : Quantity)
    (hfresh : findOrder orderId ob.orders_ = none) :
    ∃ r, AddOrder ob (Order.new OrderType.Market orderId side price quantity) = .ok r ∧
      (oppositeSide ob side = [] → r = (ob, [])) ∧
      (oppositeSide ob side ≠ [] → r.2 ≠ []) ∧
      (∀ x ∈ resting r.1, x.orderType_ ≠ OrderType.Market) ∧
      (∀ x ∈ resting r.1, x.orderId_ = orderId →
        x.orderType_ = OrderType.GoodTillCancel ∧ x.side_ = side ∧
        x.initialQuantity_ = quantity ∧
        (∃ l ∈ oppositeSide ob side, l.1 = x.price_) ∧ oppositeSide r.1 side = []) := by
  have hinv := reachable_inv hreach
  obtain ⟨r, hr, _, hQ⟩ := AddOrder_spec hinv
    (Order.new OrderType.Market orderId side price quantity)
  have hnm := hQ (fun x => x.orderType_ ≠ OrderType.Market) (fun _ _ hx => hx)
    (reachable_not_market hreach) (fun o1 hc => convertMarket_not_market hc)
  refine ⟨r, hr, ?_⟩
  rcases market_add hinv orderId side price quantity hfresh with
    ⟨he, ha⟩ | ⟨W, Q, r1, hl, _, ha, ht, hx⟩
  · rw [hr] at ha
    cases ha
    refine ⟨fun _ => rfl, fun hne => absurd he hne, hnm, ?_⟩
    intro x hxm e
    have := (coupled_findOrder_none hinv.coupled).1 hfresh
    exact absurd (List.mem_map.2 ⟨x, hxm, e⟩) this
  · rw [hr] at ha
    cases ha
    obtain ⟨hmem, _⟩ := worst_opposite_key hinv.coupled hl
    refine ⟨fun he => ?_, fun _ => ht, hnm, ?_⟩
    · rw [he] at hmem
      simp at hmem
    · intro x hxm e
      obtain ⟨et, hempty⟩ := hx x hxm e
      refine ⟨congrArg (fun t => t.1) et, congrArg (fun t => t.2.2.1) et,
        congrArg (fun t => t.2.2.2.2) et, ⟨(W, Q), hmem, ?_⟩, hempty⟩
      exact (congrArg (fun t => t.2.2.2.1) et).symm

/-- The amended C15 at the book holding ask 1 of 4 at 101 and the market buy
`A B Market 0 7 3`. -/
theorem market_order_rests_only_converted_witness :
    Reachable bookOneAsk ∧ findOrder 3 bookOneAsk.orders_ = none ∧
    ∃ r, AddOrder bookOneAsk (Order.new OrderType.Market 3 Side.Buy 0 7) = .ok r ∧
      (oppositeSide bookOneAsk Side.Buy = [] → r = (bookOneAsk, [])) ∧
      (oppositeSide bookOneAsk Side.Buy ≠ [] → r.2 ≠ []) ∧
      (∀ x ∈ resting r.1, x.orderType_ ≠ OrderType.Market) ∧
      (∀ x ∈ resting r.1, x.orderId_ = 3 →
        x.orderType_ = OrderType.GoodTillCancel ∧ x.side_ = Side.Buy ∧
        x.initialQuantity_ = 7 ∧
        (∃ l ∈ oppositeSide bookOneAsk Side.Buy, l.1 = x.price_) ∧
        oppositeSide r.1 Side.Buy = []) :=
  ⟨⟨[Request.add OrderType.GoodTillCancel 1 Side.Sell 101 4], by decide⟩, by decide,
    market_order_rests_only_converted bookOneAsk
      ⟨[Request.add OrderType.GoodTillCancel 1 Side.Sell 101 4], by decide⟩
      3 Side.Buy 0 7 (by decide)⟩

/-! ## The account of quantities -/

@[simp]
theorem remainingOf_nil : remainingOf [] = 0 := rfl

@[simp]
theorem remainingOf_cons (o : Order) (l : List Order) :
    remainingOf (o :: l) = o.remainingQuantity_ + remainingOf l := by
  simp [remainingOf]

@[simp]
theorem remainingOf_append (l1 l2 : List Order) :
    remainingOf (l1 ++ l2) = remainingOf l1 + remainingOf l2 := by
  simp [remainingOf]

theorem remainingOf_perm {l1 l2 : List Order} (h : l1.Perm l2) :
    remainingOf l1 = remainingOf l2 :=
  (h.map _).sum_eq

theorem remTotal_eq (ob : Orderbook) : remTotal ob = remainingOf (resting ob) := by
  simp [remTotal, resting]

theorem volume_append (ts : Trades) (t : Trade) :
    volume (ts ++ [t]) = volume ts + (t.bidTrade_.quantity_ + t.askTrade_.quantity_) := by
  simp [volume]

/-- What a fill of `q` takes from the front of a side: after the pass the side holds
`q` less. -/
theorem remainingOf_step {l : List Order} {b : Order} {q : Quantity}
    (hl : l = b :: l.tail) (hq : q ≤ b.remainingQuantity_) :
    remainingOf (if (filled b q).IsFilled = true then l.tail else filled b q :: l.tail) + q =
      remainingOf l := by
  have key : ∀ x y : Nat, y ≤ x → x - y + y = x := by
    intro x y h; omega
  have key0 : ∀ x y : Nat, y ≤ x → x - y = 0 → y = x := by
    intro x y h1 h2; omega
  conv_rhs => rw [hl]
  rw [remainingOf_cons]
  by_cases hf : (filled b q).IsFilled = true
  · rw [if_pos hf]
    simp only [Order.IsFilled, filled, beq_iff_eq] at hf
    rw [key0 _ _ hq hf, Nat.add_comm]
  · rw [if_neg hf, remainingOf_cons]
    simp only [filled]
    rw [Nat.add_right_comm, key _ _ hq]

/-- The loop of `MatchOrders` conserves quantity: what the trades carry is what the
queued orders lost. -/
theorem matchLoop_account {fuel : Nat} {ob : Orderbook} {trades : Trades}
    {r : Orderbook × Trades} (hc : CoupledFull ob)
    (hf : ob.bids_.length + ob.asks_.length ≤ fuel)
    (h : matchLoop fuel ob trades = .ok r) :
    remTotal r.1 + volume r.2 = remTotal ob + volume trades := by
  refine matchLoop_traces
    (P := fun s ts => remTotal s + volume ts = remTotal ob + volume trades) ?_ ?_ hc rfl hf h
  · intro s ts bp b B bs ap a A as _ _ hP hb ha
    obtain ⟨e1, e2⟩ := settle_queued_bids ts (min b.remainingQuantity_ a.remainingQuantity_)
      ap (filled a (min b.remainingQuantity_ a.remainingQuantity_)) A as hb
    obtain ⟨e3, e4⟩ := settle_queued_asks ts (min b.remainingQuantity_ a.remainingQuantity_)
      bp (filled b (min b.remainingQuantity_ a.remainingQuantity_)) B bs ha
    have s1 := remainingOf_step e1 (Nat.min_le_left b.remainingQuantity_ a.remainingQuantity_)
    have s2 := remainingOf_step e3 (Nat.min_le_right b.remainingQuantity_ a.remainingQuantity_)
    rw [← hP, volume_append]
    unfold remTotal
    rw [e2, e4, ← s1, ← s2]
    simp only [tradeOf]
    omega
  · intro s ts bp bs ap as hin hP hb ha
    obtain ⟨e1, e2, _⟩ := eraseEmptyBest_same hin hb ha
    rw [← hP]
    unfold remTotal
    rw [e1, e2]

theorem remainingOf_dropId {l : List Order} (hn : (l.map (fun o => o.orderId_)).Nodup)
    {o : Order} (ho : o ∈ l) :
    remainingOf (dropId o.orderId_ l) + o.remainingQuantity_ = remainingOf l := by
  induction l with
  | nil => simp at ho
  | cons x rest ih =>
    rw [List.map_cons, List.nodup_cons] at hn
    rcases List.mem_cons.1 ho with e | e
    · subst e
      rw [dropId_cons_same rfl, dropId_of_absent hn.1, remainingOf_cons, Nat.add_comm]
    · have hne : x.orderId_ ≠ o.orderId_ := by
        intro hx
        exact hn.1 (List.mem_map.2 ⟨o, e, hx.symm⟩)
      rw [dropId_cons_other hne, remainingOf_cons, remainingOf_cons, Nat.add_assoc,
        ih hn.2 e]

/-- Cancelling takes from the book the remaining quantity of the cancelled order. -/
theorem cancel_account {ob ob1 : Orderbook} (h : Coupled ob) {k : OrderId}
    (hc : CancelOrderInternal ob k = .ok ob1) :
    remTotal ob1 + cancelledQuantity ob k = remTotal ob := by
  obtain ⟨ob2, h1, _, h3, h4, _⟩ := cancel_spec h k
  rw [hc] at h1
  cases h1
  rw [remTotal_eq, remTotal_eq]
  have e : resting ob1 = dropId k (resting ob) := by
    unfold resting
    rw [h3, h4, dropId_append]
  rw [e]
  unfold cancelledQuantity
  rcases hf : findOrder k ob.orders_ with _ | o
  · have hk := (coupled_findOrder_none h).1 hf
    simp only [Nat.add_zero]
    rw [dropId_of_absent hk]
  · obtain ⟨hid, hm⟩ := (coupled_findOrder h).1 hf
    simp only
    rw [← hid]
    exact remainingOf_dropId h.ids hm

theorem killFront_bids_account {ob : Orderbook} (h : CoupledFull ob) {ob1 : Orderbook}
    (hk : killFront ob ob.bids_ = .ok ob1) :
    remTotal ob1 + killedFront ob.bids_ = remTotal ob := by
  obtain ⟨hc, hbf, _⟩ := h
  rcases hbq : ob.bids_ with _ | ⟨⟨p, Q⟩, rest⟩
  · rw [hbq] at hk
    simp only [killFront] at hk
    cases hk
    rfl
  · rcases Q with _ | ⟨x, Q⟩
    · exact absurd rfl (hbf (p, []) (by rw [hbq]; exact List.mem_cons_self _ _))
    · rw [hbq] at hk
      by_cases hx : x.orderType_ = OrderType.FillAndKill
      · simp only [killFront, hx, if_true] at hk
        have hm : x ∈ resting ob := by
          unfold resting
          rw [hbq]
          simp
        have hf := (coupled_findOrder hc).2 ⟨rfl, hm⟩
        have := cancel_account hc hk
        simp only [cancelledQuantity, hf] at this
        simp only [killedFront, hx, if_true]
        exact this
      · simp only [killFront, hx, if_false] at hk
        cases hk
        simp only [killedFront, hx, if_false, Nat.add_zero]

theorem killFront_asks_account {ob : Orderbook} (h : CoupledFull ob) {ob1 : Orderbook}
    (hk : killFront ob ob.asks_ = .ok ob1) :
    remTotal ob1 + killedFront ob.asks_ = remTotal ob := by
  obtain ⟨hc, _, haf⟩ := h
  rcases haq : ob.asks_ with _ | ⟨⟨p, Q⟩, rest⟩
  · rw [haq] at hk
    simp only [killFront] at hk
    cases hk
    rfl
  · rcases Q with _ | ⟨x, Q⟩
    · exact absurd rfl (haf (p, []) (by rw [haq]; exact List.mem_cons_self _ _))
    · rw [haq] at hk
      by_cases hx : x.orderType_ = OrderType.FillAndKill
      · simp only [killFront, hx, if_true] at hk
        have hm : x ∈ resting ob := by
          unfold resting
          rw [haq]
          simp
        have hf := (coupled_findOrder hc).2 ⟨rfl, hm⟩
        have := cancel_account hc hk
        simp only [cancelledQuantity, hf] at this
        simp only [killedFront, hx, if_true]
        exact this
      · simp only [killFront, hx, if_false] at hk
        cases hk
        simp only [killedFront, hx, if_false, Nat.add_zero]

/-- The call `MatchOrders` conserves quantity: what the trades carry and what the
clean-up removes is what the queued orders lost. -/
theorem MatchOrders_account {ob : Orderbook} (h : CoupledFull ob) :
    ∃ r, MatchOrders ob = .ok r ∧
      volume r.2 + killedQuantity ob + remTotal r.1 = remTotal ob := by
  obtain ⟨s, ob1, ob2, ts, hloop, e1, e2, hm, hcs, _, _, hc1, _⟩ := MatchOrders_stages h
  refine ⟨(ob2, ts), hm, ?_⟩
  have a0 := matchLoop_account h (Nat.le_succ _) hloop
  have a1 := killFront_bids_account hcs e1
  have a2 := killFront_asks_account hc1 e2
  have ek : killedQuantity ob = killedFront s.bids_ + killedFront ob1.asks_ := by
    simp only [killedQuantity, hloop, e1]
  have a3 : remTotal s + volume ts = remTotal ob := a0
  show volume ts + killedQuantity ob + remTotal ob2 = remTotal ob
  rw [ek]
  omega

theorem remTotal_insertOrder (ob : Orderbook) (o : Order) :
    remTotal (insertOrder ob o) = remTotal ob + o.remainingQuantity_ := by
  rw [remTotal_eq, remTotal_eq, remainingOf_perm (resting_insertOrder_perm ob o),
    remainingOf_cons, Nat.add_comm]

/-- The call `AddOrder` conserves quantity. -/
theorem AddOrder_account {ob : Orderbook} (h : BookInv ob) (o : Order)
    (ho : o.remainingQuantity_ = o.initialQuantity_) {r : Orderbook × Trades}
    (hr : AddOrder ob o = .ok r) :
    volume r.2 + withdrawnByAdd ob o + remTotal r.1 = remTotal ob + admittedByAdd ob o := by
  rw [AddOrder_admission] at hr
  unfold withdrawnByAdd admittedByAdd
  rcases ha : admission ob o with _ | o1
  · rw [ha] at hr
    cases hr
    simp [volume]
  · rw [ha] at hr
    simp only at hr ⊢
    obtain ⟨hfresh, hconv, hid⟩ := admission_some ha
    have hfresh1 : findOrder o1.orderId_ ob.orders_ = none := by rw [hid]; exact hfresh
    have hcf := insertOrder_coupled (bookInv_full h) hfresh1
    obtain ⟨r1, hr1, hacc⟩ := MatchOrders_account hcf
    rw [hr] at hr1
    cases hr1
    rw [hacc, remTotal_insertOrder]
    rcases convertMarket_cases ob o with hn | ⟨o2, hc2, _, _, _, hi, hrem, _⟩
    · rw [hn] at hconv; cases hconv
    · rw [hc2] at hconv
      cases hconv
      rw [hrem, hi, ho]

/-- Every call conserves quantity: what its trades carry, what it withdrew and what is
queued afterwards is what was queued before and what it entered. -/
theorem step_account {ob : Orderbook} (h : BookInv ob) (req : Request)
    {r : Orderbook × Trades} (hr : step ob req = .ok r) :
    volume r.2 + withdrawnBy ob req + remTotal r.1 = remTotal ob + admittedBy ob req := by
  cases req with
  | add t k s p q =>
    exact AddOrder_account h (Order.new t k s p q) rfl hr
  | cancel k =>
    obtain ⟨ob1, h1, _⟩ := CancelOrder_spec h k
    simp only [step, h1] at hr
    cases hr
    have := cancel_account h.coupled h1
    simp only [withdrawnBy, admittedBy, volume, List.map_nil, List.sum_nil]
    omega
  | modify m =>
    simp only [step, ModifyOrder] at hr
    simp only [withdrawnBy, admittedBy]
    rcases hf : findOrder m.orderId_ ob.orders_ with _ | existing
    · rw [hf] at hr
      simp only at hr
      cases hr
      simp [volume]
    · rw [hf] at hr
      obtain ⟨ob1, h1, h2, _⟩ := CancelOrder_spec h m.orderId_
      rw [h1] at hr
      simp only at hr ⊢
      rw [h1]
      simp only
      have c := cancel_account h.coupled h1
      have a := AddOrder_account h2 (m.ToOrderPointer existing.orderType_) rfl hr
      omega

theorem run_account (requests : List Request) :
    ∀ {ob : Orderbook} (acc : Ledger), BookInv ob →
      ∃ ob1 acc1, runLedger ob acc requests = .ok (ob1, acc1) ∧
        run ob requests = .ok ob1 ∧ BookInv ob1 ∧
        acc1.traded + acc1.withdrawn + remTotal ob1 + acc.admitted =
          acc1.admitted + (acc.traded + acc.withdrawn + remTotal ob) := by
  induction requests with
  | nil =>
    intro ob acc h
    exact ⟨ob, acc, rfl, rfl, h, by omega⟩
  | cons req rest ih =>
    intro ob acc h
    obtain ⟨r, hr, hinv⟩ := step_spec h req
    have hacc := step_account h req hr
    obtain ⟨ob1, acc1, e1, e2, h2, h3⟩ := ih
      { admitted := acc.admitted + admittedBy ob req
        traded := acc.traded + volume r.2
        withdrawn := acc.withdrawn + withdrawnBy ob req } hinv
    refine ⟨ob1, acc1, by simp only [runLedger, hr, e1], by simp only [run, hr, e2], h2, ?_⟩
    simp only at h3
    omega

theorem remTotal_empty : remTotal Orderbook.empty = 0 := rfl

/-- No queued order of a reachable book has more remaining than its initial
quantity. -/
theorem reachable_remaining_le {ob : Orderbook} (h : Reachable ob) :
    ∀ x ∈ resting ob, x.remainingQuantity_ ≤ x.initialQuantity_ := by
  obtain ⟨requests, hr⟩ := h
  obtain ⟨ob1, h1, _, h3⟩ := run_keeps
    (Q := fun o => o.remainingQuantity_ ≤ o.initialQuantity_)
    (fun x q hx => le_trans (Nat.sub_le _ _) hx)
    (by
      intro ob t k s p q o1 hc
      rcases convertMarket_cases ob (Order.new t k s p q) with
        hn | ⟨o2, hc2, _, _, _, hi, hrem, _⟩
      · rw [hn] at hc; cases hc
      · rw [hc2] at hc
        cases hc
        rw [hrem, hi]
        exact le_refl _)
    requests empty_inv (by simp [Orderbook.empty, resting])
  rw [hr] at h1
  cases h1
  exact h3

/-- C17: for every finite sequence of calls on the empty book the calls all return,
and with `traded` the sum over all returned trades of bid-side plus ask-side quantity,
`admitted` the sum of the initial quantities of the orders entered in the book and
`withdrawn` the sum of the remaining quantities with which orders left the book
unfilled, `traded + withdrawn + (remaining quantity queued at the end) = admitted`:
the trades carry the sum of initial minus remaining over every order ever admitted,
an order that left by a complete fill counting with remaining 0. No queued order has
more remaining than its initial quantity. One pass of the inner loop of `MatchOrders`
records one trade of quantity `q = min(b.remaining, a.remaining)` on both sides,
replaces the front bid `b` and the front ask `a` by their state with `q` less remaining
(dropping the ones that reach 0) and leaves every other queued order as it is. -/
theorem volume_is_conserved (requests : List Request) :
    (∃ ob acc, runLedger Orderbook.empty (Ledger.mk 0 0 0) requests = .ok (ob, acc) ∧
      run Orderbook.empty requests = .ok ob ∧
      acc.traded + acc.withdrawn + remTotal ob = acc.admitted ∧
      ∀ x ∈ resting ob, x.remainingQuantity_ ≤ x.initialQuantity_) ∧
    (∀ (s : Orderbook) (ts : Trades) (bp : Price) (b : Order) (B : OrderPointers)
        (bs : Levels) (ap : Price) (a : Order) (A : OrderPointers) (as : Levels),
      s.bids_ = (bp, b :: B) :: bs → s.asks_ = (ap, a :: A) :: as →
      ∃ r, matchFronts s ts bp b B bs ap a A as = .ok r ∧
        r.2 = ts ++ [Trade.mk
          (TradeInfo.mk b.orderId_ b.price_ (min b.remainingQuantity_ a.remainingQuantity_))
          (TradeInfo.mk a.orderId_ a.price_
            (min b.remainingQuantity_ a.remainingQuantity_))] ∧
        (filled b (min b.remainingQuantity_ a.remainingQuantity_)).remainingQuantity_ +
          min b.remainingQuantity_ a.remainingQuantity_ = b.remainingQuantity_ ∧
        (filled a (min b.remainingQuantity_ a.remainingQuantity_)).remainingQuantity_ +
          min b.remainingQuantity_ a.remainingQuantity_ = a.remainingQuantity_ ∧
        queued s.bids_ = b :: (queued s.bids_).tail ∧
        queued r.1.bids_ =
          (if (filled b (min b.remainingQuantity_ a.remainingQuantity_)).IsFilled = true
            then (queued s.bids_).tail
            else filled b (min b.remainingQuantity_ a.remainingQuantity_) ::
              (queued s.bids_).tail) ∧
        queued s.asks_ = a :: (queued s.asks_).tail ∧
        queued r.1.asks_ =
          (if (filled a (min b.remainingQuantity_ a.remainingQuantity_)).IsFilled = true
            then (queued s.asks_).tail
            else filled a (min b.remainingQuantity_ a.remainingQuantity_) ::
              (queued s.asks_).tail)) := by
  constructor
  · obtain ⟨ob, acc, e1, e2, _, h3⟩ := run_account requests (Ledger.mk 0 0 0) empty_inv
    refine ⟨ob, acc, e1, e2, ?_, reachable_remaining_le ⟨requests, e2⟩⟩
    rw [remTotal_empty] at h3
    simp only at h3
    omega
  · intro s ts bp b B bs ap a A as hb ha
    have key : ∀ x y : Nat, x - min x y + min x y = x ∧ y - min x y + min x y = y := by
      intro x y; omega
    obtain ⟨e1, e2⟩ := settle_queued_bids ts (min b.remainingQuantity_ a.remainingQuantity_)
      ap (filled a (min b.remainingQuantity_ a.remainingQuantity_)) A as hb
    obtain ⟨e3, e4⟩ := settle_queued_asks ts (min b.remainingQuantity_ a.remainingQuantity_)
      bp (filled b (min b.remainingQuantity_ a.remainingQuantity_)) B bs ha
    exact ⟨_, matchFronts_eq s ts bp b B bs ap a A as, rfl,
      (key b.remainingQuantity_ a.remainingQuantity_).1,
      (key b.remainingQuantity_ a.remainingQuantity_).2, e1, e2, e3, e4⟩

/-! ## Time priority in the matching loop -/

theorem fillsOf_nil (info : Trade → TradeInfo) (k : OrderId) : fillsOf info k [] = 0 := rfl

theorem fillsOf_append (info : Trade → TradeInfo) (k : OrderId) (ts : Trades) (t : Trade) :
    fillsOf info k (ts ++ [t]) =
      fillsOf info k ts + (if (info t).orderId_ = k then (info t).quantity_ else 0) := by
  simp [fillsOf]

theorem split_snoc {ts ts1 ts2 : Trades} {t t1 : Trade}
    (h : ts ++ [t1] = ts1 ++ t :: ts2) :
    (ts2 = [] ∧ ts1 = ts ∧ t = t1) ∨ ∃ ts3, ts = ts1 ++ t :: ts3 := by
  rcases List.eq_nil_or_concat ts2 with e | ⟨ts3, t2, e⟩
  · left
    subst e
    have h1 : ts ++ [t1] = ts1 ++ [t] := h
    obtain ⟨e1, e2⟩ := List.append_inj' h1 rfl
    exact ⟨rfl, e1.symm, (List.singleton_inj.1 e2).symm⟩
  · right
    subst e
    refine ⟨ts3, ?_⟩
    have h1 : ts ++ [t1] = (ts1 ++ t :: ts3) ++ [t2] := by
      rw [h, List.concat_eq_append, List.append_assoc, List.cons_append]
    exact (List.append_inj' h1 rfl).1

/-- One pass of the inner loop keeps `FilledFirst` on the side whose front order it
fills. -/
theorem filledFirst_step (info : Trade → TradeInfo) {kx ky : OrderId} {X : Nat}
    (hne : kx ≠ ky) {l : List Order} {ts : Trades} {b : Order} {q : Quantity} {t1 : Trade}
    (hnd : (l.map (fun o => o.orderId_)).Nodup) (hl : l = b :: l.tail)
    (hq : q ≤ b.remainingQuantity_) (hid : (info t1).orderId_ = b.orderId_)
    (hqty : (info t1).quantity_ = q) (hP : FilledFirst info kx ky X l ts) :
    FilledFirst info kx ky X
      (if (filled b q).IsFilled = true then l.tail else filled b q :: l.tail)
      (ts ++ [t1]) := by
  obtain ⟨hA, hB⟩ := hP
  have hids : l.map (fun o => o.orderId_) = b.orderId_ :: l.tail.map (fun o => o.orderId_) := by
    conv_lhs => rw [hl]
    rfl
  rw [hids, List.nodup_cons] at hnd
  have key1 : ∀ r q f X : Nat, q ≤ r → r - q = 0 → r + f = X → f + q = X := by
    intro r q f X h1 h2 h3; omega
  have key2 : ∀ r q f X : Nat, q ≤ r → r + f = X → (r - q) + (f + q) = X := by
    intro r q f X h1 h2; omega
  rcases hB with ⟨hsub, hno, xs, hxs, hxid, hxr⟩ | ⟨habs, hfill⟩
  · have hA1 : ∀ ts1 t ts2, ts ++ [t1] = ts1 ++ t :: ts2 → (info t).orderId_ = ky →
        (info t1).orderId_ ≠ ky → fillsOf info kx ts1 = X := by
      intro ts1 t ts2 e hk hn1
      have hm : t ∈ ts ++ [t1] := by rw [e]; simp
      rcases List.mem_append.1 hm with h1 | h1
      · exact absurd hk (hno t h1)
      · rw [List.mem_singleton] at h1
        rw [h1] at hk
        exact absurd hk hn1
    have hno1 : (info t1).orderId_ ≠ ky → ∀ t ∈ ts ++ [t1], (info t).orderId_ ≠ ky := by
      intro hn1 t ht
      rcases List.mem_append.1 ht with h1 | h1
      · exact hno t h1
      · rw [List.mem_singleton] at h1
        rw [h1]
        exact hn1
    rw [hids] at hsub
    by_cases hb : b.orderId_ = kx
    · have hn1 : (info t1).orderId_ ≠ ky := by rw [hid, hb]; exact hne
      have hxb : xs = b := by
        rw [hl] at hxs
        rcases List.mem_cons.1 hxs with e | e
        · exact e
        · exact absurd (List.mem_map.2 ⟨xs, e, hxid.trans hb.symm⟩) hnd.1
      rw [hxb] at hxr
      have hf : fillsOf info kx (ts ++ [t1]) = fillsOf info kx ts + q := by
        rw [fillsOf_append, hid, if_pos hb, hqty]
      refine ⟨fun ts1 t ts2 e hk => hA1 ts1 t ts2 e hk hn1, ?_⟩
      by_cases hfl : (filled b q).IsFilled = true
      · rw [if_pos hfl]
        right
        simp only [Order.IsFilled, filled, beq_iff_eq] at hfl
        refine ⟨by rw [← hb]; exact hnd.1, ?_⟩
        rw [hf]
        exact key1 _ _ _ _ hq hfl hxr
      · rw [if_neg hfl]
        left
        refine ⟨by simpa [filled] using hsub, hno1 hn1, filled b q, List.mem_cons_self _ _,
          hb, ?_⟩
        rw [hf]
        exact key2 _ _ _ _ hq hxr
    · have hsub1 : [kx, ky].Sublist (l.tail.map (fun o => o.orderId_)) := by
        rcases List.sublist_cons_iff.1 hsub with h1 | ⟨r, e, _⟩
        · exact h1
        · rw [List.cons.injEq] at e
          exact absurd e.1.symm hb
      have hky : b.orderId_ ≠ ky := by
        intro e
        have : ky ∈ l.tail.map (fun o => o.orderId_) := hsub1.subset (by simp)
        rw [← e] at this
        exact hnd.1 this
      have hn1 : (info t1).orderId_ ≠ ky := by rw [hid]; exact hky
      have hf : fillsOf info kx (ts ++ [t1]) = fillsOf info kx ts := by
        rw [fillsOf_append, hid, if_neg hb, Nat.add_zero]
      have hxt : xs ∈ l.tail := by
        rw [hl] at hxs
        rcases List.mem_cons.1 hxs with e | e
        · rw [e] at hxid
          exact absurd hxid hb
        · exact e
      refine ⟨fun ts1 t ts2 e hk => hA1 ts1 t ts2 e hk hn1, Or.inl ⟨?_, hno1 hn1, xs, ?_, hxid,
        by rw [hf]; exact hxr⟩⟩
      · split
        · exact hsub1
        · exact List.Sublist.cons _ hsub1
      · split
        · exact hxt
        · exact List.mem_cons_of_mem _ hxt
  · rw [hids, List.mem_cons, not_or] at habs
    have hf : fillsOf info kx (ts ++ [t1]) = fillsOf info kx ts := by
      rw [fillsOf_append, hid, if_neg (fun e => habs.1 e.symm), Nat.add_zero]
    refine ⟨?_, Or.inr ⟨?_, by rw [hf]; exact hfill⟩⟩
    · intro ts1 t ts2 e hk
      rcases split_snoc e with ⟨_, e1, _⟩ | ⟨ts3, e1⟩
      · rw [e1]; exact hfill
      · exact hA ts1 t ts3 e1 hk
    · split
      · exact habs.2
      · simp only [List.map_cons, List.mem_cons, not_or, filled]
        exact habs

theorem filledFirst_init (info : Trade → TradeInfo) {l : List Order} {x1 y1 : Order}
    (h : [x1, y1].Sublist l) :
    FilledFirst info x1.orderId_ y1.orderId_ x1.remainingQuantity_ l [] := by
  have hm := h.map (fun o : Order => o.orderId_)
  refine ⟨?_, Or.inl ⟨hm, by simp, x1, h.subset (by simp), rfl, ?_⟩⟩
  · intro ts1 t ts2 e
    simp at e
  · rw [fillsOf_nil, Nat.add_zero]

theorem nodup_bids {s : Orderbook} (h : Coupled s) :
    ((queued s.bids_).map (fun o => o.orderId_)).Nodup := by
  have := h.ids
  unfold resting at this
  rw [List.map_append] at this
  exact this.of_append_left

theorem nodup_asks {s : Orderbook} (h : Coupled s) :
    ((queued s.asks_).map (fun o => o.orderId_)).Nodup := by
  have := h.ids
  unfold resting at this
  rw [List.map_append] at this
  exact this.of_append_right

/-- On the bid side the loop of `MatchOrders` fills an order in full before it fills
an order that is queued behind it. -/
theorem matchLoop_priority_bids {fuel : Nat} {ob : Orderbook} {r : Orderbook × Trades}
    {kx ky : OrderId} {X : Nat} (hne : kx ≠ ky) (hc : CoupledFull ob)
    (hP : FilledFirst Trade.bidTrade_ kx ky X (queued ob.bids_) [])
    (hf : ob.bids_.length + ob.asks_.length ≤ fuel)
    (h : matchLoop fuel ob [] = .ok r) :
    FilledFirst Trade.bidTrade_ kx ky X (queued r.1.bids_) r.2 := by
  refine matchLoop_traces
    (P := fun s ts => FilledFirst Trade.bidTrade_ kx ky X (queued s.bids_) ts) ?_ ?_ hc hP hf h
  · intro s ts bp b B bs ap a A as hin _ hQ hb ha
    obtain ⟨e1, e2⟩ := settle_queued_bids ts (min b.remainingQuantity_ a.remainingQuantity_)
      ap (filled a (min b.remainingQuantity_ a.remainingQuantity_)) A as hb
    rw [e2]
    exact filledFirst_step Trade.bidTrade_ hne (nodup_bids hin.1) e1
      (Nat.min_le_left _ _) rfl rfl hQ
  · intro s ts bp bs ap as hin hQ hb ha
    obtain ⟨e1, _⟩ := eraseEmptyBest_same hin hb ha
    rw [e1]
    exact hQ

/-- On the ask side the loop of `MatchOrders` fills an order in full before it fills
an order that is queued behind it. -/
theorem matchLoop_priority_asks {fuel : Nat} {ob : Orderbook} {r : Orderbook × Trades}
    {kx ky : OrderId} {X : Nat} (hne : kx ≠ ky) (hc : CoupledFull ob)
    (hP : FilledFirst Trade.askTrade_ kx ky X (queued ob.asks_) [])
    (hf : ob.bids_.length + ob.asks_.length ≤ fuel)
    (h : matchLoop fuel ob [] = .ok r) :
    FilledFirst Trade.askTrade_ kx ky X (queued r.1.asks_) r.2 := by
  refine matchLoop_traces
    (P := fun s ts => FilledFirst Trade.askTrade_ kx ky X (queued s.asks_) ts) ?_ ?_ hc hP hf h
  · intro s ts bp b B bs ap a A as hin _ hQ hb ha
    obtain ⟨e1, e2⟩ := settle_queued_asks ts (min b.remainingQuantity_ a.remainingQuantity_)
      bp (filled b (min b.remainingQuantity_ a.remainingQuantity_)) B bs ha
    rw [e2]
    exact filledFirst_step Trade.askTrade_ hne (nodup_asks hin.1) e1
      (Nat.min_le_right _ _) rfl rfl hQ
  · intro s ts bp bs ap as hin hQ hb ha
    obtain ⟨_, e2, _⟩ := eraseEmptyBest_same hin hb ha
    rw [e2]
    exact hQ

theorem ne_of_sublist_pair {l : List Order} (hn : (l.map (fun o => o.orderId_)).Nodup)
    {x1 y1 : Order} (h : [x1, y1].Sublist l) : x1.orderId_ ≠ y1.orderId_ := by
  have := hn.sublist (h.map (fun o => o.orderId_))
  simp only [List.map_cons, List.map_nil, List.nodup_cons, List.mem_singleton] at this
  exact this.1

/-- The trades of one call of `MatchOrders` on a well-formed book respect the order of
the queued orders of each side. -/
theorem MatchOrders_priority {ob : Orderbook} (h : CoupledFull ob) {r : Orderbook × Trades}
    (hr : MatchOrders ob = .ok r) (x1 y1 : Order) :
    ([x1, y1].Sublist (queued ob.bids_) →
      ∀ ts1 t ts2, r.2 = ts1 ++ t :: ts2 → t.bidTrade_.orderId_ = y1.orderId_ →
        fillsOf Trade.bidTrade_ x1.orderId_ ts1 = x1.remainingQuantity_) ∧
    ([x1, y1].Sublist (queued ob.asks_) →
      ∀ ts1 t ts2, r.2 = ts1 ++ t :: ts2 → t.askTrade_.orderId_ = y1.orderId_ →
        fillsOf Trade.askTrade_ x1.orderId_ ts1 = x1.remainingQuantity_) := by
  obtain ⟨s, ob1, ob2, ts, hloop, _, _, hm, _⟩ := MatchOrders_stages h
  rw [hm] at hr
  cases hr
  constructor
  · intro hsub
    exact (matchLoop_priority_bids (r := (s, ts)) (ne_of_sublist_pair (nodup_bids h.1) hsub) h
      (filledFirst_init Trade.bidTrade_ hsub) (Nat.le_succ _) hloop).1
  · intro hsub
    exact (matchLoop_priority_asks (r := (s, ts)) (ne_of_sublist_pair (nodup_asks h.1) hsub) h
      (filledFirst_init Trade.askTrade_ hsub) (Nat.le_succ _) hloop).1

theorem sublist_insertOrder (ob : Orderbook) (h : Coupled ob) (o : Order) :
    (queued ob.bids_).Sublist (queued (insertOrder ob o).bids_) ∧
    (queued ob.asks_).Sublist (queued (insertOrder ob o).asks_) := by
  unfold insertOrder
  by_cases hs : o.side_ = Side.Buy
  · simp only [hs, if_true]
    obtain ⟨pre, post, e1, e2, _⟩ := queued_pushBackAt keyOrder_bid h.bids o
    rw [e1, e2]
    exact ⟨List.Sublist.append (List.Sublist.refl _) (List.sublist_cons_self _ _),
      List.Sublist.refl _⟩
  · simp only [hs, if_false]
    obtain ⟨pre, post, e1, e2, _⟩ := queued_pushBackAt keyOrder_ask h.asks o
    rw [e1, e2]
    exact ⟨List.Sublist.refl _,
      List.Sublist.append (List.Sublist.refl _) (List.sublist_cons_self _ _)⟩

/-- The trades of one call of `AddOrder` respect the order of the queued orders. -/
theorem AddOrder_priority {ob : Orderbook} (h : BookInv ob) (o : Order)
    {r : Orderbook × Trades} (hr : AddOrder ob o = .ok r) (x1 y1 : Order) :
    ([x1, y1].Sublist (queued ob.bids_) →
      ∀ ts1 t ts2, r.2 = ts1 ++ t :: ts2 → t.bidTrade_.orderId_ = y1.orderId_ →
        fillsOf Trade.bidTrade_ x1.orderId_ ts1 = x1.remainingQuantity_) ∧
    ([x1, y1].Sublist (queued ob.asks_) →
      ∀ ts1 t ts2, r.2 = ts1 ++ t :: ts2 → t.askTrade_.orderId_ = y1.orderId_ →
        fillsOf Trade.askTrade_ x1.orderId_ ts1 = x1.remainingQuantity_) := by
  rw [AddOrder_admission] at hr
  rcases ha : admission ob o with _ | o1
  · rw [ha] at hr
    cases hr
    constructor <;>
    · intro _ ts1 t ts2 e
      simp at e
  · rw [ha] at hr
    obtain ⟨hfresh, _, hid⟩ := admission_some ha
    have hfresh1 : findOrder o1.orderId_ ob.orders_ = none := by rw [hid]; exact hfresh
    have hcf := insertOrder_coupled (bookInv_full h) hfresh1
    obtain ⟨hb, ha1⟩ := sublist_insertOrder ob h.coupled o1
    obtain ⟨p1, p2⟩ := MatchOrders_priority hcf hr x1 y1
    exact ⟨fun hs => p1 (hs.trans hb), fun hs => p2 (hs.trans ha1)⟩

/-! ## Time priority between calls -/

theorem sublist_dropId {k : OrderId} {x1 y1 : Order} {l : List Order}
    (hx : x1.orderId_ ≠ k) (hy : y1.orderId_ ≠ k) (h : [x1, y1].Sublist l) :
    [x1, y1].Sublist (dropId k l) := by
  have := h.filter (fun o => decide (o.orderId_ ≠ k))
  simpa [dropId, List.filter_cons, hx, hy] using this

/-- The trades of one call respect the order of the queued orders, for two queued
orders that the call does not name. -/
theorem step_priority {ob : Orderbook} (h : BookInv ob) (req : Request)
    {r : Orderbook × Trades} (hr : step ob req = .ok r) (x1 y1 : Order)
    (hx : requestId req ≠ x1.orderId_) (hy : requestId req ≠ y1.orderId_) :
    ([x1, y1].Sublist (queued ob.bids_) →
      ∀ ts1 t ts2, r.2 = ts1 ++ t :: ts2 → t.bidTrade_.orderId_ = y1.orderId_ →
        fillsOf Trade.bidTrade_ x1.orderId_ ts1 = x1.remainingQuantity_) ∧
    ([x1, y1].Sublist (queued ob.asks_) →
      ∀ ts1 t ts2, r.2 = ts1 ++ t :: ts2 → t.askTrade_.orderId_ = y1.orderId_ →
        fillsOf Trade.askTrade_ x1.orderId_ ts1 = x1.remainingQuantity_) := by
  cases req with
  | add t k s p q => exact AddOrder_priority h _ hr x1 y1
  | cancel k =>
    obtain ⟨ob1, h1, _⟩ := CancelOrder_spec h k
    simp only [step, h1] at hr
    cases hr
    constructor <;>
    · intro _ ts1 t ts2 e
      simp at e
  | modify m =>
    simp only [step, ModifyOrder] at hr
    rcases hf : findOrder m.orderId_ ob.orders_ with _ | existing
    · rw [hf] at hr
      simp only at hr
      cases hr
      constructor <;>
      · intro _ ts1 t ts2 e
        simp at e
    · rw [hf] at hr
      obtain ⟨ob1, h1, h2, _⟩ := CancelOrder_spec h m.orderId_
      obtain ⟨ob2, c1, _, c3, c4, _⟩ := cancel_spec h.coupled m.orderId_
      have e : ob2 = ob1 := by
        have := c1.symm.trans h1
        exact Except.ok.inj this
      subst e
      rw [h1] at hr
      simp only at hr
      obtain ⟨p1, p2⟩ := AddOrder_priority h2 _ hr x1 y1
      simp only [requestId] at hx hy
      refine ⟨fun hs => p1 ?_, fun hs => p2 ?_⟩
      · rw [c3]; exact sublist_dropId (Ne.symm hx) (Ne.symm hy) hs
      · rw [c4]; exact sublist_dropId (Ne.symm hx) (Ne.symm hy) hs

theorem keepsAhead_of_last {kx ky : OrderId} {l : List Order} (h : LastOfPrice ky l) :
    KeepsAhead kx ky l :=
  List.Pairwise.imp (fun hab e _ => hab e) h

theorem keepsAhead_of_tags {kx ky : OrderId} {l1 l0 : List Order}
    (hs : (l1.map tagOf).Sublist (l0.map tagOf)) (h : KeepsAhead kx ky l0) :
    KeepsAhead kx ky l1 := by
  unfold KeepsAhead at h ⊢
  have h0 : (l0.map tagOf).Pairwise
      (fun t u => t.2.1 = ky → u.2.1 = kx → u.2.2.2.1 ≠ t.2.2.2.1) := List.pairwise_map.2 h
  exact List.pairwise_map.1 (h0.sublist hs)

theorem keepsAhead_insert {kx ky : OrderId} {pre post : List Order} {o : Order}
    (hx : o.orderId_ ≠ kx) (hy : o.orderId_ ≠ ky) (h : KeepsAhead kx ky (pre ++ post)) :
    KeepsAhead kx ky (pre ++ o :: post) := by
  unfold KeepsAhead at h ⊢
  rw [List.pairwise_append] at h ⊢
  refine ⟨h.1, List.pairwise_cons.2 ⟨fun b _ e => absurd e hy, h.2.1⟩, ?_⟩
  intro a ha b hb
  rcases List.mem_cons.1 hb with e | e
  · rw [e]
    exact fun _ e1 => absurd e1 hx
  · exact h.2.2 a ha b e

/-- An order entered with an id other than `kx` and `ky` leaves `kx` ahead of `ky`. -/
theorem AddOrder_keepsAhead {ob : Orderbook} (h : BookInv ob) (o : Order)
    {r : Orderbook × Trades} (hr : AddOrder ob o = .ok r) {kx ky : OrderId}
    (hx : o.orderId_ ≠ kx) (hy : o.orderId_ ≠ ky)
    (hk : KeepsAhead kx ky (queued ob.bids_) ∧ KeepsAhead kx ky (queued ob.asks_)) :
    KeepsAhead kx ky (queued r.1.bids_) ∧ KeepsAhead kx ky (queued r.1.asks_) := by
  rw [AddOrder_admission] at hr
  rcases ha : admission ob o with _ | o1
  · rw [ha] at hr
    cases hr
    exact hk
  · rw [ha] at hr
    obtain ⟨hfresh, _, hid⟩ := admission_some ha
    have hfresh1 : findOrder o1.orderId_ ob.orders_ = none := by rw [hid]; exact hfresh
    have hcf := insertOrder_coupled (bookInv_full h) hfresh1
    have hcons := MatchOrders_consumed hcf hr
    have hins : KeepsAhead kx ky (queued (insertOrder ob o1).bids_) ∧
        KeepsAhead kx ky (queued (insertOrder ob o1).asks_) := by
      unfold insertOrder
      by_cases hs : o1.side_ = Side.Buy
      · simp only [hs, if_true]
        obtain ⟨pre, post, e1, e2, _⟩ := queued_pushBackAt keyOrder_bid h.coupled.bids o1
        rw [e2]
        rw [e1] at hk
        exact ⟨keepsAhead_insert (by rw [hid]; exact hx) (by rw [hid]; exact hy) hk.1, hk.2⟩
      · simp only [hs, if_false]
        obtain ⟨pre, post, e1, e2, _⟩ := queued_pushBackAt keyOrder_ask h.coupled.asks o1
        rw [e2]
        rw [e1] at hk
        exact ⟨hk.1, keepsAhead_insert (by rw [hid]; exact hx) (by rw [hid]; exact hy) hk.2⟩
    exact ⟨keepsAhead_of_tags hcons.1.sublist hins.1, keepsAhead_of_tags hcons.2.sublist hins.2⟩

/-- A call that names neither `kx` nor `ky` leaves `kx` ahead of `ky`. -/
theorem step_keepsAhead {ob : Orderbook} (h : BookInv ob) (req : Request)
    {r : Orderbook × Trades} (hr : step ob req = .ok r) {kx ky : OrderId}
    (hx : requestId req ≠ kx) (hy : requestId req ≠ ky)
    (hk : KeepsAhead kx ky (queued ob.bids_) ∧ KeepsAhead kx ky (queued ob.asks_)) :
    KeepsAhead kx ky (queued r.1.bids_) ∧ KeepsAhead kx ky (queued r.1.asks_) := by
  cases req with
  | add t k s p q => exact AddOrder_keepsAhead h _ hr hx hy hk
  | cancel k =>
    obtain ⟨ob1, h1, _, h3, _⟩ := CancelOrder_spec h k
    simp only [step, h1] at hr
    cases hr
    exact ⟨List.Pairwise.sublist h3.1 hk.1, List.Pairwise.sublist h3.2.1 hk.2⟩
  | modify m =>
    simp only [step, ModifyOrder] at hr
    rcases hf : findOrder m.orderId_ ob.orders_ with _ | existing
    · rw [hf] at hr
      simp only at hr
      cases hr
      exact hk
    · rw [hf] at hr
      obtain ⟨ob1, h1, h2, h3, _⟩ := CancelOrder_spec h m.orderId_
      rw [h1] at hr
      simp only at hr
      exact AddOrder_keepsAhead h2 _ hr hx hy
        ⟨List.Pairwise.sublist h3.1 hk.1, List.Pairwise.sublist h3.2.1 hk.2⟩

/-- The call that enters an order puts it behind the queued orders of its price. -/
theorem step_last {ob : Orderbook} (h : BookInv ob) (req : Request) (ky : OrderId)
    (hY : (∃ t s p q, req = Request.add t ky s p q ∧ findOrder ky ob.orders_ = none) ∨
      (∃ m, req = Request.modify m ∧ m.orderId_ = ky))
    {r : Orderbook × Trades} (hr : step ob req = .ok r) :
    LastOfPrice ky (queued r.1.bids_) ∧ LastOfPrice ky (queued r.1.asks_) := by
  rcases hY with ⟨t, s, p, q, e, hfresh⟩ | ⟨m, e, hm⟩
  · subst e
    exact AddOrder_last h (Order.new t ky s p q) hfresh hr
  · subst e
    subst hm
    simp only [step, ModifyOrder] at hr
    rcases hf : findOrder m.orderId_ ob.orders_ with _ | existing
    · rw [hf] at hr
      simp only at hr
      cases hr
      have hk := (coupled_findOrder_none h.coupled).1 hf
      unfold resting at hk
      rw [List.map_append, List.mem_append, not_or] at hk
      exact ⟨lastOfPrice_of_absent hk.1, lastOfPrice_of_absent hk.2⟩
    · rw [hf] at hr
      obtain ⟨ob1, h1, h2, _, h4⟩ := CancelOrder_spec h m.orderId_
      rw [h1] at hr
      simp only at hr
      exact AddOrder_last h2 (m.ToOrderPointer existing.orderType_) h4 hr

/-- A call that does not name the id `kx` leaves the type, side, price and initial
quantity of the order queued under it as they are. -/
theorem step_same_tag {ob : Orderbook} (h : BookInv ob) (req : Request)
    {r : Orderbook × Trades} (hr : step ob req = .ok r) {kx : OrderId}
    {T : OrderType × OrderId × Side × Price × Quantity} (hx : requestId req ≠ kx)
    (hT : ∀ z ∈ resting ob, z.orderId_ = kx → tagOf z = T) :
    ∀ z ∈ resting r.1, z.orderId_ = kx → tagOf z = T := by
  have hadd : ∀ (ob1 : Orderbook) (o : Order), BookInv ob1 → o.orderId_ ≠ kx →
      (∀ z ∈ resting ob1, z.orderId_ = kx → tagOf z = T) →
      ∀ r1, AddOrder ob1 o = .ok r1 →
        ∀ z ∈ resting r1.1, z.orderId_ = kx → tagOf z = T := by
    intro ob1 o h1 ho hT1 r1 hr1
    obtain ⟨r2, hr2, _, hQ⟩ := AddOrder_spec h1 o
    rw [hr1] at hr2
    cases hr2
    refine hQ (fun z => z.orderId_ = kx → tagOf z = T) (fun x q hx => hx) hT1 ?_
    intro o1 hc e
    rcases convertMarket_cases ob1 o with hn | ⟨o2, hc2, hid, _⟩
    · rw [hn] at hc; cases hc
    · rw [hc2] at hc
      cases hc
      exact absurd (hid.symm.trans e) ho
  cases req with
  | add t k s p q => exact hadd ob _ h hx hT r hr
  | cancel k =>
    obtain ⟨ob1, h1, _, h3, _⟩ := CancelOrder_spec h k
    simp only [step, h1] at hr
    cases hr
    exact fun z hz => hT z (shrunk_resting h3 hz)
  | modify m =>
    simp only [step, ModifyOrder] at hr
    rcases hf : findOrder m.orderId_ ob.orders_ with _ | existing
    · rw [hf] at hr
      simp only at hr
      cases hr
      exact hT
    · rw [hf] at hr
      obtain ⟨ob1, h1, h2, h3, _⟩ := CancelOrder_spec h m.orderId_
      rw [h1] at hr
      simp only at hr
      exact hadd ob1 _ h2 hx (fun z hz => hT z (shrunk_resting h3 hz)) r hr

theorem run_append (l1 l2 : List Request) :
    ∀ ob : Orderbook, run ob (l1 ++ l2) =
      match run ob l1 with
      | .error e => .error e
      | .ok ob1 => run ob1 l2 := by
  induction l1 with
  | nil => intro ob; rfl
  | cons req rest ih =>
    intro ob
    simp only [List.cons_append, run]
    rcases step ob req with e | res
    · rfl
    · exact ih res.1

/-- Calls that name neither `kx` nor `ky` keep `kx` ahead of `ky` and leave the order
queued under `kx` the same. -/
theorem run_keepsAhead (requests : List Request) {kx ky : OrderId}
    {T : OrderType × OrderId × Side × Price × Quantity}
    (hreq : ∀ r ∈ requests, requestId r ≠ kx ∧ requestId r ≠ ky) :
    ∀ {ob : Orderbook}, BookInv ob →
      KeepsAhead kx ky (queued ob.bids_) ∧ KeepsAhead kx ky (queued ob.asks_) →
      (∀ z ∈ resting ob, z.orderId_ = kx → tagOf z = T) →
      ∃ ob1, run ob requests = .ok ob1 ∧ BookInv ob1 ∧
        (KeepsAhead kx ky (queued ob1.bids_) ∧ KeepsAhead kx ky (queued ob1.asks_)) ∧
        ∀ z ∈ resting ob1, z.orderId_ = kx → tagOf z = T := by
  induction requests with
  | nil => intro ob h hk hT; exact ⟨ob, rfl, h, hk, hT⟩
  | cons req rest ih =>
    intro ob h hk hT
    obtain ⟨r, hr, hinv⟩ := step_spec h req
    obtain ⟨hx, hy⟩ := hreq req (List.mem_cons_self _ _)
    obtain ⟨ob1, e1, h1, k1, t1⟩ := ih (fun r hr => hreq r (List.mem_cons_of_mem _ hr)) hinv
      (step_keepsAhead h req hr hx hy hk) (step_same_tag h req hr hx hT)
    exact ⟨ob1, by simp only [run, hr, e1], h1, k1, t1⟩

/-- On a well-formed side where `kx` is not behind `ky` at the same price, the order
`kx` precedes the order `ky` in a queue that holds both. -/
theorem ahead_in_level {before : Price → Price → Bool} {side : Side} {levels : Levels}
    (h : SideOk before side levels) {kx ky : OrderId} (hne : ky ≠ kx)
    (hk : KeepsAhead kx ky (queued levels))
    {l : Price × OrderPointers} (hmem : l ∈ levels) {x1 y1 : Order}
    (hx : x1 ∈ l.2) (hy : y1 ∈ l.2) (hxk : x1.orderId_ = kx) (hyk : y1.orderId_ = ky) :
    ∃ p m s, l.2 = p ++ x1 :: m ++ y1 :: s := by
  have hq : KeepsAhead kx ky l.2 := List.Pairwise.sublist (sublist_queued hmem) hk
  obtain ⟨p, s1, e⟩ := List.append_of_mem hx
  have hy1 : y1 ∈ p ++ x1 :: s1 := by rw [← e]; exact hy
  rcases List.mem_append.1 hy1 with h1 | h1
  · exfalso
    obtain ⟨p1, p2, e1⟩ := List.append_of_mem h1
    unfold KeepsAhead at hq
    rw [e, e1, List.append_assoc, List.pairwise_append] at hq
    have := (List.pairwise_cons.1 hq.2.1).1 x1 (by simp) hyk hxk
    exact this ((h.keyed l hmem x1 hx).2.trans (h.keyed l hmem y1 hy).2.symm)
  · rcases List.mem_cons.1 h1 with h2 | h2
    · rw [h2, hxk] at hyk
      exact absurd hyk.symm hne
    · obtain ⟨m, s, e1⟩ := List.append_of_mem h2
      exact ⟨p, m, s, by rw [e, e1]; simp⟩

theorem pair_sublist_of_split {l p m s : List Order} {x1 y1 : Order}
    (e : l = p ++ x1 :: m ++ y1 :: s) : [x1, y1].Sublist l := by
  rw [e]
  have h1 : [x1].Sublist (p ++ x1 :: m) := List.singleton_sublist.2 (by simp)
  have h2 : [y1].Sublist (y1 :: s) := List.singleton_sublist.2 (List.mem_cons_self _ _)
  exact List.Sublist.append h1 h2

/-- C19: let the order `x` be queued in the book reached by the calls `pre`, let the
next call enter an order under another id `ky` (an add with a fresh id, or a modify),
and let the calls `post` name neither id. Then the calls all return, and in the final
book an order queued under the id of `x` is `x` by type, side, price and initial
quantity, and in every price queue that holds it together with the order `ky` it
precedes `ky`. And in every reachable book, for two orders `x1` and `y1` of one price
queue with `x1` ahead of `y1` and a call that names neither: whenever a trade returned
by the call fills `y1`, the trades returned before it have filled the whole remaining
quantity of `x1`. -/
theorem time_priority_is_fifo (pre : List Request) (ob0 : Orderbook)
    (h0 : run Orderbook.empty pre = .ok ob0) (x : Order) (hx : x ∈ resting ob0)
    (reqY : Request) (ky : OrderId) (hne : ky ≠ x.orderId_)
    (hY : (∃ t s p q, reqY = Request.add t ky s p q ∧ findOrder ky ob0.orders_ = none) ∨
      (∃ m, reqY = Request.modify m ∧ m.orderId_ = ky))
    (post : List Request)
    (hpost : ∀ r ∈ post, requestId r ≠ x.orderId_ ∧ requestId r ≠ ky) :
    (∃ ob, run Orderbook.empty (pre ++ reqY :: post) = .ok ob ∧
      ∀ l ∈ ob.bids_ ++ ob.asks_, ∀ x1 ∈ l.2, ∀ y1 ∈ l.2,
        x1.orderId_ = x.orderId_ → y1.orderId_ = ky →
        tagOf x1 = tagOf x ∧ ∃ p m s, l.2 = p ++ x1 :: m ++ y1 :: s) ∧
    (∀ (ob : Orderbook), Reachable ob →
      ∀ (x1 y1 : Order) (req : Request) (r : Orderbook × Trades),
      requestId req ≠ x1.orderId_ → requestId req ≠ y1.orderId_ → step ob req = .ok r →
      ((∃ l ∈ ob.bids_, ∃ p m s, l.2 = p ++ x1 :: m ++ y1 :: s) →
        ∀ ts1 t ts2, r.2 = ts1 ++ t :: ts2 → t.bidTrade_.orderId_ = y1.orderId_ →
          fillsOf Trade.bidTrade_ x1.orderId_ ts1 = x1.remainingQuantity_) ∧
      ((∃ l ∈ ob.asks_, ∃ p m s, l.2 = p ++ x1 :: m ++ y1 :: s) →
        ∀ ts1 t ts2, r.2 = ts1 ++ t :: ts2 → t.askTrade_.orderId_ = y1.orderId_ →
          fillsOf Trade.askTrade_ x1.orderId_ ts1 = x1.remainingQuantity_)) := by
  constructor
  · have hinv0 := reachable_inv ⟨pre, h0⟩
    obtain ⟨r1, hr1, hinv1⟩ := step_spec hinv0 reqY
    have hid : requestId reqY = ky := by
      rcases hY with ⟨t, s, p, q, e, _⟩ | ⟨m, e, hm⟩
      · rw [e]; rfl
      · rw [e]; exact hm
    have hlast := step_last hinv0 reqY ky hY hr1
    have hT0 : ∀ z ∈ resting ob0, z.orderId_ = x.orderId_ → tagOf z = tagOf x := by
      intro z hz e
      rw [same_of_same_id hinv0.coupled.ids hz hx e]
    have hT1 := step_same_tag hinv0 reqY hr1 (by rw [hid]; exact hne) hT0
    obtain ⟨ob, e, hinv, hk, hT⟩ := run_keepsAhead post hpost hinv1
      ⟨keepsAhead_of_last hlast.1, keepsAhead_of_last hlast.2⟩ hT1
    refine ⟨ob, ?_, ?_⟩
    · rw [run_append, h0]
      simp only [run, hr1, e]
    · intro l hl x1 hx1 y1 hy1 hxk hyk
      rcases List.mem_append.1 hl with hl1 | hl1
      · exact ⟨hT x1 (List.mem_append_left _ (mem_queued.2 ⟨l, hl1, hx1⟩)) hxk,
          ahead_in_level hinv.coupled.bids hne hk.1 hl1 hx1 hy1 hxk hyk⟩
      · exact ⟨hT x1 (List.mem_append_right _ (mem_queued.2 ⟨l, hl1, hx1⟩)) hxk,
          ahead_in_level hinv.coupled.asks hne hk.2 hl1 hx1 hy1 hxk hyk⟩
  · intro ob hreach x1 y1 req r hx1 hy1 hr
    obtain ⟨p1, p2⟩ := step_priority (reachable_inv hreach) req hr x1 y1 hx1 hy1
    constructor
    · rintro ⟨l, hl, p, m, s, e⟩
      exact p1 ((pair_sublist_of_split e).trans (sublist_queued hl))
    · rintro ⟨l, hl, p, m, s, e⟩
      exact p2 ((pair_sublist_of_split e).trans (sublist_queued hl))

/-- C19 at the calls `A B GoodTillCancel 100 5 1` and then `A B GoodTillCancel 100 3 2`:
bid 1 precedes bid 2 in the queue of 100. -/
theorem time_priority_is_fifo_witness :
    run Orderbook.empty [Request.add OrderType.GoodTillCancel 1 Side.Buy 100 5] =
      .ok bookOneBid ∧
    Order.new OrderType.GoodTillCancel 1 Side.Buy 100 5 ∈ resting bookOneBid ∧
    findOrder 2 bookOneBid.orders_ = none ∧
    ∃ ob, run Orderbook.empty ([Request.add OrderType.GoodTillCancel 1 Side.Buy 100 5] ++
        Request.add OrderType.GoodTillCancel 2 Side.Buy 100 3 :: []) = .ok ob ∧
      ∀ l ∈ ob.bids_ ++ ob.asks_, ∀ x1 ∈ l.2, ∀ y1 ∈ l.2,
        x1.orderId_ = 1 → y1.orderId_ = 2 →
        tagOf x1 = tagOf (Order.new OrderType.GoodTillCancel 1 Side.Buy 100 5) ∧
        ∃ p m s, l.2 = p ++ x1 :: m ++ y1 :: s :=
  ⟨by decide, by decide, by decide,
    (time_priority_is_fifo [Request.add OrderType.GoodTillCancel 1 Side.Buy 100 5]
      bookOneBid (by decide) (Order.new OrderType.GoodTillCancel 1 Side.Buy 100 5)
      (by decide) (Request.add OrderType.GoodTillCancel 2 Side.Buy 100 3) 2 (by decide)
      (Or.inl ⟨OrderType.GoodTillCancel, Side.Buy, 100, 3, rfl, by decide⟩) []
      (fun r hr => absurd hr (List.not_mem_nil r))).1⟩

/-! ## The order object -/

theorem fill_error {o : Order} {q : Quantity} (h : q > o.remainingQuantity_) :
    o.Fill q = .error .logicError := by
  simp [Order.Fill, h]

theorem fillAll_keeps (o : Order) (qs : List Quantity) :
    tagOf (Order.fillAll o qs) = tagOf o ∧
    (Order.fillAll o qs).remainingQuantity_ ≤ o.remainingQuantity_ := by
  induction qs generalizing o with
  | nil => exact ⟨rfl, le_refl _⟩
  | cons q rest ih =>
    by_cases h : q ≤ o.remainingQuantity_
    · have e : Order.fillAll o (q :: rest) = Order.fillAll (filled o q) rest := by
        simp only [Order.fillAll, fill_ok h]
      rw [e]
      obtain ⟨h1, h2⟩ := ih (filled o q)
      exact ⟨h1, le_trans h2 (Nat.sub_le _ _)⟩
    · have e : Order.fillAll o (q :: rest) = Order.fillAll o rest := by
        simp only [Order.fillAll, fill_error (Nat.lt_of_not_le h)]
      rw [e]
      exact ih o

theorem filledQuantity_add {o : Order} (hrem : o.remainingQuantity_ ≤ o.initialQuantity_)
    (hinit : o.initialQuantity_ < quantityModulus) :
    o.GetFilledQuantity + o.remainingQuantity_ = o.initialQuantity_ := by
  have key : ∀ i r m : Nat, r ≤ i → i < m → (i + (m - r % m)) % m + r = i := by
    intro i r m h1 h2
    have h3 : r % m = r := Nat.mod_eq_of_lt (by omega)
    rw [h3]
    have h4 : i + (m - r) = (i - r) + m := by omega
    rw [h4, Nat.add_mod_right, Nat.mod_eq_of_lt (by omega)]
    omega
  exact key _ _ _ hrem hinit

/-- C22: for every order and quantity `q`, `Fill(q)` throws `std::logic_error` when
`q` exceeds the remaining quantity and otherwise returns the order with `q` less
remaining and every other field as it was. For an order whose remaining quantity is
at most its initial quantity (as the constructor leaves it), with the initial quantity
in the 32-bit range, after any sequence of `Fill` calls (a call that throws leaves the
object as it was) the type, id, side, price and initial quantity are unchanged, the
remaining quantity is at most the initial one, filled plus remaining is the initial
quantity, and `IsFilled` holds exactly when nothing remains. -/
theorem fill_keeps_quantity_bounds (o : Order) (q : Quantity) (qs : List Quantity)
    (hrem : o.remainingQuantity_ ≤ o.initialQuantity_)
    (hinit : o.initialQuantity_ < quantityModulus) :
    (q > o.remainingQuantity_ → o.Fill q = .error .logicError) ∧
    (q ≤ o.remainingQuantity_ →
      o.Fill q = .ok (Order.mk o.orderType_ o.orderId_ o.side_ o.price_ o.initialQuantity_
        (o.remainingQuantity_ - q))) ∧
    tagOf (Order.fillAll o qs) = tagOf o ∧
    (Order.fillAll o qs).remainingQuantity_ ≤ (Order.fillAll o qs).initialQuantity_ ∧
    (Order.fillAll o qs).GetFilledQuantity + (Order.fillAll o qs).remainingQuantity_ =
      (Order.fillAll o qs).initialQuantity_ ∧
    ((Order.fillAll o qs).IsFilled = true ↔ (Order.fillAll o qs).remainingQuantity_ = 0) := by
  obtain ⟨h1, h2⟩ := fillAll_keeps o qs
  have hi : (Order.fillAll o qs).initialQuantity_ = o.initialQuantity_ :=
    congrArg (fun t => t.2.2.2.2) h1
  have hr : (Order.fillAll o qs).remainingQuantity_ ≤ (Order.fillAll o qs).initialQuantity_ := by
    rw [hi]; exact le_trans h2 hrem
  refine ⟨fun h => fill_error h, fun h => fill_ok h, h1, hr,
    filledQuantity_add hr (by rw [hi]; exact hinit), ?_⟩
  simp [Order.IsFilled]

/-- C22 at the order `(GoodTillCancel, 1, Buy, 100, 10)` and the calls `Fill(4)`,
`Fill(7)` (which throws) and `Fill(6)`. -/
theorem fill_keeps_quantity_bounds_witness :
    (Order.new OrderType.GoodTillCancel 1 Side.Buy 100 10).Fill 11 = .error .logicError ∧
    Order.fillAll (Order.new OrderType.GoodTillCancel 1 Side.Buy 100 10) [4, 7, 6] =
      Order.mk OrderType.GoodTillCancel 1 Side.Buy 100 10 0 ∧
    (Order.fillAll (Order.new OrderType.GoodTillCancel 1 Side.Buy 100 10)
      [4, 7, 6]).GetFilledQuantity +
      (Order.fillAll (Order.new OrderType.GoodTillCancel 1 Side.Buy 100 10)
        [4, 7, 6]).remainingQuantity_ =
      (Order.fillAll (Order.new OrderType.GoodTillCancel 1 Side.Buy 100 10)
        [4, 7, 6]).initialQuantity_ :=
  ⟨(fill_keeps_quantity_bounds (Order.new OrderType.GoodTillCancel 1 Side.Buy 100 10) 11
      [4, 7, 6] (by decide) (by decide)).1 (by decide),
    by decide,
    (fill_keeps_quantity_bounds (Order.new OrderType.GoodTillCancel 1 Side.Buy 100 10) 11
      [4, 7, 6] (by decide) (by decide)).2.2.2.2.1⟩

/-- C26: for every order and price `p`, `ToGoodTillCancel(p)` throws `std::logic_error`
exactly when the type of the order is not Market; otherwise it returns the order with
price `p` and type GoodTillCancel, and id, side, initial and remaining quantity as they
were. -/
theorem promotion_only_of_market_orders (o : Order) (p : Price) :
    (o.ToGoodTillCancel p = .error .logicError ↔ o.orderType_ ≠ OrderType.Market) ∧
    (o.orderType_ = OrderType.Market →
      o.ToGoodTillCancel p = .ok (Order.mk OrderType.GoodTillCancel o.orderId_ o.side_ p
        o.initialQuantity_ o.remainingQuantity_)) := by
  by_cases h : o.orderType_ = OrderType.Market
  · simp [Order.ToGoodTillCancel, h]
  · simp [Order.ToGoodTillCancel, h]

/-! ## The range test of `CanFullyFill` -/

theorem walk_intended (side : Side) (threshold price : Price)
    (data : List (Price × LevelData)) :
    ∀ quantity, canFullyFillWalk side threshold price data quantity =
      canFullyFillWalkIntended side threshold price data quantity := by
  induction data with
  | nil => intro q; rfl
  | cons row rest ih =>
    intro q
    obtain ⟨levelPrice, levelData⟩ := row
    simp only [canFullyFillWalk, canFullyFillWalkIntended, Bool.true_and, ih]

theorem walk_skip (side : Side) (threshold price levelPrice : Price) (levelData : LevelData)
    (rest : List (Price × LevelData)) (quantity : Quantity) :
    canFullyFillWalk side threshold price ((levelPrice, levelData) :: rest) quantity =
      if outsideRange side threshold price levelPrice = true then
        canFullyFillWalk side threshold price rest quantity
      else if quantity ≤ levelData.quantity_ then true
      else canFullyFillWalk side threshold price rest (quantity - levelData.quantity_) := by
  cases side <;>
  · simp only [canFullyFillWalk, outsideRange, Bool.true_and, decide_True, decide_False,
      Bool.false_and, Bool.or_false, Bool.false_or, Bool.or_eq_true, decide_eq_true_eq, gt_iff_lt]
    by_cases h1 : levelPrice < threshold <;> by_cases h2 : price < levelPrice <;>
    by_cases h3 : threshold < levelPrice <;> by_cases h4 : levelPrice < price <;>
    simp [h1, h2, h3, h4]

/-- C24: for every book state, side, limit price and quantity, `CanFullyFill` with the
range test grouped as C++ parses it returns what the variant with the intended
grouping returns; and the loop skips a level of `data_` exactly when the level is
better than the best opposite price or beyond the limit of the order. -/
theorem range_test_grouping_is_harmless (ob : Orderbook) (side : Side) (price : Price)
    (quantity : Quantity) :
    CanFullyFill ob side price quantity = CanFullyFillIntended ob side price quantity ∧
    ∀ (threshold levelPrice : Price) (levelData : LevelData)
      (rest : List (Price × LevelData)) (q : Quantity),
      canFullyFillWalk side threshold price ((levelPrice, levelData) :: rest) q =
        if outsideRange side threshold price levelPrice = true then
          canFullyFillWalk side threshold price rest q
        else if q ≤ levelData.quantity_ then true
        else canFullyFillWalk side threshold price rest (q - levelData.quantity_) := by
  refine ⟨?_, fun threshold levelPrice levelData rest q =>
    walk_skip side threshold price levelPrice levelData rest q⟩
  cases side
  · rcases ha : ob.asks_ with _ | ⟨⟨p, Q⟩, rest⟩ <;>
      simp only [CanFullyFill, CanFullyFillIntended, ha, walk_intended]
  · rcases hb : ob.bids_ with _ | ⟨⟨p, Q⟩, rest⟩ <;>
      simp only [CanFullyFill, CanFullyFillIntended, hb, walk_intended]

/-! ## The frame of a cancel -/

theorem levelAt_eraseLevel (p p0 : Price) (levels : Levels) :
    levelAt p (eraseLevel p0 levels) = if p = p0 then none else levelAt p levels := by
  induction levels with
  | nil => simp [eraseLevel, levelAt]
  | cons l rest ih =>
    obtain ⟨k, q⟩ := l
    unfold eraseLevel at ih ⊢
    by_cases hk : k = p0
    · subst hk
      simp only [List.filter_cons, ne_eq, not_true_eq_false, decide_False, Bool.false_eq_true,
        if_false, ih, levelAt]
      by_cases hp : p = k
      · simp [hp]
      · simp [hp, Ne.symm hp]
    · simp only [List.filter_cons, ne_eq, hk, not_false_eq_true, decide_True, if_true, levelAt,
        ih]
      by_cases hp : p = p0
      · subst hp
        simp [hk]
      · simp [hp]

theorem levelAt_setLevel (p p0 : Price) (queue : OrderPointers) (levels : Levels) :
    levelAt p (setLevel p0 queue levels) =
      if p = p0 then (levelAt p0 levels).map (fun _ => queue) else levelAt p levels := by
  induction levels with
  | nil => simp [setLevel, levelAt]
  | cons l rest ih =>
    obtain ⟨k, q⟩ := l
    by_cases hk : k = p0
    · subst hk
      by_cases hp : p = k
      · simp [setLevel, levelAt, hp]
      · simp [setLevel, levelAt, hp, Ne.symm hp]
    · by_cases hp : p = p0
      · subst hp
        simp only [setLevel, hk, if_false, levelAt, ih, if_true]
      · simp only [setLevel, hk, if_false, levelAt, ih, hp]

/-- The queue stored under each price after the statements of lines 88-90 or 94-96. -/
theorem levelAt_storeOrErase {p0 : Price} {q0 : OrderPointers} {levels : Levels}
    (h0 : levelAt p0 levels = some q0) (queue : OrderPointers) (p : Price) :
    levelAt p (storeOrErase p0 queue levels) =
      if p = p0 then (if queue = [] then none else some queue) else levelAt p levels := by
  unfold storeOrErase
  by_cases he : queue = []
  · simp only [he, List.isEmpty_nil, if_true, levelAt_eraseLevel]
  · have : queue.isEmpty = false := by
      cases queue with
      | nil => exact absurd rfl he
      | cons _ _ => rfl
    simp only [this, Bool.false_eq_true, if_false, levelAt_setLevel, h0, Option.map_some', he]

theorem findOrder_eraseOrder_other {j k : OrderId} (hne : j ≠ k)
    (orders : List (OrderId × Order)) :
    findOrder j (eraseOrder k orders) = findOrder j orders := by
  induction orders with
  | nil => rfl
  | cons e rest ih =>
    obtain ⟨k0, o0⟩ := e
    unfold eraseOrder at ih ⊢
    by_cases hk : k0 = k
    · subst hk
      simp only [List.filter_cons, ne_eq, not_true_eq_false, decide_False, Bool.false_eq_true,
        if_false, ih, findOrder, Ne.symm hne]
    · simp only [List.filter_cons, ne_eq, hk, not_false_eq_true, decide_True, if_true,
        findOrder, ih]

theorem length_dropId {l : List Order} (hn : (l.map (fun o => o.orderId_)).Nodup)
    {o : Order} (ho : o ∈ l) : (dropId o.orderId_ l).length + 1 = l.length := by
  induction l with
  | nil => simp at ho
  | cons x rest ih =>
    rw [List.map_cons, List.nodup_cons] at hn
    rcases List.mem_cons.1 ho with e | e
    · subst e
      rw [dropId_cons_same rfl, dropId_of_absent hn.1, List.length_cons]
    · have hne : x.orderId_ ≠ o.orderId_ := by
        intro hx
        exact hn.1 (List.mem_map.2 ⟨o, e, hx.symm⟩)
      rw [dropId_cons_other hne, List.length_cons, List.length_cons, ih hn.2 e]

theorem dropId_split {pre post : List Order} {o : Order}
    (hn : ((pre ++ o :: post).map (fun x => x.orderId_)).Nodup) :
    dropId o.orderId_ (pre ++ o :: post) = pre ++ post := by
  rw [List.map_append, List.map_cons] at hn
  have h := List.nodup_append.1 hn
  rw [dropId_append, dropId_cons_same rfl, dropId_of_absent (List.nodup_cons.1 h.2.1).1,
    dropId_of_absent]
  intro hm
  exact h.2.2 hm (List.mem_cons_self _ _)

theorem size_eq_resting {ob : Orderbook} (h : Coupled ob) :
    Size ob = (resting ob).length := by
  unfold Size
  rw [h.index.length_eq, List.length_map]

/-- The book that `CancelOrderInternal` returns for an indexed id in a coupled book. -/
theorem cancel_levels {ob : Orderbook} (h : Coupled ob) {k : OrderId} {o : Order}
    (hf : findOrder k ob.orders_ = some o) :
    ∃ ob1 pre post, CancelOrderInternal ob k = .ok ob1 ∧
      levelAt o.price_ (sameSide ob o.side_) = some (pre ++ o :: post) ∧
      (∀ p, levelAt p (sameSide ob1 o.side_) =
        if p = o.price_ then (if pre ++ post = [] then none else some (pre ++ post))
        else levelAt p (sameSide ob o.side_)) ∧
      oppositeSide ob1 o.side_ = oppositeSide ob o.side_ ∧
      ob1.orders_ = eraseOrder k ob.orders_ := by
  obtain ⟨hid, hrest⟩ := (coupled_mem_orders h).1 (findOrder_mem hf)
  subst hid
  have hids := h.ids
  unfold resting at hids hrest
  rw [List.map_append] at hids
  have hnb := (List.nodup_append.1 hids).1
  have hna := (List.nodup_append.1 hids).2.1
  by_cases hside : o.side_ = Side.Sell
  · have hoa : o ∈ queued ob.asks_ := by
      rcases List.mem_append.1 hrest with hb1 | ha1
      · obtain ⟨l, hl, hol⟩ := mem_queued.1 hb1
        have := (h.bids.keyed l hl o hol).1
        rw [hside] at this; cases this
      · exact ha1
    obtain ⟨q, h1, h2, _⟩ := side_remove keyOrder_ask h.asks hna hoa
    have hq : o ∈ q := by
      obtain ⟨l, hl, hol⟩ := mem_queued.1 hoa
      have e1 := levelAt_of_mem keyOrder_ask h.asks.sorted
        (show (o.price_, l.2) ∈ ob.asks_ by
          rw [(h.asks.keyed l hl o hol).2]; exact hl)
      rw [h1] at e1
      cases e1
      exact hol
    obtain ⟨pre, post, e⟩ := List.append_of_mem hq
    have hqn : (q.map (fun o => o.orderId_)).Nodup :=
      hna.sublist ((sublist_queued (mem_of_levelAt h1)).map _)
    have hd : dropId o.orderId_ q = pre ++ post := by
      rw [e] at hqn ⊢
      exact dropId_split hqn
    refine ⟨Orderbook.mk (OnOrderCancelled ob.data_ o) ob.bids_
        (storeOrErase o.price_ (dropId o.orderId_ q) ob.asks_)
        (eraseOrder o.orderId_ ob.orders_), pre, post, ?_, ?_, ?_, ?_, rfl⟩
    · simp only [CancelOrderInternal, hf, hside, if_true, h1, h2]
    · rw [hside, ← e]; exact h1
    · intro p
      rw [hside]
      simp only [sameSide]
      rw [levelAt_storeOrErase h1, hd]
    · rw [hside]; simp only [oppositeSide]
  · have hsb : o.side_ = Side.Buy := by
      cases hs : o.side_
      · rfl
      · exact absurd hs hside
    have hob : o ∈ queued ob.bids_ := by
      rcases List.mem_append.1 hrest with hb1 | ha1
      · exact hb1
      · obtain ⟨l, hl, hol⟩ := mem_queued.1 ha1
        exact absurd (h.asks.keyed l hl o hol).1 hside
    obtain ⟨q, h1, h2, _⟩ := side_remove keyOrder_bid h.bids hnb hob
    have hq : o ∈ q := by
      obtain ⟨l, hl, hol⟩ := mem_queued.1 hob
      have e1 := levelAt_of_mem keyOrder_bid h.bids.sorted
        (show (o.price_, l.2) ∈ ob.bids_ by
          rw [(h.bids.keyed l hl o hol).2]; exact hl)
      rw [h1] at e1
      cases e1
      exact hol
    obtain ⟨pre, post, e⟩ := List.append_of_mem hq
    have hqn : (q.map (fun o => o.orderId_)).Nodup :=
      hnb.sublist ((sublist_queued (mem_of_levelAt h1)).map _)
    have hd : dropId o.orderId_ q = pre ++ post := by
      rw [e] at hqn ⊢
      exact dropId_split hqn
    refine ⟨Orderbook.mk (OnOrderCancelled ob.data_ o)
        (storeOrErase o.price_ (dropId o.orderId_ q) ob.bids_) ob.asks_
        (eraseOrder o.orderId_ ob.orders_), pre, post, ?_, ?_, ?_, ?_, rfl⟩
    · simp only [CancelOrderInternal, hf, hside, if_false, h1, h2]
    · rw [hsb, ← e]; exact h1
    · intro p
      rw [hsb]
      simp only [sameSide]
      rw [levelAt_storeOrErase h1, hd]
    · rw [hsb]; simp only [oppositeSide]

/-- C21: in a reachable book, `CancelOrder` of an indexed id returns; with the order
found at position `pre ++ o :: post` of the queue of its price on its side, afterwards
that queue is `pre ++ post`, or the price key is gone when the order was alone; every
other price of that side and the whole other side are as they were; the id is in no
queue and not in `orders_`, every other id is indexed as before, and `Size()` is one
less. -/
theorem cancel_removes_exactly_one_order (ob : Orderbook) (hreach : Reachable ob)
    (orderId : OrderId) (o : Order) (hfound : findOrder orderId ob.orders_ = some o) :
    ∃ ob1 pre post, CancelOrder ob orderId = .ok ob1 ∧
      levelAt o.price_ (sameSide ob o.side_) = some (pre ++ o :: post) ∧
      (∀ p, levelAt p (sameSide ob1 o.side_) =
        if p = o.price_ then (if pre ++ post = [] then none else some (pre ++ post))
        else levelAt p (sameSide ob o.side_)) ∧
      oppositeSide ob1 o.side_ = oppositeSide ob o.side_ ∧
      findOrder orderId ob1.orders_ = none ∧
      (∀ j, j ≠ orderId → findOrder j ob1.orders_ = findOrder j ob.orders_) ∧
      (∀ x ∈ resting ob1, x.orderId_ ≠ orderId) ∧
      resting ob1 = dropId orderId (resting ob) ∧
      Size ob1 + 1 = Size ob := by
  have hinv := reachable_inv hreach
  obtain ⟨ob1, pre, post, h1, h2, h3, h4, h5⟩ := cancel_levels hinv.coupled hfound
  obtain ⟨ob2, c1, c2, c3, c4, _⟩ := cancel_spec hinv.coupled orderId
  have e : ob2 = ob1 := Except.ok.inj (c1.symm.trans h1)
  subst e
  obtain ⟨hid, hm⟩ := (coupled_findOrder hinv.coupled).1 hfound
  have hres : resting ob2 = dropId orderId (resting ob) := by
    unfold resting
    rw [c3, c4, dropId_append]
  refine ⟨ob2, pre, post, h1, h2, h3, h4, ?_, ?_, ?_, hres, ?_⟩
  · rw [h5]; exact findOrder_eraseOrder _ _
  · intro j hj
    rw [h5]; exact findOrder_eraseOrder_other hj _
  · intro x hx e
    rw [hres] at hx
    exact not_mem_ids_dropId orderId _ (List.mem_map.2 ⟨x, hx, e⟩)
  · rw [size_eq_resting c2, size_eq_resting hinv.coupled, hres, ← hid]
    exact length_dropId hinv.coupled.ids hm

/-- C21 at the book holding bid 1 of 5 at 100: cancelling id 1 empties the book. -/
theorem cancel_removes_exactly_one_order_witness :
    Reachable bookOneBid ∧
    findOrder 1 bookOneBid.orders_ =
      some (Order.new OrderType.GoodTillCancel 1 Side.Buy 100 5) ∧
    CancelOrder bookOneBid 1 = .ok Orderbook.empty ∧
    ∃ ob1 pre post, CancelOrder bookOneBid 1 = .ok ob1 ∧
      levelAt 100 bookOneBid.bids_ =
        some (pre ++ Order.new OrderType.GoodTillCancel 1 Side.Buy 100 5 :: post) ∧
      Size ob1 + 1 = Size bookOneBid := by
  obtain ⟨ob1, pre, post, h1, h2, _, _, _, _, _, _, h9⟩ :=
    cancel_removes_exactly_one_order bookOneBid
      ⟨[Request.add OrderType.GoodTillCancel 1 Side.Buy 100 5], by decide⟩ 1
      (Order.new OrderType.GoodTillCancel 1 Side.Buy 100 5) (by decide)
  exact ⟨⟨[Request.add OrderType.GoodTillCancel 1 Side.Buy 100 5], by decide⟩, by decide,
    by decide, ob1, pre, post, h1, h2, h9⟩

/-! ## An order that does not cross -/

theorem levelAt_none_of_sorted {before : Price → Price → Bool} (hb : KeyOrder before)
    {p : Price} {levels : Levels}
    (hs : levels.Pairwise (fun x y => before x.1 y.1 = true))
    (h : ∀ l ∈ levels.head?, before p l.1 = true) : levelAt p levels = none := by
  rcases levels with _ | ⟨⟨k, q⟩, rest⟩
  · rfl
  · have hk : before p k = true := h (k, q) (by simp)
    have hall : ∀ l ∈ (k, q) :: rest, l.1 ≠ p := by
      intro l hl e
      rcases List.mem_cons.1 hl with e1 | e1
      · rw [e1] at e
        simp only at e
        rw [e, hb.irrefl] at hk
        exact Bool.false_ne_true hk
      · have h1 := (List.pairwise_cons.1 hs).1 l e1
        have h2 := hb.trans _ _ _ hk h1
        rw [e, hb.irrefl] at h2
        exact Bool.false_ne_true h2
    rcases hl : levelAt p ((k, q) :: rest) with _ | q1
    · rfl
    · exact absurd rfl (hall (p, q1) (mem_of_levelAt hl))

/-- The queue stored under each price after `side[price].push_back(order)`. -/
theorem levelAt_pushBackAt {before : Price → Price → Bool} (hb : KeyOrder before)
    {levels : Levels} (hs : levels.Pairwise (fun x y => before x.1 y.1 = true))
    (p0 : Price) (o : Order) (p : Price) :
    levelAt p (pushBackAt before p0 o levels) =
      if p = p0 then some ((levelAt p0 levels).getD [] ++ [o]) else levelAt p levels := by
  induction levels with
  | nil =>
    by_cases hp : p = p0
    · simp [pushBackAt, levelAt, hp]
    · simp [pushBackAt, levelAt, hp, Ne.symm hp]
  | cons l rest ih =>
    obtain ⟨k, q⟩ := l
    have hs1 := List.pairwise_cons.1 hs
    by_cases hk : k = p0
    · subst hk
      by_cases hp : p = k
      · simp [pushBackAt, levelAt, hp]
      · simp [pushBackAt, levelAt, hp, Ne.symm hp]
    · by_cases hbf : before p0 k = true
      · have hnone := levelAt_none_of_sorted hb (p := p0) hs
          (by intro l hl; simp only [List.head?_cons, Option.mem_def, Option.some.injEq] at hl
              rw [← hl]; exact hbf)
        rw [hnone]
        by_cases hp : p = p0
        · simp [pushBackAt, levelAt, hp, hk, hbf]
        · simp [pushBackAt, levelAt, hp, Ne.symm hp, hk, hbf]
      · simp only [pushBackAt, hk, if_false, hbf, Bool.false_eq_true, levelAt, ih hs1.2]
        by_cases hp : p = p0
        · subst hp
          simp [hk]
        · simp [hp]

theorem findOrder_append (j k : OrderId) (o : Order) (orders : List (OrderId × Order)) :
    findOrder j (orders ++ [(k, o)]) =
      match findOrder j orders with
      | some x => some x
      | none => if k = j then some o else none := by
  induction orders with
  | nil => simp [findOrder]
  | cons e rest ih =>
    obtain ⟨k0, o0⟩ := e
    by_cases hk : k0 = j
    · simp [findOrder, hk]
    · rw [List.cons_append]
      simp only [findOrder, hk, if_false]
      exact ih

/-- The call `MatchOrders` on a well-formed book that is settled and holds no
fill-and-kill order returns the book as it is, with no trade. -/
theorem MatchOrders_settled {ob : Orderbook} (hc : CoupledFull ob) (hs : Settled ob)
    (hk : ∀ x ∈ resting ob, x.orderType_ ≠ OrderType.FillAndKill) :
    MatchOrders ob = .ok (ob, []) := by
  have e1 : killFront ob ob.bids_ = .ok ob := by
    rcases hbq : ob.bids_ with _ | ⟨⟨p, Q⟩, rest⟩
    · rfl
    · rcases Q with _ | ⟨x, Q⟩
      · exact absurd rfl (hc.2.1 (p, []) (by rw [hbq]; exact List.mem_cons_self _ _))
      · have hx := hk x (List.mem_append_left _ (by rw [hbq]; simp))
        simp only [killFront, hx, if_false]
  have e2 : killFront ob ob.asks_ = .ok ob := by
    rcases haq : ob.asks_ with _ | ⟨⟨p, Q⟩, rest⟩
    · rfl
    · rcases Q with _ | ⟨x, Q⟩
      · exact absurd rfl (hc.2.2 (p, []) (by rw [haq]; exact List.mem_cons_self _ _))
      · have hx := hk x (List.mem_append_right _ (by rw [haq]; simp))
        simp only [killFront, hx, if_false]
  simp only [MatchOrders, matchLoop_exit _ [] hs, e1, e2]

theorem insertOrder_settled {ob : Orderbook} (h : BookInv ob) {o : Order}
    (hm : CanMatch ob o.side_ o.price_ = false) : Settled (insertOrder ob o) := by
  unfold Settled
  rcases hbq : (insertOrder ob o).bids_ with _ | ⟨⟨bp, B⟩, bs⟩
  · trivial
  · rcases haq : (insertOrder ob o).asks_ with _ | ⟨⟨ap, A⟩, as⟩
    · trivial
    · simp only
      have hb1 : (bp, B) ∈ (insertOrder ob o).bids_ := by rw [hbq]; exact List.mem_cons_self _ _
      have ha1 : (ap, A) ∈ (insertOrder ob o).asks_ := by rw [haq]; exact List.mem_cons_self _ _
      by_cases hs : o.side_ = Side.Buy
      · simp only [insertOrder, hs, if_true] at hb1 ha1
        rw [hs] at hm
        rcases mem_pushBackAt hb1 with h1 | ⟨h1, _⟩
        · exact h.uncrossed _ h1 _ ha1
        · simp only at h1
          rcases hq : ob.asks_ with _ | ⟨⟨k, Q⟩, rest⟩
          · rw [hq] at ha1; simp at ha1
          · simp only [CanMatch, hq, decide_eq_false_iff_not, ge_iff_le, not_le] at hm
            rw [h1]
            have hle := head_key_asks h.coupled.asks.sorted hq ha1
            exact lt_of_lt_of_le hm hle
      · simp only [insertOrder, hs, if_false] at hb1 ha1
        rw [side_of_not_buy hs] at hm
        rcases mem_pushBackAt ha1 with h1 | ⟨h1, _⟩
        · exact h.uncrossed _ hb1 _ h1
        · simp only at h1
          rcases hq : ob.bids_ with _ | ⟨⟨k, Q⟩, rest⟩
          · rw [hq] at hb1; simp at hb1
          · simp only [CanMatch, hq, decide_eq_false_iff_not, not_le] at hm
            rw [h1]
            have hle := head_key_bids h.coupled.bids.sorted hq hb1
            exact lt_of_le_of_lt hle hm

/-- C23: in a reachable book, `AddOrder` of a GoodTillCancel or GoodForDay order with a
fresh id whose limit does not cross (`CanMatch` is false: the other side is empty or
its best price is beyond the limit) returns no trade; afterwards the queue of the
price of the order on its side is the queue as it was (empty when there was none)
with the order appended, every other price of that side and the whole other side are
as they were, the id is indexed with the order, every other id is indexed as before,
and `Size()` is one more. -/
theorem passive_order_rests_at_tail (ob : Orderbook) (hreach : Reachable ob)
    (type : OrderType) (orderId : OrderId) (side : Side) (price : Price)
    (quantity : Quantity)
    (htype : type = OrderType.GoodTillCancel ∨ type = OrderType.GoodForDay)
    (hfresh : findOrder orderId ob.orders_ = none)
    (hnocross : CanMatch ob side price = false) :
    ∃ ob1, AddOrder ob (Order.new type orderId side price quantity) = .ok (ob1, []) ∧
      (∀ p, levelAt p (sameSide ob1 side) =
        if p = price then
          some ((levelAt price (sameSide ob side)).getD [] ++
            [Order.new type orderId side price quantity])
        else levelAt p (sameSide ob side)) ∧
      oppositeSide ob1 side = oppositeSide ob side ∧
      findOrder orderId ob1.orders_ = some (Order.new type orderId side price quantity) ∧
      (∀ j, j ≠ orderId → findOrder j ob1.orders_ = findOrder j ob.orders_) ∧
      Size ob1 = Size ob + 1 := by
  have hinv := reachable_inv hreach
  have hnm : type ≠ OrderType.Market := by
    rcases htype with e | e <;> rw [e] <;> decide
  have hnk : type ≠ OrderType.FillAndKill := by
    rcases htype with e | e <;> rw [e] <;> decide
  have hnf : type ≠ OrderType.FillOrKill := by
    rcases htype with e | e <;> rw [e] <;> decide
  have hadm : admission ob (Order.new type orderId side price quantity) =
      some (Order.new type orderId side price quantity) := by
    simp [admission, Order.new, hfresh, convertMarket, hnm, hnk, hnf]
  have hcf := insertOrder_coupled (o := Order.new type orderId side price quantity)
    (bookInv_full hinv) hfresh
  have hall : ∀ x ∈ resting (insertOrder ob (Order.new type orderId side price quantity)),
      x.orderType_ ≠ OrderType.FillAndKill := by
    intro x hx
    rcases List.mem_cons.1 ((resting_insertOrder_perm ob _).subset hx) with e | e
    · rw [e]; exact hnk
    · exact hinv.noKill x e
  have hm := MatchOrders_settled hcf
    (insertOrder_settled (o := Order.new type orderId side price quantity) hinv hnocross) hall
  refine ⟨insertOrder ob (Order.new type orderId side price quantity), ?_, ?_, ?_, ?_, ?_, ?_⟩
  · rw [AddOrder_admission, hadm]
    exact hm
  · intro p
    cases side with
    | Buy =>
      simp only [sameSide, insertOrder, Order.new, if_true]
      exact levelAt_pushBackAt keyOrder_bid hinv.coupled.bids.sorted _ _ _
    | Sell =>
      have hs : ¬ Side.Sell = Side.Buy := by decide
      simp only [sameSide, insertOrder, Order.new, hs, if_false]
      exact levelAt_pushBackAt keyOrder_ask hinv.coupled.asks.sorted _ _ _
  · cases side with
    | Buy => simp only [oppositeSide, insertOrder, Order.new, if_true]
    | Sell =>
      have hs : ¬ Side.Sell = Side.Buy := by decide
      simp only [oppositeSide, insertOrder, Order.new, hs, if_false]
  · have e : (insertOrder ob (Order.new type orderId side price quantity)).orders_ =
        ob.orders_ ++ [(orderId, Order.new type orderId side price quantity)] := rfl
    rw [e, findOrder_append, hfresh]
    simp
  · intro j hj
    have e : (insertOrder ob (Order.new type orderId side price quantity)).orders_ =
        ob.orders_ ++ [(orderId, Order.new type orderId side price quantity)] := rfl
    rw [e, findOrder_append]
    rcases findOrder j ob.orders_ with _ | x
    · simp [Ne.symm hj]
    · rfl
  · simp [Size, insertOrder]

/-- C23 at the book holding bid 1 of 10 at 100 and ask 2 of 5 at 101 and the order
`A B GoodForDay 100 3 3`, which joins the queue of 100 behind bid 1. -/
theorem passive_order_rests_at_tail_witness :
    Reachable bookBidAndAsk ∧ findOrder 3 bookBidAndAsk.orders_ = none ∧
    CanMatch bookBidAndAsk Side.Buy 100 = false ∧
    ∃ ob1, AddOrder bookBidAndAsk (Order.new OrderType.GoodForDay 3 Side.Buy 100 3) =
        .ok (ob1, []) ∧
      levelAt 100 ob1.bids_ =
        some [Order.new OrderType.GoodTillCancel 1 Side.Buy 100 10,
              Order.new OrderType.GoodForDay 3 Side.Buy 100 3] ∧
      Size ob1 = 3 := by
  obtain ⟨ob1, h1, h2, _, _, _, h6⟩ := passive_order_rests_at_tail bookBidAndAsk
    ⟨[Request.add OrderType.GoodTillCancel 1 Side.Buy 100 10,
      Request.add OrderType.GoodTillCancel 2 Side.Sell 101 5], by decide⟩
    OrderType.GoodForDay 3 Side.Buy 100 3 (Or.inr rfl) (by decide) (by decide)
  refine ⟨⟨[Request.add OrderType.GoodTillCancel 1 Side.Buy 100 10,
      Request.add OrderType.GoodTillCancel 2 Side.Sell 101 5], by decide⟩, by decide,
    by decide, ob1, h1, ?_, h6⟩
  have := h2 100
  simp only [sameSide, if_true] at this
  rw [this]
  decide

/-! ## The prune pass -/

theorem dropId_eq_filter (k : OrderId) (l : List Order) :
    dropId k l = l.filter (fun o => decide (o.orderId_ ≠ k)) := rfl

/-- The call `CancelOrders` in a state that satisfies the invariant: it returns, it
does what the cancel calls for the ids in turn do, and it leaves on each side the
queued orders whose id is not in the list, in their order. -/
theorem CancelOrders_spec (ids : List OrderId) :
    ∀ {ob : Orderbook}, BookInv ob →
      ∃ ob1, CancelOrders ob ids = .ok ob1 ∧ BookInv ob1 ∧
        run ob (ids.map Request.cancel) = .ok ob1 ∧
        queued ob1.bids_ = (queued ob.bids_).filter (fun o => decide (o.orderId_ ∉ ids)) ∧
        queued ob1.asks_ = (queued ob.asks_).filter (fun o => decide (o.orderId_ ∉ ids)) := by
  induction ids with
  | nil =>
    intro ob h
    exact ⟨ob, rfl, h, rfl, by simp, by simp⟩
  | cons k rest ih =>
    intro ob h
    obtain ⟨ob1, h1, h2, _, _⟩ := CancelOrder_spec h k
    obtain ⟨ob2, c1, _, c3, c4, _⟩ := cancel_spec h.coupled k
    have e : ob2 = ob1 := Except.ok.inj (c1.symm.trans h1)
    subst e
    obtain ⟨ob3, d1, d2, d3, d4, d5⟩ := ih h2
    refine ⟨ob3, ?_, d2, ?_, ?_, ?_⟩
    · simp only [CancelOrders, c1, d1]
    · simp only [List.map_cons, run, step, h1, d3]
    · rw [d4, c3, dropId_eq_filter, List.filter_filter]
      apply List.filter_congr
      intro x _
      by_cases h1 : x.orderId_ ∈ rest <;> by_cases h2 : x.orderId_ = k <;>
        simp [h1, h2]
    · rw [d5, c4, dropId_eq_filter, List.filter_filter]
      apply List.filter_congr
      intro x _
      by_cases h1 : x.orderId_ ∈ rest <;> by_cases h2 : x.orderId_ = k <;>
        simp [h1, h2]

/-- In a coupled book the collected ids are the ids of the queued orders of type
GoodForDay. -/
theorem mem_goodForDayIds {ob : Orderbook} (h : Coupled ob) {o : Order}
    (ho : o ∈ resting ob) :
    o.orderId_ ∈ goodForDayIds ob ↔ o.orderType_ = OrderType.GoodForDay := by
  unfold goodForDayIds
  rw [List.mem_map]
  constructor
  · rintro ⟨⟨k, x⟩, he, hid⟩
    rw [List.mem_filter] at he
    obtain ⟨hm, ht⟩ := he
    simp only [decide_eq_true_eq] at ht hid
    obtain ⟨_, hx⟩ := (coupled_mem_orders h).1 hm
    rw [← same_of_same_id h.ids hx ho hid]
    exact ht
  · intro ht
    refine ⟨(o.orderId_, o), ?_, rfl⟩
    rw [List.mem_filter]
    exact ⟨(coupled_mem_orders h).2 ⟨rfl, ho⟩, by simpa using ht⟩

/-- On a well-formed side the queue of a price holds the queued orders of that price,
in their order. -/
theorem level_eq_filter {before : Price → Price → Bool} (hb : KeyOrder before) {side : Side}
    {levels : Levels} (h : SideOk before side levels) (p : Price) :
    (levelAt p levels).getD [] = (queued levels).filter (fun o => decide (o.price_ = p)) := by
  induction levels with
  | nil => rfl
  | cons l rest ih =>
    obtain ⟨k, q⟩ := l
    have hs1 := List.pairwise_cons.1 h.sorted
    have hrest : SideOk before side rest :=
      ⟨hs1.2, fun l hl => h.keyed l (List.mem_cons_of_mem _ hl)⟩
    have hq : ∀ x ∈ q, x.price_ = k :=
      fun x hx => (h.keyed (k, q) (List.mem_cons_self _ _) x hx).2
    rw [queued_cons, List.filter_append]
    by_cases hk : k = p
    · subst hk
      have e1 : q.filter (fun o => decide (o.price_ = k)) = q :=
        List.filter_eq_self.2 (fun x hx => by simpa using hq x hx)
      have e2 : (queued rest).filter (fun o => decide (o.price_ = k)) = [] := by
        rw [List.filter_eq_nil_iff]
        intro x hx
        obtain ⟨l, hl, hxl⟩ := mem_queued.1 hx
        have hp := (hrest.keyed l hl x hxl).2
        have hne := sorted_head_ne hb h.sorted l hl
        simp only [decide_eq_true_eq]
        rw [hp]
        exact hne
      rw [e1, e2, List.append_nil]
      simp [levelAt]
    · have e1 : q.filter (fun o => decide (o.price_ = p)) = [] := by
        rw [List.filter_eq_nil_iff]
        intro x hx
        simp only [decide_eq_true_eq]
        rw [hq x hx]
        exact hk
      rw [e1, List.nil_append, ← ih hrest]
      simp [levelAt, hk]

/-- The prune pass in a state that satisfies the invariant. -/
theorem prunePass_spec {ob : Orderbook} (h : BookInv ob) :
    ∃ ob1, prunePass ob = .ok ob1 ∧ BookInv ob1 ∧
      run ob ((goodForDayIds ob).map Request.cancel) = .ok ob1 ∧
      queued ob1.bids_ = (queued ob.bids_).filter
        (fun o => decide (o.orderType_ ≠ OrderType.GoodForDay)) ∧
      queued ob1.asks_ = (queued ob.asks_).filter
        (fun o => decide (o.orderType_ ≠ OrderType.GoodForDay)) := by
  obtain ⟨ob1, h1, h2, h3, h4, h5⟩ := CancelOrders_spec (goodForDayIds ob) h
  refine ⟨ob1, h1, h2, h3, ?_, ?_⟩
  · rw [h4]
    apply List.filter_congr
    intro x hx
    have := mem_goodForDayIds h.coupled (List.mem_append_left _ hx)
    simp only [this, ne_eq]
  · rw [h5]
    apply List.filter_congr
    intro x hx
    have := mem_goodForDayIds h.coupled (List.mem_append_right _ hx)
    simp only [this, ne_eq]

theorem filter_level {before : Price → Price → Bool} (hb : KeyOrder before) {side : Side}
    {levels1 levels : Levels} (h1 : SideOk before side levels1)
    (h : SideOk before side levels) (f : Order → Bool)
    (e : queued levels1 = (queued levels).filter f) (p : Price) :
    (levelAt p levels1).getD [] = ((levelAt p levels).getD []).filter f := by
  rw [level_eq_filter hb h1, level_eq_filter hb h, e, List.filter_filter, List.filter_filter]
  apply List.filter_congr
  intro x _
  exact Bool.and_comm _ _

/-- C25: one prune pass on a reachable book returns; afterwards no order of type
GoodForDay is queued or indexed, under every price of either side the queue is the
queue as it was without its GoodForDay orders (the other orders as they were, in their
order), and every order of another type is indexed as it was. -/
theorem prune_removes_exactly_the_day_orders (ob : Orderbook) (hreach : Reachable ob) :
    ∃ ob1, prunePass ob = .ok ob1 ∧
      (∀ x ∈ resting ob1, x.orderType_ ≠ OrderType.GoodForDay) ∧
      (∀ e ∈ ob1.orders_, e.2.orderType_ ≠ OrderType.GoodForDay) ∧
      (∀ p, (levelAt p ob1.bids_).getD [] = ((levelAt p ob.bids_).getD []).filter
        (fun o => decide (o.orderType_ ≠ OrderType.GoodForDay))) ∧
      (∀ p, (levelAt p ob1.asks_).getD [] = ((levelAt p ob.asks_).getD []).filter
        (fun o => decide (o.orderType_ ≠ OrderType.GoodForDay))) ∧
      (∀ x ∈ resting ob, x.orderType_ ≠ OrderType.GoodForDay →
        x ∈ resting ob1 ∧ findOrder x.orderId_ ob1.orders_ = some x) := by
  have hinv := reachable_inv hreach
  obtain ⟨ob1, h1, h2, _, h4, h5⟩ := prunePass_spec hinv
  have hres : ∀ x, x ∈ resting ob1 ↔
      x ∈ resting ob ∧ x.orderType_ ≠ OrderType.GoodForDay := by
    intro x
    unfold resting
    rw [h4, h5, ← List.filter_append, List.mem_filter]
    simp
  refine ⟨ob1, h1, fun x hx => ((hres x).1 hx).2, ?_,
    filter_level keyOrder_bid h2.coupled.bids hinv.coupled.bids _ h4,
    filter_level keyOrder_ask h2.coupled.asks hinv.coupled.asks _ h5, ?_⟩
  · intro e he
    obtain ⟨k, x⟩ := e
    exact ((hres x).1 ((coupled_mem_orders h2.coupled).1 he).2).2
  · intro x hx ht
    have hm := (hres x).2 ⟨hx, ht⟩
    exact ⟨hm, (coupled_findOrder h2.coupled).2 ⟨rfl, hm⟩⟩

/-- C25 at the book holding the GoodForDay bid 1 and the GoodTillCancel bid 2 at 100:
the pass leaves bid 2. -/
theorem prune_removes_exactly_the_day_orders_witness :
    Reachable bookDayAndTill ∧ prunePass bookDayAndTill = .ok bookAfterPrune ∧
    ∃ ob1, prunePass bookDayAndTill = .ok ob1 ∧
      ∀ x ∈ resting ob1, x.orderType_ ≠ OrderType.GoodForDay := by
  obtain ⟨ob1, h1, h2, _⟩ := prune_removes_exactly_the_day_orders bookDayAndTill
    ⟨[Request.add OrderType.GoodForDay 1 Side.Buy 100 5,
      Request.add OrderType.GoodTillCancel 2 Side.Buy 100 3], by decide⟩
  exact ⟨⟨[Request.add OrderType.GoodForDay 1 Side.Buy 100 5,
      Request.add OrderType.GoodTillCancel 2 Side.Buy 100 3], by decide⟩, by decide,
    ob1, h1, h2⟩

/-! ## No error branch -/

theorem reachable_step {ob : Orderbook} (h : Reachable ob) (req : Request) :
    ∃ r, step ob req = .ok r ∧ Reachable r.1 := by
  obtain ⟨requests, hr⟩ := h
  obtain ⟨r, h1, _⟩ := step_spec (reachable_inv ⟨requests, hr⟩) req
  refine ⟨r, h1, requests ++ [req], ?_⟩
  rw [run_append, hr]
  simp only [run, h1]

theorem reachable_run {ob ob1 : Orderbook} (h : Reachable ob) {requests : List Request}
    (hr : run ob requests = .ok ob1) : Reachable ob1 := by
  obtain ⟨pre, hp⟩ := h
  refine ⟨pre ++ requests, ?_⟩
  rw [run_append, hp]
  exact hr

/-- C29: after every finite sequence of calls on the empty book, every further call
of `AddOrder` (with a newly constructed order, as the drivers build them), `CancelOrder`
and `ModifyOrder` returns without reaching a throwing or undefined branch, and so does
a prune pass, whose result is again a reachable book. In every book the body of the
inner loop fills both front orders by a quantity that neither `Fill` refuses, and the
market conversion never throws. -/
theorem no_error_branch_is_reached (requests : List Request) :
    ∃ ob, run Orderbook.empty requests = .ok ob ∧
      (∀ type orderId side price quantity,
        ∃ r, AddOrder ob (Order.new type orderId side price quantity) = .ok r) ∧
      (∀ orderId, ∃ ob1, CancelOrder ob orderId = .ok ob1) ∧
      (∀ order, ∃ r, ModifyOrder ob order = .ok r) ∧
      (∃ ob1, prunePass ob = .ok ob1 ∧ Reachable ob1) ∧
      (∀ (s : Orderbook) (ts : Trades) (bp : Price) (b : Order) (B : OrderPointers)
          (bs : Levels) (ap : Price) (a : Order) (A : OrderPointers) (as : Levels),
        b.Fill (min b.remainingQuantity_ a.remainingQuantity_) =
          .ok (filled b (min b.remainingQuantity_ a.remainingQuantity_)) ∧
        a.Fill (min b.remainingQuantity_ a.remainingQuantity_) =
          .ok (filled a (min b.remainingQuantity_ a.remainingQuantity_)) ∧
        ∃ r, matchFronts s ts bp b B bs ap a A as = .ok r) ∧
      (∀ (s : Orderbook) (o : Order), ∃ c, convertMarket s o = .ok c) := by
  obtain ⟨ob, hr, hinv⟩ := run_empty requests
  refine ⟨ob, hr, ?_, ?_, ?_, ?_, ?_, ?_⟩
  · intro t k s p q
    obtain ⟨r, h1, _⟩ := AddOrder_spec hinv (Order.new t k s p q)
    exact ⟨r, h1⟩
  · intro k
    obtain ⟨ob1, h1, _⟩ := CancelOrder_spec hinv k
    exact ⟨ob1, h1⟩
  · intro m
    obtain ⟨r, h1, _⟩ := ModifyOrder_spec hinv m
    exact ⟨r, h1⟩
  · obtain ⟨ob1, h1, _, h3, _⟩ := prunePass_spec hinv
    exact ⟨ob1, h1, reachable_run ⟨requests, hr⟩ h3⟩
  · intro s ts bp b B bs ap a A as
    exact ⟨fill_ok (Nat.min_le_left _ _), fill_ok (Nat.min_le_right _ _), _,
      matchFronts_eq s ts bp b B bs ap a A as⟩
  · intro s o
    rcases convertMarket_cases s o with h | ⟨o1, h, _⟩
    · exact ⟨none, h⟩
    · exact ⟨some o1, h⟩

/-! ## Termination and the number of trades -/

theorem length_step {l : List Order} {b : Order} (q : Quantity) (hl : l = b :: l.tail) :
    (if (filled b q).IsFilled = true then l.tail else filled b q :: l.tail).length ≤
      l.length ∧
    ((filled b q).IsFilled = true →
      (if (filled b q).IsFilled = true then l.tail else filled b q :: l.tail).length + 1 ≤
        l.length) := by
  have e : l.length = l.tail.length + 1 := by
    conv_lhs => rw [hl]
    rfl
  by_cases h : (filled b q).IsFilled = true
  · rw [if_pos h]
    exact ⟨by omega, fun _ => by omega⟩
  · rw [if_neg h, List.length_cons]
    exact ⟨by omega, fun h1 => absurd h1 h⟩

/-- Every pass of the inner loop adds one trade and takes at least one order out of
the queues; erasing the emptied levels takes no order back in. -/
theorem matchLoop_count (fuel : Nat) (ob : Orderbook) (trades : Trades)
    (hf : ob.bids_.length + ob.asks_.length ≤ fuel) :
    ∃ r, matchLoop fuel ob trades = .ok r ∧ Settled r.1 ∧
      r.2.length + ((queued r.1.bids_).length + (queued r.1.asks_).length) ≤
        trades.length + ((queued ob.bids_).length + (queued ob.asks_).length) := by
  obtain ⟨r, e, hP, hs⟩ := matchLoop_spec
    (P := fun s ts => ts.length + ((queued s.bids_).length + (queued s.asks_).length) ≤
      trades.length + ((queued ob.bids_).length + (queued ob.asks_).length))
    (by
      intro o t bp B bs ap A as r0 hp hb ha _ hr
      have hfuel : (bestQueue o.bids_).length + (bestQueue o.asks_).length
          ≤ B.length + A.length := by simp [hb, ha, bestQueue]
      obtain ⟨r1, e1, hQ, _⟩ := matchLevel_spec
        (P := fun s ts => ts.length + ((queued s.bids_).length + (queued s.asks_).length) ≤
          trades.length + ((queued ob.bids_).length + (queued ob.asks_).length))
        (by
          intro s ts bp1 b B1 bs1 ap1 a A1 as1 hq hb1 ha1
          obtain ⟨e1, e2⟩ := settle_queued_bids ts
            (min b.remainingQuantity_ a.remainingQuantity_)
            ap1 (filled a (min b.remainingQuantity_ a.remainingQuantity_)) A1 as1 hb1
          obtain ⟨e3, e4⟩ := settle_queued_asks ts
            (min b.remainingQuantity_ a.remainingQuantity_)
            bp1 (filled b (min b.remainingQuantity_ a.remainingQuantity_)) B1 bs1 ha1
          have l1 := length_step (min b.remainingQuantity_ a.remainingQuantity_) e1
          have l2 := length_step (min b.remainingQuantity_ a.remainingQuantity_) e3
          have hone := one_filled b a
          rw [settle_trades, e2, e4, List.length_append, List.length_singleton]
          rcases hone with h1 | h1
          · have := l1.2 h1
            have := l2.1
            omega
          · have := l2.2 h1
            have := l1.1
            omega)
        (B.length + A.length) o t hp hfuel
      rw [hr] at e1
      cases e1
      have hsub := eraseEmptyBest_sublist r0.1 bp ap (bestQueue r0.1.bids_).isEmpty
        (bestQueue r0.1.asks_).isEmpty
      have h1 := hsub.1.length_le
      have h2 := hsub.2.length_le
      omega)
    fuel ob trades (le_refl _) hf
  exact ⟨r, e, hs, hP⟩

theorem cancel_not_fuel (ob : Orderbook) (k : OrderId) :
    CancelOrderInternal ob k ≠ .error .fuelExhausted := by
  unfold CancelOrderInternal
  intro h
  split at h
  · cases h
  · split at h
    · split at h
      · cases h
      · split at h
        · cases h
        · cases h
    · split at h
      · cases h
      · split at h
        · cases h
        · cases h

theorem killFront_not_fuel (ob : Orderbook) (levels : Levels) :
    killFront ob levels ≠ .error .fuelExhausted := by
  unfold killFront
  intro h
  split at h
  · cases h
  · cases h
  · split at h
    · exact cancel_not_fuel _ _ h
    · cases h

/-! ## Non-zero quantities -/

theorem pos_of_not_filled {o : Order} (h : ¬ o.IsFilled = true) :
    1 ≤ o.remainingQuantity_ := by
  simp only [Order.IsFilled, beq_iff_eq] at h
  exact Nat.one_le_iff_ne_zero.2 h

theorem pos_step {l : List Order} {b : Order} (q : Quantity)
    (h : ∀ x ∈ l, 1 ≤ x.remainingQuantity_) :
    ∀ x ∈ (if (filled b q).IsFilled = true then l.tail else filled b q :: l.tail),
      1 ≤ x.remainingQuantity_ := by
  intro x hx
  by_cases hf : (filled b q).IsFilled = true
  · rw [if_pos hf] at hx
    exact h x (List.mem_of_mem_tail hx)
  · rw [if_neg hf] at hx
    rcases List.mem_cons.1 hx with e | e
    · rw [e]; exact pos_of_not_filled hf
    · exact h x (List.mem_of_mem_tail e)

/-- The loop of `MatchOrders` on a book whose queued orders all have something
remaining: the queued orders keep something remaining and every trade has a non-zero
quantity. -/
theorem matchLoop_positive {fuel : Nat} {ob : Orderbook} {r : Orderbook × Trades}
    (hc : CoupledFull ob) (hpos : ∀ x ∈ resting ob, 1 ≤ x.remainingQuantity_)
    (hf : ob.bids_.length + ob.asks_.length ≤ fuel)
    (h : matchLoop fuel ob [] = .ok r) :
    (∀ x ∈ resting r.1, 1 ≤ x.remainingQuantity_) ∧
    ∀ t ∈ r.2, 1 ≤ t.bidTrade_.quantity_ ∧ 1 ≤ t.askTrade_.quantity_ := by
  refine matchLoop_traces
    (P := fun s ts => (∀ x ∈ resting s, 1 ≤ x.remainingQuantity_) ∧
      ∀ t ∈ ts, 1 ≤ t.bidTrade_.quantity_ ∧ 1 ≤ t.askTrade_.quantity_)
    ?_ ?_ hc ⟨hpos, by simp⟩ hf h
  · intro s ts bp b B bs ap a A as _ _ hP hb ha
    obtain ⟨e1, e2⟩ := settle_queued_bids ts (min b.remainingQuantity_ a.remainingQuantity_)
      ap (filled a (min b.remainingQuantity_ a.remainingQuantity_)) A as hb
    obtain ⟨e3, e4⟩ := settle_queued_asks ts (min b.remainingQuantity_ a.remainingQuantity_)
      bp (filled b (min b.remainingQuantity_ a.remainingQuantity_)) B bs ha
    have hbm : b ∈ queued s.bids_ := by rw [e1]; exact List.mem_cons_self _ _
    have ham : a ∈ queued s.asks_ := by rw [e3]; exact List.mem_cons_self _ _
    have hb1 := hP.1 b (List.mem_append_left _ hbm)
    have ha1 := hP.1 a (List.mem_append_right _ ham)
    constructor
    · intro x hx
      unfold resting at hx
      rw [e2, e4] at hx
      rcases List.mem_append.1 hx with h1 | h1
      · exact pos_step _ (fun y hy => hP.1 y (List.mem_append_left _ hy)) x h1
      · exact pos_step _ (fun y hy => hP.1 y (List.mem_append_right _ hy)) x h1
    · intro t ht
      rcases List.mem_append.1 ht with h1 | h1
      · exact hP.2 t h1
      · rw [List.mem_singleton] at h1
        rw [h1]
        simp only [tradeOf]
        exact ⟨le_min hb1 ha1, le_min hb1 ha1⟩
  · intro s ts bp bs ap as _ hP _ _
    refine ⟨?_, hP.2⟩
    intro x hx
    have hsub := eraseEmptyBest_sublist s bp ap (bestQueue s.bids_).isEmpty
      (bestQueue s.asks_).isEmpty
    rcases List.mem_append.1 hx with h1 | h1
    · exact hP.1 x (List.mem_append_left _ (hsub.1.subset h1))
    · exact hP.1 x (List.mem_append_right _ (hsub.2.subset h1))

theorem AddOrder_positive {ob : Orderbook} (h : BookInv ob) (o : Order)
    (ho : 1 ≤ o.remainingQuantity_) (hpos : ∀ x ∈ resting ob, 1 ≤ x.remainingQuantity_)
    {r : Orderbook × Trades} (hr : AddOrder ob o = .ok r) :
    (∀ x ∈ resting r.1, 1 ≤ x.remainingQuantity_) ∧
    ∀ t ∈ r.2, 1 ≤ t.bidTrade_.quantity_ ∧ 1 ≤ t.askTrade_.quantity_ := by
  rw [AddOrder_admission] at hr
  rcases ha : admission ob o with _ | o1
  · rw [ha] at hr
    cases hr
    exact ⟨hpos, by simp⟩
  · rw [ha] at hr
    obtain ⟨hfresh, hconv, hid⟩ := admission_some ha
    have hfresh1 : findOrder o1.orderId_ ob.orders_ = none := by rw [hid]; exact hfresh
    have hcf := insertOrder_coupled (bookInv_full h) hfresh1
    have ho1 : 1 ≤ o1.remainingQuantity_ := by
      rcases convertMarket_cases ob o with hn | ⟨o2, hc2, _, _, _, _, hrem, _⟩
      · rw [hn] at hconv; cases hconv
      · rw [hc2] at hconv
        cases hconv
        rw [hrem]; exact ho
    have hins : ∀ x ∈ resting (insertOrder ob o1), 1 ≤ x.remainingQuantity_ := by
      intro x hx
      rcases List.mem_cons.1 ((resting_insertOrder_perm ob o1).subset hx) with e | e
      · rw [e]; exact ho1
      · exact hpos x e
    obtain ⟨s, ob1, ob2, ts, hloop, _, _, hm, _, _, _, _, hs1, _, _, _, hs2, _, _⟩ :=
      MatchOrders_stages hcf
    simp only [hm] at hr
    cases hr
    obtain ⟨p1, p2⟩ := matchLoop_positive (r := (s, ts)) hcf hins (Nat.le_succ _) hloop
    exact ⟨fun x hx => p1 x (shrunk_resting hs1 (shrunk_resting hs2 hx)), p2⟩

theorem step_positive {ob : Orderbook} (h : BookInv ob) (req : Request)
    (hq : suppliesNonZero req) (hpos : ∀ x ∈ resting ob, 1 ≤ x.remainingQuantity_)
    {r : Orderbook × Trades} (hr : step ob req = .ok r) :
    (∀ x ∈ resting r.1, 1 ≤ x.remainingQuantity_) ∧
    ∀ t ∈ r.2, 1 ≤ t.bidTrade_.quantity_ ∧ 1 ≤ t.askTrade_.quantity_ := by
  cases req with
  | add t k s p q =>
    have hq1 : q ≠ 0 := hq
    exact AddOrder_positive h (Order.new t k s p q) (Nat.one_le_iff_ne_zero.2 hq1) hpos hr
  | cancel k =>
    obtain ⟨ob1, h1, _, h3, _⟩ := CancelOrder_spec h k
    simp only [step, h1] at hr
    cases hr
    exact ⟨fun x hx => hpos x (shrunk_resting h3 hx), by simp⟩
  | modify m =>
    simp only [step, ModifyOrder] at hr
    rcases hf : findOrder m.orderId_ ob.orders_ with _ | existing
    · rw [hf] at hr
      simp only at hr
      cases hr
      exact ⟨hpos, by simp⟩
    · rw [hf] at hr
      obtain ⟨ob1, h1, h2, h3, _⟩ := CancelOrder_spec h m.orderId_
      rw [h1] at hr
      simp only at hr
      have hq1 : m.quantity_ ≠ 0 := hq
      exact AddOrder_positive h2 (m.ToOrderPointer existing.orderType_)
        (Nat.one_le_iff_ne_zero.2 hq1) (fun x hx => hpos x (shrunk_resting h3 hx)) hr

theorem runTrades_positive (requests : List Request)
    (hq : ∀ r ∈ requests, suppliesNonZero r) :
    ∀ {ob : Orderbook}, BookInv ob → (∀ x ∈ resting ob, 1 ≤ x.remainingQuantity_) →
      ∃ ob1 ts, runTrades ob requests = .ok (ob1, ts) ∧ run ob requests = .ok ob1 ∧
        BookInv ob1 ∧ (∀ x ∈ resting ob1, 1 ≤ x.remainingQuantity_) ∧
        ∀ t ∈ ts, 1 ≤ t.bidTrade_.quantity_ ∧ 1 ≤ t.askTrade_.quantity_ := by
  induction requests with
  | nil => intro ob h hpos; exact ⟨ob, [], rfl, rfl, h, hpos, by simp⟩
  | cons req rest ih =>
    intro ob h hpos
    obtain ⟨r, hr, hinv⟩ := step_spec h req
    obtain ⟨p1, p2⟩ := step_positive h req (hq req (List.mem_cons_self _ _)) hpos hr
    obtain ⟨ob1, ts, e1, e2, h1, h2, h3⟩ :=
      ih (fun r hr => hq r (List.mem_cons_of_mem _ hr)) hinv p1
    refine ⟨ob1, r.2 ++ ts, by simp only [runTrades, hr, e1], by simp only [run, hr, e2],
      h1, h2, ?_⟩
    intro t ht
    rcases List.mem_append.1 ht with h4 | h4
    · exact p2 t h4
    · exact h3 t h4

/-- C30: when every add and every modify of a finite sequence of calls on the empty
book supplies a non-zero quantity, the calls all return, every queued order and every
order held in `orders_` has at least 1 remaining afterwards, and every trade that the
calls returned has quantity at least 1 on both sides. Every prefix of such a sequence
is such a sequence, so this holds after each call. -/
theorem nonzero_orders_give_nonzero_trades (requests : List Request)
    (hq : ∀ r ∈ requests, suppliesNonZero r) :
    ∃ ob ts, runTrades Orderbook.empty requests = .ok (ob, ts) ∧
      run Orderbook.empty requests = .ok ob ∧
      (∀ x ∈ resting ob, 1 ≤ x.remainingQuantity_) ∧
      (∀ e ∈ ob.orders_, 1 ≤ e.2.remainingQuantity_) ∧
      ∀ t ∈ ts, 1 ≤ t.bidTrade_.quantity_ ∧ 1 ≤ t.askTrade_.quantity_ := by
  obtain ⟨ob, ts, e1, e2, hinv, h1, h2⟩ := runTrades_positive requests hq empty_inv
    (by simp [Orderbook.empty, resting])
  refine ⟨ob, ts, e1, e2, h1, ?_, h2⟩
  intro e he
  obtain ⟨k, x⟩ := e
  exact h1 x ((coupled_mem_orders hinv.coupled).1 he).2

/-- C30 at the calls `A B GoodTillCancel 100 10 1` and `A S GoodTillCancel 100 6 2`:
one trade of 6, bid 1 rests with 4. -/
theorem nonzero_orders_give_nonzero_trades_witness :
    runTrades Orderbook.empty
      [Request.add OrderType.GoodTillCancel 1 Side.Buy 100 10,
       Request.add OrderType.GoodTillCancel 2 Side.Sell 100 6] =
      .ok (bookLostRow, [Trade.mk (TradeInfo.mk 1 100 6) (TradeInfo.mk 2 100 6)]) ∧
    ∃ ob ts, runTrades Orderbook.empty
        [Request.add OrderType.GoodTillCancel 1 Side.Buy 100 10,
         Request.add OrderType.GoodTillCancel 2 Side.Sell 100 6] = .ok (ob, ts) ∧
      (∀ x ∈ resting ob, 1 ≤ x.remainingQuantity_) ∧
      ∀ t ∈ ts, 1 ≤ t.bidTrade_.quantity_ ∧ 1 ≤ t.askTrade_.quantity_ := by
  obtain ⟨ob, ts, h1, _, h3, _, h5⟩ := nonzero_orders_give_nonzero_trades
    [Request.add OrderType.GoodTillCancel 1 Side.Buy 100 10,
     Request.add OrderType.GoodTillCancel 2 Side.Sell 100 6]
    (by
      intro r hr
      simp only [List.mem_cons, List.mem_singleton, List.not_mem_nil, or_false] at hr
      rcases hr with e | e <;> rw [e] <;> simp [suppliesNonZero])
  exact ⟨by decide, ob, ts, h1, h3, h5⟩

/-! ## The lock in the fill-and-kill clean-up -/

/-- C27 (the code at a failing input). On the book holding bid 1 of 5 at 100, reached
by one call from the empty book, the call `AddOrder` of the fill-and-kill sell
`(FillAndKill, 2, Sell, 100, 8)` by a thread that does not own `ordersMutex_` takes the
lock, trades 5, and in the clean-up of `MatchOrders` calls the locking `CancelOrder`
for the remainder of 3 while it still owns the mutex. A called `CancelOrder` that finds
the mutex free does not fail, and the sequential code, where the clean-up is
`CancelOrderInternal`, returns the trade of 5 and leaves both maps and the index
empty (the row of `data_` is the one that the erasure of lines 228-235 followed by the
removal of the remainder leaves). -/
theorem fill_and_kill_cleanup_relocks_the_mutex :
    run Orderbook.empty [Request.add OrderType.GoodTillCancel 1 Side.Buy 100 5] =
      .ok bookOneBid ∧
    findOrder 2 bookOneBid.orders_ = none ∧
    lockedAddOrder false bookOneBid (Order.new OrderType.FillAndKill 2 Side.Sell 100 8) =
      .error LockFault.relock ∧
    lockedCancelOrder false bookOneBid 1 = .ok Orderbook.empty ∧
    lockedCancelOrder true bookOneBid 1 = .error LockFault.relock ∧
    AddOrder bookOneBid (Order.new OrderType.FillAndKill 2 Side.Sell 100 8) =
      .ok ({ data_ := [(100, { quantity_ := 4294967293, count_ := 4294967295 })]
             bids_ := []
             asks_ := []
             orders_ := [] },
           [Trade.mk (TradeInfo.mk 1 100 5) (TradeInfo.mk 2 100 5)]) := by
  decide

/-! ## Price priority -/

/-- The queued orders of a well-formed side follow the order of the map: an order is
never behind an order of a later key. -/
theorem queued_sorted {before : Price → Price → Bool} {side : Side} {levels : Levels}
    (h : SideOk before side levels) :
    (queued levels).Pairwise
      (fun x y => x.price_ = y.price_ ∨ before x.price_ y.price_ = true) := by
  induction levels with
  | nil => exact List.Pairwise.nil
  | cons l rest ih =>
    obtain ⟨k, q⟩ := l
    rw [queued_cons, List.pairwise_append]
    refine ⟨?_, ih (sideOk_tail h), ?_⟩
    · refine List.Pairwise.imp_of_mem ?_ (List.pairwise_of_forall (R := fun _ _ => True)
        (fun _ _ => trivial))
      intro x y hx hy _
      left
      rw [(h.keyed (k, q) (List.mem_cons_self _ _) x hx).2,
        (h.keyed (k, q) (List.mem_cons_self _ _) y hy).2]
    · intro x hx y hy
      right
      obtain ⟨l1, hl1, hy1⟩ := mem_queued.1 hy
      rw [(h.keyed (k, q) (List.mem_cons_self _ _) x hx).2,
        (h.keyed l1 (List.mem_cons_of_mem _ hl1) y hy1).2]
      exact (List.pairwise_cons.1 h.sorted).1 l1 hl1

theorem queued_sorted_asks {levels : Levels} (h : SideOk askBefore Side.Sell levels) :
    (queued levels).Pairwise (fun x y => x.price_ ≤ y.price_) := by
  refine (queued_sorted h).imp ?_
  intro x y hxy
  rcases hxy with e | e
  · exact le_of_eq e
  · simp only [askBefore, decide_eq_true_eq] at e
    exact le_of_lt e

theorem queued_sorted_bids {levels : Levels} (h : SideOk bidBefore Side.Buy levels) :
    (queued levels).Pairwise (fun x y => y.price_ ≤ x.price_) := by
  refine (queued_sorted h).imp ?_
  intro x y hxy
  rcases hxy with e | e
  · exact le_of_eq e.symm
  · simp only [bidBefore, decide_eq_true_eq] at e
    exact le_of_lt e

/-- In a list ordered by a relation, an element comes before every element that is not
related to it the other way round. -/
theorem pair_sublist_of_sorted {R : Order → Order → Prop} {l : List Order}
    (h : l.Pairwise R) {x y : Order} (hx : x ∈ l) (hy : y ∈ l) (hne : x ≠ y)
    (hR : ¬ R y x) : [x, y].Sublist l := by
  induction l with
  | nil => cases hx
  | cons z rest ih =>
    obtain ⟨hz, hrest⟩ := List.pairwise_cons.1 h
    rcases List.mem_cons.1 hx with ex | hx1
    · rcases List.mem_cons.1 hy with ey | hy1
      · exact absurd (ex.trans ey.symm) hne
      · rw [ex]
        exact List.Sublist.cons₂ _ (List.singleton_sublist.2 hy1)
    · rcases List.mem_cons.1 hy with ey | hy1
      · exact absurd (ey ▸ hz x hx1) hR
      · exact List.Sublist.cons _ (ih hrest hx1 hy1)

/-- The loop of `MatchOrders` takes the asks from the best price on: the ask prices of
the trades it records never decrease. -/
theorem matchLoop_ask_prices {fuel : Nat} {ob : Orderbook} {r : Orderbook × Trades}
    (hc : CoupledFull ob) (hf : ob.bids_.length + ob.asks_.length ≤ fuel)
    (h : matchLoop fuel ob [] = .ok r) :
    r.2.Pairwise (fun t1 t2 => t1.askTrade_.price_ ≤ t2.askTrade_.price_) := by
  have := matchLoop_traces
    (P := fun s ts => ts.Pairwise (fun t1 t2 => t1.askTrade_.price_ ≤ t2.askTrade_.price_) ∧
      ∀ t ∈ ts, ∀ x ∈ queued s.asks_, t.askTrade_.price_ ≤ x.price_)
    (by
      intro s ts bp b B bs ap a A as hin _ hP hb ha
      obtain ⟨e1, e2⟩ := settle_queued_asks ts (min b.remainingQuantity_ a.remainingQuantity_)
        bp (filled b (min b.remainingQuantity_ a.remainingQuantity_)) B bs ha
      have hsorted := queued_sorted_asks hin.1.asks
      rw [e1] at hsorted
      have hfirst := (List.pairwise_cons.1 hsorted).1
      have ham : a ∈ queued s.asks_ := by rw [e1]; exact List.mem_cons_self _ _
      have htail : ∀ x ∈ (queued s.asks_).tail, x ∈ queued s.asks_ :=
        fun x hx => List.mem_of_mem_tail hx
      have hnew : ∀ x ∈ queued (settleFronts s ts
          (min b.remainingQuantity_ a.remainingQuantity_)
          bp (filled b (min b.remainingQuantity_ a.remainingQuantity_)) B bs
          ap (filled a (min b.remainingQuantity_ a.remainingQuantity_)) A as).1.asks_,
          x.price_ = a.price_ ∨ x ∈ (queued s.asks_).tail := by
        intro x hx
        rw [e2] at hx
        by_cases hfl : (filled a (min b.remainingQuantity_ a.remainingQuantity_)).IsFilled = true
        · rw [if_pos hfl] at hx
          exact Or.inr hx
        · rw [if_neg hfl] at hx
          rcases List.mem_cons.1 hx with e | e
          · left
            rw [e]
            rfl
          · exact Or.inr e
      constructor
      · rw [List.pairwise_append]
        refine ⟨hP.1, List.pairwise_singleton _ _, ?_⟩
        intro t1 ht1 t2 ht2
        rw [List.mem_singleton] at ht2
        rw [ht2]
        exact hP.2 t1 ht1 a ham
      · intro t ht x hx
        rcases List.mem_append.1 ht with h1 | h1
        · rcases hnew x hx with e | e
          · rw [e]
            exact hP.2 t h1 a ham
          · exact hP.2 t h1 x (htail x e)
        · rw [List.mem_singleton] at h1
          rw [h1]
          rcases hnew x hx with e | e
          · rw [e]
            exact le_refl _
          · exact hfirst x e)
    (by
      intro s ts bp bs ap as hin hP hb ha
      obtain ⟨_, e2, _⟩ := eraseEmptyBest_same hin hb ha
      rw [e2]
      exact hP)
    hc ⟨List.Pairwise.nil, by simp⟩ hf h
  exact this.1

/-- The loop of `MatchOrders` takes the bids from the best price on: the bid prices of
the trades it records never increase. -/
theorem matchLoop_bid_prices {fuel : Nat} {ob : Orderbook} {r : Orderbook × Trades}
    (hc : CoupledFull ob) (hf : ob.bids_.length + ob.asks_.length ≤ fuel)
    (h : matchLoop fuel ob [] = .ok r) :
    r.2.Pairwise (fun t1 t2 => t2.bidTrade_.price_ ≤ t1.bidTrade_.price_) := by
  have := matchLoop_traces
    (P := fun s ts => ts.Pairwise (fun t1 t2 => t2.bidTrade_.price_ ≤ t1.bidTrade_.price_) ∧
      ∀ t ∈ ts, ∀ x ∈ queued s.bids_, x.price_ ≤ t.bidTrade_.price_)
    (by
      intro s ts bp b B bs ap a A as hin _ hP hb ha
      obtain ⟨e1, e2⟩ := settle_queued_bids ts (min b.remainingQuantity_ a.remainingQuantity_)
        ap (filled a (min b.remainingQuantity_ a.remainingQuantity_)) A as hb
      have hsorted := queued_sorted_bids hin.1.bids
      rw [e1] at hsorted
      have hfirst := (List.pairwise_cons.1 hsorted).1
      have hbm : b ∈ queued s.bids_ := by rw [e1]; exact List.mem_cons_self _ _
      have htail : ∀ x ∈ (queued s.bids_).tail, x ∈ queued s.bids_ :=
        fun x hx => List.mem_of_mem_tail hx
      have hnew : ∀ x ∈ queued (settleFronts s ts
          (min b.remainingQuantity_ a.remainingQuantity_)
          bp (filled b (min b.remainingQuantity_ a.remainingQuantity_)) B bs
          ap (filled a (min b.remainingQuantity_ a.remainingQuantity_)) A as).1.bids_,
          x.price_ = b.price_ ∨ x ∈ (queued s.bids_).tail := by
        intro x hx
        rw [e2] at hx
        by_cases hfl : (filled b (min b.remainingQuantity_ a.remainingQuantity_)).IsFilled = true
        · rw [if_pos hfl] at hx
          exact Or.inr hx
        · rw [if_neg hfl] at hx
          rcases List.mem_cons.1 hx with e | e
          · left
            rw [e]
            rfl
          · exact Or.inr e
      constructor
      · rw [List.pairwise_append]
        refine ⟨hP.1, List.pairwise_singleton _ _, ?_⟩
        intro t1 ht1 t2 ht2
        rw [List.mem_singleton] at ht2
        rw [ht2]
        exact hP.2 t1 ht1 b hbm
      · intro t ht x hx
        rcases List.mem_append.1 ht with h1 | h1
        · rcases hnew x hx with e | e
          · rw [e]
            exact hP.2 t h1 b hbm
          · exact hP.2 t h1 x (htail x e)
        · rw [List.mem_singleton] at h1
          rw [h1]
          rcases hnew x hx with e | e
          · rw [e]
            exact le_refl _
          · exact hfirst x e)
    (by
      intro s ts bp bs ap as hin hP hb ha
      obtain ⟨e1, _⟩ := eraseEmptyBest_same hin hb ha
      rw [e1]
      exact hP)
    hc ⟨List.Pairwise.nil, by simp⟩ hf h
  exact this.1

/-- The trades of a call of `AddOrder` in a state that satisfies the invariant are the
trades of the loop of `MatchOrders` on the book with the admitted order entered. -/
theorem AddOrder_loop {ob : Orderbook} (h : BookInv ob) (o : Order)
    {r : Orderbook × Trades} (hr : AddOrder ob o = .ok r) :
    r.2 = [] ∨ ∃ o1 s, o1.side_ = o.side_ ∧ CoupledFull (insertOrder ob o1) ∧
      matchLoop ((insertOrder ob o1).bids_.length + (insertOrder ob o1).asks_.length + 1)
        (insertOrder ob o1) [] = .ok (s, r.2) := by
  rw [AddOrder_admission] at hr
  rcases ha : admission ob o with _ | o1
  · simp only [ha] at hr
    cases hr
    exact Or.inl rfl
  · simp only [ha] at hr
    obtain ⟨hfresh, hconv, hid⟩ := admission_some ha
    have hfresh1 : findOrder o1.orderId_ ob.orders_ = none := by rw [hid]; exact hfresh
    have hcf := insertOrder_coupled (bookInv_full h) hfresh1
    obtain ⟨s, ob1, ob2, ts, hloop, _, _, hm, _⟩ := MatchOrders_stages hcf
    rw [hm] at hr
    cases hr
    have hside : o1.side_ = o.side_ := by
      rcases convertMarket_cases ob o with e | ⟨o2, e, _, hs, _⟩
      · rw [e] at hconv
        cases hconv
      · rw [e] at hconv
        cases hconv
        exact hs
    exact Or.inr ⟨o1, s, hside, hcf, hloop⟩

/-- C31: in a reachable book, `AddOrder` of a newly constructed order returns, and of
the trades it returns: every trade has an ask price that is at most its bid price; the
ask prices never decrease and the bid prices never increase along the list; for a buy
the ask side of every trade, and for a sell the bid side, is an order that rested in
the book, with its id and price; and a resting order trades only after the trades
before it have filled in full every order of its side that rested at a strictly better
price (a lower ask, a higher bid). -/
theorem trades_respect_price_priority (ob : Orderbook) (hreach : Reachable ob)
    (type : OrderType) (orderId : OrderId) (side : Side) (price : Price)
    (quantity : Quantity) :
    ∃ r, AddOrder ob (Order.new type orderId side price quantity) = .ok r ∧
      (∀ t ∈ r.2, t.askTrade_.price_ ≤ t.bidTrade_.price_) ∧
      r.2.Pairwise (fun t1 t2 => t1.askTrade_.price_ ≤ t2.askTrade_.price_) ∧
      r.2.Pairwise (fun t1 t2 => t2.bidTrade_.price_ ≤ t1.bidTrade_.price_) ∧
      (side = Side.Buy → ∀ t ∈ r.2, ∃ a ∈ queued ob.asks_,
        a.orderId_ = t.askTrade_.orderId_ ∧ a.price_ = t.askTrade_.price_) ∧
      (side = Side.Sell → ∀ t ∈ r.2, ∃ b ∈ queued ob.bids_,
        b.orderId_ = t.bidTrade_.orderId_ ∧ b.price_ = t.bidTrade_.price_) ∧
      (∀ x ∈ queued ob.asks_, ∀ y ∈ queued ob.asks_, x.price_ < y.price_ →
        ∀ ts1 t ts2, r.2 = ts1 ++ t :: ts2 → t.askTrade_.orderId_ = y.orderId_ →
          fillsOf Trade.askTrade_ x.orderId_ ts1 = x.remainingQuantity_) ∧
      (∀ x ∈ queued ob.bids_, ∀ y ∈ queued ob.bids_, y.price_ < x.price_ →
        ∀ ts1 t ts2, r.2 = ts1 ++ t :: ts2 → t.bidTrade_.orderId_ = y.orderId_ →
          fillsOf Trade.bidTrade_ x.orderId_ ts1 = x.remainingQuantity_) := by
  have hinv := reachable_inv hreach
  obtain ⟨r, hr, _⟩ := AddOrder_spec hinv (Order.new type orderId side price quantity)
  refine ⟨r, hr, ?_, ?_, ?_, ?_, ?_, ?_, ?_⟩
  · intro t ht
    rcases AddOrder_loop hinv _ hr with e | ⟨o1, s, _, hcf, hloop⟩
    · rw [e] at ht
      cases ht
    · obtain ⟨s1, bp, b, B, bs, ap, a, A, as, _, hin, hx, hb, ha, e⟩ :=
        matchLoop_pairs hcf (Nat.le_succ _) hloop t ht
      have hbp : b.price_ = bp :=
        (hin.1.bids.keyed (bp, b :: B) (by rw [hb]; exact List.mem_cons_self _ _) b
          (List.mem_cons_self _ _)).2
      have hap : a.price_ = ap :=
        (hin.1.asks.keyed (ap, a :: A) (by rw [ha]; exact List.mem_cons_self _ _) a
          (List.mem_cons_self _ _)).2
      rw [e]
      show a.price_ ≤ b.price_
      rw [hbp, hap]
      exact not_lt.1 hx
  · rcases AddOrder_loop hinv _ hr with e | ⟨o1, s, _, hcf, hloop⟩
    · rw [e]
      exact List.Pairwise.nil
    · exact matchLoop_ask_prices (r := (s, r.2)) hcf (Nat.le_succ _) hloop
  · rcases AddOrder_loop hinv _ hr with e | ⟨o1, s, _, hcf, hloop⟩
    · rw [e]
      exact List.Pairwise.nil
    · exact matchLoop_bid_prices (r := (s, r.2)) hcf (Nat.le_succ _) hloop
  · intro hside t ht
    rcases AddOrder_loop hinv _ hr with e | ⟨o1, s, hs1, hcf, hloop⟩
    · rw [e] at ht
      cases ht
    · obtain ⟨s1, bp, b, B, bs, ap, a, A, as, hcons, _, _, _, ha, e⟩ :=
        matchLoop_pairs hcf (Nat.le_succ _) hloop t ht
      have ham : a ∈ queued s1.asks_ := by rw [ha]; simp
      obtain ⟨a0, ha0, htag⟩ := tag_of_consumed_ask hcons ham
      have hbuy : o1.side_ = Side.Buy := by rw [hs1]; exact hside
      have hasks : (insertOrder ob o1).asks_ = ob.asks_ := by
        simp only [insertOrder, hbuy, if_true]
      rw [hasks] at ha0
      refine ⟨a0, ha0, ?_, ?_⟩
      · rw [e]
        exact congrArg (fun g => g.2.1) htag
      · rw [e]
        exact congrArg (fun g => g.2.2.2.1) htag
  · intro hside t ht
    rcases AddOrder_loop hinv _ hr with e | ⟨o1, s, hs1, hcf, hloop⟩
    · rw [e] at ht
      cases ht
    · obtain ⟨s1, bp, b, B, bs, ap, a, A, as, hcons, _, _, hb, _, e⟩ :=
        matchLoop_pairs hcf (Nat.le_succ _) hloop t ht
      have hbm : b ∈ queued s1.bids_ := by rw [hb]; simp
      obtain ⟨b0, hb0, htag⟩ := tag_of_consumed_bid hcons hbm
      have hsell : ¬ o1.side_ = Side.Buy := by
        rw [hs1]
        show ¬ side = Side.Buy
        rw [hside]
        exact fun h => nomatch h
      have hbids : (insertOrder ob o1).bids_ = ob.bids_ := by
        simp only [insertOrder, hsell, if_false]
      rw [hbids] at hb0
      refine ⟨b0, hb0, ?_, ?_⟩
      · rw [e]
        exact congrArg (fun g => g.2.1) htag
      · rw [e]
        exact congrArg (fun g => g.2.2.2.1) htag
  · intro x hx y hy hlt ts1 t ts2 e hid
    have hsub : [x, y].Sublist (queued ob.asks_) :=
      pair_sublist_of_sorted (queued_sorted_asks hinv.coupled.asks) hx hy
        (fun h => by rw [h] at hlt; exact lt_irrefl _ hlt) (not_le.2 hlt)
    exact (AddOrder_priority hinv _ hr x y).2 hsub ts1 t ts2 e hid
  · intro x hx y hy hlt ts1 t ts2 e hid
    have hsub : [x, y].Sublist (queued ob.bids_) :=
      pair_sublist_of_sorted (queued_sorted_bids hinv.coupled.bids) hx hy
        (fun h => by rw [h] at hlt; exact lt_irrefl _ hlt) (not_le.2 hlt)
    exact (AddOrder_priority hinv _ hr x y).1 hsub ts1 t ts2 e hid

/-- C31 at the book holding ask 1 of 4 at 101 and ask 2 of 6 at 102 and the order
`A B GoodTillCancel 102 7 3`: the trades are 4 against ask 1 at 101, then 3 against
ask 2 at 102. -/
theorem trades_respect_price_priority_witness :
    Reachable bookTwoAsks ∧
    (AddOrder bookTwoAsks (Order.new OrderType.GoodTillCancel 3 Side.Buy 102 7)).map
        (fun r => r.2) =
      .ok [Trade.mk (TradeInfo.mk 3 102 4) (TradeInfo.mk 1 101 4),
           Trade.mk (TradeInfo.mk 3 102 3) (TradeInfo.mk 2 102 3)] ∧
    ∃ r, AddOrder bookTwoAsks (Order.new OrderType.GoodTillCancel 3 Side.Buy 102 7) = .ok r ∧
      (∀ t ∈ r.2, t.askTrade_.price_ ≤ t.bidTrade_.price_) ∧
      r.2.Pairwise (fun t1 t2 => t1.askTrade_.price_ ≤ t2.askTrade_.price_) :=
  have hreach : Reachable bookTwoAsks :=
    ⟨[Request.add OrderType.GoodTillCancel 1 Side.Sell 101 4,
      Request.add OrderType.GoodTillCancel 2 Side.Sell 102 6], by decide⟩
  ⟨hreach, by decide,
    (trades_respect_price_priority bookTwoAsks hreach OrderType.GoodTillCancel 3 Side.Buy
      102 7).imp (fun _ h => ⟨h.1, h.2.1, h.2.2.1⟩)⟩

/-! ## The loop of `MatchOrders` emits the trade list of the specification -/

theorem pairOffFuel_nil_left (n : Nat) (asks : List Order) : pairOffFuel n [] asks = [] := by
  cases n <;> rfl

theorem pairOffFuel_nil_right (n : Nat) (bids : List Order) : pairOffFuel n bids [] = [] := by
  cases n <;> cases bids <;> rfl

/-- The lists after one pairing: the first orders filled, and dropped when filled. -/
theorem pairOffFuel_cons (n : Nat) (b : Order) (bids : List Order) (a : Order)
    (asks : List Order) (h : ¬ b.price_ < a.price_) :
    pairOffFuel (n + 1) (b :: bids) (a :: asks) =
      tradeOf b a :: pairOffFuel n
        (if (filled b (min b.remainingQuantity_ a.remainingQuantity_)).IsFilled = true then bids
         else filled b (min b.remainingQuantity_ a.remainingQuantity_) :: bids)
        (if (filled a (min b.remainingQuantity_ a.remainingQuantity_)).IsFilled = true then asks
         else filled a (min b.remainingQuantity_ a.remainingQuantity_) :: asks) := by
  simp only [pairOffFuel, if_neg h, tradeOf, filled, Order.IsFilled, beq_iff_eq]

theorem pairOffFuel_stop (n : Nat) (b : Order) (bids : List Order) (a : Order)
    (asks : List Order) (h : b.price_ < a.price_) :
    pairOffFuel n (b :: bids) (a :: asks) = [] := by
  cases n with
  | zero => rfl
  | succ n => simp only [pairOffFuel, if_pos h]

/-- One pairing takes at least one order out of the two lists. -/
theorem pairOff_lengths (b : Order) (bids : List Order) (a : Order) (asks : List Order) :
    (if (filled b (min b.remainingQuantity_ a.remainingQuantity_)).IsFilled = true then bids
      else filled b (min b.remainingQuantity_ a.remainingQuantity_) :: bids).length +
    (if (filled a (min b.remainingQuantity_ a.remainingQuantity_)).IsFilled = true then asks
      else filled a (min b.remainingQuantity_ a.remainingQuantity_) :: asks).length ≤
    bids.length + asks.length + 1 := by
  rcases one_filled b a with h | h
  · rw [if_pos h]
    by_cases h2 : (filled a (min b.remainingQuantity_ a.remainingQuantity_)).IsFilled = true
    · rw [if_pos h2]
      omega
    · rw [if_neg h2, List.length_cons]
      omega
  · rw [if_pos h]
    by_cases h2 : (filled b (min b.remainingQuantity_ a.remainingQuantity_)).IsFilled = true
    · rw [if_pos h2]
      omega
    · rw [if_neg h2, List.length_cons]
      omega

/-- The bound on the number of trades is never reached: more fuel gives the same
list. -/
theorem pairOffFuel_enough (n : Nat) : ∀ (m : Nat) (bids asks : List Order),
    bids.length + asks.length ≤ n → bids.length + asks.length ≤ m →
    pairOffFuel n bids asks = pairOffFuel m bids asks := by
  induction n with
  | zero =>
    intro m bids asks hn _
    have hb : bids = [] := List.length_eq_zero.1 (by omega)
    subst hb
    rw [pairOffFuel_nil_left, pairOffFuel_nil_left]
  | succ n ih =>
    intro m bids asks hn hm
    rcases bids with _ | ⟨b, bids⟩
    · rw [pairOffFuel_nil_left, pairOffFuel_nil_left]
    · rcases asks with _ | ⟨a, asks⟩
      · rw [pairOffFuel_nil_right, pairOffFuel_nil_right]
      · by_cases hp : b.price_ < a.price_
        · rw [pairOffFuel_stop _ _ _ _ _ hp, pairOffFuel_stop _ _ _ _ _ hp]
        · simp only [List.length_cons] at hn hm
          obtain ⟨m1, rfl⟩ : ∃ m1, m = m1 + 1 := ⟨m - 1, by omega⟩
          rw [pairOffFuel_cons _ _ _ _ _ hp, pairOffFuel_cons _ _ _ _ _ hp]
          have hl := pairOff_lengths b bids a asks
          rw [ih m1 _ _ (by omega) (by omega)]

theorem pairOff_cons (b : Order) (bids : List Order) (a : Order) (asks : List Order)
    (h : ¬ b.price_ < a.price_) :
    pairOff (b :: bids) (a :: asks) =
      tradeOf b a :: pairOff
        (if (filled b (min b.remainingQuantity_ a.remainingQuantity_)).IsFilled = true then bids
         else filled b (min b.remainingQuantity_ a.remainingQuantity_) :: bids)
        (if (filled a (min b.remainingQuantity_ a.remainingQuantity_)).IsFilled = true then asks
         else filled a (min b.remainingQuantity_ a.remainingQuantity_) :: asks) := by
  have hl := pairOff_lengths b bids a asks
  unfold pairOff
  simp only [List.length_cons]
  have e : bids.length + 1 + (asks.length + 1) = (bids.length + asks.length + 1) + 1 := by omega
  rw [e, pairOffFuel_cons _ _ _ _ _ h]
  rw [pairOffFuel_enough (bids.length + asks.length + 1) _ _ _ hl (le_refl _)]

/-- In a settled book without empty levels the specification emits no further trade. -/
theorem pairOff_settled {s : Orderbook} (hc : CoupledFull s) (hs : Settled s) :
    pairOff (queued s.bids_) (queued s.asks_) = [] := by
  unfold pairOff
  rcases hbq : s.bids_ with _ | ⟨⟨bp, B⟩, bs⟩
  · simp only [queued_nil]
    exact pairOffFuel_nil_left _ _
  · rcases haq : s.asks_ with _ | ⟨⟨ap, A⟩, as⟩
    · simp only [queued_nil]
      exact pairOffFuel_nil_right _ _
    · unfold Settled at hs
      rw [hbq, haq] at hs
      simp only at hs
      rcases B with _ | ⟨b, B⟩
      · exact absurd rfl (hc.2.1 (bp, []) (by rw [hbq]; exact List.mem_cons_self _ _))
      · rcases A with _ | ⟨a, A⟩
        · exact absurd rfl (hc.2.2 (ap, []) (by rw [haq]; exact List.mem_cons_self _ _))
        · have hbp : b.price_ = bp :=
            (hc.1.bids.keyed (bp, b :: B) (by rw [hbq]; exact List.mem_cons_self _ _) b
              (List.mem_cons_self _ _)).2
          have hap : a.price_ = ap :=
            (hc.1.asks.keyed (ap, a :: A) (by rw [haq]; exact List.mem_cons_self _ _) a
              (List.mem_cons_self _ _)).2
          simp only [queued_cons, List.cons_append]
          exact pairOffFuel_stop _ _ _ _ _ (by rw [hbp, hap]; exact hs)

/-- The trades that the loop of `MatchOrders` has recorded, followed by those that the
specification emits for the queues as they are, are those that the specification
emits for the queues of the book on entry. -/
theorem matchLoop_pairOff {fuel : Nat} {ob : Orderbook} {r : Orderbook × Trades}
    (hc : CoupledFull ob) (hf : ob.bids_.length + ob.asks_.length ≤ fuel)
    (h : matchLoop fuel ob [] = .ok r) :
    r.2 ++ pairOff (queued r.1.bids_) (queued r.1.asks_) =
      pairOff (queued ob.bids_) (queued ob.asks_) := by
  refine matchLoop_traces
    (P := fun s ts => ts ++ pairOff (queued s.bids_) (queued s.asks_) =
      pairOff (queued ob.bids_) (queued ob.asks_)) ?_ ?_ hc (List.nil_append _) hf h
  · intro s ts bp b B bs ap a A as hin hx hP hb ha
    obtain ⟨e1, e2⟩ := settle_queued_bids ts (min b.remainingQuantity_ a.remainingQuantity_)
      ap (filled a (min b.remainingQuantity_ a.remainingQuantity_)) A as hb
    obtain ⟨e3, e4⟩ := settle_queued_asks ts (min b.remainingQuantity_ a.remainingQuantity_)
      bp (filled b (min b.remainingQuantity_ a.remainingQuantity_)) B bs ha
    have hbp : b.price_ = bp :=
      (hin.1.bids.keyed (bp, b :: B) (by rw [hb]; exact List.mem_cons_self _ _) b
        (List.mem_cons_self _ _)).2
    have hap : a.price_ = ap :=
      (hin.1.asks.keyed (ap, a :: A) (by rw [ha]; exact List.mem_cons_self _ _) a
        (List.mem_cons_self _ _)).2
    have hx1 : ¬ b.price_ < a.price_ := by rw [hbp, hap]; exact hx
    rw [e2, e4, ← hP]
    conv_rhs => rw [e1, e3, pairOff_cons _ _ _ _ hx1]
    rw [List.append_assoc, List.singleton_append]
  · intro s ts bp bs ap as hin hP hb ha
    obtain ⟨e1, e2, _⟩ := eraseEmptyBest_same hin hb ha
    rw [e1, e2]
    exact hP

/-- On a well-formed book the loop of `MatchOrders` returns exactly the trade list of
the specification for the queued bids and the queued asks. -/
theorem matchLoop_refines {ob : Orderbook} (h : CoupledFull ob) :
    ∃ s, matchLoop (ob.bids_.length + ob.asks_.length + 1) ob [] =
        .ok (s, pairOff (queued ob.bids_) (queued ob.asks_)) ∧
      CoupledFull s ∧ Settled s ∧ Consumed s ob := by
  obtain ⟨s, ob1, ob2, ts, hloop, _, _, _, hcs, hset, hcons, _⟩ := MatchOrders_stages h
  have := matchLoop_pairOff (r := (s, ts)) h (Nat.le_succ _) hloop
  rw [pairOff_settled hcs hset, List.append_nil] at this
  refine ⟨s, ?_, hcs, hset, hcons⟩
  rw [hloop]
  exact congrArg (fun t => Except.ok (s, t)) this

/-! ## The account of the incoming order -/

/-- One pass of the inner loop keeps the account of an order `kx` of the side whose
front order it fills: while the order is queued, what it has left plus what the trades
filled on it is `X`; once it is queued no more, the trades filled `X` on it. -/
theorem ledger_step (info : Trade → TradeInfo) {kx : OrderId} {X : Nat} {l : List Order}
    {ts : Trades} {b : Order} {q : Quantity} {t1 : Trade}
    (hnd : (l.map (fun o => o.orderId_)).Nodup) (hl : l = b :: l.tail)
    (hq : q ≤ b.remainingQuantity_) (hid : (info t1).orderId_ = b.orderId_)
    (hqty : (info t1).quantity_ = q)
    (hP : (∃ x ∈ l, x.orderId_ = kx ∧ x.remainingQuantity_ + fillsOf info kx ts = X) ∨
      (kx ∉ l.map (fun o => o.orderId_) ∧ fillsOf info kx ts = X)) :
    (∃ x ∈ (if (filled b q).IsFilled = true then l.tail else filled b q :: l.tail),
        x.orderId_ = kx ∧ x.remainingQuantity_ + fillsOf info kx (ts ++ [t1]) = X) ∨
      (kx ∉ (if (filled b q).IsFilled = true then l.tail
          else filled b q :: l.tail).map (fun o => o.orderId_) ∧
        fillsOf info kx (ts ++ [t1]) = X) := by
  have hbl : b ∈ l := by rw [hl]; exact List.mem_cons_self _ _
  have hids : l.map (fun o => o.orderId_) = b.orderId_ :: l.tail.map (fun o => o.orderId_) := by
    conv_lhs => rw [hl]
    rfl
  have hnd1 := hnd
  rw [hids, List.nodup_cons] at hnd1
  have key1 : ∀ r q f X : Nat, q ≤ r → r - q = 0 → r + f = X → f + q = X := by
    intro r q f X h1 h2 h3; omega
  have key2 : ∀ r q f X : Nat, q ≤ r → r + f = X → (r - q) + (f + q) = X := by
    intro r q f X h1 h2; omega
  rw [fillsOf_append, hid, hqty]
  by_cases hk : b.orderId_ = kx
  · rw [if_pos hk]
    rcases hP with ⟨x, hx, hxid, hxr⟩ | ⟨habs, _⟩
    · have hxb : x = b := same_of_same_id hnd hx hbl (hxid.trans hk.symm)
      subst hxb
      by_cases hf : (filled x q).IsFilled = true
      · right
        rw [if_pos hf]
        refine ⟨?_, ?_⟩
        · rw [← hk]
          exact hnd1.1
        · simp only [Order.IsFilled, filled, beq_iff_eq] at hf
          exact key1 _ _ _ _ hq hf hxr
      · left
        rw [if_neg hf]
        exact ⟨filled x q, List.mem_cons_self _ _, hxid, key2 _ _ _ _ hq hxr⟩
    · exact absurd (List.mem_map.2 ⟨b, hbl, hk⟩) habs
  · rw [if_neg hk, Nat.add_zero]
    rcases hP with ⟨x, hx, hxid, hxr⟩ | ⟨habs, hfill⟩
    · left
      have hxt : x ∈ l.tail := by
        rw [hl] at hx
        rcases List.mem_cons.1 hx with e | e
        · exact absurd (by rw [← e]; exact hxid) hk
        · exact e
      refine ⟨x, ?_, hxid, hxr⟩
      by_cases hf : (filled b q).IsFilled = true
      · rw [if_pos hf]
        exact hxt
      · rw [if_neg hf]
        exact List.mem_cons_of_mem _ hxt
    · right
      refine ⟨?_, hfill⟩
      intro hm
      obtain ⟨y, hy, hyid⟩ := List.mem_map.1 hm
      by_cases hf : (filled b q).IsFilled = true
      · rw [if_pos hf] at hy
        exact habs (List.mem_map.2 ⟨y, List.mem_of_mem_tail hy, hyid⟩)
      · rw [if_neg hf] at hy
        rcases List.mem_cons.1 hy with e | e
        · rw [e] at hyid
          exact hk hyid
        · exact habs (List.mem_map.2 ⟨y, List.mem_of_mem_tail e, hyid⟩)

/-- The loop of `MatchOrders` on a book in which every bid but the bid `kx` is priced
below every ask: every trade is a trade of the bid `kx`, the asks lose what the trades
fill on it, and its account is kept. -/
theorem matchLoop_aggressor_buy {fuel : Nat} {ob : Orderbook} {r : Orderbook × Trades}
    {kx : OrderId} {X : Nat} (hc : CoupledFull ob)
    (hlow : ∀ x ∈ queued ob.bids_, x.orderId_ ≠ kx →
      ∀ y ∈ queued ob.asks_, x.price_ < y.price_)
    (hX : ∃ x ∈ queued ob.bids_, x.orderId_ = kx ∧ x.remainingQuantity_ = X)
    (hf : ob.bids_.length + ob.asks_.length ≤ fuel)
    (h : matchLoop fuel ob [] = .ok r) :
    (∀ t ∈ r.2, t.bidTrade_.orderId_ = kx) ∧
    remainingOf (queued r.1.asks_) + fillsOf Trade.bidTrade_ kx r.2 =
      remainingOf (queued ob.asks_) ∧
    ((∃ x ∈ queued r.1.bids_, x.orderId_ = kx ∧
        x.remainingQuantity_ + fillsOf Trade.bidTrade_ kx r.2 = X) ∨
      (kx ∉ (queued r.1.bids_).map (fun o => o.orderId_) ∧
        fillsOf Trade.bidTrade_ kx r.2 = X)) := by
  have := matchLoop_traces
    (P := fun s ts => (∀ t ∈ ts, t.bidTrade_.orderId_ = kx) ∧
      (∀ x ∈ queued s.bids_, x.orderId_ ≠ kx → ∀ y ∈ queued s.asks_, x.price_ < y.price_) ∧
      remainingOf (queued s.asks_) + fillsOf Trade.bidTrade_ kx ts =
        remainingOf (queued ob.asks_) ∧
      ((∃ x ∈ queued s.bids_, x.orderId_ = kx ∧
          x.remainingQuantity_ + fillsOf Trade.bidTrade_ kx ts = X) ∨
        (kx ∉ (queued s.bids_).map (fun o => o.orderId_) ∧
          fillsOf Trade.bidTrade_ kx ts = X)))
    (by
      intro s ts bp b B bs ap a A as hin hx hP hb ha
      obtain ⟨hids, hl, hacc, hled⟩ := hP
      obtain ⟨e1, e2⟩ := settle_queued_bids ts (min b.remainingQuantity_ a.remainingQuantity_)
        ap (filled a (min b.remainingQuantity_ a.remainingQuantity_)) A as hb
      obtain ⟨e3, e4⟩ := settle_queued_asks ts (min b.remainingQuantity_ a.remainingQuantity_)
        bp (filled b (min b.remainingQuantity_ a.remainingQuantity_)) B bs ha
      have hbm : b ∈ queued s.bids_ := by rw [e1]; exact List.mem_cons_self _ _
      have ham : a ∈ queued s.asks_ := by rw [e3]; exact List.mem_cons_self _ _
      have hbp : b.price_ = bp :=
        (hin.1.bids.keyed (bp, b :: B) (by rw [hb]; exact List.mem_cons_self _ _) b
          (List.mem_cons_self _ _)).2
      have hap : a.price_ = ap :=
        (hin.1.asks.keyed (ap, a :: A) (by rw [ha]; exact List.mem_cons_self _ _) a
          (List.mem_cons_self _ _)).2
      have hbk : b.orderId_ = kx := by
        by_contra hne
        have := hl b hbm hne a ham
        rw [hbp, hap] at this
        exact hx this
      refine ⟨?_, ?_, ?_, ?_⟩
      · intro t ht
        rcases List.mem_append.1 ht with h1 | h1
        · exact hids t h1
        · rw [List.mem_singleton] at h1
          rw [h1]
          exact hbk
      · intro x hxm hne y hym
        rcases mem_queued_settle_bids hb hxm with e | e
        · rw [e] at hne
          exact absurd hbk hne
        · rcases mem_queued_settle_asks ha hym with e5 | e5
          · rw [e5]
            exact hl x (List.mem_of_mem_tail e) hne a ham
          · exact hl x (List.mem_of_mem_tail e) hne y (List.mem_of_mem_tail e5)
      · have s2 := remainingOf_step e3
          (Nat.min_le_right b.remainingQuantity_ a.remainingQuantity_)
        rw [e4, fillsOf_append, ← hacc, ← s2]
        have e6 : (tradeOf b a).bidTrade_.orderId_ = kx := hbk
        rw [if_pos e6]
        simp only [tradeOf]
        omega
      · rw [e2]
        exact ledger_step Trade.bidTrade_ (nodup_bids hin.1) e1
          (Nat.min_le_left _ _) rfl rfl hled)
    (by
      intro s ts bp bs ap as hin hP hb ha
      obtain ⟨e1, e2, _⟩ := eraseEmptyBest_same hin hb ha
      rw [e1, e2]
      exact hP)
    hc ⟨by simp, hlow, by rw [fillsOf_nil, Nat.add_zero], by
      obtain ⟨x, hx, hxid, hxr⟩ := hX
      exact Or.inl ⟨x, hx, hxid, by rw [fillsOf_nil, Nat.add_zero]; exact hxr⟩⟩ hf h
  exact ⟨this.1, this.2.2.1, this.2.2.2⟩

/-- The loop of `MatchOrders` on a book in which every ask but the ask `kx` is priced
above every bid: every trade is a trade of the ask `kx`, the bids lose what the trades
fill on it, and its account is kept. -/
theorem matchLoop_aggressor_sell {fuel : Nat} {ob : Orderbook} {r : Orderbook × Trades}
    {kx : OrderId} {X : Nat} (hc : CoupledFull ob)
    (hlow : ∀ x ∈ queued ob.asks_, x.orderId_ ≠ kx →
      ∀ y ∈ queued ob.bids_, y.price_ < x.price_)
    (hX : ∃ x ∈ queued ob.asks_, x.orderId_ = kx ∧ x.remainingQuantity_ = X)
    (hf : ob.bids_.length + ob.asks_.length ≤ fuel)
    (h : matchLoop fuel ob [] = .ok r) :
    (∀ t ∈ r.2, t.askTrade_.orderId_ = kx) ∧
    remainingOf (queued r.1.bids_) + fillsOf Trade.askTrade_ kx r.2 =
      remainingOf (queued ob.bids_) ∧
    ((∃ x ∈ queued r.1.asks_, x.orderId_ = kx ∧
        x.remainingQuantity_ + fillsOf Trade.askTrade_ kx r.2 = X) ∨
      (kx ∉ (queued r.1.asks_).map (fun o => o.orderId_) ∧
        fillsOf Trade.askTrade_ kx r.2 = X)) := by
  have := matchLoop_traces
    (P := fun s ts => (∀ t ∈ ts, t.askTrade_.orderId_ = kx) ∧
      (∀ x ∈ queued s.asks_, x.orderId_ ≠ kx → ∀ y ∈ queued s.bids_, y.price_ < x.price_) ∧
      remainingOf (queued s.bids_) + fillsOf Trade.askTrade_ kx ts =
        remainingOf (queued ob.bids_) ∧
      ((∃ x ∈ queued s.asks_, x.orderId_ = kx ∧
          x.remainingQuantity_ + fillsOf Trade.askTrade_ kx ts = X) ∨
        (kx ∉ (queued s.asks_).map (fun o => o.orderId_) ∧
          fillsOf Trade.askTrade_ kx ts = X)))
    (by
      intro s ts bp b B bs ap a A as hin hx hP hb ha
      obtain ⟨hids, hl, hacc, hled⟩ := hP
      obtain ⟨e1, e2⟩ := settle_queued_bids ts (min b.remainingQuantity_ a.remainingQuantity_)
        ap (filled a (min b.remainingQuantity_ a.remainingQuantity_)) A as hb
      obtain ⟨e3, e4⟩ := settle_queued_asks ts (min b.remainingQuantity_ a.remainingQuantity_)
        bp (filled b (min b.remainingQuantity_ a.remainingQuantity_)) B bs ha
      have hbm : b ∈ queued s.bids_ := by rw [e1]; exact List.mem_cons_self _ _
      have ham : a ∈ queued s.asks_ := by rw [e3]; exact List.mem_cons_self _ _
      have hbp : b.price_ = bp :=
        (hin.1.bids.keyed (bp, b :: B) (by rw [hb]; exact List.mem_cons_self _ _) b
          (List.mem_cons_self _ _)).2
      have hap : a.price_ = ap :=
        (hin.1.asks.keyed (ap, a :: A) (by rw [ha]; exact List.mem_cons_self _ _) a
          (List.mem_cons_self _ _)).2
      have hak : a.orderId_ = kx := by
        by_contra hne
        have := hl a ham hne b hbm
        rw [hbp, hap] at this
        exact hx this
      refine ⟨?_, ?_, ?_, ?_⟩
      · intro t ht
        rcases List.mem_append.1 ht with h1 | h1
        · exact hids t h1
        · rw [List.mem_singleton] at h1
          rw [h1]
          exact hak
      · intro x hxm hne y hym
        rcases mem_queued_settle_asks ha hxm with e | e
        · rw [e] at hne
          exact absurd hak hne
        · rcases mem_queued_settle_bids hb hym with e5 | e5
          · rw [e5]
            exact hl x (List.mem_of_mem_tail e) hne b hbm
          · exact hl x (List.mem_of_mem_tail e) hne y (List.mem_of_mem_tail e5)
      · have s2 := remainingOf_step e1
          (Nat.min_le_left b.remainingQuantity_ a.remainingQuantity_)
        rw [e2, fillsOf_append, ← hacc, ← s2]
        have e6 : (tradeOf b a).askTrade_.orderId_ = kx := hak
        rw [if_pos e6]
        simp only [tradeOf]
        omega
      · rw [e4]
        exact ledger_step Trade.askTrade_ (nodup_asks hin.1) e3
          (Nat.min_le_right _ _) rfl rfl hled)
    (by
      intro s ts bp bs ap as hin hP hb ha
      obtain ⟨e1, e2, _⟩ := eraseEmptyBest_same hin hb ha
      rw [e1, e2]
      exact hP)
    hc ⟨by simp, hlow, by rw [fillsOf_nil, Nat.add_zero], by
      obtain ⟨x, hx, hxid, hxr⟩ := hX
      exact Or.inl ⟨x, hx, hxid, by rw [fillsOf_nil, Nat.add_zero]; exact hxr⟩⟩ hf h
  exact ⟨this.1, this.2.2.1, this.2.2.2⟩

/-! ## The calls that follow the lock, and the sequential calls -/

/-- The clean-up of one side in a thread that owns the mutex: it fails on the second
lock when the front order is a fill-and-kill order, and changes nothing otherwise. -/
theorem lockedKillFront_held (ob : Orderbook) (levels : Levels) :
    (lockedKillFront true ob levels = .error LockFault.relock ∧
      ∃ p o q rest, levels = (p, o :: q) :: rest ∧ o.orderType_ = OrderType.FillAndKill) ∨
    (lockedKillFront true ob levels = .ok ob ∧ killFront ob levels = .ok ob ∧
      ∀ p o q rest, levels = (p, o :: q) :: rest → o.orderType_ ≠ OrderType.FillAndKill) ∨
    (lockedKillFront true ob levels = .error (LockFault.engine .undefinedBehaviour) ∧
      killFront ob levels = .error .undefinedBehaviour) := by
  rcases levels with _ | ⟨⟨p, _ | ⟨o, q⟩⟩, rest⟩
  · exact Or.inr (Or.inl ⟨rfl, rfl, fun p o q rest e => nomatch e⟩)
  · exact Or.inr (Or.inr ⟨rfl, rfl⟩)
  · by_cases hk : o.orderType_ = OrderType.FillAndKill
    · left
      refine ⟨?_, p, o, q, rest, rfl, hk⟩
      simp only [lockedKillFront, hk, if_true, lockedCancelOrder, acquire]
    · right
      left
      refine ⟨?_, ?_, ?_⟩
      · simp only [lockedKillFront, hk, if_false]
      · simp only [killFront, hk, if_false]
      · intro p1 o1 q1 rest1 e
        cases e
        exact hk

/-- When `MatchOrders`, called by a thread that owns the mutex, returns, the clean-up
has changed nothing: the result is the result of the loop, and the sequential
`MatchOrders` returns it too. -/
theorem lockedMatchOrders_held {ob : Orderbook} {r : Orderbook × Trades}
    (h : lockedMatchOrders true ob = .ok r) :
    matchLoop (ob.bids_.length + ob.asks_.length + 1) ob [] = .ok r ∧
    MatchOrders ob = .ok r := by
  unfold lockedMatchOrders at h
  unfold MatchOrders
  rcases hl : matchLoop (ob.bids_.length + ob.asks_.length + 1) ob [] with e | r0
  · simp only [hl] at h
    cases h
  · simp only [hl] at h ⊢
    rcases lockedKillFront_held r0.1 r0.1.bids_ with ⟨e1, _⟩ | ⟨e1, e2, _⟩ | ⟨e1, _⟩
    · simp only [e1] at h
      cases h
    · simp only [e1] at h
      simp only [e2]
      rcases lockedKillFront_held r0.1 r0.1.asks_ with ⟨e3, _⟩ | ⟨e3, e4, _⟩ | ⟨e3, _⟩
      · simp only [e3] at h
        cases h
      · simp only [e3] at h
        simp only [e4]
        cases h
        exact ⟨rfl, rfl⟩
      · simp only [e3] at h
        cases h
    · simp only [e1] at h
      cases h

/-- The call `AddOrder` with its lock, in terms of the admission tests. -/
theorem lockedAddOrder_admission (ob : Orderbook) (o : Order) :
    lockedAddOrder false ob o =
      match admission ob o with
      | none => .ok (ob, [])
      | some o1 => lockedMatchOrders true (insertOrder ob o1) := by
  unfold lockedAddOrder admission
  simp only [acquire, Bool.false_eq_true, if_false]
  by_cases hdup : (findOrder o.orderId_ ob.orders_).isSome = true
  · simp only [hdup, if_true]
  · simp only [hdup, Bool.false_eq_true, if_false]
    rcases convertMarket_cases ob o with hn | ⟨o1, hc, _⟩
    · simp only [hn]
    · simp only [hc]
      by_cases hfak : o1.orderType_ = OrderType.FillAndKill ∧
          CanMatch ob o1.side_ o1.price_ = false
      · rw [if_pos hfak, if_pos hfak]
      · rw [if_neg hfak, if_neg hfak]
        by_cases hfok : o1.orderType_ = OrderType.FillOrKill ∧
            CanFullyFill ob o1.side_ o1.price_ o1.initialQuantity_ = false
        · rw [if_pos hfok, if_pos hfok]
        · rw [if_neg hfok, if_neg hfok]

/-- Every call of `AddOrder` that returns when the lock is followed returns what the
sequential `AddOrder` returns. -/
theorem lockedAddOrder_returns {ob : Orderbook} {o : Order} {r : Orderbook × Trades}
    (h : lockedAddOrder false ob o = .ok r) : AddOrder ob o = .ok r := by
  rw [lockedAddOrder_admission] at h
  rw [AddOrder_admission]
  rcases ha : admission ob o with _ | o1
  · simp only [ha] at h ⊢
    cases h
    rfl
  · simp only [ha] at h ⊢
    exact (lockedMatchOrders_held h).2

/-- In a book that holds no fill-and-kill order, the clean-up after the loop takes no
lock: `MatchOrders` returns the result of the loop, with or without the lock followed. -/
theorem MatchOrders_of_no_kill {ob : Orderbook} (h : CoupledFull ob)
    (hnk : ∀ x ∈ resting ob, x.orderType_ ≠ OrderType.FillAndKill) :
    ∃ s, matchLoop (ob.bids_.length + ob.asks_.length + 1) ob [] =
        .ok (s, pairOff (queued ob.bids_) (queued ob.asks_)) ∧
      MatchOrders ob = .ok (s, pairOff (queued ob.bids_) (queued ob.asks_)) ∧
      lockedMatchOrders true ob = .ok (s, pairOff (queued ob.bids_) (queued ob.asks_)) ∧
      CoupledFull s ∧ Settled s ∧ Consumed s ob := by
  obtain ⟨s, hloop, hcs, hset, hcons⟩ := matchLoop_refines h
  have hb : ∀ x ∈ queued s.bids_, x.orderType_ ≠ OrderType.FillAndKill := by
    intro x hx
    obtain ⟨x0, hx0, htag⟩ := tag_of_consumed_bid hcons hx
    have := hnk x0 (List.mem_append_left _ hx0)
    have e : x0.orderType_ = x.orderType_ := congrArg (fun g => g.1) htag
    rw [← e]
    exact this
  have ha : ∀ x ∈ queued s.asks_, x.orderType_ ≠ OrderType.FillAndKill := by
    intro x hx
    obtain ⟨x0, hx0, htag⟩ := tag_of_consumed_ask hcons hx
    have := hnk x0 (List.mem_append_right _ hx0)
    have e : x0.orderType_ = x.orderType_ := congrArg (fun g => g.1) htag
    rw [← e]
    exact this
  have k1 : lockedKillFront true s s.bids_ = .ok s ∧ killFront s s.bids_ = .ok s := by
    rcases lockedKillFront_held s s.bids_ with ⟨_, p, o, q, rest, e, hk⟩ | ⟨e1, e2, _⟩ | ⟨e1, e2⟩
    · exact absurd hk (hb o (by rw [e]; simp))
    · exact ⟨e1, e2⟩
    · obtain ⟨ob1, e3, _⟩ := killFront_bids_exact hcs
      rw [e3] at e2
      cases e2
  have k2 : lockedKillFront true s s.asks_ = .ok s ∧ killFront s s.asks_ = .ok s := by
    rcases lockedKillFront_held s s.asks_ with ⟨_, p, o, q, rest, e, hk⟩ | ⟨e1, e2, _⟩ | ⟨e1, e2⟩
    · exact absurd hk (ha o (by rw [e]; simp))
    · exact ⟨e1, e2⟩
    · obtain ⟨ob1, e3, _⟩ := killFront_asks_exact hcs
      rw [e3] at e2
      cases e2
  refine ⟨s, hloop, ?_, ?_, hcs, hset, hcons⟩
  · simp only [MatchOrders, hloop, k1.2, k2.2]
  · simp only [lockedMatchOrders, hloop, k1.1, k2.1]

/-- The call `AddOrder` for an admitted order that is not a fill-and-kill order, in a
state that satisfies the invariant: it returns, with or without the lock followed;
every trade is a trade of the admitted order; the other side loses what the trades
fill on it; and the order is indexed afterwards with what the trades left of it, or
not indexed and filled in full. -/
theorem AddOrder_aggressor {ob : Orderbook} (h : BookInv ob) {o o1 : Order}
    (hadm : admission ob o = some o1) (hnk : o1.orderType_ ≠ OrderType.FillAndKill) :
    ∃ r, AddOrder ob o = .ok r ∧ lockedAddOrder false ob o = .ok r ∧
      (∀ t ∈ r.2, (ownInfo o1.side_ t).orderId_ = o1.orderId_) ∧
      remainingOf (queued (oppositeSide r.1 o1.side_)) +
          fillsOf (ownInfo o1.side_) o1.orderId_ r.2 =
        remainingOf (queued (oppositeSide ob o1.side_)) ∧
      ((∃ x, findOrder o1.orderId_ r.1.orders_ = some x ∧
          x.remainingQuantity_ + fillsOf (ownInfo o1.side_) o1.orderId_ r.2 =
            o1.remainingQuantity_) ∨
        (findOrder o1.orderId_ r.1.orders_ = none ∧
          fillsOf (ownInfo o1.side_) o1.orderId_ r.2 = o1.remainingQuantity_)) := by
  obtain ⟨hfresh, _, hid⟩ := admission_some hadm
  have hfresh1 : findOrder o1.orderId_ ob.orders_ = none := by rw [hid]; exact hfresh
  have hcf := insertOrder_coupled (bookInv_full h) hfresh1
  have hnew : ∀ x ∈ resting (insertOrder ob o1), x.orderType_ ≠ OrderType.FillAndKill := by
    intro x hx
    rcases List.mem_cons.1 ((resting_insertOrder_perm ob o1).subset hx) with e | e
    · rw [e]
      exact hnk
    · exact h.noKill x e
  obtain ⟨s, hloop, hm, hlm, hcs, hset, hcons⟩ := MatchOrders_of_no_kill hcf hnew
  have habs : o1.orderId_ ∉ (resting ob).map (fun x => x.orderId_) :=
    (coupled_findOrder_none h.coupled).1 hfresh1
  refine ⟨(s, pairOff (queued (insertOrder ob o1).bids_)
    (queued (insertOrder ob o1).asks_)), ?_, ?_, ?_⟩
  · rw [AddOrder_admission, hadm]
    exact hm
  · rw [lockedAddOrder_admission, hadm]
    exact hlm
  · rcases hside : o1.side_ with _ | _
    · have hasks : (insertOrder ob o1).asks_ = ob.asks_ := by
        simp only [insertOrder, hside, if_true]
      obtain ⟨pre, post, e1, e2, _⟩ := queued_pushBackAt keyOrder_bid h.coupled.bids o1
      have hbids : queued (insertOrder ob o1).bids_ = pre ++ o1 :: post := by
        simp only [insertOrder, hside, if_true]
        exact e2
      have hlow : ∀ x ∈ queued (insertOrder ob o1).bids_, x.orderId_ ≠ o1.orderId_ →
          ∀ y ∈ queued (insertOrder ob o1).asks_, x.price_ < y.price_ := by
        intro x hx hne y hy
        rw [hbids] at hx
        rw [hasks] at hy
        have hx0 : x ∈ queued ob.bids_ := by
          rw [e1]
          rcases List.mem_append.1 hx with e | e
          · exact List.mem_append_left _ e
          · rcases List.mem_cons.1 e with e3 | e3
            · exact absurd (by rw [e3]) hne
            · exact List.mem_append_right _ e3
        obtain ⟨l, hl, hxl⟩ := mem_queued.1 hx0
        obtain ⟨l1, hl1, hyl⟩ := mem_queued.1 hy
        rw [(h.coupled.bids.keyed l hl x hxl).2, (h.coupled.asks.keyed l1 hl1 y hyl).2]
        exact h.uncrossed l hl l1 hl1
      have hX : ∃ x ∈ queued (insertOrder ob o1).bids_, x.orderId_ = o1.orderId_ ∧
          x.remainingQuantity_ = o1.remainingQuantity_ :=
        ⟨o1, by rw [hbids]; simp, rfl, rfl⟩
      obtain ⟨a1, a2, a3⟩ := matchLoop_aggressor_buy
        (r := (s, pairOff (queued (insertOrder ob o1).bids_)
          (queued (insertOrder ob o1).asks_))) hcf hlow hX (Nat.le_succ _) hloop
      refine ⟨a1, ?_, ?_⟩
      · simp only [oppositeSide, ownInfo]
        rw [← hasks]
        exact a2
      · simp only [ownInfo]
        rcases a3 with ⟨x, hx, hxid, hxr⟩ | ⟨hno, hfill⟩
        · left
          exact ⟨x, (coupled_findOrder hcs.1).2 ⟨hxid, List.mem_append_left _ hx⟩, hxr⟩
        · right
          refine ⟨(coupled_findOrder_none hcs.1).2 ?_, hfill⟩
          intro hmem
          unfold resting at hmem
          rw [List.map_append, List.mem_append] at hmem
          rcases hmem with e | e
          · exact hno e
          · obtain ⟨y, hy, hyid⟩ := List.mem_map.1 e
            obtain ⟨y0, hy0, htag⟩ := tag_of_consumed_ask hcons hy
            rw [hasks] at hy0
            have e5 : y0.orderId_ = y.orderId_ := congrArg (fun g => g.2.1) htag
            exact habs (List.mem_map.2 ⟨y0, List.mem_append_right _ hy0, e5.trans hyid⟩)
    · have hns : ¬ o1.side_ = Side.Buy := by rw [hside]; exact fun e => nomatch e
      have hbids : (insertOrder ob o1).bids_ = ob.bids_ := by
        simp only [insertOrder, hns, if_false]
      obtain ⟨pre, post, e1, e2, _⟩ := queued_pushBackAt keyOrder_ask h.coupled.asks o1
      have hasks : queued (insertOrder ob o1).asks_ = pre ++ o1 :: post := by
        simp only [insertOrder, hns, if_false]
        exact e2
      have hlow : ∀ x ∈ queued (insertOrder ob o1).asks_, x.orderId_ ≠ o1.orderId_ →
          ∀ y ∈ queued (insertOrder ob o1).bids_, y.price_ < x.price_ := by
        intro x hx hne y hy
        rw [hasks] at hx
        rw [hbids] at hy
        have hx0 : x ∈ queued ob.asks_ := by
          rw [e1]
          rcases List.mem_append.1 hx with e | e
          · exact List.mem_append_left _ e
          · rcases List.mem_cons.1 e with e3 | e3
            · exact absurd (by rw [e3]) hne
            · exact List.mem_append_right _ e3
        obtain ⟨l, hl, hxl⟩ := mem_queued.1 hx0
        obtain ⟨l1, hl1, hyl⟩ := mem_queued.1 hy
        rw [(h.coupled.asks.keyed l hl x hxl).2, (h.coupled.bids.keyed l1 hl1 y hyl).2]
        exact h.uncrossed l1 hl1 l hl
      have hX : ∃ x ∈ queued (insertOrder ob o1).asks_, x.orderId_ = o1.orderId_ ∧
          x.remainingQuantity_ = o1.remainingQuantity_ :=
        ⟨o1, by rw [hasks]; simp, rfl, rfl⟩
      obtain ⟨a1, a2, a3⟩ := matchLoop_aggressor_sell
        (r := (s, pairOff (queued (insertOrder ob o1).bids_)
          (queued (insertOrder ob o1).asks_))) hcf hlow hX (Nat.le_succ _) hloop
      refine ⟨a1, ?_, ?_⟩
      · simp only [oppositeSide, ownInfo]
        rw [← hbids]
        exact a2
      · simp only [ownInfo]
        rcases a3 with ⟨x, hx, hxid, hxr⟩ | ⟨hno, hfill⟩
        · left
          exact ⟨x, (coupled_findOrder hcs.1).2 ⟨hxid, List.mem_append_right _ hx⟩, hxr⟩
        · right
          refine ⟨(coupled_findOrder_none hcs.1).2 ?_, hfill⟩
          intro hmem
          unfold resting at hmem
          rw [List.map_append, List.mem_append] at hmem
          rcases hmem with e | e
          · obtain ⟨y, hy, hyid⟩ := List.mem_map.1 e
            obtain ⟨y0, hy0, htag⟩ := tag_of_consumed_bid hcons hy
            rw [hbids] at hy0
            have e5 : y0.orderId_ = y.orderId_ := congrArg (fun g => g.2.1) htag
            exact habs (List.mem_map.2 ⟨y0, List.mem_append_left _ hy0, e5.trans hyid⟩)
          · exact hno e

/-! ## The claims on the trade list, market orders and the clean-up -/

/-- C18: one pass of the inner loop of `MatchOrders` on a book whose best bid queue has
front `b` and whose best ask queue has front `a` appends the trade with bid side
`(b.id, b.price, q)` and ask side `(a.id, a.price, q)`, `q = min(b.remaining,
a.remaining)` taken before the fill, and goes on. On a well-formed book the loop
returns, and the trades it returns are, one by one and in their order, those that the
specification of the matching loop emits for the queued bids and the queued asks
(`pairOff`): each pairs the two orders that are first at that point, with their own
ids and prices and the smaller remaining quantity. Whenever `MatchOrders` returns, with
or without the lock followed, it returns that list. -/
theorem trade_pairs_front_bid_with_front_ask (ob : Orderbook) (h : CoupledFull ob) :
    (∀ (s : Orderbook) (n : Nat) (trades : Trades) (bp : Price) (b : Order)
        (B : OrderPointers) (bs : Levels) (ap : Price) (a : Order) (A : OrderPointers)
        (as : Levels),
      s.bids_ = (bp, b :: B) :: bs → s.asks_ = (ap, a :: A) :: as →
      ∃ s1, matchLevel (n + 1) s trades = matchLevel n s1
        (trades ++ [Trade.mk
          (TradeInfo.mk b.orderId_ b.price_ (min b.remainingQuantity_ a.remainingQuantity_))
          (TradeInfo.mk a.orderId_ a.price_
            (min b.remainingQuantity_ a.remainingQuantity_))])) ∧
    (∃ s, matchLoop (ob.bids_.length + ob.asks_.length + 1) ob [] =
        .ok (s, pairOff (queued ob.bids_) (queued ob.asks_)) ∧ Settled s) ∧
    (∀ r, MatchOrders ob = .ok r → r.2 = pairOff (queued ob.bids_) (queued ob.asks_)) ∧
    (∀ r, lockedMatchOrders true ob = .ok r →
      r.2 = pairOff (queued ob.bids_) (queued ob.asks_)) := by
  obtain ⟨s, hloop, _, hset, _⟩ := matchLoop_refines h
  have hseq : ∀ r, MatchOrders ob = .ok r →
      r.2 = pairOff (queued ob.bids_) (queued ob.asks_) := by
    intro r hr
    obtain ⟨s1, ob1, ob2, ts, hloop1, _, _, hm, _⟩ := MatchOrders_stages h
    rw [hm] at hr
    cases hr
    rw [hloop] at hloop1
    cases hloop1
    rfl
  refine ⟨?_, ⟨s, hloop, hset⟩, hseq, ?_⟩
  · intro s n trades bp b B bs ap a A as hb ha
    exact ⟨_, matchLevel_pass n trades hb ha⟩
  · intro r hr
    exact hseq r (lockedMatchOrders_held hr).2

/-- C18 at the book holding ask 1 of 4 at 101 and ask 2 of 6 at 102 after the bid
`A B GoodTillCancel 102 7 3` was entered: the loop returns the trade of 4 with bid side
at 102 and ask side at 101, then the trade of 3 with both sides at 102. -/
theorem trade_pairs_front_bid_with_front_ask_witness :
    CoupledFull (insertOrder bookTwoAsks
      (Order.new OrderType.GoodTillCancel 3 Side.Buy 102 7)) ∧
    pairOff
      (queued (insertOrder bookTwoAsks
        (Order.new OrderType.GoodTillCancel 3 Side.Buy 102 7)).bids_)
      (queued (insertOrder bookTwoAsks
        (Order.new OrderType.GoodTillCancel 3 Side.Buy 102 7)).asks_) =
      [Trade.mk (TradeInfo.mk 3 102 4) (TradeInfo.mk 1 101 4),
       Trade.mk (TradeInfo.mk 3 102 3) (TradeInfo.mk 2 102 3)] ∧
    ∃ s, matchLoop
        ((insertOrder bookTwoAsks
            (Order.new OrderType.GoodTillCancel 3 Side.Buy 102 7)).bids_.length +
          (insertOrder bookTwoAsks
            (Order.new OrderType.GoodTillCancel 3 Side.Buy 102 7)).asks_.length + 1)
        (insertOrder bookTwoAsks (Order.new OrderType.GoodTillCancel 3 Side.Buy 102 7)) [] =
        .ok (s, pairOff
          (queued (insertOrder bookTwoAsks
            (Order.new OrderType.GoodTillCancel 3 Side.Buy 102 7)).bids_)
          (queued (insertOrder bookTwoAsks
            (Order.new OrderType.GoodTillCancel 3 Side.Buy 102 7)).asks_)) ∧ Settled s :=
  have hcf : CoupledFull (insertOrder bookTwoAsks
      (Order.new OrderType.GoodTillCancel 3 Side.Buy 102 7)) :=
    insertOrder_coupled (bookInv_full (reachable_inv
      (show Reachable bookTwoAsks from
        ⟨[Request.add OrderType.GoodTillCancel 1 Side.Sell 101 4,
          Request.add OrderType.GoodTillCancel 2 Side.Sell 102 6], by decide⟩)))
      (show findOrder (Order.new OrderType.GoodTillCancel 3 Side.Buy 102 7).orderId_
        bookTwoAsks.orders_ = none by decide)
  ⟨hcf, by decide, (trade_pairs_front_bid_with_front_ask _ hcf).2.1⟩

/-- C16: in a reachable book, a market order with a fresh id submitted while the other
side is not empty is converted to a good-till-cancel order priced at a key `W` of the
other side that no ask exceeds (for a buy) and that exceeds no bid (for a sell);
`AddOrder` returns, also with the lock followed, at least one trade; every trade is a
trade of the order; the other side loses exactly what the trades fill on the order; and
afterwards either the order is not indexed and the trades have filled its whole
quantity, or the other side of the book is empty, the trades have filled on the order
all that the other side held, and the order is indexed as a good-till-cancel order with
the rest of its quantity. This holds for every quantity. -/
theorem market_order_takes_liquidity (ob : Orderbook) (hreach : Reachable ob)
    (orderId : OrderId) (side : Side) (price : Price) (quantity : Quantity)
    (hfresh : findOrder orderId ob.orders_ = none)
    (hopp : oppositeSide ob side ≠ []) :
    ∃ W Q r, (W, Q) ∈ oppositeSide ob side ∧
      (∀ l ∈ oppositeSide ob side,
        (side = Side.Buy → l.1 ≤ W) ∧ (side = Side.Sell → W ≤ l.1)) ∧
      convertMarket ob (Order.new OrderType.Market orderId side price quantity) =
        .ok (some (Order.mk OrderType.GoodTillCancel orderId side W quantity quantity)) ∧
      AddOrder ob (Order.new OrderType.Market orderId side price quantity) = .ok r ∧
      lockedAddOrder false ob (Order.new OrderType.Market orderId side price quantity) =
        .ok r ∧
      r.2 ≠ [] ∧
      (∀ t ∈ r.2, (ownInfo side t).orderId_ = orderId) ∧
      remainingOf (queued (oppositeSide r.1 side)) + fillsOf (ownInfo side) orderId r.2 =
        remainingOf (queued (oppositeSide ob side)) ∧
      ((findOrder orderId r.1.orders_ = none ∧
          fillsOf (ownInfo side) orderId r.2 = quantity) ∨
        (oppositeSide r.1 side = [] ∧
          fillsOf (ownInfo side) orderId r.2 = remainingOf (queued (oppositeSide ob side)) ∧
          ∃ x, findOrder orderId r.1.orders_ = some x ∧
            x.orderType_ = OrderType.GoodTillCancel ∧
            x.remainingQuantity_ + fillsOf (ownInfo side) orderId r.2 = quantity)) := by
  have hinv := reachable_inv hreach
  rcases market_add hinv orderId side price quantity hfresh with
    ⟨he, _⟩ | ⟨W, Q, r, hl, hc, ha, ht, hx⟩
  · exact absurd he hopp
  · obtain ⟨hmem, hworst⟩ := worst_opposite_key hinv.coupled hl
    have hdup : ¬ (findOrder (Order.new OrderType.Market orderId side price
        quantity).orderId_ ob.orders_).isSome = true := by
      simp [Order.new, hfresh]
    have hadm : admission ob (Order.new OrderType.Market orderId side price quantity) =
        some (Order.mk OrderType.GoodTillCancel orderId side W quantity quantity) := by
      simp [admission, hdup, hc]
    obtain ⟨r1, ha1, hla, hids, hacc, hled⟩ := AddOrder_aggressor hinv hadm
      (fun e => nomatch e)
    rw [ha] at ha1
    cases ha1
    obtain ⟨r2, hr2, hinv1, _⟩ := AddOrder_spec hinv
      (Order.new OrderType.Market orderId side price quantity)
    rw [ha] at hr2
    cases hr2
    refine ⟨W, Q, r, hmem, hworst, hc, ha, hla, ht, hids, hacc, ?_⟩
    rcases hled with ⟨x, hf, hxr⟩ | ⟨hf, hfill⟩
    · right
      obtain ⟨hid, hm⟩ := (coupled_findOrder hinv1.coupled).1 hf
      obtain ⟨htag, hempty⟩ := hx x hm hid
      have hq : remainingOf (queued (oppositeSide r.1 side)) = 0 := by
        rw [hempty]
        rfl
      have hacc1 : remainingOf (queued (oppositeSide r.1 side)) +
          fillsOf (ownInfo side) orderId r.2 =
          remainingOf (queued (oppositeSide ob side)) := hacc
      rw [hq, Nat.zero_add] at hacc1
      exact ⟨hempty, hacc1, x, hf, congrArg (fun g => g.1) htag, hxr⟩
    · left
      exact ⟨hf, hfill⟩

/-- C16 at the book holding ask 1 of 4 at 101 and ask 2 of 6 at 102, and the market
buy `A B Market 0 7 3`: repriced to 102, it trades 4 at 101 and 3 at 102 and is filled
in full. -/
theorem market_order_takes_liquidity_witness :
    Reachable bookTwoAsks ∧ findOrder 3 bookTwoAsks.orders_ = none ∧
    oppositeSide bookTwoAsks Side.Buy ≠ [] ∧
    (AddOrder bookTwoAsks (Order.new OrderType.Market 3 Side.Buy 0 7)).map (fun r => r.2) =
      .ok [Trade.mk (TradeInfo.mk 3 102 4) (TradeInfo.mk 1 101 4),
           Trade.mk (TradeInfo.mk 3 102 3) (TradeInfo.mk 2 102 3)] ∧
    ∃ W Q r, (W, Q) ∈ oppositeSide bookTwoAsks Side.Buy ∧
      (∀ l ∈ oppositeSide bookTwoAsks Side.Buy,
        (Side.Buy = Side.Buy → l.1 ≤ W) ∧ (Side.Buy = Side.Sell → W ≤ l.1)) ∧
      convertMarket bookTwoAsks (Order.new OrderType.Market 3 Side.Buy 0 7) =
        .ok (some (Order.mk OrderType.GoodTillCancel 3 Side.Buy W 7 7)) ∧
      AddOrder bookTwoAsks (Order.new OrderType.Market 3 Side.Buy 0 7) = .ok r ∧
      lockedAddOrder false bookTwoAsks (Order.new OrderType.Market 3 Side.Buy 0 7) =
        .ok r ∧
      r.2 ≠ [] ∧
      (∀ t ∈ r.2, (ownInfo Side.Buy t).orderId_ = 3) ∧
      remainingOf (queued (oppositeSide r.1 Side.Buy)) + fillsOf (ownInfo Side.Buy) 3 r.2 =
        remainingOf (queued (oppositeSide bookTwoAsks Side.Buy)) ∧
      ((findOrder 3 r.1.orders_ = none ∧ fillsOf (ownInfo Side.Buy) 3 r.2 = 7) ∨
        (oppositeSide r.1 Side.Buy = [] ∧
          fillsOf (ownInfo Side.Buy) 3 r.2 =
            remainingOf (queued (oppositeSide bookTwoAsks Side.Buy)) ∧
          ∃ x, findOrder 3 r.1.orders_ = some x ∧
            x.orderType_ = OrderType.GoodTillCancel ∧
            x.remainingQuantity_ + fillsOf (ownInfo Side.Buy) 3 r.2 = 7)) :=
  ⟨⟨[Request.add OrderType.GoodTillCancel 1 Side.Sell 101 4,
      Request.add OrderType.GoodTillCancel 2 Side.Sell 102 6], by decide⟩, by decide,
    by decide, by decide,
    market_order_takes_liquidity bookTwoAsks
      ⟨[Request.add OrderType.GoodTillCancel 1 Side.Sell 101 4,
        Request.add OrderType.GoodTillCancel 2 Side.Sell 102 6], by decide⟩
      3 Side.Buy 0 7 (by decide) (by decide)⟩

/-! ## The clean-up under the lock of `AddOrder` -/

/-- C4 (the code at a failing input). Scenario 2 of the specification: on the book
holding bid 1 of 5 at 100, reached by one call from the empty book, the call `AddOrder`
of the fill-and-kill sell `(FillAndKill, 2, Sell, 100, 8)` with the fresh id 2 trades 5
and then, in the clean-up for the remainder of 3, locks the mutex that it owns: the
call does not return and the remainder is not removed. The same order with quantity 5
is filled in full and the call returns. In a thread that owns the mutex the clean-up
of a side never changes the book: it fails on the second lock or leaves the book as it
is. When the call for a fill-and-kill order with a fresh id in a reachable book does
return, it returns what the sequential code returns, the id is not indexed and no
queued order is a fill-and-kill order. -/
theorem fill_and_kill_remainder_blocks_the_call :
    run Orderbook.empty [Request.add OrderType.GoodTillCancel 1 Side.Buy 100 5] =
      .ok bookOneBid ∧
    findOrder 2 bookOneBid.orders_ = none ∧
    lockedAddOrder false bookOneBid (Order.new OrderType.FillAndKill 2 Side.Sell 100 8) =
      .error LockFault.relock ∧
    lockedAddOrder false bookOneBid (Order.new OrderType.FillAndKill 2 Side.Sell 100 5) =
      .ok (Orderbook.empty, [Trade.mk (TradeInfo.mk 1 100 5) (TradeInfo.mk 2 100 5)]) ∧
    (∀ (ob : Orderbook) (levels : Levels) (ob1 : Orderbook),
      lockedKillFront true ob levels = .ok ob1 → ob1 = ob) ∧
    (∀ (ob : Orderbook) (p : Price) (o : Order) (q : OrderPointers) (rest : Levels),
      o.orderType_ = OrderType.FillAndKill →
      lockedKillFront true ob ((p, o :: q) :: rest) = .error LockFault.relock) ∧
    (∀ (ob : Orderbook), Reachable ob → ∀ (order : Order),
      order.orderType_ = OrderType.FillAndKill →
      findOrder order.orderId_ ob.orders_ = none →
      ∀ r, lockedAddOrder false ob order = .ok r →
        AddOrder ob order = .ok r ∧ findOrder order.orderId_ r.1.orders_ = none ∧
        ∀ o ∈ queued r.1.bids_ ++ queued r.1.asks_,
          o.orderType_ ≠ OrderType.FillAndKill) := by
  refine ⟨by decide, by decide, by decide, by decide, ?_, ?_, ?_⟩
  · intro ob levels ob1 h
    rcases lockedKillFront_held ob levels with ⟨e, _⟩ | ⟨e, _⟩ | ⟨e, _⟩
    · rw [e] at h
      cases h
    · rw [e] at h
      cases h
      rfl
    · rw [e] at h
      cases h
  · intro ob p o q rest hk
    simp only [lockedKillFront, hk, if_true, lockedCancelOrder, acquire]
  · intro ob hreach order htype hfresh r hlocked
    have hr := lockedAddOrder_returns hlocked
    have hinv := reachable_inv hreach
    obtain ⟨r1, hr1, hinv1, hQ⟩ := AddOrder_spec hinv order
    rw [hr] at hr1
    cases hr1
    refine ⟨hr, ?_, hinv1.noKill⟩
    have hkeep := hQ (fun x => x.orderId_ = order.orderId_ →
        x.orderType_ = OrderType.FillAndKill) (fun x q hx => hx) ?_ ?_
    · rcases hf : findOrder order.orderId_ r.1.orders_ with _ | o
      · rfl
      · obtain ⟨hid, hm⟩ := (coupled_findOrder hinv1.coupled).1 hf
        exact absurd (hkeep o hm hid) (hinv1.noKill o hm)
    · intro x hx e
      have := (coupled_findOrder_none hinv.coupled).1 hfresh
      exact absurd (List.mem_map.2 ⟨x, hx, e⟩) this
    · intro o1 hc _
      rcases convertMarket_cases ob order with hn | ⟨o2, hc2, _, _, _, _, _, hsame, _⟩
      · rw [hn] at hc
        cases hc
      · rw [hc2] at hc
        cases hc
        rw [hsame (by rw [htype]; decide)]
        exact htype

/-- C28 (the code at a failing input). On the book holding ask 1 of 4 at 101 and ask 2
of 6 at 102, reached by two calls from the empty book, `AddOrder` of the fill-and-kill
buy `(FillAndKill, 3, Buy, 101, 10)` enters the order and calls `MatchOrders`: the loop
returns one trade of 4, and the clean-up, for the remainder of 6 at the front of the
best bid level, locks the mutex that the thread owns, so `MatchOrders` does not return.
The loop itself returns on every book state, and the number of its trades plus the
number of orders still queued is at most the number of orders queued on entry; this
bound holds for every call of `MatchOrders` that returns. -/
theorem matching_blocks_in_the_cleanup :
    run Orderbook.empty [Request.add OrderType.GoodTillCancel 1 Side.Sell 101 4,
      Request.add OrderType.GoodTillCancel 2 Side.Sell 102 6] = .ok bookTwoAsks ∧
    findOrder 3 bookTwoAsks.orders_ = none ∧
    (matchLoop (bookKillEntered.bids_.length + bookKillEntered.asks_.length + 1)
        bookKillEntered []).map (fun r => (queued r.1.bids_, r.2)) =
      .ok ([Order.mk OrderType.FillAndKill 3 Side.Buy 101 10 6],
           [Trade.mk (TradeInfo.mk 3 101 4) (TradeInfo.mk 1 101 4)]) ∧
    lockedMatchOrders true bookKillEntered = .error LockFault.relock ∧
    lockedAddOrder false bookTwoAsks (Order.new OrderType.FillAndKill 3 Side.Buy 101 10) =
      .error LockFault.relock ∧
    (∀ ob : Orderbook, ∃ r,
      matchLoop (ob.bids_.length + ob.asks_.length + 1) ob [] = .ok r ∧
      r.2.length + (resting r.1).length ≤ (resting ob).length) ∧
    (∀ (ob : Orderbook) (r : Orderbook × Trades), lockedMatchOrders true ob = .ok r →
      r.2.length + (resting r.1).length ≤ (resting ob).length) := by
  have hloop : ∀ ob : Orderbook, ∃ r,
      matchLoop (ob.bids_.length + ob.asks_.length + 1) ob [] = .ok r ∧
      r.2.length + (resting r.1).length ≤ (resting ob).length := by
    intro ob
    obtain ⟨r, e, _, hc⟩ := matchLoop_count (ob.bids_.length + ob.asks_.length + 1) ob []
      (Nat.le_succ _)
    refine ⟨r, e, ?_⟩
    unfold resting
    rw [List.length_append, List.length_append]
    simpa using hc
  refine ⟨by decide, by decide, by decide, by decide, by decide, hloop, ?_⟩
  intro ob r h
  obtain ⟨r1, e, hc⟩ := hloop ob
  rw [(lockedMatchOrders_held h).1] at e
  cases e
  exact hc

end OrderbookProj
